import Mathlib

/-!
Procedural dungeon layout: graph builder, voxel grid, lattice pathfinder.

A shallow embedding of the algorithmic core of the dungeon generator
(`DungeonGenerator.cpp`, `Grid3D.h`, `DungeonPathfinder3D.cpp`), followed by
the properties proved about it.

Conventions of the embedding.

* `FVector` carries whole-number coordinates: the generator computes grid
  positions as whole multiples of the unit, and `FMath::RoundToInt` is the
  identity on them.  The size of the volume is a property that can be set to
  fractional values; the constructor of `Grid3D`, which rounds it, is also
  given for coordinates of any number type (`Grid3D.storage`), with the
  rounding function as a parameter.  Machine integers are unbounded `Int`s.
* Floating-point costs and weights live in an arbitrary linearly ordered type;
  the engine function `FVector::Distance` is a parameter `Distance`.  The
  theorems about costs added up along a path use of the addition only that it
  is monotone, which the rounding addition of `float` is, and add the costs in
  the order in which the search adds them.  Infinities and NaN are outside the
  embedding.
* Engine containers (`TArray`, `TSet`) are lists.  An access outside a
  container's storage is undefined behaviour in the source and is reported as
  `none` / a fault here.
* Loops whose termination is not structural take a fuel argument and report
  exhaustion explicitly, apart from faults.
-/

namespace Dungeon

/-! ## Engine value types -/

/-- The engine's 3-vector, with whole-number coordinates. -/
structure FVector where
  X : Int
  Y : Int
  Z : Int
deriving DecidableEq, Repr

namespace FVector

/-- The vector `FVector::ZeroVector`. -/
def ZeroVector : FVector := ⟨0, 0, 0⟩

instance : Inhabited FVector := ⟨ZeroVector⟩

instance : Add FVector := ⟨fun a b => ⟨a.X + b.X, a.Y + b.Y, a.Z + b.Z⟩⟩

instance : Sub FVector := ⟨fun a b => ⟨a.X - b.X, a.Y - b.Y, a.Z - b.Z⟩⟩

/-- Scaling of a vector by an integer factor (`offset * unitSize`). -/
def scale (a : FVector) (k : Int) : FVector := ⟨a.X * k, a.Y * k, a.Z * k⟩

end FVector

/-- The engine's `FEdge`: two end points. -/
structure FEdge where
  Vertex0 : FVector
  Vertex1 : FVector
deriving DecidableEq, Repr

/-- The engine's `FEdge::operator==`: equality up to the order of the end points. -/
def FEdge.same (a b : FEdge) : Bool :=
  (decide (b.Vertex0 = a.Vertex0) && decide (b.Vertex1 = a.Vertex1)) ||
  (decide (b.Vertex0 = a.Vertex1) && decide (b.Vertex1 = a.Vertex0))

/-- The engine's `TArray<FEdge>::Contains`, which compares with `operator==`. -/
def containsEdge (l : List FEdge) (e : FEdge) : Bool := l.any (fun x => FEdge.same x e)

/-- The engine's `TSet::Add`: the element is stored once. -/
def setAdd (s : List FVector) (x : FVector) : List FVector :=
  if x ∈ s then s else s ++ [x]

/-- The engine's `TSet::Remove`. -/
def setRemove (s : List FVector) (x : FVector) : List FVector :=
  s.filter (fun y => decide (y ≠ x))

/-! ## Spatial graph builder: `MinimumSpanningTree` -/

section MST

variable {W : Type} [LinearOrder W]

/-- The three sets of `MinimumSpanningTree`. -/
structure MSTState where
  openSet : List FVector
  closedSet : List FVector
  results : List FEdge

/-- The first loop of `MinimumSpanningTree`: every end point goes into `openSet`. -/
def initOpenSet (edges : List FEdge) : List FVector :=
  edges.foldl (fun s edge => setAdd (setAdd s edge.Vertex0) edge.Vertex1) []

/-- The counter `closedVertices` of the scan: the number of end points of the
edge that are not in `closedSet`. -/
def closedVertices (closedSet : List FVector) (edge : FEdge) : Nat :=
  (if edge.Vertex0 ∈ closedSet then 0 else 1) + (if edge.Vertex1 ∈ closedSet then 0 else 1)

/-- One iteration of the scan over the candidate edges.  The accumulator is
`none` while `chosen` is false (`minWeight` is still `+∞`), otherwise it holds
`chosenEdge` and `minWeight`. -/
def scanStep (Distance : FVector → FVector → W) (closedSet : List FVector)
    (acc : Option (FEdge × W)) (edge : FEdge) : Option (FEdge × W) :=
  if closedVertices closedSet edge ≠ 1 then acc
  else
    let weight := Distance edge.Vertex0 edge.Vertex1
    match acc with
    | none => some (edge, weight)
    | some (_, minWeight) => if weight < minWeight then some (edge, weight) else acc

/-- The scan over all candidate edges of one growth step. -/
def scanEdges (Distance : FVector → FVector → W) (closedSet : List FVector)
    (edges : List FEdge) : Option (FEdge × W) :=
  edges.foldl (scanStep Distance closedSet) none

/-- The state after an edge was chosen. -/
def MSTState.choose (st : MSTState) (chosenEdge : FEdge) : MSTState :=
  { openSet := setRemove (setRemove st.openSet chosenEdge.Vertex0) chosenEdge.Vertex1
    closedSet := setAdd (setAdd st.closedSet chosenEdge.Vertex0) chosenEdge.Vertex1
    results := st.results ++ [chosenEdge] }

/-- The `while (openSet.Num() > 0)` loop.  `none` means the fuel ran out
before the loop ended. -/
def mstLoop (Distance : FVector → FVector → W) (edges : List FEdge) :
    Nat → MSTState → Option (List FEdge)
  | 0, st => if 0 < st.openSet.length then none else some st.results
  | fuel + 1, st =>
    if 0 < st.openSet.length then
      match scanEdges Distance st.closedSet edges with
      | none => some st.results
      | some (chosenEdge, _) => mstLoop Distance edges fuel (st.choose chosenEdge)
    else some st.results

/-- The function `ADungeonGenerator::MinimumSpanningTree`. -/
def MinimumSpanningTree (Distance : FVector → FVector → W) (edges : List FEdge)
    (startVertex : FVector) : Option (List FEdge) :=
  mstLoop Distance edges (initOpenSet edges).length
    { openSet := initOpenSet edges, closedSet := setAdd [] startVertex, results := [] }

end MST

/-! ## Graph vocabulary for edge lists -/

/-- The end points of the edges of a list. -/
def vertices (es : List FEdge) : List FVector :=
  es.foldr (fun e acc => e.Vertex0 :: e.Vertex1 :: acc) []

/-- The edge has the two points as its end points, in either order. -/
def Joins (e : FEdge) (x y : FVector) : Prop :=
  (e.Vertex0 = x ∧ e.Vertex1 = y) ∨ (e.Vertex0 = y ∧ e.Vertex1 = x)

/-- Two points are joined by an edge of the list, in either direction. -/
def Adj (es : List FEdge) (x y : FVector) : Prop :=
  ∃ e ∈ es, Joins e x y

/-- There is a walk from `x` to `y` along edges of the list. -/
def Reach (es : List FEdge) : FVector → FVector → Prop :=
  Relation.ReflTransGen (Adj es)

/-- The edge list is acyclic: every edge is a bridge, that is, once one
occurrence of an edge is taken out its end points are no longer joined.  Loops
and repeated edges count as cycles. -/
def Acyclic (es : List FEdge) : Prop :=
  ∀ i (h : i < es.length), ¬ Reach (es.eraseIdx i) (es.get ⟨i, h⟩).Vertex0 (es.get ⟨i, h⟩).Vertex1

/-- The edge list `T` joins every pair of end points of `es`. -/
def Spans (T es : List FEdge) : Prop :=
  ∀ x ∈ vertices es, ∀ y ∈ vertices es, Reach T x y

/-- Squared Euclidean distance, used to run the embedding on examples. -/
def distSq (a b : FVector) : Int :=
  (a.X - b.X) * (a.X - b.X) + (a.Y - b.Y) * (a.Y - b.Y) + (a.Z - b.Z) * (a.Z - b.Z)

/-- The total weight of an edge list, the weight of an edge being the
distance between its end points. -/
def totalWeight {W : Type} [AddMonoid W] (Distance : FVector → FVector → W)
    (es : List FEdge) : W :=
  (es.map (fun e => Distance e.Vertex0 e.Vertex1)).sum

/-- A small candidate graph: a square corner with its diagonal and a vertex
one floor up. -/
def sampleEdges : List FEdge :=
  [⟨⟨0,0,0⟩, ⟨5,0,0⟩⟩, ⟨⟨5,0,0⟩, ⟨5,5,0⟩⟩, ⟨⟨0,0,0⟩, ⟨5,5,0⟩⟩, ⟨⟨5,5,0⟩, ⟨5,5,5⟩⟩]

/-- The invariant of the growth loop behind the spanning-tree property. -/
structure TreeInv (edges : List FEdge) (start : FVector) (st : MSTState) : Prop where
  nodup : st.closedSet.Nodup
  card : st.closedSet.length = st.results.length + 1
  start_mem : start ∈ st.closedSet
  reach : ∀ x ∈ st.closedSet, Reach st.results start x
  verts : ∀ x ∈ vertices st.results, x ∈ st.closedSet
  acyclic : Acyclic st.results
  sub : ∀ e ∈ st.results, e ∈ edges
  closed_sub : ∀ x ∈ st.closedSet, x ∈ vertices edges

/-- The invariant of the growth loop behind minimality: the edges chosen so
far extend, by candidate edges `rest`, to a list that joins all vertices and
weighs no more than the competitor `T`. -/
def MinInv {W : Type} [LinearOrderedAddCommMonoid W] (D : FVector → FVector → W)
    (edges T : List FEdge) (st : MSTState) : Prop :=
  (∀ x ∈ vertices st.results, x ∈ st.closedSet) ∧
  ∃ rest : List FEdge, (∀ e ∈ rest, e ∈ edges) ∧ Spans (st.results ++ rest) edges ∧
    totalWeight D (st.results ++ rest) ≤ totalWeight D T


/-! ## Spatial graph builder: `AddRandomEdgesToMST` -/

/-- The engine's `TArray::Swap`; an index outside the array leaves it as it is. -/
def arraySwap (l : List FEdge) (i j : Nat) : List FEdge :=
  match l[i]?, l[j]? with
  | some a, some b => (l.set i b).set j a
  | _, _ => l

/-- The shuffle loop `for (i = numEdges - 1; i > 0; --i)`, entered with the
current value of `i`.  `randRange i` is the value drawn by
`FMath::RandRange(0, i)`; it is reduced into the range `0..i` that the engine
guarantees. -/
def shuffleLoop (randRange : Nat → Nat) : Nat → List FEdge → List FEdge
  | 0, l => l
  | i + 1, l => shuffleLoop randRange i (arraySwap l (i + 1) (randRange (i + 1) % (i + 2)))

/-- The last loop of `AddRandomEdgesToMST`: the edge visited in iteration
`k` is appended when the `k`-th draw of `FMath::FRand()` is below the
probability. -/
def addLoop {P : Type} [LinearOrder P] (fRand : Nat → P) (additionalEdgeProbability : P) :
    Nat → List FEdge → List FEdge → List FEdge
  | _, [], mazeEdges => mazeEdges
  | k, edge :: rest, mazeEdges =>
    addLoop fRand additionalEdgeProbability (k + 1) rest
      (if fRand k < additionalEdgeProbability then mazeEdges ++ [edge] else mazeEdges)

/-- The function `ADungeonGenerator::AddRandomEdgesToMST`.  The draws of the
process-wide random generator are the arguments `randRange` and `fRand`. -/
def AddRandomEdgesToMST {P : Type} [LinearOrder P] (originalEdges mstEdges : List FEdge)
    (additionalEdgeProbability : P) (randRange : Nat → Nat) (fRand : Nat → P) : List FEdge :=
  let mazeEdges := mstEdges
  let remainingEdges := originalEdges.filter (fun edge => !containsEdge mstEdges edge)
  let numEdges := remainingEdges.length
  let shuffled := shuffleLoop randRange (numEdges - 1) remainingEdges
  addLoop fRand additionalEdgeProbability 0 shuffled mazeEdges

/-! ## Voxel grid (`Grid3D.h`) -/

/-- The engine's `FMath::RoundToInt`; on whole numbers it is the identity. -/
def RoundToInt (x : Int) : Int := x

/-- The engine's `FMath::RoundToInt` on fractions: `FloorToInt(x + 0.5)`. -/
def roundHalfUp (x : ℚ) : Int := ⌊x + 1 / 2⌋

/-- The engine's `FMath::Clamp`. -/
def Clamp (x minValue maxValue : Int) : Int := max (min x maxValue) minValue

/-- The engine's axis-aligned box `FBox`. -/
structure FBox where
  Min : FVector
  Max : FVector

/-- The engine's `FBox::IsInside`: strictly inside on every axis. -/
def FBox.IsInside (b : FBox) (p : FVector) : Bool :=
  decide (p.X > b.Min.X) && decide (p.X < b.Max.X) &&
  decide (p.Y > b.Min.Y) && decide (p.Y < b.Max.Y) &&
  decide (p.Z > b.Min.Z) && decide (p.Z < b.Max.Z)

/-- The class `Grid3D<T>`: `data` is indexed `data[Z][Y][X]`. -/
structure Grid3D (T : Type) where
  size : FVector
  unit : Int
  borderOffset : Int
  data : List (List (List T))

namespace Grid3D

variable {T : Type}

/-- The constructor `Grid3D(size, borderOffset, unit)`.  `fill` is the
default-constructed element that `SetNum` stores.  The division is the
truncating division of C++; with `m_unit = 0` the source divides by zero. -/
def new (fill : T) (m_size : FVector) (borderOffset : Int) (m_unit : Int) : Grid3D T :=
  if m_size.X ≤ 0 ∨ m_size.Y ≤ 0 ∨ m_size.X ≤ 0 then
    { size := m_size, unit := m_unit, borderOffset := borderOffset, data := [] }
  else
    let depth := Int.tdiv (RoundToInt (m_size.Z + 1)) m_unit
    let rows := Int.tdiv (RoundToInt (m_size.Y + 1)) m_unit
    let columns := Int.tdiv (RoundToInt (m_size.X + 1)) m_unit
    { size := m_size, unit := m_unit, borderOffset := borderOffset,
      data := List.replicate depth.toNat
        (List.replicate rows.toNat (List.replicate columns.toNat fill)) }

/-- The storage that the constructor `Grid3D(size, borderOffset, unit)`
allocates, for a size whose coordinates `X`, `Y`, `Z` are of any number type
`R`, as the engine's `double` with its fractional values is: `roundToInt` is
`FMath::RoundToInt` on `R`, and `Z + 1` is the sum in `R`.  The constructor
`new` above is the case of whole-number coordinates. -/
def storage {R : Type} [LinearOrder R] [Zero R] [One R] [Add R] (roundToInt : R → Int)
    (fill : T) (X Y Z : R) (m_unit : Int) : List (List (List T)) :=
  if X ≤ 0 ∨ Y ≤ 0 ∨ X ≤ 0 then []
  else
    let depth := Int.tdiv (roundToInt (Z + 1)) m_unit
    let rows := Int.tdiv (roundToInt (Y + 1)) m_unit
    let columns := Int.tdiv (roundToInt (X + 1)) m_unit
    List.replicate depth.toNat
      (List.replicate rows.toNat (List.replicate columns.toNat fill))

/-- The method `GetIndex`. -/
def GetIndex (g : Grid3D T) (pos : FVector) : FVector :=
  ⟨Int.tdiv (RoundToInt pos.X) g.unit, Int.tdiv (RoundToInt pos.Y) g.unit,
    Int.tdiv (RoundToInt pos.Z) g.unit⟩

/-- Read of `data[index.Z][index.Y][index.X]`; `none` outside the storage. -/
def cell? (g : Grid3D T) (index : FVector) : Option T :=
  if index.X < 0 ∨ index.Y < 0 ∨ index.Z < 0 then none
  else
    match g.data[index.Z.toNat]? with
    | none => none
    | some plane =>
      match plane[index.Y.toNat]? with
      | none => none
      | some row => row[index.X.toNat]?

/-- Write of `data[index.Z][index.Y][index.X]`; `none` outside the storage. -/
def setCell? (g : Grid3D T) (index : FVector) (v : T) : Option (Grid3D T) :=
  if index.X < 0 ∨ index.Y < 0 ∨ index.Z < 0 then none
  else
    match g.data[index.Z.toNat]? with
    | none => none
    | some plane =>
      match plane[index.Y.toNat]? with
      | none => none
      | some row =>
        if index.X.toNat < row.length then
          let plane' := plane.set index.Y.toNat (row.set index.X.toNat v)
          some { g with data := g.data.set index.Z.toNat plane' }
        else none

/-- The bracket operator used as a read: `grid[pos]`. -/
def get? (g : Grid3D T) (pos : FVector) : Option T := g.cell? (g.GetIndex pos)

/-- The bracket operator used as a write: `grid[pos] = v`. -/
def set? (g : Grid3D T) (pos : FVector) (v : T) : Option (Grid3D T) :=
  g.setCell? (g.GetIndex pos) v

/-- The method `InBounds`. -/
def InBounds (g : Grid3D T) (pos : FVector) : Bool :=
  let max := g.size - ⟨g.borderOffset, g.borderOffset, g.borderOffset⟩
  let tmp : FBox := ⟨⟨g.borderOffset, g.borderOffset, g.borderOffset⟩, max⟩
  tmp.IsInside pos

/-- The method `InBoundsIgnoreOffset`. -/
def InBoundsIgnoreOffset (g : Grid3D T) (pos : FVector) : Bool :=
  let max := g.size
  let tmp : FBox := ⟨⟨0, 0, 0⟩, max⟩
  tmp.IsInside pos

/-- The method `GetSize`. -/
def GetSize (g : Grid3D T) : FVector := g.size

end Grid3D

/-- A position whose coordinates are multiples of `unit`. -/
def Aligned (unit : Int) (pos : FVector) : Prop :=
  unit ∣ pos.X ∧ unit ∣ pos.Y ∧ unit ∣ pos.Z

/-- The enumeration `EStructureType`.  In the words of the specification
`NONE` is Empty, `STOP` is Blocked, `ROOM` is Room, `HALLWAY` is Corridor and
`STAIRS` is Stairs. -/
inductive EStructureType where
  | NONE
  | STOP
  | ROOM
  | GROUND
  | HALLWAY
  | STAIRS
deriving DecidableEq, Repr

/-! ## Lattice pathfinder: nodes and cost function -/

/-- The struct `DungeonNode`.  The pointer `Previous` points into the node
grid and is represented by the storage index of the cell it points to. -/
structure DungeonNode (C : Type) where
  Position : FVector
  Previous : Option FVector
  PreviousSet : List FVector
  Cost : C

/-- The struct `DungeonPathInfo`. -/
structure DungeonPathInfo (C : Type) where
  Traversable : Bool
  Cost : C
  IsStairs : Bool
deriving DecidableEq, Repr

/-- The cost properties of `ADungeonGenerator` read by `CostFunction`. -/
structure CostSettings (C : Type) where
  DungeonUnit : Int
  BaseCost : C
  RoomExtraCost : C
  NoneExtraCost : C
  ChangeFloorExtraCost : C

/-- The offset `horizontalOffset` of a stair move with displacement `delta`. -/
def horizontalOffset (unit : Int) (delta : FVector) : FVector :=
  let xDir := Clamp (RoundToInt delta.X) (-unit) unit
  let yDir := Clamp (RoundToInt delta.Y) (-unit) unit
  ⟨xDir, yDir, 0⟩

/-- The offset `verticalOffset` of a stair move with displacement `delta`. -/
def verticalOffset (delta : FVector) : FVector := ⟨0, 0, delta.Z⟩

/-- The four footprint cells of a stair move from `pos` with displacement
`delta`: `pos + h`, `pos + 2h`, `pos + h + v` and `pos + 2h + v`. -/
def stairCells (unit : Int) (pos delta : FVector) : List FVector :=
  let h := horizontalOffset unit delta
  let v := verticalOffset delta
  [pos + h, pos + h.scale 2, pos + h + v, pos + h.scale 2 + v]

/-- Whether a cell state is Empty or Corridor. -/
def EmptyOrCorridor (s : EStructureType) : Prop :=
  s = EStructureType.NONE ∨ s = EStructureType.HALLWAY

section Cost

variable {C : Type} [Zero C] [Add C]

open EStructureType in
/-- The function `ADungeonGenerator::CostFunction`.  `none` is a read of
`grid` outside its storage. -/
def CostFunction (grid : Grid3D EStructureType) (cfg : CostSettings C)
    (Distance : FVector → FVector → C) (a b : DungeonNode C) (endPos : FVector) :
    Option (DungeonPathInfo C) :=
  let info : DungeonPathInfo C := { Traversable := false, Cost := 0, IsStairs := false }
  let delta := b.Position - a.Position
  if delta.Z = 0 then
    let info := { info with Cost := Distance b.Position endPos }
    match grid.get? b.Position with
    | none => none
    | some sb =>
      if sb = STAIRS ∨ sb = STOP then some info
      else
        let info :=
          if sb = ROOM then { info with Cost := info.Cost + cfg.RoomExtraCost }
          else if sb = NONE then { info with Cost := info.Cost + cfg.NoneExtraCost }
          else info
        some { info with Traversable := true }
  else
    match grid.get? a.Position with
    | none => none
    | some sa =>
      if sa ≠ NONE ∧ sa ≠ HALLWAY then some info
      else
        match grid.get? b.Position with
        | none => none
        | some sb =>
          if sb ≠ NONE ∧ sb ≠ HALLWAY then some info
          else
            let info := { info with
              Cost := cfg.BaseCost + Distance b.Position endPos + cfg.ChangeFloorExtraCost }
            let h := horizontalOffset cfg.DungeonUnit delta
            let v := verticalOffset delta
            if !grid.InBounds (a.Position + v) || !grid.InBounds (a.Position + h)
                || !grid.InBounds (a.Position + h + v) then some info
            else
              match grid.get? (a.Position + h) with
              | none => none
              | some s1 =>
                if s1 ≠ NONE then some info
                else
                  match grid.get? (a.Position + h.scale 2) with
                  | none => none
                  | some s2 =>
                    if s2 ≠ NONE then some info
                    else
                      match grid.get? (a.Position + h + v) with
                      | none => none
                      | some s3 =>
                        if s3 ≠ NONE then some info
                        else
                          match grid.get? (a.Position + h.scale 2 + v) with
                          | none => none
                          | some s4 =>
                            if s4 ≠ NONE then some info
                            else some { info with Traversable := true, IsStairs := true }

end Cost

/-- A node as the generator's cost function sees it: only the position is read. -/
def nodeAt (pos : FVector) : DungeonNode Int :=
  { Position := pos, Previous := none, PreviousSet := [], Cost := 0 }

/-- The generator's default cost properties, with unit 5. -/
def sampleSettings : CostSettings Int :=
  { DungeonUnit := 5, BaseCost := 100, RoomExtraCost := 5, NoneExtraCost := 1,
    ChangeFloorExtraCost := 200 }

/-- An all-empty volume of 40 x 40 x 30 with unit 5 and border offset 5. -/
def sampleGrid : Grid3D EStructureType :=
  Grid3D.new EStructureType.NONE ⟨40, 40, 30⟩ 5 5

/-- The volume `sampleGrid` with the cell at `pos` set to `s`. -/
def sampleGridWith (pos : FVector) (s : EStructureType) : Grid3D EStructureType :=
  (sampleGrid.set? pos s).getD sampleGrid

/-- The node grid that `DungeonPathfinder3D(DungeonSize, DungeonUnit)` allocates
for the sample volume, before its nodes are written. -/
def sampleNodeGrid : Grid3D (DungeonNode Int) :=
  Grid3D.new (nodeAt ⟨0, 0, 0⟩) ⟨40, 40, 30⟩ 5 5

/-! ## Lattice pathfinder (`DungeonPathfinder3D`) -/

/-- Why a run of the pathfinder has no result: an access outside the node
grid's storage, a counting loop that never ends, or fuel that ran out. -/
inductive Fault where
  | outOfStorage
  | diverges
  | outOfFuel
deriving DecidableEq, Repr

/-- The array `Directions`. -/
def Directions : List FVector :=
  [⟨1, 0, 0⟩, ⟨-1, 0, 0⟩, ⟨0, 1, 0⟩, ⟨0, -1, 0⟩,
   ⟨3, 0, 1⟩, ⟨-3, 0, 1⟩, ⟨0, 3, 1⟩, ⟨0, -3, 1⟩,
   ⟨3, 0, -1⟩, ⟨-3, 0, -1⟩, ⟨0, 3, -1⟩, ⟨0, -3, -1⟩]

/-- The array `Directions2D`. -/
def Directions2D : List FVector :=
  [⟨1, 0, 0⟩, ⟨-1, 0, 0⟩, ⟨0, 1, 0⟩, ⟨0, -1, 0⟩]

/-- The values taken by the counter of `for (v = 0; v < bound; v += step)`
with a positive step. -/
def stepValues (bound step : Int) : List Int :=
  (List.range ((bound + step - 1) / step).toNat).map (fun k => (k : Int) * step)

/-- The positions visited by the triple loop over `x`, `y`, `z` of the
constructor and of `ResetNodes`, in order.  With a non-positive step the outer
loop never ends once it is entered: `none`. -/
def loopPositions (size : FVector) (unitSize : Int) : Option (List FVector) :=
  if size.X ≤ 0 then some []
  else if unitSize ≤ 0 then none
  else some ((stepValues size.X unitSize).flatMap fun x =>
    (stepValues size.Y unitSize).flatMap fun y =>
      (stepValues size.Z unitSize).map fun z => ⟨x, y, z⟩)

/-- Two grids with the same geometry and the same storage extent. -/
def SameShape {T : Type} (g g' : Grid3D T) : Prop :=
  g'.unit = g.unit ∧ g'.size = g.size ∧ g'.borderOffset = g.borderOffset ∧
    ∀ index, (g'.cell? index).isSome = (g.cell? index).isSome

/-- The class `DungeonPathfinder3D`.  The members `queue`, `closedNodes` and
`stack` are emptied at the start of every use and live in `SearchState`. -/
structure DungeonPathfinder3D (C : Type) where
  grid : Grid3D (DungeonNode C)
  unitSize : Int

/-- The members of the pathfinder that the search loop changes.  A pointer
to a node is the storage index of its cell. -/
structure SearchState (C : Type) where
  grid : Grid3D (DungeonNode C)
  queue : List (DungeonNode C)
  closedNodes : List FVector

section Pathfinder

variable {C : Type}

/-- The constructor `DungeonNode(pos)`; `MAX_flt` is the engine constant. -/
def DungeonNode.new (MAX_flt : C) (pos : FVector) : DungeonNode C :=
  { Position := pos, Previous := none, PreviousSet := [], Cost := MAX_flt }

/-- The constructor `DungeonPathfinder3D(size, unitSize)`. -/
def DungeonPathfinder3D.new (MAX_flt : C) (size : FVector) (unitSize : Int) :
    Except Fault (DungeonPathfinder3D C) :=
  let grid := Grid3D.new (DungeonNode.new MAX_flt FVector.ZeroVector) size unitSize unitSize
  match loopPositions size unitSize with
  | none => .error .diverges
  | some positions =>
    match positions.foldlM (fun g index => g.set? index (DungeonNode.new MAX_flt index)) grid with
    | none => .error .outOfStorage
    | some g => .ok { grid := g, unitSize := unitSize }

/-- The default constructor `DungeonPathfinder3D()`: size (1, 1, 1), unit 1. -/
def DungeonPathfinder3D.default (MAX_flt : C) : Except Fault (DungeonPathfinder3D C) :=
  DungeonPathfinder3D.new MAX_flt ⟨1, 1, 1⟩ 1

/-- The body of the loop of `ResetNodes` at one index. -/
def resetNode (MAX_flt : C) (g : Grid3D (DungeonNode C)) (index : FVector) :
    Option (Grid3D (DungeonNode C)) :=
  match g.get? index with
  | none => none
  | some node => g.set? index { node with Previous := none, Cost := MAX_flt, PreviousSet := [] }

/-- The method `ResetNodes`. -/
def ResetNodes (MAX_flt : C) (pf : DungeonPathfinder3D C) :
    Except Fault (DungeonPathfinder3D C) :=
  match loopPositions pf.grid.GetSize pf.unitSize with
  | none => .error .diverges
  | some positions =>
    match positions.foldlM (resetNode MAX_flt) pf.grid with
    | none => .error .outOfStorage
    | some g => .ok { pf with grid := g }

/-- The loop of `ReconstructPath` that follows the `Previous` pointers and
pushes positions on `stack`. -/
def reconstructLoop (grid : Grid3D (DungeonNode C)) :
    Nat → Option FVector → List FVector → Except Fault (List FVector)
  | _, none, stack => .ok stack
  | 0, some _, _ => .error .outOfFuel
  | fuel + 1, some ptr, stack =>
    match grid.cell? ptr with
    | none => .error .outOfStorage
    | some node =>
      if node.Position ∈ stack then .ok stack
      else reconstructLoop grid fuel node.Previous (stack ++ [node.Position])

/-- The number of cells of the storage. -/
def Grid3D.cellCount {T : Type} (g : Grid3D T) : Nat :=
  (g.data.map (fun plane => (plane.map List.length).sum)).sum

/-- The method `ReconstructPath`: the stack is popped into the result, which
reverses it. -/
def ReconstructPath (grid : Grid3D (DungeonNode C)) (node : FVector) :
    Except Fault (List FVector) :=
  match reconstructLoop grid (grid.cellCount + 1) (some node) [] with
  | .error e => .error e
  | .ok stack => .ok stack.reverse

variable [LinearOrder C] [Add C] [Zero C]

/-- The method `TPriorityQueue::Pop` on a non-empty queue: an element of
least `Cost` leaves the queue.  The engine heap is not part of the repository;
among elements of equal cost the one pushed first is taken here. -/
def popMin : List (DungeonNode C) → Option (DungeonNode C × List (DungeonNode C))
  | [] => none
  | x :: xs =>
    match popMin xs with
    | none => some (x, [])
    | some (m, rest) => if m.Cost < x.Cost then some (m, x :: rest) else some (x, xs)

/-- The body of the loop over `adjustDirections` for one offset.  `node` is
the pointer to the node being expanded. -/
def visitNeighbor (costFunction : DungeonNode C → DungeonNode C → Option (DungeonPathInfo C))
    (unitSize : Int) (node : FVector) (st : SearchState C) (offset : FVector) :
    Except Fault (SearchState C) :=
  match st.grid.cell? node with
  | none => .error .outOfStorage
  | some n =>
    if !st.grid.InBounds (n.Position + offset) then .ok st
    else
      let nb := st.grid.GetIndex (n.Position + offset)
      match st.grid.cell? nb with
      | none => .error .outOfStorage
      | some m =>
        if nb ∈ st.closedNodes then .ok st
        else if m.Position ∈ n.PreviousSet then .ok st
        else
          match costFunction n m with
          | none => .error .outOfStorage
          | some pathInfo =>
            if !pathInfo.Traversable then .ok st
            else if pathInfo.IsStairs &&
                (stairCells unitSize n.Position offset).any (fun c => decide (c ∈ n.PreviousSet))
            then .ok st
            else
              let newCost := n.Cost + pathInfo.Cost
              if newCost < m.Cost then
                let pushed : DungeonNode C := { m with Previous := some node, Cost := newCost }
                let previousSet := n.PreviousSet ++ [n.Position] ++
                  (if pathInfo.IsStairs then stairCells unitSize n.Position offset else [])
                match st.grid.setCell? nb { pushed with PreviousSet := previousSet } with
                | none => .error .outOfStorage
                | some g => .ok { st with grid := g, queue := st.queue ++ [pushed] }
              else .ok st

/-- The `while (queue.Num() > 0)` loop of `FindPath`. -/
def searchLoop (costFunction : DungeonNode C → DungeonNode C → Option (DungeonPathInfo C))
    (unitSize : Int) (adjustDirections : List FVector) (endPos : FVector) :
    Nat → SearchState C → Except Fault (List FVector)
  | 0, st => if 0 < st.queue.length then .error .outOfFuel else .ok []
  | fuel + 1, st =>
    match popMin st.queue with
    | none => .ok []
    | some (tmp, queue) =>
      let node := st.grid.GetIndex tmp.Position
      match st.grid.cell? node with
      | none => .error .outOfStorage
      | some n =>
        let st1 : SearchState C :=
          { st with queue := queue, closedNodes := st.closedNodes ++ [node] }
        if n.Position = endPos then ReconstructPath st1.grid node
        else
          match adjustDirections.foldlM (visitNeighbor costFunction unitSize node) st1 with
          | .error e => .error e
          | .ok st2 => searchLoop costFunction unitSize adjustDirections endPos fuel st2

/-- The method `FindPath(start, end, costFunction, canChangeFloors)`.  The
result is the returned path; `fuel` bounds the number of iterations of the
search loop. -/
def FindPath (MAX_flt : C) (pf : DungeonPathfinder3D C) (start endPos : FVector)
    (costFunction : DungeonNode C → DungeonNode C → Option (DungeonPathInfo C))
    (canChangeFloors : Bool) (fuel : Nat) : Except Fault (List FVector) :=
  match ResetNodes MAX_flt pf with
  | .error e => .error e
  | .ok pf1 =>
    if start = endPos then .ok []
    else
      match pf1.grid.get? start with
      | none => .error .outOfStorage
      | some s =>
        let first : DungeonNode C := { s with Cost := 0 }
        match pf1.grid.set? start first with
        | none => .error .outOfStorage
        | some g =>
          let adjustDirections :=
            (if !canChangeFloors then Directions2D else Directions).map
              (fun offset => offset.scale pf1.unitSize)
          searchLoop costFunction pf1.unitSize adjustDirections endPos fuel
            { grid := g, queue := [first], closedNodes := [] }

/-- The overload `FindPath(start, end, costFunction)`. -/
def FindPath3 (MAX_flt : C) (pf : DungeonPathfinder3D C) (start endPos : FVector)
    (costFunction : DungeonNode C → DungeonNode C → Option (DungeonPathInfo C))
    (fuel : Nat) : Except Fault (List FVector) :=
  FindPath MAX_flt pf start endPos costFunction true fuel

end Pathfinder

/-- The pathfinder that `DungeonPathfinder3D(DungeonSize, DungeonUnit)` builds
for the sample volume, with 1000000 in the place of `MAX_flt`. -/
def samplePathfinder : DungeonPathfinder3D Int :=
  match DungeonPathfinder3D.new 1000000 ⟨40, 40, 30⟩ 5 with
  | .ok pf => pf
  | .error _ => { grid := sampleNodeGrid, unitSize := 5 }

/-! ## Cleanup of unconnected rooms (`CleanUpDungeon`) -/

/-- What `CleanUpDungeon` reads of an `AMainRoom` actor. -/
structure AMainRoom where
  Location : FVector
  IsConnectedToHallway : Bool

/-- The members of the generator that `CleanUpDungeon` touches.  A pointer
`AMainRoom*` is a number; `actor` is the actor it points to.  `destroyed`
logs the calls of `Destroy()`. -/
structure CleanupState where
  actor : Nat → AMainRoom
  spawnedRooms : List (List Nat)
  cleanupMap : List (Nat × List Nat)
  ReplicatedRoomLocations : List FVector
  destroyed : List Nat

/-- The engine's `TArray::Remove`: every element equal to the item goes. -/
def arrayRemove {α : Type} [DecidableEq α] (l : List α) (x : α) : List α :=
  l.filter (fun y => decide (y ≠ x))

/-- The removal of the replicated location of a room, guarded by `Contains`. -/
def removeLocation (locations : List FVector) (location : FVector) : List FVector :=
  if location ∈ locations then arrayRemove locations location else locations

/-- The body of the loop over `toBeReomved` in the procedural branch. -/
def removeProcRoom (actor : Nat → AMainRoom)
    (acc : List Nat × List FVector × List Nat) (room : Nat) :
    List Nat × List FVector × List Nat :=
  (arrayRemove acc.1 room, removeLocation acc.2.1 (actor room).Location, acc.2.2 ++ [room])

/-- The body of the loop over `spawnedRooms` in the procedural branch, for
one room group. -/
def cleanProcGroup (actor : Nat → AMainRoom) (roomGroup : List Nat)
    (locations : List FVector) (destroyed : List Nat) :
    List Nat × List FVector × List Nat :=
  let toBeReomved := roomGroup.filter (fun room => !(actor room).IsConnectedToHallway)
  toBeReomved.foldl (removeProcRoom actor) (roomGroup, locations, destroyed)

/-- The loop over `spawnedRooms` in the procedural branch. -/
def cleanProcGroups (actor : Nat → AMainRoom) :
    List (List Nat) → List FVector → List Nat → List (List Nat) × List FVector × List Nat
  | [], locations, destroyed => ([], locations, destroyed)
  | roomGroup :: rest, locations, destroyed =>
    let r1 := cleanProcGroup actor roomGroup locations destroyed
    let r2 := cleanProcGroups actor rest r1.2.1 r1.2.2
    (r1.1 :: r2.1, r2.2.1, r2.2.2)

/-- The body of the loop over `cleanupMap` in the pre-authored branch. -/
def collectUnconnected (actor : Nat → AMainRoom) (toBeReomved : List Nat)
    (roomGroup : Nat × List Nat) : List Nat :=
  let connected := roomGroup.2.any (fun innerPath => (actor innerPath).IsConnectedToHallway)
  if !connected then toBeReomved ++ [roomGroup.1] ++ roomGroup.2 else toBeReomved

/-- The loop over `spawnedRooms` that takes one room out of the first group
that contains it; `Destroy()` is called once for every group passed before. -/
def removeFromGroups (room : Nat) : List (List Nat) → List Nat → List (List Nat) × List Nat
  | [], destroyed => ([], destroyed)
  | roomGroup :: rest, destroyed =>
    if room ∈ roomGroup then (arrayRemove roomGroup room :: rest, destroyed)
    else
      let r := removeFromGroups room rest (destroyed ++ [room])
      (roomGroup :: r.1, r.2)

/-- The body of the loop over `toBeReomved` in the pre-authored branch. -/
def removePremadeRoom (actor : Nat → AMainRoom)
    (acc : List (List Nat) × List FVector × List Nat) (room : Nat) :
    List (List Nat) × List FVector × List Nat :=
  let r := removeFromGroups room acc.1 acc.2.2
  (r.1, removeLocation acc.2.1 (actor room).Location, r.2)

/-- The function `ADungeonGenerator::CleanUpDungeon`. -/
def CleanUpDungeon (DebugMode IsRoomProcGen : Bool) (st : CleanupState) : CleanupState :=
  if DebugMode then st
  else if IsRoomProcGen then
    let r := cleanProcGroups st.actor st.spawnedRooms st.ReplicatedRoomLocations st.destroyed
    { st with spawnedRooms := r.1, ReplicatedRoomLocations := r.2.1, destroyed := r.2.2 }
  else
    let toBeReomved := st.cleanupMap.foldl (collectUnconnected st.actor) []
    let r := toBeReomved.foldl (removePremadeRoom st.actor)
      (st.spawnedRooms, st.ReplicatedRoomLocations, st.destroyed)
    { st with spawnedRooms := r.1, ReplicatedRoomLocations := r.2.1, destroyed := r.2.2 }

/-- A small procedural layout: two room groups; rooms 1 and 3 are connected. -/
def sampleProcState : CleanupState :=
  { actor := fun room =>
      { Location := ⟨5 * (room : Int), 10, 10⟩, IsConnectedToHallway := decide (room % 2 = 1) }
    spawnedRooms := [[0, 1], [2, 3, 4]]
    cleanupMap := []
    ReplicatedRoomLocations := [⟨0, 10, 10⟩, ⟨5, 10, 10⟩, ⟨10, 10, 10⟩, ⟨15, 10, 10⟩, ⟨20, 10, 10⟩]
    destroyed := [] }

/-- A small pre-authored layout: room 10 with tiles 11 and 12 (12 connected),
room 20 with tiles 21 and 22 (none connected); room 0 is the entrance. -/
def samplePremadeState : CleanupState :=
  { actor := fun room =>
      { Location := ⟨5 * (room : Int), 10, 10⟩, IsConnectedToHallway := decide (room = 12) }
    spawnedRooms := [[0], [11, 12], [21, 22]]
    cleanupMap := [(10, [11, 12]), (20, [21, 22])]
    ReplicatedRoomLocations := [⟨0, 10, 10⟩, ⟨50, 10, 10⟩, ⟨100, 10, 10⟩]
    destroyed := [] }

/-- The group `g'` is what is left of the group `g`: nothing new, and every
room for which `keep` holds is still there. -/
def Shrunk (keep : Nat → Prop) (g g' : List Nat) : Prop :=
  (∀ r ∈ g', r ∈ g) ∧ (∀ r ∈ g, keep r → r ∈ g')

/-- No room pointer occurs in two room groups. -/
def GroupsDisjoint (groups : List (List Nat)) : Prop :=
  groups.Pairwise (fun g1 g2 => ∀ r ∈ g1, r ∉ g2)

/-! ## Spatial graph builder: `FindPossibleHallwaysNormal` -/

/-- The engine's `FIntVector4`: the four point indices of a tetrahedron. -/
structure FIntVector4 where
  X : Int
  Y : Int
  Z : Int
  W : Int

/-- The read `points[index]`; `none` outside the array. -/
def pointAt (points : List FVector) (index : Int) : Option FVector :=
  if index < 0 then none else points[index.toNat]?

/-- The six edges that the loop body adds for one tetrahedron. -/
def tetrahedronEdges (points : List FVector) (tetrahedron : FIntVector4) :
    Option (List FEdge) :=
  match pointAt points tetrahedron.X, pointAt points tetrahedron.Y,
      pointAt points tetrahedron.Z, pointAt points tetrahedron.W with
  | some v0, some v1, some v2, some v3 =>
    some [⟨v0, v1⟩, ⟨v0, v2⟩, ⟨v0, v3⟩, ⟨v1, v2⟩, ⟨v1, v3⟩, ⟨v2, v3⟩]
  | _, _, _, _ => none

/-- The loop that fills `uniqueEdges` from the tetrahedra. -/
def extractEdges (points : List FVector) : List FIntVector4 → Option (List FEdge)
  | [] => some []
  | tetrahedron :: rest =>
    match tetrahedronEdges points tetrahedron, extractEdges points rest with
    | some es, some more => some (es ++ more)
    | _, _ => none

/-- The function `ADungeonGenerator::FindPossibleHallwaysNormal`: the new
value of `selectedEdges`.  The tetrahedra are the result of the engine's
Delaunay tetrahedralization of `roomVertices`; `none` is an access outside an
array. -/
def FindPossibleHallwaysNormal {W P : Type} [LinearOrder W] [LinearOrder P]
    (Distance : FVector → FVector → W) (roomVertices : List FVector)
    (tetrahedra : List FIntVector4) (LoopProbability : P) (randRange : Nat → Nat)
    (fRand : Nat → P) (selectedEdges : List FEdge) : Option (List FEdge) :=
  if tetrahedra.isEmpty then some selectedEdges
  else
    match extractEdges roomVertices tetrahedra with
    | none => none
    | some uniqueEdges =>
      match pointAt roomVertices 0 with
      | none => none
      | some start =>
        match MinimumSpanningTree Distance uniqueEdges start with
        | none => none
        | some mst =>
          some (AddRandomEdgesToMST uniqueEdges mst LoopProbability randRange fRand)

/-- Scenario A: the four vertices of a unit tetrahedron and one extra point. -/
def scenarioAPoints : List FVector :=
  [⟨0, 0, 0⟩, ⟨1, 0, 0⟩, ⟨0, 1, 0⟩, ⟨0, 0, 1⟩, ⟨2, 2, 2⟩]

/-- Scenario A: the two tetrahedra of the five points. -/
def scenarioATetrahedra : List FIntVector4 :=
  [⟨0, 1, 2, 3⟩, ⟨1, 2, 3, 4⟩]

/-- Scenario A: the edges extracted from the two tetrahedra, in order. -/
def scenarioAEdges : List FEdge :=
  [⟨⟨0, 0, 0⟩, ⟨1, 0, 0⟩⟩, ⟨⟨0, 0, 0⟩, ⟨0, 1, 0⟩⟩, ⟨⟨0, 0, 0⟩, ⟨0, 0, 1⟩⟩,
   ⟨⟨1, 0, 0⟩, ⟨0, 1, 0⟩⟩, ⟨⟨1, 0, 0⟩, ⟨0, 0, 1⟩⟩, ⟨⟨0, 1, 0⟩, ⟨0, 0, 1⟩⟩,
   ⟨⟨1, 0, 0⟩, ⟨0, 1, 0⟩⟩, ⟨⟨1, 0, 0⟩, ⟨0, 0, 1⟩⟩, ⟨⟨1, 0, 0⟩, ⟨2, 2, 2⟩⟩,
   ⟨⟨0, 1, 0⟩, ⟨0, 0, 1⟩⟩, ⟨⟨0, 1, 0⟩, ⟨2, 2, 2⟩⟩, ⟨⟨0, 0, 1⟩, ⟨2, 2, 2⟩⟩]
/-! ## Lattice pathfinder: constructed state and search invariants -/

section SearchSpec

variable {C : Type}

/-- The state of a pathfinder after its constructor and any number of
searches: the geometry is the constructor's and every position visited by
the construction loop holds a node that carries this position. -/
structure Ready (pf : DungeonPathfinder3D C) (positions : List FVector) : Prop where
  loop : loopPositions pf.grid.GetSize pf.unitSize = some positions
  grid_unit : pf.grid.unit = pf.unitSize
  border : pf.grid.borderOffset = pf.unitSize
  placed : ∀ p ∈ positions, ∃ n, pf.grid.get? p = some n ∧ n.Position = p

/-- The state of a node after `ResetNodes`. -/
def IsReset (MAX_flt : C) (n : DungeonNode C) : Prop :=
  n.Previous = none ∧ n.Cost = MAX_flt ∧ n.PreviousSet = []

variable [LinearOrder C] [Add C] [Zero C]

/-- The copy of the neighbour `m` that the loop body pushes on the queue when
the step from `n` (at pointer `node`) improves its cost. -/
def pushedCopy (node : FVector) (n m : DungeonNode C) (info : DungeonPathInfo C) :
    DungeonNode C :=
  { m with Previous := some node, Cost := n.Cost + info.Cost }

/-- The previous-set that the loop body gives the neighbour reached from `n`
by `offset`. -/
def extendedSet (unitSize : Int) (n : DungeonNode C) (info : DungeonPathInfo C)
    (offset : FVector) : List FVector :=
  n.PreviousSet ++ [n.Position] ++
    (if info.IsStairs then stairCells unitSize n.Position offset else [])

/-- The neighbour `m` as the loop body leaves it in the grid. -/
def rewrittenNode (unitSize : Int) (node : FVector) (n m : DungeonNode C)
    (info : DungeonPathInfo C) (offset : FVector) : DungeonNode C :=
  { pushedCopy node n m info with PreviousSet := extendedSet unitSize n info offset }

/-- What the search loop has recorded in node `n` when it made `N` its
predecessor: the step from `N` to `n` is one of the offsets, the cost function
accepted it, `n` was not in the previous-set of `N`, for a stair move no
footprint cell was, and the previous-set and cost of `n` are those of `N`
extended by the step. -/
def Link (costFunction : DungeonNode C → DungeonNode C → Option (DungeonPathInfo C))
    (unitSize : Int) (dirs : List FVector) (N n : DungeonNode C) : Prop :=
  ∃ offset ∈ dirs, ∃ m0 info, n.Position = N.Position + offset ∧ m0.Position = n.Position ∧
    costFunction N m0 = some info ∧ info.Traversable = true ∧
    n.Position ∉ N.PreviousSet ∧
    (info.IsStairs = true → ∀ c ∈ stairCells unitSize N.Position offset, c ∉ N.PreviousSet) ∧
    n.PreviousSet = extendedSet unitSize N info offset ∧ n.Cost = N.Cost + info.Cost

/-- The invariant of the search loop of `FindPath`, for every cost function.
`positions` are the positions of the construction loop, `dirs` the scaled
offsets. -/
structure SearchInv (costFunction : DungeonNode C → DungeonNode C → Option (DungeonPathInfo C))
    (unitSize : Int) (dirs positions : List FVector) (start : FVector)
    (st : SearchState C) : Prop where
  grid_unit : st.grid.unit = unitSize
  aligned : ∀ p ∈ positions, Aligned unitSize p
  placed : ∀ p ∈ positions, ∃ n, st.grid.get? p = some n ∧ n.Position = p
  inb : ∀ p, Aligned unitSize p → st.grid.InBounds p = true → p ∈ positions
  closed_mem : ∀ i ∈ st.closedNodes, ∃ p ∈ positions, st.grid.GetIndex p = i
  queue_mem : ∀ e ∈ st.queue, e.Position ∈ positions
  start_mem : start ∈ positions
  start_root : ∀ n, st.grid.get? start = some n → n.Previous = none ∧ n.PreviousSet = []
  start_closed : st.closedNodes ≠ [] → st.grid.GetIndex start ∈ st.closedNodes
  init : st.closedNodes = [] → ∀ e ∈ st.queue, e.Position = start
  root : ∀ p ∈ positions, ∀ n, st.grid.get? p = some n → n.Previous = none → p ≠ start →
    st.grid.GetIndex p ∉ st.closedNodes ∧ ∀ e ∈ st.queue, e.Position ≠ p
  link : ∀ p ∈ positions, ∀ n j, st.grid.get? p = some n → n.Previous = some j →
    ∃ pp ∈ positions, st.grid.GetIndex pp = j ∧ ∃ N, st.grid.get? pp = some N ∧
      st.closedNodes.indexOf j < st.closedNodes.indexOf (st.grid.GetIndex p) ∧
      Link costFunction unitSize dirs N n

/-- A chain of predecessor links of the node grid, from a node (the head of
the list) back to the start node (its last element), through closed nodes
that were closed in this order. -/
inductive Trail (costFunction : DungeonNode C → DungeonNode C → Option (DungeonPathInfo C))
    (unitSize : Int) (dirs positions : List FVector) (start : FVector) (st : SearchState C) :
    List (DungeonNode C) → Prop
  | root (s : DungeonNode C) : st.grid.get? start = some s → s.Position = start →
      s.Previous = none → s.PreviousSet = [] →
      Trail costFunction unitSize dirs positions start st [s]
  | step (n N : DungeonNode C) (rest : List (DungeonNode C)) :
      n.Position ∈ positions → N.Position ∈ positions →
      st.grid.get? n.Position = some n →
      n.Previous = some (st.grid.GetIndex N.Position) →
      st.closedNodes.indexOf (st.grid.GetIndex N.Position) <
        st.closedNodes.indexOf (st.grid.GetIndex n.Position) →
      Link costFunction unitSize dirs N n →
      Trail costFunction unitSize dirs positions start st (N :: rest) →
      Trail costFunction unitSize dirs positions start st (n :: N :: rest)

end SearchSpec

section StorageSpec

variable {T : Type}

/-- The indices of the cells of the storage, plane by plane and row by row. -/
def Grid3D.storageIndices (g : Grid3D T) : List FVector :=
  (List.range g.data.length).flatMap fun (z : Nat) =>
    (List.range (g.data[z]?.getD []).length).flatMap fun (y : Nat) =>
      (List.range (((g.data[z]?.getD [])[y]?.getD []).length)).map fun (x : Nat) =>
        (⟨Int.ofNat x, Int.ofNat y, Int.ofNat z⟩ : FVector)

end StorageSpec

/-- The positions of the construction loop for the sample volume. -/
def samplePositions : List FVector := (loopPositions ⟨40, 40, 30⟩ 5).getD []

/-- Scenario B: the sample volume with a Room cell at (10, 10, 10) and a Room
cell at (25, 10, 10), three units further along the X axis. -/
def scenarioBGrid : Grid3D EStructureType :=
  ((sampleGrid.set? ⟨10, 10, 10⟩ EStructureType.ROOM).bind
    (fun g => g.set? ⟨25, 10, 10⟩ EStructureType.ROOM)).getD sampleGrid

section StairSpec

variable {C : Type}

/-- Whether the cost function flags the step from `a` to `b` as a stair
move. -/
def flaggedStairs (cf : FVector → FVector → Option (DungeonPathInfo C)) (a b : FVector) :
    Bool :=
  match cf a b with
  | some info => info.IsStairs
  | none => false

/-- A stair move of a list of positions that runs from the end of a path back
to its start: `b` directly before `a`, and the step from `a` to `b` flagged. -/
def BackStair (cf : FVector → FVector → Option (DungeonPathInfo C)) (l : List FVector)
    (a b : FVector) : Prop :=
  ∃ pre post, l = pre ++ b :: a :: post ∧ flaggedStairs cf a b = true

end StairSpec

/-- Scenario C: the sample volume with a Room cell at (10, 10, 10) and a Room
cell at (30, 15, 15), one floor higher. -/
def scenarioCGrid : Grid3D EStructureType :=
  ((sampleGrid.set? ⟨10, 10, 10⟩ EStructureType.ROOM).bind
    (fun g => g.set? ⟨30, 15, 15⟩ EStructureType.ROOM)).getD sampleGrid

/-! ## Hallway carving (`GenerateNormalHallways`, `GenerateFloorBasedHallways`) -/

open EStructureType in
/-- One round of the loop `for (i = 0; i < path.Num(); ++i)` that both
hallway generators run over a path, as far as it writes the structure grid:
`current` is `path[i]` and `pre` is `path[i-1]` (`none` in the first round).
The door points and the spawned actors are not part of the grid; the grid
cells the door logic reads are `grid[current]` and `grid[pre]`, which this and
the previous round have read before.  `none` is an access outside the
storage. -/
def carveCell (DungeonUnit : Int) (grid : Grid3D EStructureType) (pre : Option FVector)
    (current : FVector) : Option (Grid3D EStructureType) :=
  match grid.get? current with
  | none => none
  | some s =>
    match (if s = NONE then grid.set? current HALLWAY else some grid) with
    | none => none
    | some g1 =>
      match pre with
      | none => some g1
      | some pre =>
        let delta := current - pre
        if delta.Z ≠ 0 then
          (stairCells DungeonUnit pre delta).foldlM (fun g c => g.set? c STAIRS) g1
        else some g1

/-- The loop over the path, from the round of `current :: rest` on. -/
def carveLoop (DungeonUnit : Int) :
    Grid3D EStructureType → Option FVector → List FVector → Option (Grid3D EStructureType)
  | grid, _, [] => some grid
  | grid, pre, current :: rest =>
    match carveCell DungeonUnit grid pre current with
    | none => none
    | some g => carveLoop DungeonUnit g (some current) rest

/-- The carving of one path into the structure grid. -/
def carvePath (DungeonUnit : Int) (grid : Grid3D EStructureType) (path : List FVector) :
    Option (Grid3D EStructureType) :=
  carveLoop DungeonUnit grid none path

/-- What carving may do to the cells of a grid: every cell keeps its
classification or goes from Empty to Corridor or from Empty to Stairs. -/
def CarvedFrom (g0 g : Grid3D EStructureType) : Prop :=
  g.unit = g0.unit ∧ g.size = g0.size ∧ g.borderOffset = g0.borderOffset ∧
    ∀ index, g.cell? index = g0.cell? index ∨
      (g0.cell? index = some EStructureType.NONE ∧
        (g.cell? index = some EStructureType.HALLWAY ∨
          g.cell? index = some EStructureType.STAIRS))

/-! ## Fixed-point distance for the end-to-end scenarios -/

/-- The floor of the square root, two bits of the argument per round. -/
def sqrtLoop : Nat → Nat → Nat
  | 0, _ => 0
  | fuel + 1, n =>
    if n = 0 then 0
    else
      let r := 2 * sqrtLoop fuel (n / 4)
      if (r + 1) * (r + 1) ≤ n then r + 1 else r

/-- The Euclidean distance of the engine's `FVector::Distance` in thousandths,
rounded down. -/
def distMilli (a b : FVector) : Int :=
  Int.ofNat (sqrtLoop 32 ((distSq a b).toNat * 1000000))

/-- The generator's default cost properties in thousandths, with unit 5. -/
def milliSettings : CostSettings Int :=
  { DungeonUnit := 5, BaseCost := 100000, RoomExtraCost := 5000, NoneExtraCost := 1000,
    ChangeFloorExtraCost := 200000 }

/-- The number of moves between floors of a path. -/
def floorChanges : List FVector → Nat
  | a :: b :: rest => (if b.Z ≠ a.Z then 1 else 0) + floorChanges (b :: rest)
  | _ => 0

/-- The generator's default cost properties in thousandths, with unit 50. -/
def wideSettings : CostSettings Int :=
  { DungeonUnit := 50, BaseCost := 100000, RoomExtraCost := 5000, NoneExtraCost := 1000,
    ChangeFloorExtraCost := 200000 }

/-- A volume of 800 x 200 x 250 with unit 50 and border offset 50: a Room
cell at (100, 100, 100), a Room cell at (650, 100, 150) one floor higher on
the same row, Empty cells elsewhere. -/
def wideGrid : Grid3D EStructureType :=
  (((Grid3D.new EStructureType.NONE ⟨800, 200, 250⟩ 50 50).set? ⟨100, 100, 100⟩
    EStructureType.ROOM).bind
      (fun g => g.set? ⟨650, 100, 150⟩ EStructureType.ROOM)).getD sampleGrid

/-- The pathfinder that `DungeonPathfinder3D(DungeonSize, DungeonUnit)` builds
for the volume of 800 x 200 x 250 with unit 50. -/
def widePathfinder : DungeonPathfinder3D Int :=
  match DungeonPathfinder3D.new 1000000000000 ⟨800, 200, 250⟩ 50 with
  | .ok pf => pf
  | .error _ => { grid := sampleNodeGrid, unitSize := 5 }

/-- A path through the volume `wideGrid` with three moves between floors: up
from (150, 100, 100), down from (300, 100, 150), up from (450, 100, 100). -/
def threeStairPath : List FVector :=
  [⟨100, 100, 100⟩, ⟨150, 100, 100⟩, ⟨300, 100, 150⟩, ⟨450, 100, 100⟩, ⟨600, 100, 150⟩,
    ⟨650, 100, 150⟩]

/-- A path through the volume `wideGrid` with one move between floors: up from
(150, 100, 100), then along the upper floor. -/
def oneStairPath : List FVector :=
  [⟨100, 100, 100⟩, ⟨150, 100, 100⟩, ⟨300, 100, 150⟩, ⟨350, 100, 150⟩, ⟨400, 100, 150⟩,
    ⟨450, 100, 150⟩, ⟨500, 100, 150⟩, ⟨550, 100, 150⟩, ⟨600, 100, 150⟩, ⟨650, 100, 150⟩]

/-- Whether `CostFunction` makes the step from `a` to `b` traversable. -/
def stepAllowed (grid : Grid3D EStructureType) (cfg : CostSettings Int)
    (Distance : FVector → FVector → Int) (endPos a b : FVector) : Bool :=
  match CostFunction grid cfg Distance (nodeAt a) (nodeAt b) endPos with
  | some info => info.Traversable
  | none => false

section RelaxSpec

variable {C : Type} [LinearOrder C] [Add C] [Zero C]

/-- What the search loop keeps true of costs and queue, for a cost function
that never sets the stairs flag: the start node has cost 0, previous-sets
hold closed cells only, no queue entry is cheaper than its node, and every
open node with a cost below `MAX_flt` has a queue entry of exactly its
cost; a node with a predecessor lies inside the bounds. -/
structure RelaxInv (MAX_flt : C) (positions : List FVector) (start : FVector)
    (st : SearchState C) : Prop where
  start_cost : ∀ s, st.grid.get? start = some s → s.Cost = 0
  set_closed : ∀ p ∈ positions, ∀ n, st.grid.get? p = some n →
    ∀ c ∈ n.PreviousSet, c ∈ positions ∧ st.grid.GetIndex c ∈ st.closedNodes
  entry_ge : ∀ e ∈ st.queue, ∀ n, st.grid.get? e.Position = some n → n.Cost ≤ e.Cost
  queued : ∀ p ∈ positions, ∀ n, st.grid.get? p = some n →
    st.grid.GetIndex p ∉ st.closedNodes → n.Cost < MAX_flt →
    ∃ e ∈ st.queue, e.Position = p ∧ e.Cost = n.Cost
  prev_inb : ∀ p ∈ positions, ∀ n j, st.grid.get? p = some n → n.Previous = some j →
    st.grid.InBounds p = true

/-- The step from `p` by `offset` has been looked at: if it leads into the
bounds and is traversable, the cell reached is closed or its cost is at most
the cost of `p` plus the cost of the step. -/
def Relaxed (cf : FVector → FVector → DungeonPathInfo C) (st : SearchState C)
    (p offset : FVector) : Prop :=
  st.grid.InBounds (p + offset) = true → (cf p (p + offset)).Traversable = true →
    st.grid.GetIndex (p + offset) ∈ st.closedNodes ∨
      ∃ n m, st.grid.get? p = some n ∧ st.grid.get? (p + offset) = some m ∧
        m.Cost ≤ n.Cost + (cf p (p + offset)).Cost

/-- The sum of the costs of the steps of a list of positions that runs from
the end of a path back to its start, added up from the start on. -/
def backTotal (cf : FVector → FVector → DungeonPathInfo C) : List FVector → C
  | b :: a :: rest => backTotal cf (a :: rest) + (cf a b).Cost
  | _ => 0

/-- The invariant of the search loop at the head of the loop, for a cost
function `cf` of the two positions that never sets the stairs flag: the
invariants above, every step from a closed cell has been looked at, and no
closed cell is the end position. -/
structure HeadInv (costFunction : DungeonNode C → DungeonNode C → Option (DungeonPathInfo C))
    (cf : FVector → FVector → DungeonPathInfo C) (MAX_flt : C) (unitSize : Int)
    (dirs positions : List FVector) (start endPos : FVector) (st : SearchState C) : Prop where
  inv : SearchInv costFunction unitSize dirs positions start st
  rel : RelaxInv MAX_flt positions start st
  relaxed : ∀ p ∈ positions, st.grid.GetIndex p ∈ st.closedNodes → ∀ o ∈ dirs,
    Relaxed cf st p o
  not_end : ∀ p ∈ positions, st.grid.GetIndex p ∈ st.closedNodes → p ≠ endPos

/-- The number of node positions that are not closed. -/
def openCount (positions : List FVector) (st : SearchState C) : Nat :=
  (positions.filter fun p => decide (st.grid.GetIndex p ∉ st.closedNodes)).length

/-- The number of queue entries whose node is closed already. -/
def staleCount (st : SearchState C) : Nat :=
  (st.queue.filter fun e => decide (st.grid.GetIndex e.Position ∈ st.closedNodes)).length

/-- A traversable planar unit step into a cell inside the bounds. -/
def PlanarStep (pf : DungeonPathfinder3D C) (cf : FVector → FVector → DungeonPathInfo C)
    (a b : FVector) : Prop :=
  pf.grid.InBounds b = true ∧ (∃ d ∈ Directions2D, b = a + d.scale pf.unitSize) ∧
    (cf a b).Traversable = true

/-- The search state has the extent and the border offset of the grid `g`. -/
def SameBounds (g : Grid3D (DungeonNode C)) (st : SearchState C) : Prop :=
  st.grid.size = g.size ∧ st.grid.borderOffset = g.borderOffset

end RelaxSpec

section StraightSpec

variable {C : Type}

/-- The result of `CostFunction` for a step between two cells of one floor,
as a function of the two positions (`CostFunction` reads nothing else of its
two nodes).  A step between floors counts as not traversable. -/
def flatInfo [Zero C] [Add C] (grid : Grid3D EStructureType) (cfg : CostSettings C)
    (Distance : FVector → FVector → C) (endPos a b : FVector) : DungeonPathInfo C :=
  if (b - a).Z = 0 then
    (CostFunction grid cfg Distance ⟨a, none, [], 0⟩ ⟨b, none, [], 0⟩ endPos).getD
      ⟨false, 0, false⟩
  else ⟨false, 0, false⟩

/-- What `k` steps of cost `U` each add up to, added one after the other
from 0. -/
def stepsTotal [Zero C] [Add C] (U : C) : Nat → C
  | 0 => 0
  | k + 1 => stepsTotal U k + U

/-- The closed nodes among the positions of `line` have costs within the
bounds paired with them. -/
def CostBound [LE C] (line : List (FVector × C)) (st : SearchState C) : Prop :=
  ∀ x ∈ line, st.grid.GetIndex x.1 ∈ st.closedNodes →
    ∀ n, st.grid.get? x.1 = some n → n.Cost ≤ x.2

end StraightSpec

/-- Scenario B with a Corridor along the next row: the cells (10, 15, 10) to
(25, 15, 10) are Corridor. -/
def detourGrid : Grid3D EStructureType :=
  ([(⟨10, 15, 10⟩ : FVector), ⟨15, 15, 10⟩, ⟨20, 15, 10⟩, ⟨25, 15, 10⟩].foldlM
    (fun (g : Grid3D EStructureType) c => g.set? c EStructureType.HALLWAY)
    scenarioBGrid).getD scenarioBGrid

/-- Cost properties in thousandths with an Empty penalty of six units in the
place of the default fifth of a unit. -/
def detourSettings : CostSettings Int :=
  { DungeonUnit := 5, BaseCost := 100000, RoomExtraCost := 5000, NoneExtraCost := 30000,
    ChangeFloorExtraCost := 200000 }

/-! ## Rooms: door points, floor counting, volume checks -/

/-- The method `AMainRoom::AddDoorPoint`, on the member `DoorPoints`. -/
def AddDoorPoint (DoorPoints : List FVector) (door : FVector) : List FVector :=
  if door ∈ DoorPoints then DoorPoints else DoorPoints ++ [door]

/-- The edge has exactly one end point in the closed set. -/
def Crosses (closedSet : List FVector) (e : FEdge) : Prop :=
  (e.Vertex0 ∈ closedSet ∧ e.Vertex1 ∉ closedSet) ∨
    (e.Vertex0 ∉ closedSet ∧ e.Vertex1 ∈ closedSet)

/-- The edge `a` is, in the order of the list `edges`, the first of the edges
with exactly one end point in the closed set that have the least weight. -/
def FirstLeast {W : Type} [LinearOrder W] (Distance : FVector → FVector → W)
    (closedSet : List FVector) (edges : List FEdge) (a : FEdge) : Prop :=
  ∃ pre post, edges = pre ++ a :: post ∧ Crosses closedSet a ∧
    (∀ e ∈ edges, Crosses closedSet e →
      Distance a.Vertex0 a.Vertex1 ≤ Distance e.Vertex0 e.Vertex1) ∧
    (∀ e ∈ pre, Crosses closedSet e →
      Distance a.Vertex0 a.Vertex1 < Distance e.Vertex0 e.Vertex1)

/-- The set `closedSet` of `MinimumSpanningTree` after the edges `chosen`
were chosen, in this order. -/
def closedAfter (startVertex : FVector) (chosen : List FEdge) : List FVector :=
  chosen.foldl (fun c e => setAdd (setAdd c e.Vertex0) e.Vertex1) (setAdd [] startVertex)

/-- The generator properties read by `RoomCountCalculation`. -/
structure FloorSettings where
  DungeonUnit : Int
  NormalFloorSize : FVector
  GroundFloorIndex : Int
  MinGroundFloorRoomCount : Int
  MinRoomCount : Int

/-- The members of the generator that `RoomCountCalculation` reads and
writes. -/
structure FloorState where
  floorRoomCount : List Int
  currentFloorIndex : Int
  currentGroundFloorRoomCount : Int
  freeGenerationMode : Bool
deriving DecidableEq, Repr

/-- The method `IsGroundFloor`. -/
def IsGroundFloor (cfg : FloorSettings) (location : FVector) : Bool :=
  decide (location.Z = cfg.DungeonUnit * (cfg.GroundFloorIndex + 1))

/-- The statement `array[index]++`; `none` is an index outside the array. -/
def incrementAt (array : List Int) (index : Int) : Option (List Int) :=
  if index < 0 then none
  else
    match array[index.toNat]? with
    | none => none
    | some v => some (array.set index.toNat (v + 1))

/-- The read `array[index]`; `none` is an index outside the array. -/
def readAt (array : List Int) (index : Int) : Option Int :=
  if index < 0 then none else array[index.toNat]?

/-- The block that both branches of `RoomCountCalculation` run once the
minimum is reached: `currentFloorIndex++`, and when
`DungeonUnit*(currentFloorIndex+1) > NormalFloorSize.Z` then
`currentFloorIndex--` and `freeGenerationMode = true`. -/
def advanceFloor (cfg : FloorSettings) (st : FloorState) : FloorState :=
  let st1 := { st with currentFloorIndex := st.currentFloorIndex + 1 }
  if cfg.DungeonUnit * (st1.currentFloorIndex + 1) > cfg.NormalFloorSize.Z then
    { st1 with currentFloorIndex := st1.currentFloorIndex - 1, freeGenerationMode := true }
  else st1

/-- The first half of `RoomCountCalculation`: `floorRoomCount` grows by one
entry when `currentFloorIndex` is beyond its end, then the room is counted. -/
def countRoom (cfg : FloorSettings) (st : FloorState) (centerRoomLocation : FVector) :
    Option FloorState :=
  let st0 :=
    if st.currentFloorIndex > (st.floorRoomCount.length : Int) - 1 then
      { st with floorRoomCount := st.floorRoomCount ++ [0] }
    else st
  if IsGroundFloor cfg centerRoomLocation then
    match incrementAt st0.floorRoomCount cfg.GroundFloorIndex with
    | none => none
    | some counts =>
      let ground := st0.currentGroundFloorRoomCount + 1
      some { st0 with floorRoomCount := counts, currentGroundFloorRoomCount := ground }
  else
    match incrementAt st0.floorRoomCount st0.currentFloorIndex with
    | none => none
    | some counts => some { st0 with floorRoomCount := counts }

/-- The method `RoomCountCalculation`.  `none` is an access outside
`floorRoomCount`. -/
def RoomCountCalculation (cfg : FloorSettings) (st : FloorState)
    (centerRoomLocation : FVector) : Option FloorState :=
  match countRoom cfg st centerRoomLocation with
  | none => none
  | some st1 =>
    if IsGroundFloor cfg centerRoomLocation then
      if st1.currentGroundFloorRoomCount ≥ cfg.MinGroundFloorRoomCount then
        some (advanceFloor cfg st1)
      else some st1
    else
      match readAt st1.floorRoomCount st1.currentFloorIndex with
      | none => none
      | some count =>
        if count ≥ cfg.MinRoomCount then some (advanceFloor cfg st1) else some st1

/-- A sequence of calls of `RoomCountCalculation`, one per placed room. -/
def roomCountCalls (cfg : FloorSettings) (st : FloorState) (locations : List FVector) :
    Option FloorState :=
  locations.foldlM (RoomCountCalculation cfg) st

/-- The state that `GenerateDungeon` sets up before rooms are placed. -/
def initialFloorState : FloorState :=
  { floorRoomCount := [0], currentFloorIndex := 0, currentGroundFloorRoomCount := 0,
    freeGenerationMode := false }

/-- The generator's default floor properties with unit 5 and a floor volume
that is 20 high. -/
def sampleFloorSettings : FloorSettings :=
  { DungeonUnit := 5, NormalFloorSize := ⟨40, 40, 20⟩, GroundFloorIndex := 2,
    MinGroundFloorRoomCount := 3, MinRoomCount := 4 }

/-- The out-of-bounds test of `GenerateProcGenRooms` on `totalBounds`. -/
def procGenOutOfBounds (DungeonSize : FVector) (DungeonUnit : Int) (totalBounds : FBox) :
    Bool :=
  decide (totalBounds.Min.X < DungeonUnit) ||
    decide (totalBounds.Max.X ≥ DungeonSize.X - DungeonUnit) ||
    decide (totalBounds.Min.Y < DungeonUnit) ||
    decide (totalBounds.Max.Y ≥ DungeonSize.Y - DungeonUnit) ||
    decide (totalBounds.Min.Z < DungeonUnit) ||
    decide (totalBounds.Max.Z ≥ DungeonSize.Z - DungeonUnit)

/-- The out-of-bounds test of `GeneratePremadeRooms` on `newBounds`. -/
def premadeOutOfBounds (DungeonSize : FVector) (DungeonUnit : Int) (newBounds : FBox) :
    Bool :=
  decide (newBounds.Min.X < DungeonUnit * 2) ||
    decide (newBounds.Max.X ≥ DungeonSize.X - DungeonUnit) ||
    decide (newBounds.Min.Y < DungeonUnit * 2) ||
    decide (newBounds.Max.Y ≥ DungeonSize.Y - DungeonUnit) ||
    decide (newBounds.Min.Z < DungeonUnit) ||
    decide (newBounds.Max.Z ≥ DungeonSize.Z - DungeonUnit)

/-- What the scan of `MinimumSpanningTree` holds after the edges `processed`:
nothing while no edge with exactly one end point in the closed set was met,
otherwise the first of the lightest such edges, with its weight. -/
def ScanInv {W : Type} [LinearOrder W] (D : FVector → FVector → W)
    (closedSet : List FVector) (processed : List FEdge) (acc : Option (FEdge × W)) : Prop :=
  match acc with
  | none => ∀ e ∈ processed, ¬ Crosses closedSet e
  | some (a, w) => w = D a.Vertex0 a.Vertex1 ∧ FirstLeast D closedSet processed a

/-- A candidate graph in which every edge weighs the same: the four sides of
a square. -/
def tieEdges : List FEdge :=
  [⟨⟨0,0,0⟩, ⟨5,0,0⟩⟩, ⟨⟨0,0,0⟩, ⟨0,5,0⟩⟩, ⟨⟨5,0,0⟩, ⟨5,5,0⟩⟩, ⟨⟨0,5,0⟩, ⟨5,5,0⟩⟩]

/-- A candidate graph in two pieces: a path of three vertices and, apart from
it, one more edge. -/
def splitEdges : List FEdge :=
  [⟨⟨0,0,0⟩, ⟨5,0,0⟩⟩, ⟨⟨5,0,0⟩, ⟨5,5,0⟩⟩, ⟨⟨20,20,0⟩, ⟨25,20,0⟩⟩]

/-- The counter that `RoomCountCalculation` compares with the minimum, as it
stands once the room at `location` is counted: `currentGroundFloorRoomCount`
for a room on the ground floor, `floorRoomCount[currentFloorIndex]`
otherwise (0 before the count for an entry that the call adds). -/
def floorCounter (cfg : FloorSettings) (st : FloorState) (location : FVector) : Int :=
  if IsGroundFloor cfg location then st.currentGroundFloorRoomCount + 1
  else st.floorRoomCount.getD st.currentFloorIndex.toNat 0 + 1

/-- The minimum that `RoomCountCalculation` compares the counter with. -/
def floorMinimum (cfg : FloorSettings) (location : FVector) : Int :=
  if IsGroundFloor cfg location then cfg.MinGroundFloorRoomCount else cfg.MinRoomCount

/-! ## Neighbour queries (`GetNebighors`, `GetNebighors2D`) -/

/-- The method `GetNebighors`: the offsets are the twelve directions times
`unitSize`; an offset whose target fails `grid.InBounds` is skipped. -/
def GetNebighors {C : Type} (pf : DungeonPathfinder3D C) (pos : FVector) : List FVector :=
  let adjustDirections := Directions.map (fun offset => offset.scale pf.unitSize)
  adjustDirections.filterMap
    (fun offset => if !pf.grid.InBounds (pos + offset) then none else some (pos + offset))

/-- The method `GetNebighors2D`: the offsets are the four planar directions
times `unitSize`; an offset whose target fails `grid.InBoundsIgnoreOffset` is
skipped. -/
def GetNebighors2D {C : Type} (pf : DungeonPathfinder3D C) (pos : FVector) : List FVector :=
  let adjustDirections := Directions2D.map (fun offset => offset.scale pf.unitSize)
  adjustDirections.filterMap
    (fun offset =>
      if !pf.grid.InBoundsIgnoreOffset (pos + offset) then none else some (pos + offset))

/-- A volume of 31 units on every axis with border and cell size 5: the
constructor allocates six cells on every axis. -/
def oddGrid : Grid3D EStructureType :=
  Grid3D.new EStructureType.NONE ⟨31, 31, 31⟩ 5 5

/-! ## Room groups (`spawnedRooms`, `currentRoomGroupIndex`) -/

/-- The members `spawnedRooms` and `currentRoomGroupIndex` of the generator.
A pointer `AMainRoom*` is a number. -/
structure GroupState where
  spawnedRooms : List (List Nat)
  currentRoomGroupIndex : Int
deriving DecidableEq, Repr

/-- The statement `spawnedRooms[index].Add(room)`; `none` is an index outside
the array. -/
def addToGroup (spawnedRooms : List (List Nat)) (index : Int) (room : Nat) :
    Option (List (List Nat)) :=
  if index < 0 then none
  else
    match spawnedRooms[index.toNat]? with
    | none => none
    | some roomGroup => some (spawnedRooms.set index.toNat (roomGroup ++ [room]))

/-- What one call of a placement routine draws and meets: whether the
candidate passes the overlap and volume tests, whether the pre-authored room
itself spawns (read by `GeneratePremadeRooms` only), and the result of
`SpawnStructure` for every location or inner path (`none` is a null pointer). -/
structure Placement where
  canAdd : Bool
  roomSpawned : Bool
  spawned : List (Option Nat)

/-- The loop of a placement routine over the spawn results: every room that
was spawned is added to `spawnedRooms[currentRoomGroupIndex]`. -/
def addSpawned (index : Int) (spawnedRooms : List (List Nat)) :
    List (Option Nat) → Option (List (List Nat))
  | [] => some spawnedRooms
  | none :: rest => addSpawned index spawnedRooms rest
  | some room :: rest =>
    match addToGroup spawnedRooms index room with
    | none => none
    | some groups => addSpawned index groups rest

/-- The function `GenerateProcGenRooms`, as far as it touches the room groups. -/
def GenerateProcGenRooms (p : Placement) (st : GroupState) : Option GroupState :=
  if p.canAdd then
    let groups := st.spawnedRooms ++ [[]]
    match addSpawned st.currentRoomGroupIndex groups p.spawned with
    | none => none
    | some groups' =>
      some { spawnedRooms := groups', currentRoomGroupIndex := st.currentRoomGroupIndex + 1 }
  else some st

/-- The function `GeneratePremadeRooms`, as far as it touches the room groups:
the tiles of the inner paths are added only when the room itself spawned. -/
def GeneratePremadeRooms (p : Placement) (st : GroupState) : Option GroupState :=
  if p.canAdd then
    let groups := st.spawnedRooms ++ [[]]
    match (if p.roomSpawned then addSpawned st.currentRoomGroupIndex groups p.spawned
        else some groups) with
    | none => none
    | some groups' =>
      some { spawnedRooms := groups', currentRoomGroupIndex := st.currentRoomGroupIndex + 1 }
  else some st

/-- The loop `for (int i = 1; i < roomSpawnSteps; ++i)` of `GenerateRooms`;
the list holds what each iteration draws. -/
def placementLoop (IsRoomProcGen : Bool) : List Placement → GroupState → Option GroupState
  | [], st => some st
  | p :: rest, st =>
    match (if IsRoomProcGen then GenerateProcGenRooms p st else GeneratePremadeRooms p st) with
    | none => none
    | some st' => placementLoop IsRoomProcGen rest st'

/-- The function `GenerateRooms`, as far as it touches the room groups.
`entranceSpawned` is the result of spawning the entrance room, `roomListNum`
is `RoomList.Num()`. -/
def GenerateRooms (IsRoomProcGen : Bool) (roomListNum : Int) (entranceSpawned : Option Nat)
    (placements : List Placement) (st : GroupState) : Option GroupState :=
  match entranceSpawned with
  | none => some st
  | some entrance =>
    let groups := st.spawnedRooms ++ [[]]
    match addToGroup groups 0 entrance with
    | none => none
    | some groups' =>
      let st1 : GroupState :=
        { spawnedRooms := groups', currentRoomGroupIndex := st.currentRoomGroupIndex + 1 }
      if roomListNum ≤ 0 then some st1
      else placementLoop IsRoomProcGen placements st1

/-- The function `GenerateDungeon`, as far as it touches the room groups: the
reset block empties `spawnedRooms`, then the rooms are generated. -/
def GenerateDungeon (IsRoomProcGen : Bool) (roomListNum : Int) (entranceSpawned : Option Nat)
    (placements : List Placement) (st : GroupState) : Option GroupState :=
  GenerateRooms IsRoomProcGen roomListNum entranceSpawned placements
    { st with spawnedRooms := [] }

/-- The room groups of a generator that has not generated yet. -/
def initialGroupState : GroupState := { spawnedRooms := [], currentRoomGroupIndex := 0 }

/-- One accepted placement whose single room spawns as actor `room`. -/
def acceptedPlacement (room : Nat) : Placement :=
  { canAdd := true, roomSpawned := true, spawned := [some room] }

/-! ## Hallway graph per floor (`FindPossibleHallwaysFloorBased`) -/

/-- One entry of `floorVertexMap` together with what the loop body obtains
for it from outside the repository: the tetrahedra that the engine's Delaunay
tetrahedralization returns for the floor's vertices, and the draws of the
random generator made while the floor is processed. -/
structure FloorEntry (P : Type) where
  Key : Int
  Value : List FVector
  tetrahedra : List FIntVector4
  randRange : Nat → Nat
  fRand : Nat → P

/-- The statements `if (!map.Contains(key)) map.Add(key, ...); map[key] = value`
on a map kept as a list of pairs in insertion order. -/
def mapAssign (map : List (Int × List FEdge)) (key : Int) (value : List FEdge) :
    List (Int × List FEdge) :=
  if map.any (fun entry => decide (entry.1 = key)) then
    map.map (fun entry => if entry.1 = key then (key, value) else entry)
  else map ++ [(key, value)]

/-- The read `map[key]` of a map kept as a list of pairs. -/
def mapFind (map : List (Int × List FEdge)) (key : Int) : Option (List FEdge) :=
  (map.find? (fun entry => decide (entry.1 = key))).map (fun entry => entry.2)

/-- The function `ADungeonGenerator::FindPossibleHallwaysFloorBased`: the new
value of `floorEdgeMap` after the loop over the floors.  An empty list of
tetrahedra executes `return`; `none` is an access outside an array. -/
def FindPossibleHallwaysFloorBased {W P : Type} [LinearOrder W] [LinearOrder P]
    (Distance : FVector → FVector → W) (LoopProbability : P) :
    List (FloorEntry P) → List (Int × List FEdge) → Option (List (Int × List FEdge))
  | [], floorEdgeMap => some floorEdgeMap
  | floor :: rest, floorEdgeMap =>
    if floor.tetrahedra.isEmpty then some floorEdgeMap
    else
      match extractEdges floor.Value floor.tetrahedra with
      | none => none
      | some uniqueEdges =>
        match pointAt floor.Value 0 with
        | none => none
        | some start =>
          match MinimumSpanningTree Distance uniqueEdges start with
          | none => none
          | some mst =>
            FindPossibleHallwaysFloorBased Distance LoopProbability rest
              (mapAssign floorEdgeMap floor.Key
                (AddRandomEdgesToMST uniqueEdges mst LoopProbability floor.randRange floor.fRand))

/-- A floor at height `key` whose vertices are the points of scenario A
moved to that height, with the two tetrahedra of scenario A. -/
def sampleFloor (key : Int) : FloorEntry Int :=
  { Key := key
    Value := scenarioAPoints.map (fun p => p + ⟨0, 0, key⟩)
    tetrahedra := scenarioATetrahedra
    randRange := fun _ => 0
    fRand := fun _ => 1 }

/-- A floor at height `key` with two vertices, for which the
tetrahedralization returns nothing. -/
def emptyFloor (key : Int) : FloorEntry Int :=
  { Key := key
    Value := [⟨0, 0, key⟩, ⟨10, 0, key⟩]
    tetrahedra := []
    randRange := fun _ => 0
    fRand := fun _ => 1 }

/-! ## Room footprint (`GetRandomRoomProperties`) -/

/-- The method `GetRandomNumberWithInterval`.  `RandRange` is the draw of
`FMath::RandRange`; `none` is the division by a unit of zero. -/
def GetRandomNumberWithInterval (DungeonUnit : Int) (RandRange : Int → Int → Int)
    (min max : Int) : Option Int :=
  if DungeonUnit = 0 then none
  else
    let range := Int.tdiv (max - min) DungeonUnit + 1
    let randomValue := RandRange 0 (range - 1)
    some (min + randomValue * DungeonUnit)

/-- The locations that one `for (int i = 0; i < scale - 1; ++i)` loop of
`GetRandomRoomProperties` adds: `center + step * (i + 1)`. -/
def armLocations (centerlocation : FVector) (scale : Int) (step : FVector) : List FVector :=
  (List.range (scale - 1).toNat).map
    (fun (i : Nat) => centerlocation + step.scale ((i : Int) + 1))

/-- The locations that one double loop of `GetRandomRoomProperties` adds:
`center + (signX * unit * (i + 1), signY * unit * (j + 1), 0)`, `i` outside. -/
def cornerLocations (centerlocation : FVector) (scaleX scaleY : Int) (stepX stepY : Int) :
    List FVector :=
  (List.range (scaleX - 1).toNat).flatMap (fun (i : Nat) =>
    (List.range (scaleY - 1).toNat).map (fun (j : Nat) =>
      centerlocation + ⟨stepX * ((i : Int) + 1), stepY * ((j : Int) + 1), 0⟩))

/-- The method `GetRandomRoomProperties`: the locations appended to the empty
array of the caller and the total scale.  `scaleX`, `scaleY`, `scaleZ` are the
three sampled scales; `randX`, `randY`, `randZ` are the draws made for the
centre. -/
def GetRandomRoomProperties (cfg : FloorSettings) (st : FloorState)
    (scaleX scaleY scaleZ : Int) (randX randY randZ : Int → Int → Int) :
    Option (List FVector × FVector) :=
  let unit := cfg.DungeonUnit
  match GetRandomNumberWithInterval unit randX 0 cfg.NormalFloorSize.X,
      GetRandomNumberWithInterval unit randY 0 cfg.NormalFloorSize.Y,
      (if !st.freeGenerationMode then some (unit * (st.currentFloorIndex + 1))
        else GetRandomNumberWithInterval unit randZ 0 cfg.NormalFloorSize.Z) with
  | some x, some y, some z =>
    let centerlocation : FVector := ⟨x, y, z⟩
    let locations := [centerlocation]
    let locations :=
      if scaleX > 1 then
        locations ++ armLocations centerlocation scaleX ⟨-unit, 0, 0⟩ ++
          armLocations centerlocation scaleX ⟨unit, 0, 0⟩
      else locations
    let locations :=
      if scaleY > 1 then
        locations ++ armLocations centerlocation scaleY ⟨0, -unit, 0⟩ ++
          armLocations centerlocation scaleY ⟨0, unit, 0⟩
      else locations
    let locations :=
      if scaleX > 1 ∧ scaleY > 1 then
        locations ++ cornerLocations centerlocation scaleX scaleY (-unit) (-unit) ++
          cornerLocations centerlocation scaleX scaleY unit (-unit) ++
          cornerLocations centerlocation scaleX scaleY (-unit) unit ++
          cornerLocations centerlocation scaleX scaleY unit unit
      else locations
    some (locations, ⟨scaleX + (scaleX - 1), scaleY + (scaleY - 1), scaleZ + (scaleZ - 1)⟩)
  | _, _, _ => none

/-! ## Predecessor chains (`ReconstructPath`) -/

/-- The predecessor chain of a node pointer: the positions of the nodes met
by following `Previous` from the pointer to the null pointer.  Only a finite
chain has such a list. -/
inductive PrevChain {C : Type} (grid : Grid3D (DungeonNode C)) :
    Option FVector → List FVector → Prop
  | null : PrevChain grid none []
  | link {ptr : FVector} {node : DungeonNode C} {rest : List FVector} :
    grid.cell? ptr = some node → PrevChain grid node.Previous rest →
    PrevChain grid (some ptr) (node.Position :: rest)

/-- Every `Previous` pointer stored in the grid points to a cell of the grid. -/
def PointersValid {C : Type} (grid : Grid3D (DungeonNode C)) : Prop :=
  ∀ ptr node q, grid.cell? ptr = some node → node.Previous = some q → (grid.cell? q).isSome

/-- A row of three nodes at `(0,0,0)`, `(1,0,0)`, `(2,0,0)` with unit 1; the
third points to the second, the second to the first, and the first to
`first`. -/
def chainGrid (first : Option FVector) : Grid3D (DungeonNode Int) :=
  { size := ⟨3, 1, 1⟩, unit := 1, borderOffset := 0,
    data := [[[{ Position := ⟨0, 0, 0⟩, Previous := first, PreviousSet := [], Cost := 0 },
      { Position := ⟨1, 0, 0⟩, Previous := some ⟨0, 0, 0⟩, PreviousSet := [], Cost := 1 },
      { Position := ⟨2, 0, 0⟩, Previous := some ⟨1, 0, 0⟩, PreviousSet := [], Cost := 2 }]]] }

/-! ## Least-cost property of flat searches -/

section LeastCostSpec

variable {C : Type}

/-- The costs of the steps of a path listed from its start, added one after
the other to the running total `t` in the order of the path, as the search
does with `float newCost = node->Cost + pathInfo.Cost`. -/
def accTotal [Add C] (cf : FVector → FVector → DungeonPathInfo C) : C → List FVector → C
  | t, a :: b :: rest => accTotal cf (t + (cf a b).Cost) (b :: rest)
  | t, _ => t

/-- The total transition cost of a path listed from its start to its end: the
costs of its steps added one after the other, from the cost 0 of the start
node on. -/
def pathTotal [Zero C] [Add C] (cf : FVector → FVector → DungeonPathInfo C)
    (path : List FVector) : C :=
  accTotal cf 0 path

/-- The positions of a path listed from its start, each paired with the cost
of the steps that lead to it, counted from `t` on. -/
def lineBounds [Add C] (cf : FVector → FVector → DungeonPathInfo C) :
    C → List FVector → List (FVector × C)
  | _, [] => []
  | t, [a] => [(a, t)]
  | t, a :: b :: rest => (a, t) :: lineBounds cf (t + (cf a b).Cost) (b :: rest)

/-- No node other than the start node costs more than `MAX_flt`. -/
def CostCap [LE C] (MAX_flt : C) (positions : List FVector) (start : FVector)
    (st : SearchState C) : Prop :=
  ∀ p ∈ positions, p ≠ start → ∀ n, st.grid.get? p = some n → n.Cost ≤ MAX_flt

end LeastCostSpec

/-- A cost function of the two positions with non-negative costs: every step
is traversable and costs 1, except the step from (15, 10, 10) to (15, 15, 10),
which costs 10; the step from (10, 10, 10) to (15, 10, 10) is flagged as a
stair move. -/
def stairFlagInfo (a b : FVector) : DungeonPathInfo Int :=
  { Traversable := true
    Cost := if a = ⟨15, 10, 10⟩ ∧ b = ⟨15, 15, 10⟩ then 10 else 1
    IsStairs := decide (a = ⟨10, 10, 10⟩ ∧ b = ⟨15, 10, 10⟩) }

/-! ## Hallway carving with door points -/

/-- What hallway carving reads and writes of an `AMainRoom` actor.  The
midpoint of two cells has half-unit coordinates; a door point is stored as
twice its position, so that it is a vector of whole numbers. -/
structure HallwayRoom where
  Bounds : FBox
  DoorPoints : List FVector
  IsConnectedToHallway : Bool

/-- Twice the engine's `FBox::GetCenter`, which is `(Min + Max) * 0.5`. -/
def FBox.GetCenter2 (b : FBox) : FVector := b.Min + b.Max

/-- The test of a room against a cell in `GenerateNormalHallways`,
`room->Bounds.GetCenter() == p`, and in `GenerateFloorBasedHallways`, where
the room position is `(GetCenter().X, GetCenter().Y, Bounds.Min.Z)`. -/
def isAnchor (floorBased : Bool) (room : HallwayRoom) (p : FVector) : Bool :=
  if floorBased then
    decide (room.Bounds.GetCenter2.X = p.X * 2 ∧ room.Bounds.GetCenter2.Y = p.Y * 2 ∧
      room.Bounds.Min.Z = p.Z)
  else decide (room.Bounds.GetCenter2 = p.scale 2)

/-- Twice the door point `pre + delta * 0.5f`. -/
def doorPoint2 (pre delta : FVector) : FVector := pre.scale 2 + delta

/-- The two loops over `spawnedRooms` of the door logic: every room anchored
at `p` gets the door point and is marked as connected. -/
def recordDoor (floorBased : Bool) (p doorPoint : FVector)
    (spawnedRooms : List (List HallwayRoom)) : List (List HallwayRoom) :=
  spawnedRooms.map (fun roomGroup => roomGroup.map (fun room =>
    if isAnchor floorBased room p then
      { room with DoorPoints := AddDoorPoint room.DoorPoints doorPoint,
                  IsConnectedToHallway := true }
    else room))

open EStructureType in
/-- The door logic of one round with `i > 0`, on the grid as the round has
it after its hallway write.  `none` is an access outside the storage. -/
def doorLogic (floorBased : Bool) (grid : Grid3D EStructureType) (pre current : FVector)
    (spawnedRooms : List (List HallwayRoom)) : Option (List (List HallwayRoom)) :=
  let delta := current - pre
  match grid.get? current with
  | none => none
  | some c =>
    if c ≠ ROOM ∧ c ≠ NONE ∧ c ≠ STOP then
      match grid.get? pre with
      | none => none
      | some p =>
        if p = ROOM then some (recordDoor floorBased pre (doorPoint2 pre delta) spawnedRooms)
        else some spawnedRooms
    else if c = ROOM then
      match grid.get? pre with
      | none => none
      | some p =>
        if p ≠ ROOM ∧ p ≠ NONE ∧ p ≠ STOP then
          some (recordDoor floorBased current (doorPoint2 pre delta) spawnedRooms)
        else some spawnedRooms
    else some spawnedRooms

open EStructureType in
/-- One round of the loop `for (i = 0; i < path.Num(); ++i)` of a hallway
generator on the structure grid and the rooms: the hallway write, for `i > 0`
the door logic and the writes of the stair cells.  `current` is `path[i]`
and `pre` is `path[i-1]` (`none` in the first round). -/
def hallwayRound (floorBased : Bool) (DungeonUnit : Int)
    (state : Grid3D EStructureType × List (List HallwayRoom)) (pre : Option FVector)
    (current : FVector) : Option (Grid3D EStructureType × List (List HallwayRoom)) :=
  match state.1.get? current with
  | none => none
  | some s =>
    match (if s = NONE then state.1.set? current HALLWAY else some state.1) with
    | none => none
    | some g1 =>
      match pre with
      | none => some (g1, state.2)
      | some pre =>
        match doorLogic floorBased g1 pre current state.2 with
        | none => none
        | some rooms =>
          let delta := current - pre
          if delta.Z ≠ 0 then
            match (stairCells DungeonUnit pre delta).foldlM (fun g c => g.set? c STAIRS) g1 with
            | none => none
            | some g2 => some (g2, rooms)
          else some (g1, rooms)

/-- The loop over the path, from the round of `current :: rest` on. -/
def hallwayLoop (floorBased : Bool) (DungeonUnit : Int) :
    Grid3D EStructureType × List (List HallwayRoom) → Option FVector → List FVector →
    Option (Grid3D EStructureType × List (List HallwayRoom))
  | state, _, [] => some state
  | state, pre, current :: rest =>
    match hallwayRound floorBased DungeonUnit state pre current with
    | none => none
    | some state' => hallwayLoop floorBased DungeonUnit state' (some current) rest

/-- The carving of one path into the structure grid and the rooms. -/
def hallwayPath (floorBased : Bool) (DungeonUnit : Int)
    (state : Grid3D EStructureType × List (List HallwayRoom)) (path : List FVector) :
    Option (Grid3D EStructureType × List (List HallwayRoom)) :=
  hallwayLoop floorBased DungeonUnit state none path

/-- The room `spawnedRooms[k][j]`, if there is one. -/
def roomAt (spawnedRooms : List (List HallwayRoom)) (k j : Nat) : Option HallwayRoom :=
  match spawnedRooms[k]? with
  | none => none
  | some roomGroup => roomGroup[j]?

/-- A room of the sample volume whose bounds are centred at `(15, 10, 10)`,
with its floor at `Z = 10`, without door points. -/
def sampleRoom : HallwayRoom :=
  { Bounds := ⟨⟨13, 8, 10⟩, ⟨17, 12, 10⟩⟩, DoorPoints := [], IsConnectedToHallway := false }

/-- The sample volume with `(10, 10, 10)` Blocked and `(15, 10, 10)` Room. -/
def blockedDoorGrid : Grid3D EStructureType :=
  ((sampleGrid.set? ⟨10, 10, 10⟩ EStructureType.STOP).bind
    (fun g => g.set? ⟨15, 10, 10⟩ EStructureType.ROOM)).getD sampleGrid

/-- Every room of `rooms` is still there in `rooms'`, with its bounds, its
door points and, if it was connected, its connection. -/
def RoomsKept (rooms rooms' : List (List HallwayRoom)) : Prop :=
  ∀ k j room, roomAt rooms k j = some room →
    ∃ room', roomAt rooms' k j = some room' ∧ room'.Bounds = room.Bounds ∧
      (∀ d ∈ room.DoorPoints, d ∈ room'.DoorPoints) ∧
      (room.IsConnectedToHallway = true → room'.IsConnectedToHallway = true)
/-! ## Lemmas: sets and graphs -/

theorem FVector.add_def (a b : FVector) : a + b = ⟨a.X + b.X, a.Y + b.Y, a.Z + b.Z⟩ := rfl

theorem FVector.sub_def (a b : FVector) : a - b = ⟨a.X - b.X, a.Y - b.Y, a.Z - b.Z⟩ := rfl

theorem mem_setAdd {s : List FVector} {x y : FVector} : y ∈ setAdd s x ↔ y ∈ s ∨ y = x := by
  unfold setAdd
  split
  · constructor
    · exact fun h => Or.inl h
    · rintro (h | h)
      · exact h
      · subst h; assumption
  · simp

theorem nodup_setAdd {s : List FVector} (x : FVector) (h : s.Nodup) : (setAdd s x).Nodup := by
  unfold setAdd
  split
  · exact h
  · rename_i hx
    rw [List.nodup_append]
    refine ⟨h, List.nodup_singleton x, ?_⟩
    intro a ha hb
    simp at hb
    subst hb
    exact hx ha

theorem mem_setRemove {s : List FVector} {x y : FVector} :
    y ∈ setRemove s x ↔ y ∈ s ∧ y ≠ x := by
  simp [setRemove]

theorem mem_vertices {es : List FEdge} {x : FVector} :
    x ∈ vertices es ↔ ∃ e ∈ es, e.Vertex0 = x ∨ e.Vertex1 = x := by
  induction es with
  | nil => simp [vertices]
  | cons e es ih =>
    have : vertices (e :: es) = e.Vertex0 :: e.Vertex1 :: vertices es := rfl
    rw [this]
    simp only [List.mem_cons, ih, exists_eq_or_imp]
    constructor
    · rintro (h | h | h)
      · exact Or.inl (Or.inl h.symm)
      · exact Or.inl (Or.inr h.symm)
      · exact Or.inr h
    · rintro ((h | h) | h)
      · exact Or.inl h.symm
      · exact Or.inr (Or.inl h.symm)
      · exact Or.inr (Or.inr h)

theorem mem_initOpenSet_aux (edges : List FEdge) (s : List FVector) (x : FVector) :
    x ∈ edges.foldl (fun s edge => setAdd (setAdd s edge.Vertex0) edge.Vertex1) s ↔
      x ∈ s ∨ x ∈ vertices edges := by
  induction edges generalizing s with
  | nil => simp [vertices]
  | cons e es ih =>
    rw [List.foldl_cons, ih]
    have : vertices (e :: es) = e.Vertex0 :: e.Vertex1 :: vertices es := rfl
    rw [this]
    simp only [mem_setAdd, List.mem_cons]
    tauto

theorem mem_initOpenSet {edges : List FEdge} {x : FVector} :
    x ∈ initOpenSet edges ↔ x ∈ vertices edges := by
  unfold initOpenSet
  rw [mem_initOpenSet_aux]
  simp

theorem Joins.swap {e : FEdge} {x y : FVector} (h : Joins e x y) : Joins e y x :=
  Or.symm h

theorem Adj.flip {es : List FEdge} {x y : FVector} (h : Adj es x y) : Adj es y x := by
  obtain ⟨e, he, hj⟩ := h
  exact ⟨e, he, hj.swap⟩

theorem Adj.weaken {es es' : List FEdge} (hsub : ∀ e ∈ es, e ∈ es') {x y : FVector}
    (h : Adj es x y) : Adj es' x y := by
  obtain ⟨e, he, hj⟩ := h
  exact ⟨e, hsub e he, hj⟩

theorem Reach.symm {es : List FEdge} {x y : FVector} (h : Reach es x y) : Reach es y x := by
  induction h with
  | refl => exact Relation.ReflTransGen.refl
  | tail _ hbc ih => exact Relation.ReflTransGen.head hbc.flip ih

theorem Reach.mono {es es' : List FEdge} (hsub : ∀ e ∈ es, e ∈ es') {x y : FVector}
    (h : Reach es x y) : Reach es' x y :=
  Relation.ReflTransGen.mono (fun _ _ hxy => Adj.weaken hsub hxy) h

theorem Reach.trans {es : List FEdge} {x y z : FVector} (h1 : Reach es x y)
    (h2 : Reach es y z) : Reach es x z :=
  Relation.ReflTransGen.trans h1 h2

theorem Reach.single {es : List FEdge} {x y : FVector} (h : Adj es x y) : Reach es x y :=
  Relation.ReflTransGen.single h

theorem Adj.mem_verts {es : List FEdge} {x y : FVector} (h : Adj es x y) :
    x ∈ vertices es ∧ y ∈ vertices es := by
  obtain ⟨e, he, hj⟩ := h
  rcases hj with ⟨h0, h1⟩ | ⟨h0, h1⟩
  · exact ⟨mem_vertices.2 ⟨e, he, Or.inl h0⟩, mem_vertices.2 ⟨e, he, Or.inr h1⟩⟩
  · exact ⟨mem_vertices.2 ⟨e, he, Or.inr h1⟩, mem_vertices.2 ⟨e, he, Or.inl h0⟩⟩

/-- A walk either stays put or runs between end points of the list. -/
theorem Reach.eq_or_mem {es : List FEdge} {x y : FVector} (h : Reach es x y) :
    x = y ∨ (x ∈ vertices es ∧ y ∈ vertices es) := by
  induction h with
  | refl => exact Or.inl rfl
  | tail hab hbc ih =>
    refine Or.inr ⟨?_, hbc.mem_verts.2⟩
    rcases ih with h | h
    · subst h; exact hbc.mem_verts.1
    · exact h.1

theorem adj_append_singleton {es : List FEdge} {e : FEdge} {x y : FVector} :
    Adj (es ++ [e]) x y ↔ Adj es x y ∨ Joins e x y := by
  unfold Adj
  simp only [List.mem_append, List.mem_singleton]
  constructor
  · rintro ⟨f, hf | hf, hj⟩
    · exact Or.inl ⟨f, hf, hj⟩
    · subst hf; exact Or.inr hj
  · rintro (⟨f, hf, hj⟩ | hj)
    · exact ⟨f, Or.inl hf, hj⟩
    · exact ⟨e, Or.inr rfl, hj⟩

/-- Taking away a pendant edge does not disconnect the other points: if `v` is
an end point of `e` and of no edge of `es`, walks of `es ++ [e]` between points
other than `v` are walks of `es`. -/
theorem reach_of_pendant {es : List FEdge} {e : FEdge} {v : FVector}
    (hv : v ∉ vertices es) (he : e.Vertex0 = v ∨ e.Vertex1 = v) {a b : FVector}
    (h : Reach (es ++ [e]) a b) (ha : a ≠ v) (hb : b ≠ v) : Reach es a b := by
  revert hb
  have key : (b ≠ v → Reach es a b) ∧ (b = v → ∃ u, u ≠ v ∧ Reach es a u ∧ Joins e u v) := by
    induction h with
    | refl => exact ⟨fun _ => Relation.ReflTransGen.refl, fun h => absurd h ha⟩
    | @tail b c _ hbc ih =>
      rcases adj_append_singleton.1 hbc with hadj | hj
      · have hbv : b ≠ v := fun h => hv (h ▸ hadj.mem_verts.1)
        have hcv : c ≠ v := fun h => hv (h ▸ hadj.mem_verts.2)
        exact ⟨fun _ => (ih.1 hbv).trans (Reach.single hadj), fun h => absurd h hcv⟩
      · constructor
        · intro hcv
          by_cases hbv : b = v
          · obtain ⟨u, huv, hau, hju⟩ := ih.2 hbv
            have hcu : c = u := by
              subst hbv
              rcases hj with ⟨h0, h1⟩ | ⟨h0, h1⟩ <;> rcases hju with ⟨g0, g1⟩ | ⟨g0, g1⟩
              · exact absurd (h1.symm.trans g1) hcv
              · exact h1.symm.trans g1
              · exact h0.symm.trans g0
              · exact absurd (h0.symm.trans g0) hcv
            rw [hcu]; exact hau
          · exfalso
            rcases hj with ⟨h0, h1⟩ | ⟨h0, h1⟩ <;> rcases he with g | g
            · exact hbv (h0.symm.trans g)
            · exact hcv (h1.symm.trans g)
            · exact hcv (h0.symm.trans g)
            · exact hbv (h1.symm.trans g)
        · intro hcv
          by_cases hbv : b = v
          · obtain ⟨u, huv, hau, hju⟩ := ih.2 hbv
            exact ⟨u, huv, hau, hju⟩
          · exact ⟨b, hbv, ih.1 hbv, hcv ▸ hj⟩
  exact key.1

/-! ## Lemmas: the scan and the growth loop -/

section MSTLemmas

variable {W : Type} [LinearOrder W]

theorem closedVertices_eq_one {closedSet : List FVector} {e : FEdge} :
    closedVertices closedSet e = 1 ↔
      (e.Vertex0 ∈ closedSet ∧ e.Vertex1 ∉ closedSet) ∨
      (e.Vertex0 ∉ closedSet ∧ e.Vertex1 ∈ closedSet) := by
  unfold closedVertices
  by_cases h0 : e.Vertex0 ∈ closedSet <;> by_cases h1 : e.Vertex1 ∈ closedSet <;> simp [h0, h1]

/-- What one scan iteration does to the accumulator. -/
theorem scanStep_spec (D : FVector → FVector → W) (closedSet : List FVector)
    (acc : Option (FEdge × W)) (e : FEdge) :
    (scanStep D closedSet acc e = none → acc = none ∧ closedVertices closedSet e ≠ 1) ∧
    (∀ a wa, scanStep D closedSet acc e = some (a, wa) →
      (acc = some (a, wa) ∨
        (a = e ∧ closedVertices closedSet e = 1 ∧ wa = D e.Vertex0 e.Vertex1)) ∧
      (closedVertices closedSet e = 1 → wa ≤ D e.Vertex0 e.Vertex1) ∧
      (∀ b wb, acc = some (b, wb) → wa ≤ wb)) := by
  unfold scanStep
  by_cases hc : closedVertices closedSet e = 1
  · simp only [hc, ne_eq, not_true_eq_false, if_false]
    cases acc with
    | none => simp
    | some p =>
      obtain ⟨b, wb⟩ := p
      by_cases hlt : D e.Vertex0 e.Vertex1 < wb
      · simp only [hlt, if_true]
        refine ⟨by simp, ?_⟩
        intro a wa h
        simp only [Option.some.injEq, Prod.mk.injEq] at h
        obtain ⟨rfl, rfl⟩ := h
        refine ⟨Or.inr ⟨rfl, trivial, rfl⟩, fun _ => le_refl _, ?_⟩
        intro b' wb' h'
        simp only [Option.some.injEq, Prod.mk.injEq] at h'
        obtain ⟨-, rfl⟩ := h'
        exact le_of_lt hlt
      · simp only [hlt, if_false]
        refine ⟨by simp, ?_⟩
        intro a wa h
        simp only [Option.some.injEq, Prod.mk.injEq] at h
        obtain ⟨rfl, rfl⟩ := h
        refine ⟨Or.inl rfl, fun _ => not_lt.1 hlt, ?_⟩
        intro b' wb' h'
        simp only [Option.some.injEq, Prod.mk.injEq] at h'
        obtain ⟨-, rfl⟩ := h'
        exact le_refl _
  · simp only [hc, ne_eq, not_false_eq_true, if_true]
    refine ⟨fun h => ⟨h, trivial⟩, ?_⟩
    intro a wa h
    refine ⟨Or.inl h, fun h1 => h1.elim, ?_⟩
    intro b wb h'
    rw [h] at h'
    simp only [Option.some.injEq, Prod.mk.injEq] at h'
    obtain ⟨-, rfl⟩ := h'
    exact le_refl _

/-- What the scan over a list of edges does to the accumulator. -/
theorem scan_foldl_spec (D : FVector → FVector → W) (closedSet : List FVector)
    (edges : List FEdge) (acc : Option (FEdge × W)) :
    (edges.foldl (scanStep D closedSet) acc = none →
      acc = none ∧ ∀ e ∈ edges, closedVertices closedSet e ≠ 1) ∧
    (∀ a wa, edges.foldl (scanStep D closedSet) acc = some (a, wa) →
      (acc = some (a, wa) ∨
        (a ∈ edges ∧ closedVertices closedSet a = 1 ∧ wa = D a.Vertex0 a.Vertex1)) ∧
      (∀ e ∈ edges, closedVertices closedSet e = 1 → wa ≤ D e.Vertex0 e.Vertex1) ∧
      (∀ b wb, acc = some (b, wb) → wa ≤ wb)) := by
  induction edges generalizing acc with
  | nil =>
    refine ⟨fun h => ⟨h, by simp⟩, ?_⟩
    intro a wa h
    refine ⟨Or.inl h, by simp, ?_⟩
    intro b wb h'
    simp only [List.foldl_nil] at h
    rw [h] at h'
    simp only [Option.some.injEq, Prod.mk.injEq] at h'
    obtain ⟨-, rfl⟩ := h'
    exact le_refl _
  | cons e es ih =>
    simp only [List.foldl_cons]
    have hs := scanStep_spec D closedSet acc e
    have hi := ih (scanStep D closedSet acc e)
    constructor
    · intro h
      obtain ⟨h1, h2⟩ := hi.1 h
      obtain ⟨h3, h4⟩ := hs.1 h1
      refine ⟨h3, ?_⟩
      intro x hx
      rcases List.mem_cons.1 hx with rfl | hx
      · exact h4
      · exact h2 x hx
    · intro a wa h
      obtain ⟨h1, h2, h3⟩ := hi.2 a wa h
      refine ⟨?_, ?_, ?_⟩
      · rcases h1 with h1 | ⟨h1, h1b, h1c⟩
        · rcases (hs.2 a wa h1).1 with h5 | ⟨rfl, h5, h6⟩
          · exact Or.inl h5
          · exact Or.inr ⟨List.mem_cons_self _ _, h5, h6⟩
        · exact Or.inr ⟨List.mem_cons_of_mem _ h1, h1b, h1c⟩
      · intro x hx hcx
        rcases List.mem_cons.1 hx with rfl | hx
        · cases hacc : scanStep D closedSet acc x with
          | none => exact absurd hcx (hs.1 hacc).2
          | some p =>
            obtain ⟨b, wb⟩ := p
            exact le_trans (h3 b wb hacc) ((hs.2 b wb hacc).2.1 hcx)
        · exact h2 x hx hcx
      · intro b wb hacc
        cases hacc2 : scanStep D closedSet acc e with
        | none => rw [(hs.1 hacc2).1] at hacc; cases hacc
        | some p =>
          obtain ⟨c, wc⟩ := p
          exact le_trans (h3 c wc hacc2) ((hs.2 c wc hacc2).2.2 b wb hacc)

/-- A scan that chooses nothing saw no edge with exactly one closed end point. -/
theorem scanEdges_none {D : FVector → FVector → W} {closedSet : List FVector}
    {edges : List FEdge} (h : scanEdges D closedSet edges = none) :
    ∀ e ∈ edges, closedVertices closedSet e ≠ 1 :=
  ((scan_foldl_spec D closedSet edges none).1 h).2

/-- The edge chosen by a scan is a candidate with exactly one closed end
point, and no such candidate is lighter. -/
theorem scanEdges_some {D : FVector → FVector → W} {closedSet : List FVector}
    {edges : List FEdge} {a : FEdge} {wa : W} (h : scanEdges D closedSet edges = some (a, wa)) :
    a ∈ edges ∧ closedVertices closedSet a = 1 ∧ wa = D a.Vertex0 a.Vertex1 ∧
      ∀ e ∈ edges, closedVertices closedSet e = 1 → wa ≤ D e.Vertex0 e.Vertex1 := by
  obtain ⟨h1, h2, -⟩ := (scan_foldl_spec D closedSet edges none).2 a wa h
  rcases h1 with h1 | ⟨h1, h3, h4⟩
  · cases h1
  · exact ⟨h1, h3, h4, h2⟩

/-- The closed set grows by exactly the open end point of the chosen edge. -/
theorem choose_closedSet {st : MSTState} {e : FEdge}
    (h : closedVertices st.closedSet e = 1) :
    ∃ u v, u ∈ st.closedSet ∧ v ∉ st.closedSet ∧ Joins e u v ∧
      (st.choose e).closedSet = st.closedSet ++ [v] := by
  rcases closedVertices_eq_one.1 h with ⟨h0, h1⟩ | ⟨h0, h1⟩
  · refine ⟨e.Vertex0, e.Vertex1, h0, h1, Or.inl ⟨rfl, rfl⟩, ?_⟩
    simp [MSTState.choose, setAdd, h0, h1]
  · refine ⟨e.Vertex1, e.Vertex0, h1, h0, Or.inr ⟨rfl, rfl⟩, ?_⟩
    simp [MSTState.choose, setAdd, h0, h1]

/-- Induction along the growth loop: a property kept by every growth step
holds in the state in which the loop stops. -/
theorem mstLoop_sound (D : FVector → FVector → W) (edges : List FEdge) (P : MSTState → Prop)
    (hstep : ∀ st e w, P st → scanEdges D st.closedSet edges = some (e, w) → P (st.choose e)) :
    ∀ fuel st R, P st → mstLoop D edges fuel st = some R →
      ∃ st', P st' ∧ st'.results = R ∧
        (st'.openSet = [] ∨ scanEdges D st'.closedSet edges = none) := by
  intro fuel
  induction fuel with
  | zero =>
    intro st R hP h
    unfold mstLoop at h
    split at h
    · cases h
    · rename_i hlen
      simp only [Option.some.injEq] at h
      exact ⟨st, hP, h, Or.inl (List.length_eq_zero.1 (by omega))⟩
  | succ n ih =>
    intro st R hP h
    unfold mstLoop at h
    split at h
    · split at h
      · rename_i hscan
        simp only [Option.some.injEq] at h
        exact ⟨st, hP, h, Or.inr hscan⟩
      · rename_i e w hscan
        exact ih _ R (hstep st e w hP hscan) h
    · rename_i hlen
      simp only [Option.some.injEq] at h
      exact ⟨st, hP, h, Or.inl (List.length_eq_zero.1 (by omega))⟩

theorem length_setRemove_le (s : List FVector) (x : FVector) :
    (setRemove s x).length ≤ s.length :=
  List.length_filter_le _ _

theorem length_setRemove_lt {s : List FVector} {x : FVector} (h : x ∈ s) :
    (setRemove s x).length < s.length := by
  unfold setRemove
  rw [List.length_filter_lt_length_iff_exists]
  exact ⟨x, h, by simp⟩

/-- The growth loop ends within `openSet.Num()` iterations: every chosen edge
takes its open end point out of `openSet`. -/
theorem mstLoop_terminates (D : FVector → FVector → W) (edges : List FEdge) :
    ∀ fuel st, (∀ x ∈ vertices edges, x ∈ st.closedSet ∨ x ∈ st.openSet) →
      st.openSet.length ≤ fuel → ∃ R, mstLoop D edges fuel st = some R := by
  intro fuel
  induction fuel with
  | zero =>
    intro st _ hlen
    unfold mstLoop
    have : ¬ 0 < st.openSet.length := by omega
    simp [this]
  | succ n ih =>
    intro st hcover hlen
    unfold mstLoop
    split
    · split
      · exact ⟨_, rfl⟩
      · rename_i e w hscan
        obtain ⟨he, hc, -, -⟩ := scanEdges_some hscan
        obtain ⟨u, v, hu, hv, hj, hcl⟩ := choose_closedSet hc
        have hvV : v ∈ vertices edges := by
          rcases hj with ⟨-, h1⟩ | ⟨h0, -⟩
          · exact mem_vertices.2 ⟨e, he, Or.inr h1⟩
          · exact mem_vertices.2 ⟨e, he, Or.inl h0⟩
        have hvo : v ∈ st.openSet := (hcover v hvV).resolve_left hv
        apply ih
        · intro x hx
          by_cases hx0 : x = e.Vertex0
          · left; simp only [MSTState.choose, mem_setAdd]; tauto
          by_cases hx1 : x = e.Vertex1
          · left; simp only [MSTState.choose, mem_setAdd]; tauto
          rcases hcover x hx with h | h
          · left; simp only [MSTState.choose, mem_setAdd]; tauto
          · right; simp only [MSTState.choose, mem_setRemove]; tauto
        · have hlt : (st.choose e).openSet.length < st.openSet.length := by
            simp only [MSTState.choose]
            rcases hj with ⟨-, h1⟩ | ⟨h0, -⟩
            · have hv1 : e.Vertex1 ∈ setRemove st.openSet e.Vertex0 := by
                rw [mem_setRemove]
                refine ⟨h1 ▸ hvo, ?_⟩
                intro h; apply hv; rw [← h1, h]
                rcases closedVertices_eq_one.1 hc with ⟨a, b⟩ | ⟨a, b⟩
                · exact a
                · exact absurd (h1 ▸ b) hv
              exact lt_of_lt_of_le (length_setRemove_lt hv1) (length_setRemove_le _ _)
            · exact lt_of_le_of_lt (length_setRemove_le _ _) (length_setRemove_lt (h0 ▸ hvo))
          omega
    · exact ⟨_, rfl⟩

/-- Appending a pendant edge (one end point new, the other not) keeps an
edge list acyclic. -/
theorem acyclic_append_pendant {es : List FEdge} {e : FEdge} {u v : FVector}
    (hacyc : Acyclic es) (hv : v ∉ vertices es) (hj : Joins e u v) (huv : u ≠ v) :
    Acyclic (es ++ [e]) := by
  intro i hi hreach
  have hev : e.Vertex0 = v ∨ e.Vertex1 = v := by
    rcases hj with ⟨-, h1⟩ | ⟨h0, -⟩
    · exact Or.inr h1
    · exact Or.inl h0
  by_cases hlt : i < es.length
  · rw [List.eraseIdx_append_of_lt_length hlt] at hreach
    have hget : (es ++ [e]).get ⟨i, hi⟩ = es.get ⟨i, hlt⟩ := by
      simp [List.getElem_append_left hlt]
    rw [hget] at hreach
    have hmem : es.get ⟨i, hlt⟩ ∈ es := List.get_mem es i hlt
    have hv' : v ∉ vertices (es.eraseIdx i) := by
      intro h
      obtain ⟨f, hf, hfv⟩ := mem_vertices.1 h
      exact hv (mem_vertices.2 ⟨f, List.mem_of_mem_eraseIdx hf, hfv⟩)
    have h0 : (es.get ⟨i, hlt⟩).Vertex0 ≠ v := by
      intro h
      exact hv (mem_vertices.2 ⟨_, hmem, Or.inl h⟩)
    have h1 : (es.get ⟨i, hlt⟩).Vertex1 ≠ v := by
      intro h
      exact hv (mem_vertices.2 ⟨_, hmem, Or.inr h⟩)
    exact hacyc i hlt (reach_of_pendant hv' hev hreach h0 h1)
  · have hlen : (es ++ [e]).length = es.length + 1 := by simp
    have hieq : i = es.length := by omega
    subst hieq
    have herase : (es ++ [e]).eraseIdx es.length = es := by
      rw [List.eraseIdx_append_of_length_le (le_refl _)]
      simp
    have hget : (es ++ [e]).get ⟨es.length, hi⟩ = e := by
      simp
    rw [herase, hget] at hreach
    rcases hreach.eq_or_mem with h | ⟨h0, h1⟩
    · rcases hj with ⟨g0, g1⟩ | ⟨g0, g1⟩
      · exact huv (g0.symm.trans (h.trans g1))
      · exact huv (g1.symm.trans (h.symm.trans g0))
    · rcases hev with g | g
      · exact hv (g ▸ h0)
      · exact hv (g ▸ h1)

theorem treeInv_init (edges : List FEdge) (start : FVector) (hstart : start ∈ vertices edges) :
    TreeInv edges start
      { openSet := initOpenSet edges, closedSet := setAdd [] start, results := [] } := by
  have hs : setAdd [] start = [start] := by simp [setAdd]
  refine ⟨?_, ?_, ?_, ?_, ?_, ?_, ?_, ?_⟩
  · simp [hs]
  · simp [hs]
  · simp [hs]
  · intro x hx
    simp only [hs, List.mem_singleton] at hx
    subst hx
    exact Relation.ReflTransGen.refl
  · intro x hx
    simp [vertices] at hx
  · intro i hi
    simp at hi
  · intro e he
    simp at he
  · intro x hx
    simp only [hs, List.mem_singleton] at hx
    subst hx
    exact hstart

theorem treeInv_step (D : FVector → FVector → W) (edges : List FEdge) (start : FVector)
    (st : MSTState) (e : FEdge) (w : W) (hinv : TreeInv edges start st)
    (hscan : scanEdges D st.closedSet edges = some (e, w)) :
    TreeInv edges start (st.choose e) := by
  obtain ⟨he, hc, -, -⟩ := scanEdges_some hscan
  obtain ⟨u, v, hu, hv, hj, hcl⟩ := choose_closedSet hc
  have hres : (st.choose e).results = st.results ++ [e] := rfl
  have hvres : v ∉ vertices st.results := fun h => hv (hinv.verts v h)
  have huv : u ≠ v := fun h => hv (h ▸ hu)
  have hends : ∀ x, (e.Vertex0 = x ∨ e.Vertex1 = x) → x ∈ st.closedSet ++ [v] := by
    intro x hx
    simp only [List.mem_append, List.mem_singleton]
    rcases hj with ⟨g0, g1⟩ | ⟨g0, g1⟩ <;> rcases hx with h | h
    · left; rw [← h, g0]; exact hu
    · right; rw [← h, g1]
    · right; rw [← h, g0]
    · left; rw [← h, g1]; exact hu
  refine ⟨?_, ?_, ?_, ?_, ?_, ?_, ?_, ?_⟩
  · rw [hcl, List.nodup_append]
    refine ⟨hinv.nodup, List.nodup_singleton v, ?_⟩
    intro a ha hb
    simp only [List.mem_singleton] at hb
    subst hb
    exact hv ha
  · rw [hcl, hres]
    simp [hinv.card]
  · rw [hcl]
    exact List.mem_append_left _ hinv.start_mem
  · intro x hx
    rw [hcl] at hx
    rw [hres]
    have hmono : ∀ f ∈ st.results, f ∈ st.results ++ [e] :=
      fun f hf => List.mem_append_left _ hf
    rcases List.mem_append.1 hx with h | h
    · exact (hinv.reach x h).mono hmono
    · simp only [List.mem_singleton] at h
      subst h
      exact ((hinv.reach u hu).mono hmono).trans
        (Reach.single (adj_append_singleton.2 (Or.inr hj)))
  · intro x hx
    rw [hres] at hx
    rw [hcl]
    obtain ⟨f, hf, hfx⟩ := mem_vertices.1 hx
    rcases List.mem_append.1 hf with h | h
    · exact List.mem_append_left _ (hinv.verts x (mem_vertices.2 ⟨f, h, hfx⟩))
    · simp only [List.mem_singleton] at h
      subst h
      exact hends x hfx
  · rw [hres]
    exact acyclic_append_pendant hinv.acyclic hvres hj huv
  · intro f hf
    rw [hres] at hf
    rcases List.mem_append.1 hf with h | h
    · exact hinv.sub f h
    · simp only [List.mem_singleton] at h
      subst h
      exact he
  · intro x hx
    rw [hcl] at hx
    rcases List.mem_append.1 hx with h | h
    · exact hinv.closed_sub x h
    · simp only [List.mem_singleton] at h
      subst h
      rcases hj with ⟨-, g1⟩ | ⟨g0, -⟩
      · exact mem_vertices.2 ⟨e, he, Or.inr g1⟩
      · exact mem_vertices.2 ⟨e, he, Or.inl g0⟩

/-- When the scan finds no edge leaving the closed set, the closed set is
closed under walks of the candidate graph. -/
theorem closed_of_reach {closedSet : List FVector} {edges : List FEdge}
    (hnone : ∀ e ∈ edges, closedVertices closedSet e ≠ 1) {x y : FVector}
    (h : Reach edges x y) (hx : x ∈ closedSet) : y ∈ closedSet := by
  induction h with
  | refl => exact hx
  | tail _ hbc ih =>
    obtain ⟨e, he, hj⟩ := hbc
    by_contra hy
    apply hnone e he
    rw [closedVertices_eq_one]
    rcases hj with ⟨g0, g1⟩ | ⟨g0, g1⟩
    · left; rw [g0, g1]; exact ⟨ih, hy⟩
    · right; rw [g0, g1]; exact ⟨hy, ih⟩

theorem initial_cover (edges : List FEdge) (start : FVector) :
    ∀ x ∈ vertices edges, x ∈ setAdd [] start ∨ x ∈ initOpenSet edges :=
  fun _ hx => Or.inr (mem_initOpenSet.2 hx)

/-- The function `MinimumSpanningTree` returns on every input. -/
theorem mst_returns (D : FVector → FVector → W) (edges : List FEdge) (start : FVector) :
    ∃ R, MinimumSpanningTree D edges start = some R :=
  mstLoop_terminates D edges _ _ (initial_cover edges start) (le_refl _)

/-- Walks of `G` either avoid one occurrence of the edge `f` or pass through
it a last time. -/
theorem reach_split (G : List FEdge) (f : FEdge) {a b : FVector} (h : Reach G a b) :
    Reach (G.erase f) a b ∨
      ∃ p q, Joins f p q ∧ Reach (G.erase f) a p ∧ Reach (G.erase f) q b := by
  induction h with
  | refl => exact Or.inl Relation.ReflTransGen.refl
  | @tail b c _ hbc ih =>
    have hadj : Adj (G.erase f) b c ∨ Joins f b c := by
      obtain ⟨g, hg, hj⟩ := hbc
      by_cases hgf : g = f
      · subst hgf; exact Or.inr hj
      · exact Or.inl ⟨g, (List.mem_erase_of_ne hgf).2 hg, hj⟩
    rcases ih with h1 | ⟨p, q, hpq, hap, hqb⟩
    · rcases hadj with h2 | h2
      · exact Or.inl (h1.trans (Reach.single h2))
      · exact Or.inr ⟨b, c, h2, h1, Relation.ReflTransGen.refl⟩
    · rcases hadj with h2 | h2
      · exact Or.inr ⟨p, q, hpq, hap, hqb.trans (Reach.single h2)⟩
      · rcases hpq with ⟨g0, g1⟩ | ⟨g0, g1⟩ <;> rcases h2 with ⟨k0, k1⟩ | ⟨k0, k1⟩
        · have hc : c = q := k1.symm.trans g1
          exact Or.inr ⟨p, c, Or.inl ⟨g0, hc ▸ g1⟩, hap, Relation.ReflTransGen.refl⟩
        · have hc : c = p := k0.symm.trans g0
          exact Or.inl (hc ▸ hap)
        · have hc : c = p := k1.symm.trans g1
          exact Or.inl (hc ▸ hap)
        · have hc : c = q := k0.symm.trans g0
          exact Or.inr ⟨p, c, Or.inr ⟨hc ▸ g0, g1⟩, hap, Relation.ReflTransGen.refl⟩

/-- A walk that leaves the set `C` uses an edge `f` across the boundary of
`C` such that, with one occurrence of `f` taken out, the start of the walk
still reaches the inner end point of `f` and the outer end point still
reaches the end of the walk. -/
theorem exists_crossing_edge (C : FVector → Prop) :
    ∀ (n : Nat) (G : List FEdge), G.length = n → ∀ a b, C a → ¬ C b → Reach G a b →
      ∃ f ∈ G, ∃ x y, Joins f x y ∧ C x ∧ ¬ C y ∧
        Reach (G.erase f) a x ∧ Reach (G.erase f) y b := by
  intro n
  induction n using Nat.strong_induction_on with
  | _ n IH =>
    intro G hlen a b ha hb hreach
    revert ha
    refine Relation.ReflTransGen.head_induction_on
      (P := fun a _ => C a → ∃ f ∈ G, ∃ x y, Joins f x y ∧ C x ∧ ¬ C y ∧
        Reach (G.erase f) a x ∧ Reach (G.erase f) y b) hreach ?_ ?_
    · intro hb'
      exact absurd hb' hb
    · intro a c hac hcb ih ha
      obtain ⟨g, hg, hj⟩ := hac
      by_cases hc : C c
      · obtain ⟨f, hf, x, y, hfj, hx, hy, hcx, hyb⟩ := ih hc
        have hgf : g ≠ f := by
          intro h
          subst h
          rcases hj with ⟨g0, g1⟩ | ⟨g0, g1⟩ <;> rcases hfj with ⟨k0, k1⟩ | ⟨k0, k1⟩
          · exact hy ((g1.symm.trans k1) ▸ hc)
          · exact hy ((g0.symm.trans k0) ▸ ha)
          · exact hy ((g1.symm.trans k1) ▸ ha)
          · exact hy ((g0.symm.trans k0) ▸ hc)
        have hstep : Adj (G.erase f) a c := ⟨g, (List.mem_erase_of_ne hgf).2 hg, hj⟩
        exact ⟨f, hf, x, y, hfj, hx, hy, (Reach.single hstep).trans hcx, hyb⟩
      · have direct : Reach (G.erase g) c b →
            ∃ f ∈ G, ∃ x y, Joins f x y ∧ C x ∧ ¬ C y ∧
              Reach (G.erase f) a x ∧ Reach (G.erase f) y b :=
          fun h => ⟨g, hg, a, c, hj, ha, hc, Relation.ReflTransGen.refl, h⟩
        have smaller : Reach (G.erase g) a b →
            ∃ f ∈ G, ∃ x y, Joins f x y ∧ C x ∧ ¬ C y ∧
              Reach (G.erase f) a x ∧ Reach (G.erase f) y b := by
          intro h
          have hlt : (G.erase g).length < n := by
            rw [List.length_erase_of_mem hg, ← hlen]
            have : 0 < G.length := List.length_pos_of_mem hg
            omega
          obtain ⟨f, hf, x, y, hfj, hx, hy, hax, hyb⟩ :=
            IH _ hlt (G.erase g) rfl a b ha hb h
          have hsub : ∀ e ∈ (G.erase g).erase f, e ∈ G.erase f := by
            intro e he
            rw [List.erase_comm] at he
            exact List.mem_of_mem_erase he
          exact ⟨f, List.mem_of_mem_erase hf, x, y, hfj, hx, hy, hax.mono hsub, hyb.mono hsub⟩
        rcases reach_split G g hcb with h | ⟨p, q, hpq, hcp, hqb⟩
        · exact direct h
        · rcases hpq with ⟨g0, g1⟩ | ⟨g0, g1⟩ <;> rcases hj with ⟨k0, k1⟩ | ⟨k0, k1⟩
          · exact direct ((g1.symm.trans k1) ▸ hqb)
          · exact smaller ((g1.symm.trans k1) ▸ hqb)
          · exact smaller ((g0.symm.trans k0) ▸ hqb)
          · exact direct ((g0.symm.trans k0) ▸ hqb)

theorem sampleEdges_spans : Spans sampleEdges sampleEdges := by
  have h1 : Reach sampleEdges ⟨0,0,0⟩ ⟨5,0,0⟩ :=
    Reach.single ⟨⟨⟨0,0,0⟩, ⟨5,0,0⟩⟩, by decide, Or.inl ⟨rfl, rfl⟩⟩
  have h2 : Reach sampleEdges ⟨0,0,0⟩ ⟨5,5,0⟩ :=
    Reach.single ⟨⟨⟨0,0,0⟩, ⟨5,5,0⟩⟩, by decide, Or.inl ⟨rfl, rfl⟩⟩
  have h3 : Reach sampleEdges ⟨0,0,0⟩ ⟨5,5,5⟩ :=
    h2.trans (Reach.single ⟨⟨⟨5,5,0⟩, ⟨5,5,5⟩⟩, by decide, Or.inl ⟨rfl, rfl⟩⟩)
  have h0 : Reach sampleEdges ⟨0,0,0⟩ ⟨0,0,0⟩ := Relation.ReflTransGen.refl
  have hall : ∀ x ∈ vertices sampleEdges, Reach sampleEdges ⟨0,0,0⟩ x := by
    intro x hx
    simp only [sampleEdges, vertices, List.foldr_cons, List.foldr_nil, List.mem_cons,
      List.mem_nil_iff, or_false] at hx
    rcases hx with rfl | rfl | rfl | rfl | rfl | rfl | rfl | rfl <;> assumption
  intro x hx y hy
  exact (hall x hx).symm.trans (hall y hy)

theorem distSq_nonneg (a b : FVector) : 0 ≤ distSq a b :=
  add_nonneg (add_nonneg (mul_self_nonneg _) (mul_self_nonneg _)) (mul_self_nonneg _)

end MSTLemmas

section MSTWeight

variable {W : Type} [LinearOrderedAddCommMonoid W]

theorem totalWeight_append (D : FVector → FVector → W) (l1 l2 : List FEdge) :
    totalWeight D (l1 ++ l2) = totalWeight D l1 + totalWeight D l2 := by
  simp [totalWeight]

theorem totalWeight_nonneg (D : FVector → FVector → W) (hD : ∀ a b, 0 ≤ D a b)
    (l : List FEdge) : 0 ≤ totalWeight D l := by
  unfold totalWeight
  apply List.sum_nonneg
  intro x hx
  obtain ⟨e, -, rfl⟩ := List.mem_map.1 hx
  exact hD _ _

theorem totalWeight_erase (D : FVector → FVector → W) {l : List FEdge} {f : FEdge}
    (hf : f ∈ l) : totalWeight D l = D f.Vertex0 f.Vertex1 + totalWeight D (l.erase f) := by
  unfold totalWeight
  rw [((List.perm_cons_erase hf).map _).sum_eq]
  simp

/-- The exchange step: the edge chosen by the scan can replace an edge of
`rest` that crosses the same cut. -/
theorem minInv_step (D : FVector → FVector → W) (edges T : List FEdge) (st : MSTState)
    (e : FEdge) (w : W) (hinv : MinInv D edges T st)
    (hscan : scanEdges D st.closedSet edges = some (e, w)) :
    MinInv D edges T (st.choose e) := by
  obtain ⟨hverts, rest, hrest, hspan, hweight⟩ := hinv
  obtain ⟨he, hc, hw, hmin⟩ := scanEdges_some hscan
  obtain ⟨u, v, hu, hv, hj, hcl⟩ := choose_closedSet hc
  have hres : (st.choose e).results = st.results ++ [e] := rfl
  have huV : u ∈ vertices edges := by
    rcases hj with ⟨g0, -⟩ | ⟨-, g1⟩
    · exact mem_vertices.2 ⟨e, he, Or.inl g0⟩
    · exact mem_vertices.2 ⟨e, he, Or.inr g1⟩
  have hvV : v ∈ vertices edges := by
    rcases hj with ⟨-, g1⟩ | ⟨g0, -⟩
    · exact mem_vertices.2 ⟨e, he, Or.inr g1⟩
    · exact mem_vertices.2 ⟨e, he, Or.inl g0⟩
  obtain ⟨f, hf, x, y, hfj, hx, hy, hux, hyv⟩ :=
    exists_crossing_edge (fun z => z ∈ st.closedSet) _ (st.results ++ rest) rfl u v hu hv
      (hspan u huV v hvV)
  have hfres : f ∉ st.results := by
    intro h
    apply hy
    apply hverts
    rcases hfj with ⟨-, g1⟩ | ⟨g0, -⟩
    · exact mem_vertices.2 ⟨f, h, Or.inr g1⟩
    · exact mem_vertices.2 ⟨f, h, Or.inl g0⟩
  have hfrest : f ∈ rest := (List.mem_append.1 hf).resolve_left hfres
  have herase : (st.results ++ rest).erase f = st.results ++ rest.erase f :=
    List.erase_append_right _ hfres
  rw [herase] at hux hyv
  have hsub : ∀ g ∈ st.results ++ rest.erase f, g ∈ (st.results ++ [e]) ++ rest.erase f := by
    intro g hg
    simp only [List.mem_append, List.mem_singleton] at hg ⊢
    tauto
  have hxy : Reach ((st.results ++ [e]) ++ rest.erase f) x y :=
    ((hux.symm.mono hsub).trans
      (Reach.single ⟨e, by simp, hj⟩)).trans (hyv.symm.mono hsub)
  refine ⟨?_, rest.erase f, fun g hg => hrest g (List.mem_of_mem_erase hg), ?_, ?_⟩
  · intro z hz
    rw [hres] at hz
    rw [hcl]
    obtain ⟨g, hg, hgz⟩ := mem_vertices.1 hz
    simp only [List.mem_append, List.mem_singleton] at hg ⊢
    rcases hg with h | h
    · exact Or.inl (hverts z (mem_vertices.2 ⟨g, h, hgz⟩))
    · subst h
      rcases hj with ⟨g0, g1⟩ | ⟨g0, g1⟩ <;> rcases hgz with k | k
      · left; rw [← k, g0]; exact hu
      · right; rw [← k, g1]
      · right; rw [← k, g0]
      · left; rw [← k, g1]; exact hu
  · rw [hres]
    intro a ha b hb
    have hab := hspan a ha b hb
    rcases reach_split _ f hab with h | ⟨p, q, hpq, hap, hqb⟩
    · rw [herase] at h
      exact h.mono hsub
    · rw [herase] at hap hqb
      have hpq' : Reach ((st.results ++ [e]) ++ rest.erase f) p q := by
        rcases hpq with ⟨g0, g1⟩ | ⟨g0, g1⟩ <;> rcases hfj with ⟨k0, k1⟩ | ⟨k0, k1⟩
        · rw [← g0, ← g1, k0, k1]; exact hxy
        · rw [← g0, ← g1, k0, k1]; exact hxy.symm
        · rw [← g0, ← g1, k0, k1]; exact hxy.symm
        · rw [← g0, ← g1, k0, k1]; exact hxy
      exact ((hap.mono hsub).trans hpq').trans (hqb.mono hsub)
  · rw [hres]
    have hcf : closedVertices st.closedSet f = 1 := by
      rw [closedVertices_eq_one]
      rcases hfj with ⟨k0, k1⟩ | ⟨k0, k1⟩
      · left; rw [k0, k1]; exact ⟨hx, hy⟩
      · right; rw [k0, k1]; exact ⟨hy, hx⟩
    have hle : D e.Vertex0 e.Vertex1 ≤ D f.Vertex0 f.Vertex1 :=
      hw ▸ hmin f (hrest f hfrest) hcf
    calc totalWeight D ((st.results ++ [e]) ++ rest.erase f)
        = totalWeight D st.results + (D e.Vertex0 e.Vertex1 + totalWeight D (rest.erase f)) := by
          simp [totalWeight_append, totalWeight, add_assoc]
      _ ≤ totalWeight D st.results + (D f.Vertex0 f.Vertex1 + totalWeight D (rest.erase f)) :=
          add_le_add_left (add_le_add_right hle _) _
      _ = totalWeight D (st.results ++ rest) := by
          rw [totalWeight_append, totalWeight_erase D hfrest]
      _ ≤ totalWeight D T := hweight

end MSTWeight

/-! ## Theorems: spatial graph builder -/

section MSTTheorems

variable {W : Type} [LinearOrder W]

/-- The spanning-tree property of the growth loop: on a connected candidate
graph, started at one of its vertices, it returns `|V| - 1` candidate edges
that are acyclic and join all vertices. -/
theorem mst_spanning_core (Distance : FVector → FVector → W) (edges : List FEdge)
    (startVertex : FVector) (hconn : Spans edges edges)
    (hstart : startVertex ∈ vertices edges) :
    ∃ R, MinimumSpanningTree Distance edges startVertex = some R ∧
      R.length = (vertices edges).toFinset.card - 1 ∧
      Acyclic R ∧ Spans R edges ∧ ∀ e ∈ R, e ∈ edges := by
  obtain ⟨R, hR⟩ := mst_returns Distance edges startVertex
  refine ⟨R, hR, ?_⟩
  obtain ⟨st, hinv, hres, hstop⟩ :=
    mstLoop_sound Distance edges (fun st => TreeInv edges startVertex st ∧
        ∀ x ∈ vertices edges, x ∈ st.closedSet ∨ x ∈ st.openSet)
      (fun st e w hP hscan => by
        refine ⟨treeInv_step Distance edges startVertex st e w hP.1 hscan, ?_⟩
        intro x hx
        by_cases hx0 : x = e.Vertex0
        · left; simp only [MSTState.choose, mem_setAdd]; tauto
        by_cases hx1 : x = e.Vertex1
        · left; simp only [MSTState.choose, mem_setAdd]; tauto
        rcases hP.2 x hx with h | h
        · left; simp only [MSTState.choose, mem_setAdd]; tauto
        · right; simp only [MSTState.choose, mem_setRemove]; tauto)
      _ _ R ⟨treeInv_init edges startVertex hstart, initial_cover edges startVertex⟩ hR
  obtain ⟨hinv, hcover⟩ := hinv
  have hall : ∀ x ∈ vertices edges, x ∈ st.closedSet := by
    intro x hx
    rcases hstop with h | h
    · rcases hcover x hx with h' | h'
      · exact h'
      · rw [h] at h'; cases h'
    · exact closed_of_reach (scanEdges_none h) (hconn _ hstart _ hx) hinv.start_mem
  have hset : st.closedSet.toFinset = (vertices edges).toFinset := by
    ext x
    simp only [List.mem_toFinset]
    exact ⟨hinv.closed_sub x, hall x⟩
  have hcard : st.closedSet.length = (vertices edges).toFinset.card := by
    rw [← hset, List.toFinset_card_of_nodup hinv.nodup]
  subst hres
  refine ⟨?_, hinv.acyclic, ?_, hinv.sub⟩
  · have := hinv.card
    omega
  · intro x hx y hy
    exact (hinv.reach x (hall x hx)).symm.trans (hinv.reach y (hall y hy))

/-- Claim C1.  For a connected candidate graph and a start vertex that is an
end point of some candidate edge, `MinimumSpanningTree` returns a list of
exactly `|V| - 1` candidate edges (`V` the set of end points of the candidates)
that is acyclic and joins every two vertices of `V`. -/
theorem mst_is_spanning_tree (Distance : FVector → FVector → W) (edges : List FEdge)
    (startVertex : FVector) (hconn : Spans edges edges)
    (hstart : startVertex ∈ vertices edges) :
    ∃ R, MinimumSpanningTree Distance edges startVertex = some R ∧
      R.length = (vertices edges).toFinset.card - 1 ∧
      Acyclic R ∧ Spans R edges ∧ ∀ e ∈ R, e ∈ edges :=
  mst_spanning_core Distance edges startVertex hconn hstart

/-- Claim C1, at a concrete input: a square corner with its diagonal and a
vertex one floor up. -/
theorem mst_is_spanning_tree_witness :
    ∃ R, MinimumSpanningTree distSq sampleEdges ⟨0,0,0⟩ = some R ∧
      R.length = (vertices sampleEdges).toFinset.card - 1 ∧
      Acyclic R ∧ Spans R sampleEdges ∧ ∀ e ∈ R, e ∈ sampleEdges :=
  mst_is_spanning_tree distSq sampleEdges ⟨0,0,0⟩ sampleEdges_spans (by decide)

/-- Claim C2.  With weights given by a non-negative distance, the total
weight of the edges returned by `MinimumSpanningTree` is at most the total
weight of every list `T` of candidate edges that joins all vertices, in
particular of every spanning tree formed from the candidate edges. -/
theorem mst_minimum_weight {W : Type} [LinearOrderedAddCommMonoid W]
    (Distance : FVector → FVector → W) (hD : ∀ a b, 0 ≤ Distance a b)
    (edges : List FEdge) (startVertex : FVector) (T : List FEdge)
    (hT : ∀ e ∈ T, e ∈ edges) (hspan : Spans T edges) :
    ∃ R, MinimumSpanningTree Distance edges startVertex = some R ∧
      totalWeight Distance R ≤ totalWeight Distance T := by
  obtain ⟨R, hR⟩ := mst_returns Distance edges startVertex
  refine ⟨R, hR, ?_⟩
  obtain ⟨st, hinv, hres, -⟩ :=
    mstLoop_sound Distance edges (MinInv Distance edges T)
      (fun st e w hP hscan => minInv_step Distance edges T st e w hP hscan)
      _ _ R ⟨by simp [vertices], T, hT, by simpa using hspan, by simp⟩ hR
  obtain ⟨-, rest, -, -, hweight⟩ := hinv
  subst hres
  calc totalWeight Distance st.results
      = totalWeight Distance st.results + 0 := (add_zero _).symm
    _ ≤ totalWeight Distance st.results + totalWeight Distance rest :=
        add_le_add_left (totalWeight_nonneg Distance hD rest) _
    _ = totalWeight Distance (st.results ++ rest) := (totalWeight_append _ _ _).symm
    _ ≤ totalWeight Distance T := hweight

/-- Claim C2, at a concrete input: the tree found in the sample graph weighs
no more than the sample graph itself. -/
theorem mst_minimum_weight_witness :
    ∃ R, MinimumSpanningTree distSq sampleEdges ⟨0,0,0⟩ = some R ∧
      totalWeight distSq R ≤ totalWeight distSq sampleEdges :=
  mst_minimum_weight distSq distSq_nonneg sampleEdges ⟨0,0,0⟩ sampleEdges
    (fun _ h => h) sampleEdges_spans

end MSTTheorems

/-! ## Theorems: loop injection -/

theorem FEdge.same_comm (a b : FEdge) : FEdge.same a b = FEdge.same b a := by
  unfold FEdge.same
  rw [Bool.eq_iff_iff]
  simp only [Bool.or_eq_true, Bool.and_eq_true, decide_eq_true_eq]
  constructor <;> rintro (⟨h0, h1⟩ | ⟨h0, h1⟩)
  · exact Or.inl ⟨h0.symm, h1.symm⟩
  · exact Or.inr ⟨h1.symm, h0.symm⟩
  · exact Or.inl ⟨h0.symm, h1.symm⟩
  · exact Or.inr ⟨h1.symm, h0.symm⟩

theorem FEdge.same_self (a : FEdge) : FEdge.same a a = true := by
  simp [FEdge.same]

theorem mem_arraySwap {l : List FEdge} {i j : Nat} {e : FEdge} (h : e ∈ arraySwap l i j) :
    e ∈ l := by
  unfold arraySwap at h
  split at h
  · rename_i a b ha hb
    rcases List.mem_or_eq_of_mem_set h with h1 | h1
    · rcases List.mem_or_eq_of_mem_set h1 with h2 | h2
      · exact h2
      · exact h2 ▸ List.getElem?_mem hb
    · exact h1 ▸ List.getElem?_mem ha
  · exact h

theorem mem_shuffleLoop (randRange : Nat → Nat) :
    ∀ (i : Nat) (l : List FEdge) (e : FEdge), e ∈ shuffleLoop randRange i l → e ∈ l := by
  intro i
  induction i with
  | zero => intro l e h; exact h
  | succ n ih =>
    intro l e h
    exact mem_arraySwap (ih _ e h)

/-- The last loop only appends, and only edges of the list it walks over. -/
theorem addLoop_spec {P : Type} [LinearOrder P] (fRand : Nat → P) (p : P) :
    ∀ (l : List FEdge) (k : Nat) (mazeEdges : List FEdge),
      ∃ added, addLoop fRand p k l mazeEdges = mazeEdges ++ added ∧ ∀ e ∈ added, e ∈ l := by
  intro l
  induction l with
  | nil => intro k m; exact ⟨[], by simp [addLoop], by simp⟩
  | cons x xs ih =>
    intro k m
    unfold addLoop
    by_cases h : fRand k < p
    · obtain ⟨added, h1, h2⟩ := ih (k + 1) (m ++ [x])
      refine ⟨x :: added, ?_, ?_⟩
      · simp only [h, if_true, h1]; simp
      · intro e he
        rcases List.mem_cons.1 he with rfl | he
        · exact List.mem_cons_self _ _
        · exact List.mem_cons_of_mem _ (h2 e he)
    · obtain ⟨added, h1, h2⟩ := ih (k + 1) m
      refine ⟨added, ?_, ?_⟩
      · simp only [h, if_false, h1]
      · intro e he
        exact List.mem_cons_of_mem _ (h2 e he)

/-- The output of `AddRandomEdgesToMST` is the MST list followed by candidate
edges that `Contains` does not find in the MST list. -/
theorem addRandomEdges_shape {P : Type} [LinearOrder P] (originalEdges mstEdges : List FEdge)
    (p : P) (randRange : Nat → Nat) (fRand : Nat → P) :
    ∃ added, AddRandomEdgesToMST originalEdges mstEdges p randRange fRand = mstEdges ++ added ∧
      ∀ e ∈ added, e ∈ originalEdges ∧ containsEdge mstEdges e = false := by
  unfold AddRandomEdgesToMST
  obtain ⟨added, h1, h2⟩ := addLoop_spec fRand p
    (shuffleLoop randRange
      ((originalEdges.filter (fun edge => !containsEdge mstEdges edge)).length - 1)
      (originalEdges.filter (fun edge => !containsEdge mstEdges edge))) 0 mstEdges
  refine ⟨added, h1, ?_⟩
  intro e he
  have := mem_shuffleLoop randRange _ _ e (h2 e he)
  simpa using this

/-- Claim C3.  The output of `AddRandomEdgesToMST` holds every MST input edge
exactly as often as the MST input does, both for plain equality and for the
engine's orientation-blind `operator==`, and every output edge that is not an
MST input edge is one of the original candidate edges. -/
theorem addRandomEdges_keeps_mst {P : Type} [LinearOrder P]
    (originalEdges mstEdges : List FEdge) (p : P) (randRange : Nat → Nat) (fRand : Nat → P) :
    (∀ m, m ∈ mstEdges →
      (AddRandomEdgesToMST originalEdges mstEdges p randRange fRand).count m =
        mstEdges.count m ∧
      (AddRandomEdgesToMST originalEdges mstEdges p randRange fRand).countP
          (fun x => FEdge.same x m) = mstEdges.countP (fun x => FEdge.same x m)) ∧
    (∀ e, e ∈ AddRandomEdgesToMST originalEdges mstEdges p randRange fRand →
      e ∉ mstEdges → e ∈ originalEdges) := by
  obtain ⟨added, hout, hadded⟩ := addRandomEdges_shape originalEdges mstEdges p randRange fRand
  rw [hout]
  have hno : ∀ m ∈ mstEdges, ∀ e ∈ added, FEdge.same e m = false := by
    intro m hm e he
    have h := (hadded e he).2
    unfold containsEdge at h
    rw [List.any_eq_false] at h
    rw [FEdge.same_comm]
    simpa using h m hm
  constructor
  · intro m hm
    constructor
    · rw [List.count_append]
      have : added.count m = 0 := by
        rw [List.count_eq_zero]
        intro h
        have := hno m hm m h
        rw [FEdge.same_self] at this
        cases this
      omega
    · rw [List.countP_append]
      have : added.countP (fun x => FEdge.same x m) = 0 := by
        rw [List.countP_eq_zero]
        intro e he
        simp [hno m hm e he]
      omega
  · intro e he hne
    rcases List.mem_append.1 he with h | h
    · exact absurd h hne
    · exact (hadded e h).1

/-- Claim C3, at a concrete input: one MST edge stored with its end points
swapped, every draw of `FRand` below the probability. -/
theorem addRandomEdges_keeps_mst_witness :
    (∀ m, m ∈ ([⟨⟨5,0,0⟩, ⟨0,0,0⟩⟩] : List FEdge) →
      (AddRandomEdgesToMST sampleEdges [⟨⟨5,0,0⟩, ⟨0,0,0⟩⟩] (1 : Int) (fun i => i + 7)
        (fun _ => 0)).count m = ([⟨⟨5,0,0⟩, ⟨0,0,0⟩⟩] : List FEdge).count m ∧
      (AddRandomEdgesToMST sampleEdges [⟨⟨5,0,0⟩, ⟨0,0,0⟩⟩] (1 : Int) (fun i => i + 7)
        (fun _ => 0)).countP (fun x => FEdge.same x m) =
          ([⟨⟨5,0,0⟩, ⟨0,0,0⟩⟩] : List FEdge).countP (fun x => FEdge.same x m)) ∧
    (∀ e, e ∈ AddRandomEdgesToMST sampleEdges [⟨⟨5,0,0⟩, ⟨0,0,0⟩⟩] (1 : Int) (fun i => i + 7)
        (fun _ => 0) → e ∉ ([⟨⟨5,0,0⟩, ⟨0,0,0⟩⟩] : List FEdge) → e ∈ sampleEdges) :=
  addRandomEdges_keeps_mst sampleEdges [⟨⟨5,0,0⟩, ⟨0,0,0⟩⟩] (1 : Int) (fun i => i + 7)
    (fun _ => 0)

/-! ## Theorems: voxel grid -/

section GridTheorems

variable {T : Type}

theorem cell?_eq_some_iff {g : Grid3D T} {index : FVector} {v : T} :
    g.cell? index = some v ↔
      0 ≤ index.X ∧ 0 ≤ index.Y ∧ 0 ≤ index.Z ∧
      ∃ plane row, g.data[index.Z.toNat]? = some plane ∧ plane[index.Y.toNat]? = some row ∧
        row[index.X.toNat]? = some v := by
  unfold Grid3D.cell?
  by_cases hneg : index.X < 0 ∨ index.Y < 0 ∨ index.Z < 0
  · simp only [hneg, if_true]
    constructor
    · intro h; cases h
    · rintro ⟨h0, h1, h2, -⟩; omega
  · simp only [hneg, if_false]
    have h0 : 0 ≤ index.X := by omega
    have h1 : 0 ≤ index.Y := by omega
    have h2 : 0 ≤ index.Z := by omega
    cases hp : g.data[index.Z.toNat]? with
    | none => simp
    | some plane =>
      cases hr : plane[index.Y.toNat]? with
      | none => simp [h0, h1, h2, hr]
      | some row => simp [h0, h1, h2, hr]

/-- A write into the storage succeeds exactly where a read does; afterwards
the written cell holds the new value and every other cell its old one. -/
theorem setCell?_spec (g : Grid3D T) (index : FVector) (v : T)
    (h : (g.cell? index).isSome) :
    ∃ g', g.setCell? index v = some g' ∧ g'.unit = g.unit ∧ g'.size = g.size ∧
      g'.borderOffset = g.borderOffset ∧ g'.cell? index = some v ∧
      ∀ j, j ≠ index → g'.cell? j = g.cell? j := by
  obtain ⟨old, hold⟩ := Option.isSome_iff_exists.1 h
  obtain ⟨h0, h1, h2, plane, row, hp, hr, hx⟩ := cell?_eq_some_iff.1 hold
  have hneg : ¬ (index.X < 0 ∨ index.Y < 0 ∨ index.Z < 0) := by omega
  have hxlt : index.X.toNat < row.length := by
    rcases List.getElem?_eq_some.1 hx with ⟨hlt, -⟩
    exact hlt
  have hylt : index.Y.toNat < plane.length := by
    rcases List.getElem?_eq_some.1 hr with ⟨hlt, -⟩
    exact hlt
  have hzlt : index.Z.toNat < g.data.length := by
    rcases List.getElem?_eq_some.1 hp with ⟨hlt, -⟩
    exact hlt
  refine ⟨⟨g.size, g.unit, g.borderOffset, g.data.set index.Z.toNat
      (plane.set index.Y.toNat (row.set index.X.toNat v))⟩, ?_, rfl, rfl, rfl, ?_, ?_⟩
  · unfold Grid3D.setCell?
    simp only [hneg, if_false, hp, hr, hxlt, if_true]
  · rw [cell?_eq_some_iff]
    refine ⟨h0, h1, h2, plane.set index.Y.toNat (row.set index.X.toNat v),
      row.set index.X.toNat v, ?_, ?_, ?_⟩
    · simp [List.getElem?_set_self hzlt]
    · simp [List.getElem?_set_self hylt]
    · simp [List.getElem?_set_self hxlt]
  · intro j hj
    unfold Grid3D.cell?
    by_cases hjneg : j.X < 0 ∨ j.Y < 0 ∨ j.Z < 0
    · simp only [hjneg, if_true]
    · simp only [hjneg, if_false]
      by_cases hz : index.Z.toNat = j.Z.toNat
      · rw [← hz]
        simp only [List.getElem?_set_self hzlt, hp]
        by_cases hy : index.Y.toNat = j.Y.toNat
        · rw [← hy]
          simp only [List.getElem?_set_self hylt, hr]
          have hxne : index.X.toNat ≠ j.X.toNat := by
            intro hxe
            apply hj
            have e1 : j.X = index.X := by omega
            have e2 : j.Y = index.Y := by omega
            have e3 : j.Z = index.Z := by omega
            cases j; cases index; simp_all
          rw [List.getElem?_set_ne hxne]
        · rw [List.getElem?_set_ne hy]
      · rw [List.getElem?_set_ne hz]

/-- On positions aligned to `unit`, `GetIndex` is one-to-one. -/
theorem GetIndex_injective_of_aligned (g : Grid3D T) {p q : FVector}
    (hp : Aligned g.unit p) (hq : Aligned g.unit q) (h : g.GetIndex p = g.GetIndex q) :
    p = q := by
  unfold Grid3D.GetIndex RoundToInt at h
  simp only [FVector.mk.injEq] at h
  obtain ⟨hx, hy, hz⟩ := h
  have ex : p.X = q.X := by
    rw [← Int.mul_tdiv_cancel' hp.1, ← Int.mul_tdiv_cancel' hq.1, hx]
  have ey : p.Y = q.Y := by
    rw [← Int.mul_tdiv_cancel' hp.2.1, ← Int.mul_tdiv_cancel' hq.2.1, hy]
  have ez : p.Z = q.Z := by
    rw [← Int.mul_tdiv_cancel' hp.2.2, ← Int.mul_tdiv_cancel' hq.2.2, hz]
  cases p; cases q; simp_all

/-- Claim C5.  Round trip through the bracket operator: at a position `pos`
aligned to `unit` that lies inside the storage, the write `grid[pos] = s`
succeeds, the read `grid[pos]` that follows returns `s`, and the value stored
at every other aligned position is as before.  This holds for every grid
value, so for every grid built with positive extents. -/
theorem grid_write_read (g : Grid3D T) (pos : FVector) (s : T)
    (halign : Aligned g.unit pos) (hin : (g.get? pos).isSome) :
    ∃ g', g.set? pos s = some g' ∧ g'.get? pos = some s ∧
      ∀ q, Aligned g.unit q → q ≠ pos → g'.get? q = g.get? q := by
  obtain ⟨g', hset, hunit, -, -, hget, hother⟩ := setCell?_spec g (g.GetIndex pos) s hin
  have hidx : ∀ q, g'.GetIndex q = g.GetIndex q := by
    intro q; unfold Grid3D.GetIndex; rw [hunit]
  refine ⟨g', hset, ?_, ?_⟩
  · unfold Grid3D.get?
    rw [hidx]; exact hget
  · intro q hq hne
    unfold Grid3D.get?
    rw [hidx]
    apply hother
    intro h
    exact hne (GetIndex_injective_of_aligned g hq halign h)

/-- Claim C5, at a concrete input: the generator's default volume
(30 x 30 x 5 with unit 5), written at position (10, 15, 0). -/
theorem grid_write_read_witness :
    ∃ g', (Grid3D.new EStructureType.NONE ⟨30, 30, 5⟩ 5 5).set? ⟨10, 15, 0⟩
        EStructureType.ROOM = some g' ∧
      g'.get? ⟨10, 15, 0⟩ = some EStructureType.ROOM ∧
      ∀ q, Aligned (Grid3D.new EStructureType.NONE ⟨30, 30, 5⟩ 5 5).unit q → q ≠ ⟨10, 15, 0⟩ →
        g'.get? q = (Grid3D.new EStructureType.NONE ⟨30, 30, 5⟩ 5 5).get? q :=
  grid_write_read (Grid3D.new EStructureType.NONE ⟨30, 30, 5⟩ 5 5) ⟨10, 15, 0⟩
    EStructureType.ROOM ⟨⟨2, rfl⟩, ⟨3, rfl⟩, ⟨0, rfl⟩⟩ (by decide)

/-- The method `InBounds` spelled out on coordinates. -/
theorem inBounds_eq_true_iff (g : Grid3D T) (pos : FVector) :
    g.InBounds pos = true ↔
      (g.borderOffset < pos.X ∧ pos.X < g.size.X - g.borderOffset) ∧
      (g.borderOffset < pos.Y ∧ pos.Y < g.size.Y - g.borderOffset) ∧
      (g.borderOffset < pos.Z ∧ pos.Z < g.size.Z - g.borderOffset) := by
  unfold Grid3D.InBounds FBox.IsInside
  simp only [FVector.sub_def, Bool.and_eq_true, decide_eq_true_eq, gt_iff_lt]
  tauto

/-- Claim C6.  `InBounds` holds exactly for the positions strictly between
`borderOffset` and `size - borderOffset` on every axis: it is false as soon as
one coordinate is at or beyond `size - borderOffset` or at or below
`borderOffset`, and true when every coordinate is strictly between. -/
theorem inBounds_iff (g : Grid3D T) (pos : FVector) :
    (g.InBounds pos = false ↔
      (pos.X ≤ g.borderOffset ∨ g.size.X - g.borderOffset ≤ pos.X) ∨
      (pos.Y ≤ g.borderOffset ∨ g.size.Y - g.borderOffset ≤ pos.Y) ∨
      (pos.Z ≤ g.borderOffset ∨ g.size.Z - g.borderOffset ≤ pos.Z)) ∧
    (g.InBounds pos = true ↔
      (g.borderOffset < pos.X ∧ pos.X < g.size.X - g.borderOffset) ∧
      (g.borderOffset < pos.Y ∧ pos.Y < g.size.Y - g.borderOffset) ∧
      (g.borderOffset < pos.Z ∧ pos.Z < g.size.Z - g.borderOffset)) := by
  refine ⟨?_, inBounds_eq_true_iff g pos⟩
  rw [← Bool.not_eq_true, inBounds_eq_true_iff]
  omega

end GridTheorems

/-! ## Theorems: cost function -/

section CostTheorems

variable {C : Type} [Zero C] [Add C]

open EStructureType

/-- What an accepted vertical transition tells about the grid. -/
theorem costFunction_vertical_inv {grid : Grid3D EStructureType} {cfg : CostSettings C}
    {Distance : FVector → FVector → C} {a b : DungeonNode C} {endPos : FVector}
    {info : DungeonPathInfo C} (hz : (b.Position - a.Position).Z ≠ 0)
    (h : CostFunction grid cfg Distance a b endPos = some info)
    (htrav : info.Traversable = true) :
    (∃ sa, grid.get? a.Position = some sa ∧ EmptyOrCorridor sa) ∧
    (∃ sb, grid.get? b.Position = some sb ∧ EmptyOrCorridor sb) ∧
    grid.InBounds (a.Position + verticalOffset (b.Position - a.Position)) = true ∧
    grid.InBounds (a.Position +
      horizontalOffset cfg.DungeonUnit (b.Position - a.Position)) = true ∧
    grid.InBounds (a.Position + horizontalOffset cfg.DungeonUnit (b.Position - a.Position) +
      verticalOffset (b.Position - a.Position)) = true ∧
    (∀ c ∈ stairCells cfg.DungeonUnit a.Position (b.Position - a.Position),
      grid.get? c = some NONE) ∧
    info = { Traversable := true,
             Cost := cfg.BaseCost + Distance b.Position endPos + cfg.ChangeFloorExtraCost,
             IsStairs := true } := by
  unfold CostFunction at h
  simp only [hz, if_false] at h
  repeat' (split at h)
  all_goals try (cases h; done)
  all_goals try (simp only [Option.some.injEq] at h; subst h; simp at htrav; done)
  rename_i _ sa hsa hca _ sb hsb hcb hin _ s1 h1 c1 _ s2 h2 c2 _ s3 h3 c3 _ s4 h4 c4
  simp only [Option.some.injEq] at h
  simp only [Bool.or_eq_true, Bool.not_eq_true', not_or, Bool.not_eq_false] at hin
  have e1 : s1 = NONE := not_not.1 c1
  have e2 : s2 = NONE := not_not.1 c2
  have e3 : s3 = NONE := not_not.1 c3
  have e4 : s4 = NONE := not_not.1 c4
  subst e1 e2 e3 e4
  refine ⟨⟨sa, hsa, ?_⟩, ⟨sb, hsb, ?_⟩, hin.1.1, hin.1.2, hin.2, ?_, h.symm⟩
  · unfold EmptyOrCorridor; tauto
  · unfold EmptyOrCorridor; tauto
  · intro c hc
    simp only [stairCells, List.mem_cons, List.mem_nil_iff, or_false] at hc
    rcases hc with rfl | rfl | rfl | rfl <;> assumption

/-- Claim C7.  For a vertical transition from `a` to `b`: if `CostFunction`
returns traversable then `a`, `b` and all four footprint cells are Empty or
Corridor; and a Room, Blocked or Stairs cell anywhere in the footprint makes
every result of `CostFunction` non-traversable. -/
theorem costFunction_stairs_sound (grid : Grid3D EStructureType) (cfg : CostSettings C)
    (Distance : FVector → FVector → C) (a b : DungeonNode C) (endPos : FVector)
    (hz : b.Position.Z ≠ a.Position.Z) :
    (∀ info, CostFunction grid cfg Distance a b endPos = some info →
      info.Traversable = true →
        (∃ sa, grid.get? a.Position = some sa ∧ EmptyOrCorridor sa) ∧
        (∃ sb, grid.get? b.Position = some sb ∧ EmptyOrCorridor sb) ∧
        ∀ c ∈ stairCells cfg.DungeonUnit a.Position (b.Position - a.Position),
          ∃ s, grid.get? c = some s ∧ EmptyOrCorridor s) ∧
    (∀ c ∈ stairCells cfg.DungeonUnit a.Position (b.Position - a.Position),
      ∀ s, grid.get? c = some s → (s = ROOM ∨ s = STOP ∨ s = STAIRS) →
        ∀ info, CostFunction grid cfg Distance a b endPos = some info →
          info.Traversable = false) := by
  have hz' : (b.Position - a.Position).Z ≠ 0 := by
    rw [FVector.sub_def]
    exact sub_ne_zero.2 hz
  constructor
  · intro info h htrav
    obtain ⟨ha, hb, -, -, -, hcells, -⟩ := costFunction_vertical_inv hz' h htrav
    exact ⟨ha, hb, fun c hc => ⟨NONE, hcells c hc, Or.inl rfl⟩⟩
  · intro c hc s hs hobst info h
    by_contra htrav
    have htrav' : info.Traversable = true := by simpa using htrav
    obtain ⟨-, -, -, -, -, hcells, -⟩ := costFunction_vertical_inv hz' h htrav'
    have := hcells c hc
    rw [hs] at this
    simp only [Option.some.injEq] at this
    subst this
    rcases hobst with h | h | h <;> cases h

/-- Claim C7, at a concrete input: a stair move of the empty sample volume
from (10, 10, 10) to (25, 10, 15). -/
theorem costFunction_stairs_sound_witness :
    (nodeAt ⟨25, 10, 15⟩).Position.Z ≠ (nodeAt ⟨10, 10, 10⟩).Position.Z ∧
    ((∀ info, CostFunction sampleGrid sampleSettings distSq (nodeAt ⟨10, 10, 10⟩)
        (nodeAt ⟨25, 10, 15⟩) ⟨30, 30, 15⟩ = some info →
      info.Traversable = true →
        (∃ sa, sampleGrid.get? (nodeAt ⟨10, 10, 10⟩).Position = some sa ∧ EmptyOrCorridor sa) ∧
        (∃ sb, sampleGrid.get? (nodeAt ⟨25, 10, 15⟩).Position = some sb ∧ EmptyOrCorridor sb) ∧
        ∀ c ∈ stairCells sampleSettings.DungeonUnit (nodeAt ⟨10, 10, 10⟩).Position
            ((nodeAt ⟨25, 10, 15⟩).Position - (nodeAt ⟨10, 10, 10⟩).Position),
          ∃ s, sampleGrid.get? c = some s ∧ EmptyOrCorridor s) ∧
    (∀ c ∈ stairCells sampleSettings.DungeonUnit (nodeAt ⟨10, 10, 10⟩).Position
        ((nodeAt ⟨25, 10, 15⟩).Position - (nodeAt ⟨10, 10, 10⟩).Position),
      ∀ s, sampleGrid.get? c = some s → (s = ROOM ∨ s = STOP ∨ s = STAIRS) →
        ∀ info, CostFunction sampleGrid sampleSettings distSq (nodeAt ⟨10, 10, 10⟩)
            (nodeAt ⟨25, 10, 15⟩) ⟨30, 30, 15⟩ = some info →
          info.Traversable = false)) :=
  ⟨by decide, costFunction_stairs_sound sampleGrid sampleSettings distSq (nodeAt ⟨10, 10, 10⟩)
    (nodeAt ⟨25, 10, 15⟩) ⟨30, 30, 15⟩ (by decide)⟩

/-- Claim C8 fails as stated: with a Corridor cell in the footprint (here at
`A + h` = (15, 10, 10)), `A` and `B` Empty, the three checked cells in bounds
and the other three footprint cells Empty, `CostFunction` returns
non-traversable. -/
theorem costFunction_rejects_corridor_in_footprint :
    (nodeAt ⟨25, 10, 15⟩).Position.Z ≠ (nodeAt ⟨10, 10, 10⟩).Position.Z ∧
    stairCells sampleSettings.DungeonUnit ⟨10, 10, 10⟩ (⟨25, 10, 15⟩ - ⟨10, 10, 10⟩) =
      [⟨15, 10, 10⟩, ⟨20, 10, 10⟩, ⟨15, 10, 15⟩, ⟨20, 10, 15⟩] ∧
    (sampleGridWith ⟨15, 10, 10⟩ HALLWAY).get? ⟨10, 10, 10⟩ = some NONE ∧
    (sampleGridWith ⟨15, 10, 10⟩ HALLWAY).get? ⟨25, 10, 15⟩ = some NONE ∧
    (sampleGridWith ⟨15, 10, 10⟩ HALLWAY).InBounds ⟨10, 10, 15⟩ = true ∧
    (sampleGridWith ⟨15, 10, 10⟩ HALLWAY).InBounds ⟨15, 10, 10⟩ = true ∧
    (sampleGridWith ⟨15, 10, 10⟩ HALLWAY).InBounds ⟨15, 10, 15⟩ = true ∧
    (sampleGridWith ⟨15, 10, 10⟩ HALLWAY).get? ⟨15, 10, 10⟩ = some HALLWAY ∧
    (sampleGridWith ⟨15, 10, 10⟩ HALLWAY).get? ⟨20, 10, 10⟩ = some NONE ∧
    (sampleGridWith ⟨15, 10, 10⟩ HALLWAY).get? ⟨15, 10, 15⟩ = some NONE ∧
    (sampleGridWith ⟨15, 10, 10⟩ HALLWAY).get? ⟨20, 10, 15⟩ = some NONE ∧
    CostFunction (sampleGridWith ⟨15, 10, 10⟩ HALLWAY) sampleSettings distSq
      (nodeAt ⟨10, 10, 10⟩) (nodeAt ⟨25, 10, 15⟩) ⟨30, 30, 15⟩ =
        some { Traversable := false, Cost := 725, IsStairs := false } := by
  decide

/-- Claim C8, amended.  For a vertical transition in which `a` and `b` are
Empty or Corridor, the cells `a + v`, `a + h` and `a + h + v` are in bounds and
each of the four footprint cells is Empty, `CostFunction` returns traversable
with the stairs flag set, at cost `BaseCost + distance(b, goal) +
ChangeFloorExtraCost`. -/
theorem costFunction_stairs_accept (grid : Grid3D EStructureType) (cfg : CostSettings C)
    (Distance : FVector → FVector → C) (a b : DungeonNode C) (endPos : FVector)
    (sa sb : EStructureType) (hz : b.Position.Z ≠ a.Position.Z)
    (ha : grid.get? a.Position = some sa) (hsa : EmptyOrCorridor sa)
    (hb : grid.get? b.Position = some sb) (hsb : EmptyOrCorridor sb)
    (hv : grid.InBounds (a.Position + verticalOffset (b.Position - a.Position)) = true)
    (hh : grid.InBounds (a.Position +
      horizontalOffset cfg.DungeonUnit (b.Position - a.Position)) = true)
    (hhv : grid.InBounds (a.Position +
      horizontalOffset cfg.DungeonUnit (b.Position - a.Position) +
      verticalOffset (b.Position - a.Position)) = true)
    (hcells : ∀ c ∈ stairCells cfg.DungeonUnit a.Position (b.Position - a.Position),
      grid.get? c = some NONE) :
    CostFunction grid cfg Distance a b endPos =
      some { Traversable := true,
             Cost := cfg.BaseCost + Distance b.Position endPos + cfg.ChangeFloorExtraCost,
             IsStairs := true } := by
  have hz' : (b.Position - a.Position).Z ≠ 0 := by
    rw [FVector.sub_def]
    exact sub_ne_zero.2 hz
  have hna : ¬ (sa ≠ NONE ∧ sa ≠ HALLWAY) := by
    unfold EmptyOrCorridor at hsa; tauto
  have hnb : ¬ (sb ≠ NONE ∧ sb ≠ HALLWAY) := by
    unfold EmptyOrCorridor at hsb; tauto
  have h1 := hcells _ (by simp [stairCells] :
    a.Position + horizontalOffset cfg.DungeonUnit (b.Position - a.Position) ∈
      stairCells cfg.DungeonUnit a.Position (b.Position - a.Position))
  have h2 := hcells _ (by simp [stairCells] :
    a.Position + (horizontalOffset cfg.DungeonUnit (b.Position - a.Position)).scale 2 ∈
      stairCells cfg.DungeonUnit a.Position (b.Position - a.Position))
  have h3 := hcells _ (by simp [stairCells] :
    a.Position + horizontalOffset cfg.DungeonUnit (b.Position - a.Position) +
      verticalOffset (b.Position - a.Position) ∈
      stairCells cfg.DungeonUnit a.Position (b.Position - a.Position))
  have h4 := hcells _ (by simp [stairCells] :
    a.Position + (horizontalOffset cfg.DungeonUnit (b.Position - a.Position)).scale 2 +
      verticalOffset (b.Position - a.Position) ∈
      stairCells cfg.DungeonUnit a.Position (b.Position - a.Position))
  unfold CostFunction
  simp only [hz', if_false, ha, hb, hna, hnb, hv, hh, hhv, h1, h2, h3, h4, Bool.not_true,
    Bool.or_self, ne_eq, not_true_eq_false, Bool.false_eq_true]

/-- Claim C8 as amended, at a concrete input: the stair move of the empty
sample volume from (10, 10, 10) to (25, 10, 15). -/
theorem costFunction_stairs_accept_witness :
    CostFunction sampleGrid sampleSettings distSq (nodeAt ⟨10, 10, 10⟩) (nodeAt ⟨25, 10, 15⟩)
        ⟨30, 30, 15⟩ =
      some { Traversable := true,
             Cost := sampleSettings.BaseCost +
               distSq (nodeAt ⟨25, 10, 15⟩).Position ⟨30, 30, 15⟩ +
               sampleSettings.ChangeFloorExtraCost,
             IsStairs := true } :=
  costFunction_stairs_accept sampleGrid sampleSettings distSq (nodeAt ⟨10, 10, 10⟩)
    (nodeAt ⟨25, 10, 15⟩) ⟨30, 30, 15⟩ NONE NONE (by decide) (by decide) (Or.inl rfl)
    (by decide) (Or.inl rfl) (by decide) (by decide) (by decide) (by decide)

/-- Claim C9.  Let the vertical transition from `a` to `b = a + 3h + v` be
one that `FindPath` offers, so that `b` passes `InBounds` of the pathfinder's
node grid, which has the size and border offset of the generator's grid, and
let `a` be in bounds.  Whenever `CostFunction` returns traversable, all four
footprint cells are in bounds and the cost is `BaseCost + distance(b, goal) +
ChangeFloorExtraCost`. -/
theorem costFunction_stairs_in_bounds (grid : Grid3D EStructureType)
    (nodeGrid : Grid3D (DungeonNode C)) (cfg : CostSettings C)
    (Distance : FVector → FVector → C) (a b : DungeonNode C) (endPos : FVector)
    (info : DungeonPathInfo C)
    (hsize : nodeGrid.size = grid.size) (hoff : nodeGrid.borderOffset = grid.borderOffset)
    (hz : b.Position.Z ≠ a.Position.Z)
    (hb : b.Position = a.Position +
      (horizontalOffset cfg.DungeonUnit (b.Position - a.Position)).scale 3 +
      verticalOffset (b.Position - a.Position))
    (hain : grid.InBounds a.Position = true) (hbin : nodeGrid.InBounds b.Position = true)
    (h : CostFunction grid cfg Distance a b endPos = some info)
    (htrav : info.Traversable = true) :
    (∀ c ∈ stairCells cfg.DungeonUnit a.Position (b.Position - a.Position),
      grid.InBounds c = true) ∧
    info.Cost = cfg.BaseCost + Distance b.Position endPos + cfg.ChangeFloorExtraCost := by
  have hz' : (b.Position - a.Position).Z ≠ 0 := by
    rw [FVector.sub_def]
    exact sub_ne_zero.2 hz
  obtain ⟨-, -, -, hh, hhv, -, hinfo⟩ := costFunction_vertical_inv hz' h htrav
  refine ⟨?_, by rw [hinfo]⟩
  rw [inBounds_eq_true_iff] at hain hbin hh hhv
  rw [hsize, hoff] at hbin
  have HZ : (horizontalOffset cfg.DungeonUnit (b.Position - a.Position)).Z = 0 := rfl
  have VX : (verticalOffset (b.Position - a.Position)).X = 0 := rfl
  have VY : (verticalOffset (b.Position - a.Position)).Y = 0 := rfl
  have eX := congrArg FVector.X hb
  have eY := congrArg FVector.Y hb
  have eZ := congrArg FVector.Z hb
  simp only [FVector.add_def, FVector.scale, HZ, VX, VY] at eX eY eZ hh hhv
  intro c hc
  simp only [stairCells, List.mem_cons, List.mem_nil_iff, or_false] at hc
  rcases hc with rfl | rfl | rfl | rfl <;> rw [inBounds_eq_true_iff] <;>
    simp only [FVector.add_def, FVector.scale, HZ, VX, VY] <;> omega

/-- Claim C9, at a concrete input: the stair move of the empty sample volume
from (10, 10, 10) to (25, 10, 15). -/
theorem costFunction_stairs_in_bounds_witness :
    (∀ c ∈ stairCells sampleSettings.DungeonUnit (nodeAt ⟨10, 10, 10⟩).Position
        ((nodeAt ⟨25, 10, 15⟩).Position - (nodeAt ⟨10, 10, 10⟩).Position),
      sampleGrid.InBounds c = true) ∧
    (⟨true, 725, true⟩ : DungeonPathInfo Int).Cost =
      sampleSettings.BaseCost + distSq (nodeAt ⟨25, 10, 15⟩).Position ⟨30, 30, 15⟩ +
        sampleSettings.ChangeFloorExtraCost :=
  costFunction_stairs_in_bounds sampleGrid sampleNodeGrid sampleSettings distSq
    (nodeAt ⟨10, 10, 10⟩) (nodeAt ⟨25, 10, 15⟩) ⟨30, 30, 15⟩ ⟨true, 725, true⟩ rfl rfl
    (by decide) (by decide) (by decide) (by decide) (by decide) rfl

/-- Claim C10 fails as stated: a flat transition into a Stairs cell (here
from (10, 10, 10) into (15, 10, 10)) is returned as not traversable; its cost
is the distance to the goal with no penalty. -/
theorem costFunction_flat_into_stairs_rejected :
    (nodeAt ⟨15, 10, 10⟩).Position.Z = (nodeAt ⟨10, 10, 10⟩).Position.Z ∧
    (sampleGridWith ⟨15, 10, 10⟩ STAIRS).get? ⟨15, 10, 10⟩ = some STAIRS ∧
    distSq ⟨15, 10, 10⟩ ⟨30, 30, 15⟩ = 650 ∧
    CostFunction (sampleGridWith ⟨15, 10, 10⟩ STAIRS) sampleSettings distSq
      (nodeAt ⟨10, 10, 10⟩) (nodeAt ⟨15, 10, 10⟩) ⟨30, 30, 15⟩ =
        some { Traversable := false, Cost := 650, IsStairs := false } := by
  decide

/-- Claim C10, amended.  For a flat transition into a cell `b` classified
Stairs or Blocked, `CostFunction` returns not traversable, with the stairs flag
clear and the cost equal to the distance from `b` to the goal, without any
penalty. -/
theorem costFunction_flat_blocked (grid : Grid3D EStructureType) (cfg : CostSettings C)
    (Distance : FVector → FVector → C) (a b : DungeonNode C) (endPos : FVector)
    (sb : EStructureType) (hz : b.Position.Z = a.Position.Z)
    (hb : grid.get? b.Position = some sb) (hsb : sb = STAIRS ∨ sb = STOP) :
    CostFunction grid cfg Distance a b endPos =
      some { Traversable := false, Cost := Distance b.Position endPos, IsStairs := false } := by
  have hz' : (b.Position - a.Position).Z = 0 := by
    rw [FVector.sub_def]
    exact sub_eq_zero.2 hz
  unfold CostFunction
  simp only [hz', if_true, hb, hsb]

/-- Claim C10 as amended, at a concrete input: the flat move from
(10, 10, 10) into a Blocked cell at (15, 10, 10). -/
theorem costFunction_flat_blocked_witness :
    CostFunction (sampleGridWith ⟨15, 10, 10⟩ STOP) sampleSettings distSq
        (nodeAt ⟨10, 10, 10⟩) (nodeAt ⟨15, 10, 10⟩) ⟨30, 30, 15⟩ =
      some { Traversable := false,
             Cost := distSq (nodeAt ⟨15, 10, 10⟩).Position ⟨30, 30, 15⟩,
             IsStairs := false } :=
  costFunction_flat_blocked (sampleGridWith ⟨15, 10, 10⟩ STOP) sampleSettings distSq
    (nodeAt ⟨10, 10, 10⟩) (nodeAt ⟨15, 10, 10⟩) ⟨30, 30, 15⟩ STOP (by decide) (by decide)
    (Or.inr rfl)

end CostTheorems

/-! ## Theorems: lattice pathfinder -/

section PathfinderTheorems

variable {T : Type}

theorem SameShape.refl (g : Grid3D T) : SameShape g g := ⟨rfl, rfl, rfl, fun _ => rfl⟩

theorem SameShape.compose {g1 g2 g3 : Grid3D T} (h12 : SameShape g1 g2) (h23 : SameShape g2 g3) :
    SameShape g1 g3 :=
  ⟨h23.1.trans h12.1, h23.2.1.trans h12.2.1, h23.2.2.1.trans h12.2.2.1,
    fun i => (h23.2.2.2 i).trans (h12.2.2.2 i)⟩

theorem SameShape.get?_isSome {g g' : Grid3D T} (h : SameShape g g') (p : FVector) :
    (g'.get? p).isSome = (g.get? p).isSome := by
  unfold Grid3D.get? Grid3D.GetIndex
  rw [h.1]
  exact h.2.2.2 _

/-- A write that succeeds went to a cell of the storage. -/
theorem cell?_isSome_of_setCell? {g g' : Grid3D T} {index : FVector} {v : T}
    (h : g.setCell? index v = some g') : (g.cell? index).isSome := by
  unfold Grid3D.setCell? at h
  unfold Grid3D.cell?
  split at h
  · cases h
  · rename_i hneg
    simp only [hneg, if_false]
    split at h
    · cases h
    · rename_i plane hp
      split at h
      · cases h
      · rename_i row hr
        split at h
        · rename_i hlt
          simp [List.getElem?_eq_getElem hlt]
        · cases h

/-- A write succeeds exactly inside the storage and keeps the shape. -/
theorem set?_sameShape {g g' : Grid3D T} {p : FVector} {v : T} (h : g.set? p v = some g') :
    (g.get? p).isSome ∧ SameShape g g' := by
  unfold Grid3D.set? at h
  have hin := cell?_isSome_of_setCell? h
  obtain ⟨g2, h2, hu, hs, hb, hget, hother⟩ := setCell?_spec g (g.GetIndex p) v hin
  rw [h] at h2
  simp only [Option.some.injEq] at h2
  subst h2
  refine ⟨hin, hu, hs, hb, ?_⟩
  intro i
  by_cases hi : i = g.GetIndex p
  · subst hi
    rw [hget]
    simpa using hin
  · rw [hother i hi]

theorem set?_of_isSome (g : Grid3D T) (p : FVector) (v : T) (h : (g.get? p).isSome) :
    ∃ g', g.set? p v = some g' := by
  obtain ⟨g', h1, -⟩ := setCell?_spec g (g.GetIndex p) v h
  exact ⟨g', h1⟩

/-- A loop of writes that ran through visited only cells of the storage and
kept the shape. -/
theorem foldlM_sameShape (f : Grid3D T → FVector → Option (Grid3D T))
    (hf : ∀ g p g', f g p = some g' → (g.get? p).isSome ∧ SameShape g g') :
    ∀ (positions : List FVector) (g g' : Grid3D T), positions.foldlM f g = some g' →
      (∀ p ∈ positions, (g.get? p).isSome) ∧ SameShape g g' := by
  intro positions
  induction positions with
  | nil =>
    intro g g' h
    simp only [List.foldlM_nil, Option.pure_def, Option.some.injEq] at h
    subst h
    exact ⟨by simp, SameShape.refl g⟩
  | cons p ps ih =>
    intro g g' h
    simp only [List.foldlM_cons, Option.bind_eq_bind] at h
    cases h1 : f g p with
    | none => rw [h1] at h; cases h
    | some g1 =>
      rw [h1] at h
      simp only [Option.some_bind] at h
      obtain ⟨hp, hs1⟩ := hf g p g1 h1
      obtain ⟨hps, hs2⟩ := ih g1 g' h
      refine ⟨?_, hs1.compose hs2⟩
      intro q hq
      rcases List.mem_cons.1 hq with rfl | hq
      · exact hp
      · rw [← hs1.get?_isSome q]
        exact hps q hq

/-- A loop of writes over cells of the storage runs through. -/
theorem foldlM_of_isSome (f : Grid3D T → FVector → Option (Grid3D T))
    (hf : ∀ g p, (g.get? p).isSome → ∃ g', f g p = some g' ∧ SameShape g g') :
    ∀ (positions : List FVector) (g : Grid3D T), (∀ p ∈ positions, (g.get? p).isSome) →
      ∃ g', positions.foldlM f g = some g' := by
  intro positions
  induction positions with
  | nil => intro g _; exact ⟨g, rfl⟩
  | cons p ps ih =>
    intro g h
    obtain ⟨g1, h1, hs1⟩ := hf g p (h p (List.mem_cons_self _ _))
    obtain ⟨g2, h2⟩ := ih g1 (fun q hq => by
      rw [hs1.get?_isSome q]
      exact h q (List.mem_cons_of_mem _ hq))
    refine ⟨g2, ?_⟩
    simp only [List.foldlM_cons, Option.bind_eq_bind, h1, Option.some_bind]
    exact h2

variable {C : Type}

/-- On a pathfinder whose node grid has the extent a successful construction
gave it, `ResetNodes` runs through: it visits the cells the constructor has
written. -/
theorem resetNodes_ok (MAX_flt : C) (size : FVector) (unitSize : Int)
    (built pf : DungeonPathfinder3D C)
    (hnew : DungeonPathfinder3D.new MAX_flt size unitSize = .ok built)
    (hshape : SameShape built.grid pf.grid) (hunit : pf.unitSize = built.unitSize) :
    ∃ pf1, ResetNodes MAX_flt pf = .ok pf1 := by
  unfold DungeonPathfinder3D.new at hnew
  cases hpos : loopPositions size unitSize with
  | none => simp [hpos] at hnew
  | some positions =>
    simp only [hpos] at hnew
    split at hnew
    · cases hnew
    · rename_i g hfold
      simp only [Except.ok.injEq] at hnew
      subst hnew
      obtain ⟨hall, hshape0⟩ := foldlM_sameShape _
        (fun g p g' h => set?_sameShape h) positions _ g hfold
      have hsize : pf.grid.GetSize = size := by
        unfold Grid3D.GetSize
        rw [hshape.2.1, hshape0.2.1]
        unfold Grid3D.new
        split <;> rfl
      obtain ⟨g1, hg1⟩ := foldlM_of_isSome (resetNode MAX_flt)
        (fun g p hp => by
          obtain ⟨node, hnode⟩ := Option.isSome_iff_exists.1 hp
          obtain ⟨g', hg'⟩ := set?_of_isSome g p
            { node with Previous := none, Cost := MAX_flt, PreviousSet := [] } hp
          refine ⟨g', ?_, (set?_sameShape hg').2⟩
          unfold resetNode
          simp only [hnode, hg'])
        positions pf.grid (fun p hp => by
          rw [hshape.get?_isSome p, hshape0.get?_isSome p]
          exact hall p hp)
      refine ⟨{ pf with grid := g1 }, ?_⟩
      unfold ResetNodes
      simp only [hsize, hunit, hpos, hg1]

variable [LinearOrder C] [Add C] [Zero C]

/-- Claim C4.  Let the pathfinder `pf` have been built by its constructor
(the default constructor is the case of size (1, 1, 1) and unit 1) and then
used in any way that only rewrites cells of its node grid, as `FindPath`
does.  For every position `start`, every cost function and either value of
`canChangeFloors`, `FindPath(start, start, costFunction)` returns the empty
path, whatever the fuel. -/
theorem findPath_same_start_end (MAX_flt : C) (size : FVector) (unitSize : Int)
    (built pf : DungeonPathfinder3D C)
    (hnew : DungeonPathfinder3D.new MAX_flt size unitSize = .ok built)
    (hshape : SameShape built.grid pf.grid) (hunit : pf.unitSize = built.unitSize)
    (start : FVector)
    (costFunction : DungeonNode C → DungeonNode C → Option (DungeonPathInfo C))
    (canChangeFloors : Bool) (fuel : Nat) :
    FindPath MAX_flt pf start start costFunction canChangeFloors fuel = .ok [] := by
  obtain ⟨pf1, h1⟩ := resetNodes_ok MAX_flt size unitSize built pf hnew hshape hunit
  unfold FindPath
  simp only [h1, if_true]

set_option maxRecDepth 100000 in
/-- The constructor runs through on the sample volume. -/
theorem samplePathfinder_built :
    DungeonPathfinder3D.new (1000000 : Int) ⟨40, 40, 30⟩ 5 = .ok samplePathfinder := rfl

/-- Claim C4, at a concrete input: the pathfinder of the sample volume, asked
for a path from (10, 10, 10) to itself with the generator's cost function. -/
theorem findPath_same_start_end_witness :
    FindPath 1000000 samplePathfinder ⟨10, 10, 10⟩ ⟨10, 10, 10⟩
      (fun a b => CostFunction sampleGrid sampleSettings distSq a b ⟨10, 10, 10⟩) true 0 =
        .ok [] :=
  findPath_same_start_end 1000000 ⟨40, 40, 30⟩ 5 samplePathfinder samplePathfinder
    samplePathfinder_built (SameShape.refl _) rfl ⟨10, 10, 10⟩ _ true 0

end PathfinderTheorems

/-! ## Theorems: cost function, flat transitions -/

section FlatCostTheorems

variable {C : Type} [Zero C] [Add C]

open EStructureType

/-- Claim C11.  For a flat transition into a cell `b` of the grid:
`CostFunction` never sets the stairs flag; when `b` is Room the result is
traversable at cost `distance(b, goal) + RoomExtraCost`, when `b` is Empty it
is traversable at cost `distance(b, goal) + NoneExtraCost`, and when `b` is
Corridor it is traversable at cost exactly `distance(b, goal)`. -/
theorem costFunction_flat (grid : Grid3D EStructureType) (cfg : CostSettings C)
    (Distance : FVector → FVector → C) (a b : DungeonNode C) (endPos : FVector)
    (sb : EStructureType) (hz : b.Position.Z = a.Position.Z)
    (hb : grid.get? b.Position = some sb) :
    (∀ info, CostFunction grid cfg Distance a b endPos = some info → info.IsStairs = false) ∧
    (sb = ROOM → CostFunction grid cfg Distance a b endPos =
      some { Traversable := true, Cost := Distance b.Position endPos + cfg.RoomExtraCost,
             IsStairs := false }) ∧
    (sb = NONE → CostFunction grid cfg Distance a b endPos =
      some { Traversable := true, Cost := Distance b.Position endPos + cfg.NoneExtraCost,
             IsStairs := false }) ∧
    (sb = HALLWAY → CostFunction grid cfg Distance a b endPos =
      some { Traversable := true, Cost := Distance b.Position endPos, IsStairs := false }) := by
  have hz' : (b.Position - a.Position).Z = 0 := by
    rw [FVector.sub_def]
    exact sub_eq_zero.2 hz
  refine ⟨?_, ?_, ?_, ?_⟩
  · intro info h
    unfold CostFunction at h
    simp only [hz', if_true, hb] at h
    cases sb <;> simp at h <;> subst h <;> rfl
  · rintro rfl
    unfold CostFunction
    simp [hz', hb]
  · rintro rfl
    unfold CostFunction
    simp [hz', hb]
  · rintro rfl
    unfold CostFunction
    simp [hz', hb]

/-- Claim C11, at a concrete input: the flat move of the sample volume from
(10, 10, 10) into the Room cell (15, 10, 10), goal (30, 10, 10). -/
theorem costFunction_flat_witness :
    (∀ info, CostFunction (sampleGridWith ⟨15, 10, 10⟩ ROOM) sampleSettings distSq
        (nodeAt ⟨10, 10, 10⟩) (nodeAt ⟨15, 10, 10⟩) ⟨30, 10, 10⟩ = some info →
      info.IsStairs = false) ∧
    (ROOM = ROOM → CostFunction (sampleGridWith ⟨15, 10, 10⟩ ROOM) sampleSettings distSq
        (nodeAt ⟨10, 10, 10⟩) (nodeAt ⟨15, 10, 10⟩) ⟨30, 10, 10⟩ =
      some { Traversable := true,
             Cost := distSq (nodeAt ⟨15, 10, 10⟩).Position ⟨30, 10, 10⟩ +
               sampleSettings.RoomExtraCost,
             IsStairs := false }) ∧
    (ROOM = NONE → CostFunction (sampleGridWith ⟨15, 10, 10⟩ ROOM) sampleSettings distSq
        (nodeAt ⟨10, 10, 10⟩) (nodeAt ⟨15, 10, 10⟩) ⟨30, 10, 10⟩ =
      some { Traversable := true,
             Cost := distSq (nodeAt ⟨15, 10, 10⟩).Position ⟨30, 10, 10⟩ +
               sampleSettings.NoneExtraCost,
             IsStairs := false }) ∧
    (ROOM = HALLWAY → CostFunction (sampleGridWith ⟨15, 10, 10⟩ ROOM) sampleSettings distSq
        (nodeAt ⟨10, 10, 10⟩) (nodeAt ⟨15, 10, 10⟩) ⟨30, 10, 10⟩ =
      some { Traversable := true,
             Cost := distSq (nodeAt ⟨15, 10, 10⟩).Position ⟨30, 10, 10⟩,
             IsStairs := false }) :=
  costFunction_flat (sampleGridWith ⟨15, 10, 10⟩ ROOM) sampleSettings distSq
    (nodeAt ⟨10, 10, 10⟩) (nodeAt ⟨15, 10, 10⟩) ⟨30, 10, 10⟩ ROOM (by decide) (by decide)

end FlatCostTheorems

/-! ## Theorems: cleanup of unconnected rooms -/

section CleanupTheorems

theorem mem_arrayRemove {α : Type} [DecidableEq α] {l : List α} {x y : α} :
    y ∈ arrayRemove l x ↔ y ∈ l ∧ y ≠ x := by
  simp [arrayRemove]

theorem mem_removeLocation {locations : List FVector} {l x : FVector} :
    x ∈ removeLocation locations l ↔ x ∈ locations ∧ x ≠ l := by
  unfold removeLocation
  split
  · exact mem_arrayRemove
  · rename_i h
    constructor
    · intro hx
      exact ⟨hx, fun e => h (e ▸ hx)⟩
    · exact fun hx => hx.1

/-- The loop over `toBeReomved` of one room group: the listed rooms leave the
group, their locations leave the replicated list. -/
theorem foldl_removeProcRoom (actor : Nat → AMainRoom) (toRemove : List Nat) :
    ∀ (acc : List Nat × List FVector × List Nat),
      (∀ r, r ∈ (toRemove.foldl (removeProcRoom actor) acc).1 ↔ r ∈ acc.1 ∧ r ∉ toRemove) ∧
      (∀ x, x ∈ (toRemove.foldl (removeProcRoom actor) acc).2.1 ↔
        x ∈ acc.2.1 ∧ ∀ r ∈ toRemove, x ≠ (actor r).Location) ∧
      (toRemove.foldl (removeProcRoom actor) acc).2.2 = acc.2.2 ++ toRemove := by
  induction toRemove with
  | nil => intro acc; simp
  | cons t ts ih =>
    intro acc
    simp only [List.foldl_cons]
    obtain ⟨h1, h2, h3⟩ := ih (removeProcRoom actor acc t)
    refine ⟨?_, ?_, ?_⟩
    · intro r
      rw [h1]
      simp only [removeProcRoom, mem_arrayRemove, List.mem_cons, not_or]
      tauto
    · intro x
      rw [h2]
      simp only [removeProcRoom, mem_removeLocation, List.mem_cons, forall_eq_or_imp]
      tauto
    · rw [h3]
      simp [removeProcRoom]

/-- The loop over the room groups of the procedural branch. -/
theorem cleanProcGroups_spec (actor : Nat → AMainRoom) :
    ∀ (groups : List (List Nat)) (locations : List FVector) (destroyed : List Nat),
      (cleanProcGroups actor groups locations destroyed).1.length = groups.length ∧
      (∀ (i : Nat) (group : List Nat), groups[i]? = some group →
        ∃ group' : List Nat,
          (cleanProcGroups actor groups locations destroyed).1[i]? = some group' ∧
          ∀ r, r ∈ group' ↔ r ∈ group ∧ (actor r).IsConnectedToHallway = true) ∧
      (∀ x, x ∈ (cleanProcGroups actor groups locations destroyed).2.1 ↔
        x ∈ locations ∧ ∀ group ∈ groups, ∀ r ∈ group,
          (actor r).IsConnectedToHallway = false → x ≠ (actor r).Location) := by
  intro groups
  induction groups with
  | nil => intro locations destroyed; simp [cleanProcGroups]
  | cons g gs ih =>
    intro locations destroyed
    obtain ⟨f1, f2, -⟩ := foldl_removeProcRoom actor
      (g.filter (fun room => !(actor room).IsConnectedToHallway)) (g, locations, destroyed)
    obtain ⟨i1, i2, i3⟩ := ih (cleanProcGroup actor g locations destroyed).2.1
      (cleanProcGroup actor g locations destroyed).2.2
    refine ⟨?_, ?_, ?_⟩
    · simp [cleanProcGroups, i1]
    · intro i group hi
      cases i with
      | zero =>
        simp only [List.getElem?_cons_zero, Option.some.injEq] at hi
        subst hi
        refine ⟨(cleanProcGroup actor g locations destroyed).1, by simp [cleanProcGroups], ?_⟩
        intro r
        unfold cleanProcGroup
        rw [f1]
        simp only [List.mem_filter, Bool.not_eq_true', not_and, Bool.not_eq_false]
        tauto
      | succ j =>
        simp only [List.getElem?_cons_succ] at hi
        obtain ⟨group', h1, h2⟩ := i2 j group hi
        exact ⟨group', by simpa [cleanProcGroups] using h1, h2⟩
    · intro x
      simp only [cleanProcGroups]
      rw [i3]
      unfold cleanProcGroup
      rw [f2]
      simp only [List.mem_filter, Bool.not_eq_true', List.mem_cons, forall_eq_or_imp, and_imp]
      tauto

/-- Claim C18.  After `CleanUpDungeon` with procedural rooms and debug mode
off, in every room group each room whose flag `IsConnectedToHallway` is
false is gone from the group and its location is gone from
`ReplicatedRoomLocations`, and each room whose flag is true is still in the
group. -/
theorem cleanUp_procedural (st : CleanupState) (i : Nat) (group : List Nat)
    (hgroup : st.spawnedRooms[i]? = some group) :
    ∃ group', (CleanUpDungeon false true st).spawnedRooms[i]? = some group' ∧
      (∀ room ∈ group, (st.actor room).IsConnectedToHallway = false →
        room ∉ group' ∧
        (st.actor room).Location ∉ (CleanUpDungeon false true st).ReplicatedRoomLocations) ∧
      (∀ room ∈ group, (st.actor room).IsConnectedToHallway = true → room ∈ group') := by
  obtain ⟨-, h2, h3⟩ := cleanProcGroups_spec st.actor st.spawnedRooms
    st.ReplicatedRoomLocations st.destroyed
  obtain ⟨group', hg', hmem⟩ := h2 i group hgroup
  refine ⟨group', by simpa [CleanUpDungeon] using hg', ?_, ?_⟩
  · intro room hroom hflag
    constructor
    · intro h
      have := ((hmem room).1 h).2
      rw [hflag] at this
      cases this
    · intro h
      have h' : (st.actor room).Location ∈
          (cleanProcGroups st.actor st.spawnedRooms st.ReplicatedRoomLocations
            st.destroyed).2.1 := by
        simpa [CleanUpDungeon] using h
      exact ((h3 _).1 h').2 group (List.getElem?_mem hgroup) room hroom hflag rfl
  · intro room hroom hflag
    exact (hmem room).2 ⟨hroom, hflag⟩

/-- Claim C18, at a concrete input: the second room group of the sample
procedural layout. -/
theorem cleanUp_procedural_witness :
    ∃ group', (CleanUpDungeon false true sampleProcState).spawnedRooms[1]? = some group' ∧
      (∀ room ∈ [2, 3, 4], (sampleProcState.actor room).IsConnectedToHallway = false →
        room ∉ group' ∧
        (sampleProcState.actor room).Location ∉
          (CleanUpDungeon false true sampleProcState).ReplicatedRoomLocations) ∧
      (∀ room ∈ [2, 3, 4], (sampleProcState.actor room).IsConnectedToHallway = true →
        room ∈ group') :=
  cleanUp_procedural sampleProcState 1 [2, 3, 4] rfl

end CleanupTheorems

section PremadeCleanupTheorems

theorem Shrunk.then {k1 k2 : Nat → Prop} {g g1 g2 : List Nat} (h1 : Shrunk k1 g g1)
    (h2 : Shrunk k2 g1 g2) : Shrunk (fun r => k1 r ∧ k2 r) g g2 :=
  ⟨fun r hr => h1.1 r (h2.1 r hr), fun r hr hk => h2.2 r (h1.2 r hr hk.1) hk.2⟩

theorem forall₂_shrunk_refl (keep : Nat → Prop) (groups : List (List Nat)) :
    List.Forall₂ (Shrunk keep) groups groups := by
  induction groups with
  | nil => exact List.Forall₂.nil
  | cons g gs ih => exact List.Forall₂.cons ⟨fun _ h => h, fun _ h _ => h⟩ ih

theorem forall₂_shrunk_then {k1 k2 : Nat → Prop} {l l1 l2 : List (List Nat)}
    (h1 : List.Forall₂ (Shrunk k1) l l1) (h2 : List.Forall₂ (Shrunk k2) l1 l2) :
    List.Forall₂ (Shrunk (fun r => k1 r ∧ k2 r)) l l2 := by
  induction h1 generalizing l2 with
  | nil => cases h2; exact List.Forall₂.nil
  | cons hx _ ih =>
    cases h2 with
    | cons hy hys => exact List.Forall₂.cons (hx.then hy) (ih hys)

theorem forall₂_shrunk_mono {k1 k2 : Nat → Prop} (hk : ∀ r, k2 r → k1 r)
    {l l' : List (List Nat)} (h : List.Forall₂ (Shrunk k1) l l') :
    List.Forall₂ (Shrunk k2) l l' := by
  induction h with
  | nil => exact List.Forall₂.nil
  | cons hx _ ih => exact List.Forall₂.cons ⟨hx.1, fun r hr h2 => hx.2 r hr (hk r h2)⟩ ih

theorem forall₂_shrunk_getElem? {keep : Nat → Prop} {l l' : List (List Nat)}
    (h : List.Forall₂ (Shrunk keep) l l') :
    ∀ (i : Nat) (g : List Nat), l[i]? = some g →
      ∃ g' : List Nat, l'[i]? = some g' ∧ Shrunk keep g g' := by
  induction h with
  | nil => intro i g hi; simp at hi
  | cons hx _ ih =>
    intro i g hi
    cases i with
    | zero =>
      simp only [List.getElem?_cons_zero, Option.some.injEq] at hi
      subst hi
      exact ⟨_, by simp, hx⟩
    | succ j =>
      simp only [List.getElem?_cons_succ] at hi
      obtain ⟨g', h1, h2⟩ := ih j g hi
      exact ⟨g', by simpa using h1, h2⟩

theorem forall₂_shrunk_mem {keep : Nat → Prop} {l l' : List (List Nat)}
    (h : List.Forall₂ (Shrunk keep) l l') :
    ∀ g' ∈ l', ∃ g ∈ l, Shrunk keep g g' := by
  induction h with
  | nil => intro g' hg'; simp at hg'
  | @cons a b l1 l2 hx _ ih =>
    intro g' hg'
    rcases List.mem_cons.1 hg' with rfl | hg'
    · exact ⟨a, List.mem_cons_self _ _, hx⟩
    · obtain ⟨g, hg, hs⟩ := ih g' hg'
      exact ⟨g, List.mem_cons_of_mem _ hg, hs⟩

theorem groupsDisjoint_of_shrunk {keep : Nat → Prop} {l l' : List (List Nat)}
    (h : List.Forall₂ (Shrunk keep) l l') (hd : GroupsDisjoint l) : GroupsDisjoint l' := by
  unfold GroupsDisjoint at *
  induction h with
  | nil => exact List.Pairwise.nil
  | @cons a b l1 l2 hx hrest ih =>
    rw [List.pairwise_cons] at hd ⊢
    refine ⟨?_, ih hd.2⟩
    intro g2' hg2' r hr hr2
    obtain ⟨g2, hg2, hs⟩ := forall₂_shrunk_mem hrest g2' hg2'
    exact hd.1 g2 hg2 r (hx.1 r hr) (hs.1 r hr2)

/-- Taking a room out of the groups: every other room stays where it is and,
when no pointer is in two groups, the room is in no group afterwards. -/
theorem removeFromGroups_spec (room : Nat) :
    ∀ (groups : List (List Nat)) (destroyed : List Nat),
      List.Forall₂ (Shrunk (fun r => r ≠ room)) groups
        (removeFromGroups room groups destroyed).1 ∧
      (GroupsDisjoint groups → ∀ g' ∈ (removeFromGroups room groups destroyed).1, room ∉ g') := by
  intro groups
  induction groups with
  | nil =>
    intro d
    exact ⟨List.Forall₂.nil, fun _ g' hg' => by simp [removeFromGroups] at hg'⟩
  | cons g gs ih =>
    intro d
    unfold removeFromGroups
    by_cases hmem : room ∈ g
    · simp only [hmem, if_true]
      refine ⟨List.Forall₂.cons ⟨fun r hr => (mem_arrayRemove.1 hr).1,
        fun r hr hk => mem_arrayRemove.2 ⟨hr, hk⟩⟩ (forall₂_shrunk_refl _ _), ?_⟩
      intro hd g' hg'
      rcases List.mem_cons.1 hg' with rfl | hg'
      · exact fun h => (mem_arrayRemove.1 h).2 rfl
      · exact (List.pairwise_cons.1 hd).1 g' hg' room hmem
    · simp only [hmem, if_false]
      obtain ⟨h1, h2⟩ := ih (d ++ [room])
      refine ⟨List.Forall₂.cons ⟨fun _ h => h, fun _ h _ => h⟩ h1, ?_⟩
      intro hd g' hg'
      rcases List.mem_cons.1 hg' with rfl | hg'
      · exact hmem
      · exact h2 (List.pairwise_cons.1 hd).2 g' hg'

/-- The loop over `toBeReomved` of the pre-authored branch. -/
theorem foldl_removePremadeRoom (actor : Nat → AMainRoom) (toRemove : List Nat) :
    ∀ (acc : List (List Nat) × List FVector × List Nat),
      List.Forall₂ (Shrunk (fun r => r ∉ toRemove)) acc.1
        (toRemove.foldl (removePremadeRoom actor) acc).1 ∧
      (GroupsDisjoint acc.1 → ∀ room ∈ toRemove,
        ∀ g' ∈ (toRemove.foldl (removePremadeRoom actor) acc).1, room ∉ g') := by
  induction toRemove with
  | nil =>
    intro acc
    exact ⟨forall₂_shrunk_refl _ _, fun _ room h => by simp at h⟩
  | cons t ts ih =>
    intro acc
    simp only [List.foldl_cons]
    obtain ⟨s1, a1⟩ := removeFromGroups_spec t acc.1 acc.2.2
    obtain ⟨s2, a2⟩ := ih (removePremadeRoom actor acc t)
    have s1' : List.Forall₂ (Shrunk (fun r => r ≠ t)) acc.1 (removePremadeRoom actor acc t).1 :=
      s1
    refine ⟨forall₂_shrunk_mono (fun r hr => ?_) (forall₂_shrunk_then s1' s2), ?_⟩
    · simp only [List.mem_cons, not_or] at hr
      exact hr
    · intro hd room hroom g' hg'
      have hd1 : GroupsDisjoint (removePremadeRoom actor acc t).1 := groupsDisjoint_of_shrunk s1' hd
      rcases List.mem_cons.1 hroom with rfl | hroom
      · obtain ⟨g1, hg1, hs⟩ := forall₂_shrunk_mem s2 g' hg'
        exact fun h => a1 hd g1 hg1 (hs.1 _ h)
      · exact a2 hd1 room hroom g' hg'

/-- The rooms collected by the loop over `cleanupMap`: the key and the tiles
of every entry none of whose tiles is connected. -/
theorem mem_collectUnconnected (actor : Nat → AMainRoom) (map : List (Nat × List Nat)) :
    ∀ (acc : List Nat) (r : Nat),
      r ∈ map.foldl (collectUnconnected actor) acc ↔
        r ∈ acc ∨ ∃ e ∈ map, (∀ t ∈ e.2, (actor t).IsConnectedToHallway = false) ∧
          (r = e.1 ∨ r ∈ e.2) := by
  induction map with
  | nil => intro acc r; simp
  | cons e es ih =>
    intro acc r
    simp only [List.foldl_cons]
    rw [ih]
    have hsplit : (∃ e' ∈ e :: es, (∀ t ∈ e'.2, (actor t).IsConnectedToHallway = false) ∧
          (r = e'.1 ∨ r ∈ e'.2)) ↔
        ((∀ t ∈ e.2, (actor t).IsConnectedToHallway = false) ∧ (r = e.1 ∨ r ∈ e.2)) ∨
        ∃ e' ∈ es, (∀ t ∈ e'.2, (actor t).IsConnectedToHallway = false) ∧
          (r = e'.1 ∨ r ∈ e'.2) := by
      simp only [List.mem_cons, exists_eq_or_imp]
    rw [hsplit]
    generalize (∃ e' ∈ es, (∀ t ∈ e'.2, (actor t).IsConnectedToHallway = false) ∧
          (r = e'.1 ∨ r ∈ e'.2)) = Q
    unfold collectUnconnected
    by_cases hc : (e.2.any fun innerPath => (actor innerPath).IsConnectedToHallway) = true
    · have hne : ¬ ∀ t ∈ e.2, (actor t).IsConnectedToHallway = false := by
        intro h
        obtain ⟨t, ht, htc⟩ := List.any_eq_true.1 hc
        rw [h t ht] at htc
        cases htc
      simp only [hc, Bool.not_true, Bool.false_eq_true, if_false]
      tauto
    · have hall : ∀ t ∈ e.2, (actor t).IsConnectedToHallway = false := by
        intro t ht
        by_contra h
        exact hc (List.any_eq_true.2 ⟨t, ht, by simpa using h⟩)
      simp only [hc, Bool.not_false, if_true, List.mem_append, List.mem_singleton]
      tauto

/-- Claim C19.  In pre-authored mode with debug mode off, in a state in
which no room pointer is in two room groups and no tile belongs to two
entries of `cleanupMap`: for an entry none of whose interior path tiles is
connected, the room and all its tiles are in no room group after
`CleanUpDungeon`; for an entry with a connected tile, every tile is still in
the room group it was in. -/
theorem cleanUp_premade (st : CleanupState) (hgroups : GroupsDisjoint st.spawnedRooms)
    (hmap : ∀ e1 ∈ st.cleanupMap, ∀ e2 ∈ st.cleanupMap, e1 ≠ e2 →
      ∀ t ∈ e1.2, t ≠ e2.1 ∧ t ∉ e2.2)
    (e : Nat × List Nat) (he : e ∈ st.cleanupMap) :
    ((∀ t ∈ e.2, (st.actor t).IsConnectedToHallway = false) →
      ∀ r, (r = e.1 ∨ r ∈ e.2) →
        ∀ g' ∈ (CleanUpDungeon false false st).spawnedRooms, r ∉ g') ∧
    ((∃ t ∈ e.2, (st.actor t).IsConnectedToHallway = true) →
      ∀ (i : Nat) (g : List Nat), st.spawnedRooms[i]? = some g →
        ∃ g' : List Nat, (CleanUpDungeon false false st).spawnedRooms[i]? = some g' ∧
          ∀ t ∈ e.2, t ∈ g → t ∈ g') := by
  obtain ⟨hs, ha⟩ := foldl_removePremadeRoom st.actor
    (st.cleanupMap.foldl (collectUnconnected st.actor) [])
    (st.spawnedRooms, st.ReplicatedRoomLocations, st.destroyed)
  have hsp : (CleanUpDungeon false false st).spawnedRooms =
      ((st.cleanupMap.foldl (collectUnconnected st.actor) []).foldl
        (removePremadeRoom st.actor)
        (st.spawnedRooms, st.ReplicatedRoomLocations, st.destroyed)).1 := by
    simp [CleanUpDungeon]
  rw [hsp]
  constructor
  · intro hnone r hr g' hg'
    apply ha hgroups r _ g' hg'
    rw [mem_collectUnconnected]
    exact Or.inr ⟨e, he, hnone, hr⟩
  · rintro ⟨t0, ht0, hconn⟩ i g hi
    obtain ⟨g', h1, h2⟩ := forall₂_shrunk_getElem? hs i g hi
    refine ⟨g', h1, ?_⟩
    intro t ht htg
    apply h2.2 t htg
    rw [mem_collectUnconnected]
    rintro (h | ⟨e2, he2, hnone2, hr2⟩)
    · simp at h
    · have hne : e ≠ e2 := by
        rintro rfl
        rw [hnone2 t0 ht0] at hconn
        cases hconn
      obtain ⟨h3, h4⟩ := hmap e he e2 he2 hne t ht
      rcases hr2 with h | h
      · exact h3 h
      · exact h4 h

/-- Claim C19, at a concrete input: the entry of room 10 (tile 12 connected)
of the sample pre-authored layout. -/
theorem cleanUp_premade_witness :
    ((∀ t ∈ [11, 12], (samplePremadeState.actor t).IsConnectedToHallway = false) →
      ∀ r, (r = 10 ∨ r ∈ [11, 12]) →
        ∀ g' ∈ (CleanUpDungeon false false samplePremadeState).spawnedRooms, r ∉ g') ∧
    ((∃ t ∈ [11, 12], (samplePremadeState.actor t).IsConnectedToHallway = true) →
      ∀ (i : Nat) (g : List Nat), samplePremadeState.spawnedRooms[i]? = some g →
        ∃ g' : List Nat,
          (CleanUpDungeon false false samplePremadeState).spawnedRooms[i]? = some g' ∧
          ∀ t ∈ [11, 12], t ∈ g → t ∈ g') :=
  cleanUp_premade samplePremadeState (by unfold GroupsDisjoint; decide) (by decide)
    (10, [11, 12]) (by decide)

end PremadeCleanupTheorems

/-! ## Theorems: scenario A of the graph builder -/

section ScenarioATheorems

theorem addLoop_none {P : Type} [LinearOrder P] (fRand : Nat → P) (p : P)
    (hnever : ∀ k, ¬ fRand k < p) :
    ∀ (l : List FEdge) (k : Nat) (mazeEdges : List FEdge),
      addLoop fRand p k l mazeEdges = mazeEdges := by
  intro l
  induction l with
  | nil => intro k m; simp [addLoop]
  | cons x xs ih =>
    intro k m
    unfold addLoop
    simp only [hnever k, if_false]
    exact ih (k + 1) m

/-- With no draw of `FRand` below the probability nothing is added. -/
theorem addRandomEdges_none {P : Type} [LinearOrder P] (originalEdges mstEdges : List FEdge)
    (p : P) (randRange : Nat → Nat) (fRand : Nat → P) (hnever : ∀ k, ¬ fRand k < p) :
    AddRandomEdgesToMST originalEdges mstEdges p randRange fRand = mstEdges := by
  unfold AddRandomEdgesToMST
  exact addLoop_none fRand p hnever _ _ _

theorem pointAt_mem {points : List FVector} {i : Int} {v : FVector}
    (h : pointAt points i = some v) : v ∈ points := by
  unfold pointAt at h
  split at h
  · cases h
  · exact List.getElem?_mem h

/-- Every end point of an extracted edge is one of the points. -/
theorem vertices_extractEdges (points : List FVector) :
    ∀ (tetrahedra : List FIntVector4) (edges : List FEdge),
      extractEdges points tetrahedra = some edges → ∀ x ∈ vertices edges, x ∈ points := by
  intro tetrahedra
  induction tetrahedra with
  | nil =>
    intro edges h x hx
    simp only [extractEdges, Option.some.injEq] at h
    subst h
    simp [vertices] at hx
  | cons t ts ih =>
    intro edges h x hx
    unfold extractEdges at h
    split at h
    · rename_i es more hes hmore
      simp only [Option.some.injEq] at h
      subst h
      obtain ⟨e, he, hex⟩ := mem_vertices.1 hx
      rcases List.mem_append.1 he with he | he
      · unfold tetrahedronEdges at hes
        split at hes
        · rename_i v0 v1 v2 v3 h0 h1 h2 h3
          simp only [Option.some.injEq] at hes
          subst hes
          have m0 := pointAt_mem h0
          have m1 := pointAt_mem h1
          have m2 := pointAt_mem h2
          have m3 := pointAt_mem h3
          simp only [List.mem_cons, List.mem_nil_iff, or_false] at he
          rcases he with rfl | rfl | rfl | rfl | rfl | rfl <;> rcases hex with rfl | rfl <;>
            assumption
        · cases hes
      · exact ih more hmore x (mem_vertices.2 ⟨e, he, hex⟩)
    · cases h

/-- Claim C20, amended.  Scenario A: for five distinct room anchors whose
tetrahedra give a connected edge graph through all five anchors,
`FindPossibleHallwaysNormal` with loop probability 0 selects exactly 4 edges,
whatever the distance function and the random draws (`FRand` is never
negative). -/
theorem scenarioA_selects_four {W P : Type} [LinearOrder W] [LinearOrder P] [Zero P]
    (Distance : FVector → FVector → W) (points : List FVector)
    (tetrahedra : List FIntVector4) (randRange : Nat → Nat) (fRand : Nat → P)
    (selectedEdges uniqueEdges : List FEdge)
    (hpoints : points.Nodup) (hfive : points.length = 5) (hne : tetrahedra ≠ [])
    (hextract : extractEdges points tetrahedra = some uniqueEdges)
    (hcover : ∀ p ∈ points, p ∈ vertices uniqueEdges)
    (hconn : Spans uniqueEdges uniqueEdges) (hrand : ∀ k, 0 ≤ fRand k) :
    ∃ selected, FindPossibleHallwaysNormal Distance points tetrahedra 0 randRange fRand
        selectedEdges = some selected ∧ selected.length = 4 := by
  have hstart : ∃ start, pointAt points 0 = some start := by
    cases points with
    | nil => simp at hfive
    | cons p ps => exact ⟨p, by simp [pointAt]⟩
  obtain ⟨start, hstart⟩ := hstart
  have hsv : start ∈ vertices uniqueEdges := hcover start (pointAt_mem hstart)
  obtain ⟨R, hR, hlen, -, -, -⟩ := mst_spanning_core Distance uniqueEdges start hconn hsv
  have hset : (vertices uniqueEdges).toFinset = points.toFinset := by
    ext x
    simp only [List.mem_toFinset]
    exact ⟨vertices_extractEdges points tetrahedra uniqueEdges hextract x, hcover x⟩
  have hcard : (vertices uniqueEdges).toFinset.card = 5 := by
    rw [hset, List.toFinset_card_of_nodup hpoints, hfive]
  have hempty : tetrahedra.isEmpty = false := by
    cases tetrahedra with
    | nil => exact absurd rfl hne
    | cons t ts => rfl
  refine ⟨R, ?_, by rw [hlen, hcard]⟩
  unfold FindPossibleHallwaysNormal
  simp only [hempty, Bool.false_eq_true, if_false, hextract, hstart, hR]
  rw [addRandomEdges_none _ _ _ _ _ (fun k => not_lt.2 (hrand k))]

theorem scenarioAEdges_spans : Spans scenarioAEdges scenarioAEdges := by
  have h0 : Reach scenarioAEdges ⟨0, 0, 0⟩ ⟨0, 0, 0⟩ := Relation.ReflTransGen.refl
  have h1 : Reach scenarioAEdges ⟨0, 0, 0⟩ ⟨1, 0, 0⟩ :=
    Reach.single ⟨⟨⟨0, 0, 0⟩, ⟨1, 0, 0⟩⟩, by decide, Or.inl ⟨rfl, rfl⟩⟩
  have h2 : Reach scenarioAEdges ⟨0, 0, 0⟩ ⟨0, 1, 0⟩ :=
    Reach.single ⟨⟨⟨0, 0, 0⟩, ⟨0, 1, 0⟩⟩, by decide, Or.inl ⟨rfl, rfl⟩⟩
  have h3 : Reach scenarioAEdges ⟨0, 0, 0⟩ ⟨0, 0, 1⟩ :=
    Reach.single ⟨⟨⟨0, 0, 0⟩, ⟨0, 0, 1⟩⟩, by decide, Or.inl ⟨rfl, rfl⟩⟩
  have h4 : Reach scenarioAEdges ⟨0, 0, 0⟩ ⟨2, 2, 2⟩ :=
    h1.trans (Reach.single ⟨⟨⟨1, 0, 0⟩, ⟨2, 2, 2⟩⟩, by decide, Or.inl ⟨rfl, rfl⟩⟩)
  have hall : ∀ x ∈ vertices scenarioAEdges, Reach scenarioAEdges ⟨0, 0, 0⟩ x := by
    intro x hx
    obtain ⟨e, he, hex⟩ := mem_vertices.1 hx
    simp only [scenarioAEdges, List.mem_cons, List.mem_nil_iff, or_false] at he
    rcases he with rfl | rfl | rfl | rfl | rfl | rfl | rfl | rfl | rfl | rfl | rfl | rfl <;>
      rcases hex with rfl | rfl <;> assumption
  intro x hx y hy
  exact (hall x hx).symm.trans (hall y hy)

/-- Claim C20 fails as stated: for the four vertices of a unit tetrahedron
and one extra point, with the two tetrahedra of these five points and loop
probability 0, the number of selected edges is 4, not 5. -/
theorem scenarioA_not_five :
    extractEdges scenarioAPoints scenarioATetrahedra = some scenarioAEdges ∧
    (FindPossibleHallwaysNormal distSq scenarioAPoints scenarioATetrahedra (0 : Int)
      (fun i => i) (fun _ => 0) []).map List.length = some 4 := by
  decide

/-- Claim C20 as amended, at a concrete input: the five points of scenario A
with their two tetrahedra. -/
theorem scenarioA_selects_four_witness :
    ∃ selected, FindPossibleHallwaysNormal distSq scenarioAPoints scenarioATetrahedra
        (0 : Int) (fun i => i) (fun _ => 0) [] = some selected ∧ selected.length = 4 :=
  scenarioA_selects_four distSq scenarioAPoints scenarioATetrahedra (fun i => i) (fun _ => 0)
    [] scenarioAEdges (by decide) rfl (by simp [scenarioATetrahedra]) (by decide) (by decide)
    scenarioAEdges_spans (fun _ => le_refl _)

end ScenarioATheorems

/-! ## Theorems: constructed pathfinder -/

section ReadyTheorems

variable {C : Type}

theorem mem_castRange (n : Nat) (k : Int) :
    k ∈ ((List.range n : List Nat) : List Int) ↔ ∃ a : Nat, a < n ∧ (a : Int) = k := by
  simp only [List.bind_eq_flatMap, List.mem_flatMap, List.mem_range, List.pure_def,
    List.mem_singleton]
  constructor
  · rintro ⟨a, ha, rfl⟩; exact ⟨a, ha, rfl⟩
  · rintro ⟨a, ha, rfl⟩; exact ⟨a, ha, rfl⟩

theorem mem_stepValues_iff {bound step v : Int} :
    v ∈ stepValues bound step ↔
      ∃ a : Nat, a < ((bound + step - 1) / step).toNat ∧ (a : Int) * step = v := by
  unfold stepValues
  simp only [List.mem_map, mem_castRange]
  constructor
  · rintro ⟨_, ⟨a, ha, rfl⟩, rfl⟩; exact ⟨a, ha, rfl⟩
  · rintro ⟨a, ha, rfl⟩; exact ⟨_, ⟨a, ha, rfl⟩, rfl⟩

theorem mem_stepValues {bound step v : Int} (hstep : 0 < step) :
    v ∈ stepValues bound step ↔ step ∣ v ∧ 0 ≤ v ∧ v < bound := by
  rw [mem_stepValues_iff]
  constructor
  · rintro ⟨k, hk, rfl⟩
    refine ⟨Dvd.intro_left _ rfl, Int.mul_nonneg (Int.ofNat_nonneg k) hstep.le, ?_⟩
    have h1 : (k : Int) < (bound + step - 1) / step := Int.lt_toNat.1 hk
    have h2 : (k : Int) + 1 ≤ (bound + step - 1) / step := by omega
    have h3 := (Int.le_ediv_iff_mul_le hstep).1 h2
    nlinarith
  · rintro ⟨⟨k, rfl⟩, h0, hlt⟩
    have hk0 : 0 ≤ k := by
      by_contra hneg
      have : k ≤ -1 := by omega
      nlinarith
    refine ⟨k.toNat, ?_, ?_⟩
    · have h2 : k + 1 ≤ (bound + step - 1) / step := by
        rw [Int.le_ediv_iff_mul_le hstep]
        nlinarith
      apply Int.lt_toNat.2
      rw [Int.toNat_of_nonneg hk0]
      omega
    · rw [Int.toNat_of_nonneg hk0, mul_comm]

/-- The positions of the construction loop are the aligned positions with
every coordinate from 0 up to the size. -/
theorem mem_loopPositions {size : FVector} {unitSize : Int} {positions : List FVector}
    (h : loopPositions size unitSize = some positions) (hunit : 0 < unitSize) (p : FVector) :
    p ∈ positions ↔ Aligned unitSize p ∧ (0 ≤ p.X ∧ p.X < size.X) ∧
      (0 ≤ p.Y ∧ p.Y < size.Y) ∧ (0 ≤ p.Z ∧ p.Z < size.Z) := by
  unfold loopPositions at h
  split at h
  · rename_i hx
    simp only [Option.some.injEq] at h
    subst h
    simp only [List.not_mem_nil, false_iff]
    rintro ⟨-, ⟨h0, h1⟩, -⟩
    omega
  · have hu : ¬ unitSize ≤ 0 := by omega
    simp only [hu, if_false, Option.some.injEq] at h
    subst h
    simp only [List.mem_flatMap, List.mem_map, mem_stepValues hunit]
    unfold Aligned
    constructor
    · rintro ⟨x, hx, y, hy, z, hz, rfl⟩
      exact ⟨⟨hx.1, hy.1, hz.1⟩, hx.2, hy.2, hz.2⟩
    · rintro ⟨⟨ax, ay, az⟩, hx, hy, hz⟩
      exact ⟨p.X, ⟨ax, hx⟩, p.Y, ⟨ay, hy⟩, p.Z, ⟨az, hz⟩, rfl⟩

/-- A loop over a list keeps an invariant of its state. -/
theorem foldlM_option_inv {α σ : Type} (f : σ → α → Option σ) (I : σ → Prop) :
    ∀ (l : List α), (∀ s a s', a ∈ l → I s → f s a = some s' → I s') →
      ∀ s s', I s → l.foldlM f s = some s' → I s' := by
  intro l
  induction l with
  | nil =>
    intro _ s s' hI h
    simp only [List.foldlM_nil, Option.pure_def, Option.some.injEq] at h
    subst h
    exact hI
  | cons a l ih =>
    intro hstep s s' hI h
    simp only [List.foldlM_cons, Option.bind_eq_bind] at h
    cases h1 : f s a with
    | none => rw [h1] at h; cases h
    | some s1 =>
      rw [h1] at h
      simp only [Option.some_bind] at h
      exact ih (fun s a s' ha => hstep s a s' (List.mem_cons_of_mem _ ha)) s1 s'
        (hstep s a s1 (List.mem_cons_self _ _) hI h1) h

/-- A loop over a list establishes at every element what its body
establishes and later rounds keep. -/
theorem foldlM_option_post {α σ : Type} (f : σ → α → Option σ) (I : σ → Prop)
    (P : α → σ → Prop) :
    ∀ (l : List α), (∀ s a s', a ∈ l → I s → f s a = some s' → I s' ∧ P a s') →
      (∀ s a b s', a ∈ l → b ∈ l → I s → P b s → f s a = some s' → P b s') →
      ∀ s s', I s → l.foldlM f s = some s' → ∀ a ∈ l, P a s' := by
  intro l
  induction l with
  | nil => intro _ _ _ _ _ _ a ha; cases ha
  | cons a l ih =>
    intro hstep hkeep s s' hI h
    simp only [List.foldlM_cons, Option.bind_eq_bind] at h
    cases h1 : f s a with
    | none => rw [h1] at h; cases h
    | some s1 =>
      rw [h1] at h
      simp only [Option.some_bind] at h
      obtain ⟨hI1, hP1⟩ := hstep s a s1 (List.mem_cons_self _ _) hI h1
      have hI' : ∀ s a s', a ∈ l → I s → f s a = some s' → I s' := fun s a s' ha hs hf =>
        (hstep s a s' (List.mem_cons_of_mem _ ha) hs hf).1
      intro b hb
      rcases List.mem_cons.1 hb with rfl | hb
      · -- kept by the rounds that follow
        have key : ∀ (l' : List α), (∀ x ∈ l', x ∈ l) → ∀ s s', I s → P b s →
            l'.foldlM f s = some s' → P b s' := by
          intro l'
          induction l' with
          | nil =>
            intro _ s s' _ hP h
            simp only [List.foldlM_nil, Option.pure_def, Option.some.injEq] at h
            subst h; exact hP
          | cons c l' ih' =>
            intro hsub s s' hI hP h
            simp only [List.foldlM_cons, Option.bind_eq_bind] at h
            cases h2 : f s c with
            | none => rw [h2] at h; cases h
            | some s2 =>
              rw [h2] at h
              simp only [Option.some_bind] at h
              have hc : c ∈ l := hsub c (List.mem_cons_self _ _)
              exact ih' (fun x hx => hsub x (List.mem_cons_of_mem _ hx)) s2 s'
                (hI' s c s2 hc hI h2)
                (hkeep s c b s2 (List.mem_cons_of_mem _ hc) (List.mem_cons_self _ _) hI hP h2) h
        exact key l (fun x hx => hx) s1 s' hI1 hP1 h
      · exact ih (fun s a s' ha => hstep s a s' (List.mem_cons_of_mem _ ha))
          (fun s a b s' ha hb => hkeep s a b s' (List.mem_cons_of_mem _ ha)
            (List.mem_cons_of_mem _ hb)) s1 s' hI1 h b hb

variable {T : Type}

/-- The bracket operator as a write, then as a read, on aligned positions. -/
theorem set?_get? {g g' : Grid3D T} {p : FVector} {v : T} (h : g.set? p v = some g')
    (hp : Aligned g.unit p) :
    g'.unit = g.unit ∧ g'.size = g.size ∧ g'.borderOffset = g.borderOffset ∧
      g'.get? p = some v ∧ ∀ q, Aligned g.unit q → q ≠ p → g'.get? q = g.get? q := by
  have hin := cell?_isSome_of_setCell? h
  obtain ⟨g2, h2, hu, hs, hb, hget, hother⟩ := setCell?_spec g (g.GetIndex p) v hin
  unfold Grid3D.set? at h
  rw [h] at h2
  simp only [Option.some.injEq] at h2
  subst h2
  have hidx : ∀ q, g'.GetIndex q = g.GetIndex q := by
    intro q; unfold Grid3D.GetIndex; rw [hu]
  refine ⟨hu, hs, hb, ?_, ?_⟩
  · unfold Grid3D.get?
    rw [hidx]; exact hget
  · intro q hq hne
    unfold Grid3D.get?
    rw [hidx]
    exact hother _ (fun hh => hne (GetIndex_injective_of_aligned g hq hp hh))


theorem loopPositions_unit_pos {size : FVector} {unitSize : Int} {positions : List FVector}
    (h : loopPositions size unitSize = some positions) {p : FVector} (hp : p ∈ positions) :
    0 < unitSize := by
  unfold loopPositions at h
  split at h
  · simp only [Option.some.injEq] at h
    subst h
    cases hp
  · split at h
    · cases h
    · omega

theorem loopPositions_aligned {size : FVector} {unitSize : Int} {positions : List FVector}
    (h : loopPositions size unitSize = some positions) {p : FVector} (hp : p ∈ positions) :
    Aligned unitSize p :=
  ((mem_loopPositions h (loopPositions_unit_pos h hp) p).1 hp).1

/-- The constructor leaves the pathfinder in a `Ready` state. -/
theorem ready_of_new (MAX_flt : C) (size : FVector) (unitSize : Int)
    (pf : DungeonPathfinder3D C) (positions : List FVector)
    (hnew : DungeonPathfinder3D.new MAX_flt size unitSize = .ok pf)
    (hloop : loopPositions size unitSize = some positions) : Ready pf positions := by
  unfold DungeonPathfinder3D.new at hnew
  simp only [hloop] at hnew
  split at hnew
  · cases hnew
  · rename_i g hfold
    simp only [Except.ok.injEq] at hnew
    subst hnew
    have hu0 : (Grid3D.new (DungeonNode.new MAX_flt FVector.ZeroVector) size unitSize
        unitSize).unit = unitSize := by unfold Grid3D.new; split <;> rfl
    have hs0 : (Grid3D.new (DungeonNode.new MAX_flt FVector.ZeroVector) size unitSize
        unitSize).size = size := by unfold Grid3D.new; split <;> rfl
    have hb0 : (Grid3D.new (DungeonNode.new MAX_flt FVector.ZeroVector) size unitSize
        unitSize).borderOffset = unitSize := by unfold Grid3D.new; split <;> rfl
    have hI := foldlM_option_inv (fun g index => g.set? index (DungeonNode.new MAX_flt index))
      (fun g : Grid3D (DungeonNode C) =>
        g.unit = unitSize ∧ g.size = size ∧ g.borderOffset = unitSize) positions
      (fun s a s' ha hI hf => by
        obtain ⟨h1, h2, h3, -, -⟩ := set?_get? hf (by rw [hI.1]; exact loopPositions_aligned hloop ha)
        exact ⟨h1.trans hI.1, h2.trans hI.2.1, h3.trans hI.2.2⟩)
      _ g ⟨hu0, hs0, hb0⟩ hfold
    have hP := foldlM_option_post (fun g index => g.set? index (DungeonNode.new MAX_flt index))
      (fun g : Grid3D (DungeonNode C) => g.unit = unitSize)
      (fun p g => ∃ n, g.get? p = some n ∧ n.Position = p) positions
      (fun s a s' ha hI hf => by
        obtain ⟨h1, -, -, h4, -⟩ := set?_get? hf (by rw [hI]; exact loopPositions_aligned hloop ha)
        exact ⟨h1.trans hI, _, h4, rfl⟩)
      (fun s a b s' ha hb hI hP hf => by
        obtain ⟨-, -, -, h4, h5⟩ := set?_get? hf (by rw [hI]; exact loopPositions_aligned hloop ha)
        by_cases hab : b = a
        · subst hab
          exact ⟨_, h4, rfl⟩
        · rw [h5 b (by rw [hI]; exact loopPositions_aligned hloop hb) hab]
          exact hP)
      _ g hu0 hfold
    exact ⟨by simpa [Grid3D.GetSize, hI.2.1] using hloop, hI.1, hI.2.2, hP⟩

/-- On a `Ready` pathfinder `ResetNodes` runs through, keeps the pathfinder
`Ready` and resets every node of the construction loop. -/
theorem resetNodes_ready (MAX_flt : C) (pf : DungeonPathfinder3D C) (positions : List FVector)
    (hready : Ready pf positions) :
    ∃ pf1, ResetNodes MAX_flt pf = .ok pf1 ∧ Ready pf1 positions ∧
      pf1.unitSize = pf.unitSize ∧ pf1.grid.size = pf.grid.size ∧
      ∀ p ∈ positions, ∃ n, pf1.grid.get? p = some n ∧ n.Position = p ∧ IsReset MAX_flt n := by
  have halign : ∀ p ∈ positions, Aligned pf.unitSize p :=
    fun p hp => loopPositions_aligned hready.loop hp
  obtain ⟨g1, hg1⟩ := foldlM_of_isSome (resetNode MAX_flt)
    (fun g p hp => by
      obtain ⟨node, hnode⟩ := Option.isSome_iff_exists.1 hp
      obtain ⟨g', hg'⟩ := set?_of_isSome g p
        { node with Previous := none, Cost := MAX_flt, PreviousSet := [] } hp
      refine ⟨g', ?_, (set?_sameShape hg').2⟩
      unfold resetNode
      simp only [hnode, hg'])
    positions pf.grid (fun p hp => by
      obtain ⟨n, hn, -⟩ := hready.placed p hp
      simp [hn])
  have hstep : ∀ (s : Grid3D (DungeonNode C)) (a : FVector) (s' : Grid3D (DungeonNode C)),
      a ∈ positions → s.unit = pf.unitSize → resetNode MAX_flt s a = some s' →
      ∃ node, s.get? a = some node ∧
        s'.unit = s.unit ∧ s'.size = s.size ∧ s'.borderOffset = s.borderOffset ∧
        s'.get? a = some { node with Previous := none, Cost := MAX_flt, PreviousSet := [] } ∧
        ∀ q, Aligned s.unit q → q ≠ a → s'.get? q = s.get? q := by
    intro s a s' ha hu hf
    unfold resetNode at hf
    split at hf
    · cases hf
    · rename_i node hnode
      exact ⟨node, hnode, set?_get? hf (by rw [hu]; exact halign a ha)⟩
  have hI := foldlM_option_inv (resetNode MAX_flt)
    (fun g : Grid3D (DungeonNode C) =>
      g.unit = pf.unitSize ∧ g.size = pf.grid.size ∧ g.borderOffset = pf.unitSize ∧
        ∀ p ∈ positions, ∃ n, g.get? p = some n ∧ n.Position = p) positions
    (fun s a s' ha hI hf => by
      obtain ⟨node, hnode, h1, h2, h3, h4, h5⟩ := hstep s a s' ha hI.1 hf
      refine ⟨h1.trans hI.1, h2.trans hI.2.1, h3.trans hI.2.2.1, ?_⟩
      intro p hp
      by_cases hpa : p = a
      · subst hpa
        obtain ⟨n, hn, hnp⟩ := hI.2.2.2 p hp
        rw [hnode] at hn
        simp only [Option.some.injEq] at hn
        subst hn
        exact ⟨_, h4, hnp⟩
      · rw [h5 p (by rw [hI.1]; exact halign p hp) hpa]
        exact hI.2.2.2 p hp)
    _ g1 ⟨hready.grid_unit, rfl, hready.border, hready.placed⟩ hg1
  have hP := foldlM_option_post (resetNode MAX_flt)
    (fun g : Grid3D (DungeonNode C) => g.unit = pf.unitSize)
    (fun p g => ∃ n, g.get? p = some n ∧ IsReset MAX_flt n) positions
    (fun s a s' ha hI hf => by
      obtain ⟨node, hnode, h1, h2, h3, h4, h5⟩ := hstep s a s' ha hI hf
      exact ⟨h1.trans hI, _, h4, rfl, rfl, rfl⟩)
    (fun s a b s' ha hb hI hP hf => by
      obtain ⟨node, hnode, h1, h2, h3, h4, h5⟩ := hstep s a s' ha hI hf
      by_cases hab : b = a
      · subst hab
        exact ⟨_, h4, rfl, rfl, rfl⟩
      · rw [h5 b (by rw [hI]; exact halign b hb) hab]
        exact hP)
    _ g1 hready.grid_unit hg1
  refine ⟨{ pf with grid := g1 }, ?_, ⟨?_, hI.1, hI.2.2.1, hI.2.2.2⟩, rfl, hI.2.1, ?_⟩
  · unfold ResetNodes
    simp only [hready.loop, hg1]
  · simpa [Grid3D.GetSize, hI.2.1] using hready.loop
  · intro p hp
    obtain ⟨n, hn, hnp⟩ := hI.2.2.2 p hp
    obtain ⟨n', hn', hr⟩ := hP p hp
    rw [hn] at hn'
    simp only [Option.some.injEq] at hn'
    subst hn'
    exact ⟨n, hn, hnp, hr⟩

/-- In a `Ready` pathfinder the aligned positions inside the bounds are
positions of the construction loop. -/
theorem Ready.mem_of_inBounds {pf : DungeonPathfinder3D C} {positions : List FVector}
    (hready : Ready pf positions) (hunit : 0 < pf.unitSize) {p : FVector}
    (hal : Aligned pf.unitSize p) (hin : pf.grid.InBounds p = true) : p ∈ positions := by
  rw [mem_loopPositions hready.loop hunit]
  have h := (inBounds_eq_true_iff pf.grid p).1 hin
  rw [hready.border] at h
  unfold Grid3D.GetSize
  refine ⟨hal, ?_, ?_, ?_⟩ <;> constructor <;> omega

end ReadyTheorems

/-! ## Theorems: the search loop of `FindPath` -/

section QueueTheorems

variable {C : Type} [LinearOrder C]

/-- The method `Pop` takes an element of least cost out of the queue. -/
theorem popMin_spec : ∀ (q : List (DungeonNode C)) (tmp : DungeonNode C)
    (rest : List (DungeonNode C)), popMin q = some (tmp, rest) →
    q.Perm (tmp :: rest) ∧ ∀ e ∈ q, ¬ e.Cost < tmp.Cost := by
  intro q
  induction q with
  | nil => intro tmp rest h; cases h
  | cons x xs ih =>
    intro tmp rest h
    unfold popMin at h
    cases hp : popMin xs with
    | none =>
      rw [hp] at h
      simp only [Option.some.injEq, Prod.mk.injEq] at h
      obtain ⟨rfl, rfl⟩ := h
      cases xs with
      | nil => exact ⟨List.Perm.refl _, by simp⟩
      | cons y ys =>
        unfold popMin at hp
        split at hp
        · cases hp
        · split at hp <;> cases hp
    | some r =>
      obtain ⟨m, rest'⟩ := r
      rw [hp] at h
      obtain ⟨hperm, hmin⟩ := ih m rest' hp
      simp only at h
      split at h
      · rename_i hlt
        simp only [Option.some.injEq, Prod.mk.injEq] at h
        obtain ⟨rfl, rfl⟩ := h
        refine ⟨?_, ?_⟩
        · exact (List.Perm.cons x hperm).trans (List.Perm.swap _ _ _)
        · intro e he
          rcases List.mem_cons.1 he with rfl | he
          · exact not_lt.2 hlt.le
          · exact hmin e he
      · rename_i hlt
        simp only [Option.some.injEq, Prod.mk.injEq] at h
        obtain ⟨rfl, rfl⟩ := h
        refine ⟨List.Perm.refl _, ?_⟩
        intro e he
        rcases List.mem_cons.1 he with rfl | he
        · exact lt_irrefl _
        · intro hlt2
          exact hmin e he (lt_of_lt_of_le hlt2 (not_lt.1 hlt))

theorem popMin_eq_none {q : List (DungeonNode C)} (h : popMin q = none) : q = [] := by
  cases q with
  | nil => rfl
  | cons x xs =>
    unfold popMin at h
    split at h
    · cases h
    · split at h <;> cases h

theorem popMin_isSome {q : List (DungeonNode C)} (h : q ≠ []) :
    ∃ tmp rest, popMin q = some (tmp, rest) := by
  cases hp : popMin q with
  | none => exact absurd (popMin_eq_none hp) h
  | some r => exact ⟨r.1, r.2, rfl⟩

end QueueTheorems

section SearchTheorems

variable {C : Type} [LinearOrder C] [Add C]

/-- The two outcomes of the loop body for one offset: nothing changes, or the
neighbour is rewritten and a copy of it is pushed. -/
theorem visitNeighbor_cases
    (costFunction : DungeonNode C → DungeonNode C → Option (DungeonPathInfo C))
    (unitSize : Int) (node : FVector) (st st' : SearchState C) (offset : FVector)
    (h : visitNeighbor costFunction unitSize node st offset = .ok st') :
    st' = st ∨ ∃ n m info g, st.grid.cell? node = some n ∧
      st.grid.InBounds (n.Position + offset) = true ∧
      st.grid.cell? (st.grid.GetIndex (n.Position + offset)) = some m ∧
      st.grid.GetIndex (n.Position + offset) ∉ st.closedNodes ∧
      m.Position ∉ n.PreviousSet ∧ costFunction n m = some info ∧ info.Traversable = true ∧
      (info.IsStairs = true → ∀ c ∈ stairCells unitSize n.Position offset, c ∉ n.PreviousSet) ∧
      n.Cost + info.Cost < m.Cost ∧
      st.grid.setCell? (st.grid.GetIndex (n.Position + offset))
        (rewrittenNode unitSize node n m info offset) = some g ∧
      st' = ⟨g, st.queue ++ [pushedCopy node n m info], st.closedNodes⟩ := by
  unfold visitNeighbor at h
  split at h
  · cases h
  · rename_i n hn
    split at h
    · simp only [Except.ok.injEq] at h; exact Or.inl h.symm
    · rename_i hin
      simp only [Bool.not_eq_true, Bool.not_eq_false_eq_eq_true] at hin
      simp only at h
      split at h
      · cases h
      · rename_i m hm
        split at h
        · simp only [Except.ok.injEq] at h; exact Or.inl h.symm
        · rename_i hcl
          split at h
          · simp only [Except.ok.injEq] at h; exact Or.inl h.symm
          · rename_i hps
            split at h
            · cases h
            · rename_i info hinfo
              split at h
              · simp only [Except.ok.injEq] at h; exact Or.inl h.symm
              · rename_i htr
                split at h
                · simp only [Except.ok.injEq] at h; exact Or.inl h.symm
                · rename_i hst
                  split at h
                  · rename_i hlt
                    split at h
                    · cases h
                    · rename_i g hg
                      simp only [Except.ok.injEq] at h
                      refine Or.inr ⟨n, m, info, g, hn, ?_, hm, hcl, hps, hinfo, ?_, ?_, hlt, hg, h.symm⟩
                      · simpa using hin
                      · simpa using htr
                      · intro hs c hc hmem
                        apply hst
                        simp only [hs, Bool.true_and, List.any_eq_true, decide_eq_true_eq]
                        exact ⟨c, hc, hmem⟩
                  · simp only [Except.ok.injEq] at h; exact Or.inl h.symm


theorem inBounds_congr {T : Type} {g g' : Grid3D T} (hs : g'.size = g.size)
    (hb : g'.borderOffset = g.borderOffset) (p : FVector) : g'.InBounds p = g.InBounds p := by
  unfold Grid3D.InBounds
  rw [hs, hb]

theorem getIndex_congr {T : Type} {g g' : Grid3D T} (hu : g'.unit = g.unit) (p : FVector) :
    g'.GetIndex p = g.GetIndex p := by
  unfold Grid3D.GetIndex
  rw [hu]

theorem Aligned.add {unit : Int} {p q : FVector} (hp : Aligned unit p) (hq : Aligned unit q) :
    Aligned unit (p + q) :=
  ⟨Int.dvd_add hp.1 hq.1, Int.dvd_add hp.2.1 hq.2.1, Int.dvd_add hp.2.2 hq.2.2⟩

/-- One round of the loop over the offsets keeps the invariant of the search
and does not touch the closed list. -/
theorem searchInv_visit
    {costFunction : DungeonNode C → DungeonNode C → Option (DungeonPathInfo C)}
    {unitSize : Int} {dirs positions : List FVector} {start : FVector}
    {st st' : SearchState C} {node offset : FVector}
    (hinv : SearchInv costFunction unitSize dirs positions start st)
    (hnode : node ∈ st.closedNodes) (hoff : offset ∈ dirs) (hoffal : Aligned unitSize offset)
    (h : visitNeighbor costFunction unitSize node st offset = .ok st') :
    SearchInv costFunction unitSize dirs positions start st' ∧
      st'.closedNodes = st.closedNodes := by
  rcases visitNeighbor_cases costFunction unitSize node st st' offset h with rfl |
    ⟨n, m, info, g, hn, hin, hm, hcl, hps, hinfo, htr, hstairs, hlt, hg, rfl⟩
  · exact ⟨hinv, rfl⟩
  refine ⟨?_, rfl⟩
  obtain ⟨np, hnp, hidx⟩ := hinv.closed_mem node hnode
  obtain ⟨n0, hn0, hn0p⟩ := hinv.placed np hnp
  have hnn : n0 = n := by
    unfold Grid3D.get? at hn0
    rw [hidx, hn] at hn0
    exact (Option.some.inj hn0).symm
  subst hnn
  have hqal : Aligned unitSize (n0.Position + offset) := by
    rw [hn0p]; exact (hinv.aligned np hnp).add hoffal
  have hqps : n0.Position + offset ∈ positions := hinv.inb _ hqal hin
  obtain ⟨m0, hm0, hm0p⟩ := hinv.placed _ hqps
  have hmm : m0 = m := by
    unfold Grid3D.get? at hm0
    rw [hm] at hm0
    exact (Option.some.inj hm0).symm
  subst hmm
  have hset : st.grid.set? (n0.Position + offset)
      (rewrittenNode unitSize node n0 m0 info offset) = some g := hg
  obtain ⟨hu, hs, hb, hget, hother⟩ := set?_get? hset (by rw [hinv.grid_unit]; exact hqal)
  have hidx' : ∀ p, g.GetIndex p = st.grid.GetIndex p := getIndex_congr hu
  have hne_of : ∀ p ∈ positions, st.grid.GetIndex p ∈ st.closedNodes →
      p ≠ n0.Position + offset := by
    intro p _ hpc hpe
    rw [hpe] at hpc
    exact hcl hpc
  have hold : ∀ p ∈ positions, p ≠ n0.Position + offset → g.get? p = st.grid.get? p :=
    fun p hp hne => hother p (by rw [hinv.grid_unit]; exact hinv.aligned p hp) hne
  have hclne : st.closedNodes ≠ [] := List.ne_nil_of_mem hnode
  have hstart_ne : start ≠ n0.Position + offset :=
    hne_of start hinv.start_mem (hinv.start_closed hclne)
  constructor
  · exact hu.trans hinv.grid_unit
  · exact hinv.aligned
  · intro p hp
    by_cases hpe : p = n0.Position + offset
    · subst hpe
      exact ⟨_, hget, hm0p⟩
    · rw [hold p hp hpe]
      exact hinv.placed p hp
  · intro p hpal hpin
    rw [inBounds_congr hs hb] at hpin
    exact hinv.inb p hpal hpin
  · intro i hi
    obtain ⟨p, hp, hpi⟩ := hinv.closed_mem i hi
    exact ⟨p, hp, by rw [hidx']; exact hpi⟩
  · intro e he
    rcases List.mem_append.1 he with he | he
    · exact hinv.queue_mem e he
    · simp only [List.mem_singleton] at he
      subst he
      show m0.Position ∈ positions
      rw [hm0p]; exact hqps
  · exact hinv.start_mem
  · intro s hs'
    rw [hold start hinv.start_mem hstart_ne] at hs'
    exact hinv.start_root s hs'
  · intro hne
    rw [hidx']
    exact hinv.start_closed hne
  · intro hnil
    exact absurd hnil hclne
  · intro p hp s hs' hprev hpstart
    by_cases hpe : p = n0.Position + offset
    · subst hpe
      rw [hget] at hs'
      simp only [Option.some.injEq] at hs'
      subst hs'
      cases hprev
    · rw [hold p hp hpe] at hs'
      obtain ⟨h1, h2⟩ := hinv.root p hp s hs' hprev hpstart
      refine ⟨by rw [hidx']; exact h1, ?_⟩
      intro e he
      rcases List.mem_append.1 he with he | he
      · exact h2 e he
      · simp only [List.mem_singleton] at he
        subst he
        show m0.Position ≠ p
        rw [hm0p]; exact fun hh => hpe hh.symm
  · intro p hp s j hs' hprev
    by_cases hpe : p = n0.Position + offset
    · subst hpe
      rw [hget] at hs'
      simp only [Option.some.injEq] at hs'
      subst hs'
      have hj : node = j := Option.some.inj hprev
      subst hj
      have hnpne : np ≠ n0.Position + offset := hne_of np hnp (by rw [hidx]; exact hnode)
      refine ⟨np, hnp, by rw [hidx']; exact hidx, n0, ?_, ?_, ?_⟩
      · rw [hold np hnp hnpne]; exact hn0
      · rw [hidx']
        have h1 : List.indexOf node st.closedNodes < st.closedNodes.length :=
          List.indexOf_lt_length.2 hnode
        have h2 : List.indexOf (st.grid.GetIndex (n0.Position + offset)) st.closedNodes =
            st.closedNodes.length := List.indexOf_eq_length.2 hcl
        show List.indexOf node st.closedNodes <
          List.indexOf (st.grid.GetIndex (n0.Position + offset)) st.closedNodes
        omega
      · exact ⟨offset, hoff, m0, info, by rw [← hm0p]; rfl, rfl, hinfo, htr,
          hps, hstairs, rfl, rfl⟩
    · rw [hold p hp hpe] at hs'
      obtain ⟨pp, hpp, hppj, N, hN, hrank, hlink⟩ := hinv.link p hp s j hs' hprev
      have hjcl : j ∈ st.closedNodes := by
        apply List.indexOf_lt_length.1
        exact lt_of_lt_of_le hrank List.indexOf_le_length
      have hppne : pp ≠ n0.Position + offset := hne_of pp hpp (by rw [hppj]; exact hjcl)
      refine ⟨pp, hpp, by rw [hidx']; exact hppj, N, ?_, ?_, hlink⟩
      · rw [hold pp hpp hppne]; exact hN
      · rw [hidx']; exact hrank

end SearchTheorems

section SearchLoopTheorems

variable {C : Type} [LinearOrder C] [Add C]

/-- A loop with faults over a list keeps an invariant of its state. -/
theorem foldlM_except_inv {α σ ε : Type} (f : σ → α → Except ε σ) (I : σ → Prop) :
    ∀ (l : List α), (∀ s a s', a ∈ l → I s → f s a = .ok s' → I s') →
      ∀ s s', I s → l.foldlM f s = .ok s' → I s' := by
  intro l
  induction l with
  | nil =>
    intro _ s s' hI h
    simp only [List.foldlM_nil, pure, Except.pure, Except.ok.injEq] at h
    subst h
    exact hI
  | cons a l ih =>
    intro hstep s s' hI h
    simp only [List.foldlM_cons, bind, Except.bind] at h
    cases h1 : f s a with
    | error e => rw [h1] at h; cases h
    | ok s1 =>
      rw [h1] at h
      exact ih (fun s a s' ha => hstep s a s' (List.mem_cons_of_mem _ ha)) s1 s'
        (hstep s a s1 (List.mem_cons_self _ _) hI h1) h

/-- Taking a node from the queue and closing it keeps the invariant of the
search; the node taken holds the position of the queue entry. -/
theorem searchInv_pop
    {costFunction : DungeonNode C → DungeonNode C → Option (DungeonPathInfo C)}
    {unitSize : Int} {dirs positions : List FVector} {start : FVector}
    {st : SearchState C} {tmp : DungeonNode C} {rest : List (DungeonNode C)}
    (hinv : SearchInv costFunction unitSize dirs positions start st)
    (hpop : popMin st.queue = some (tmp, rest)) :
    SearchInv costFunction unitSize dirs positions start
        ⟨st.grid, rest, st.closedNodes ++ [st.grid.GetIndex tmp.Position]⟩ ∧
      tmp.Position ∈ positions ∧
      ∃ n, st.grid.cell? (st.grid.GetIndex tmp.Position) = some n ∧
        n.Position = tmp.Position := by
  obtain ⟨hperm, -⟩ := popMin_spec st.queue tmp rest hpop
  have htmp : tmp ∈ st.queue := hperm.symm.subset (List.mem_cons_self _ _)
  have hrest : ∀ e ∈ rest, e ∈ st.queue := fun e he =>
    hperm.symm.subset (List.mem_cons_of_mem _ he)
  have htp : tmp.Position ∈ positions := hinv.queue_mem tmp htmp
  obtain ⟨n, hn, hnp⟩ := hinv.placed _ htp
  refine ⟨?_, htp, n, hn, hnp⟩
  have hinj : ∀ p ∈ positions, p ≠ tmp.Position →
      st.grid.GetIndex p ≠ st.grid.GetIndex tmp.Position := by
    intro p hp hne heq
    apply hne
    exact GetIndex_injective_of_aligned st.grid
      (by rw [hinv.grid_unit]; exact hinv.aligned p hp)
      (by rw [hinv.grid_unit]; exact hinv.aligned _ htp) heq
  constructor
  · exact hinv.grid_unit
  · exact hinv.aligned
  · exact hinv.placed
  · exact hinv.inb
  · intro i hi
    rcases List.mem_append.1 hi with hi | hi
    · exact hinv.closed_mem i hi
    · simp only [List.mem_singleton] at hi
      exact ⟨_, htp, hi.symm⟩
  · exact fun e he => hinv.queue_mem e (hrest e he)
  · exact hinv.start_mem
  · exact hinv.start_root
  · intro _
    by_cases hnil : st.closedNodes = []
    · have := hinv.init hnil tmp htmp
      show st.grid.GetIndex start ∈ st.closedNodes ++ [st.grid.GetIndex tmp.Position]
      rw [this]
      simp
    · exact List.mem_append_left _ (hinv.start_closed hnil)
  · intro hnil
    simp at hnil
  · intro p hp s hs hprev hpstart
    obtain ⟨h1, h2⟩ := hinv.root p hp s hs hprev hpstart
    refine ⟨?_, fun e he => h2 e (hrest e he)⟩
    intro hmem
    rcases List.mem_append.1 hmem with hmem | hmem
    · exact h1 hmem
    · simp only [List.mem_singleton] at hmem
      exact hinj p hp (fun hh => h2 tmp htmp hh.symm) hmem
  · intro p hp s j hs hprev
    obtain ⟨pp, hpp, hppj, N, hN, hrank, hlink⟩ := hinv.link p hp s j hs hprev
    refine ⟨pp, hpp, hppj, N, hN, ?_, hlink⟩
    have hjcl : j ∈ st.closedNodes :=
      List.indexOf_lt_length.1 (lt_of_lt_of_le hrank List.indexOf_le_length)
    show List.indexOf j (st.closedNodes ++ [st.grid.GetIndex tmp.Position]) <
      List.indexOf (st.grid.GetIndex p) (st.closedNodes ++ [st.grid.GetIndex tmp.Position])
    rw [List.indexOf_append_of_mem hjcl]
    by_cases hi : st.grid.GetIndex p ∈ st.closedNodes
    · rw [List.indexOf_append_of_mem hi]; exact hrank
    · rw [List.indexOf_append_of_not_mem hi]
      have := List.indexOf_lt_length.2 hjcl
      omega

/-- The whole loop over the offsets keeps the invariant of the search. -/
theorem searchInv_fold
    {costFunction : DungeonNode C → DungeonNode C → Option (DungeonPathInfo C)}
    {unitSize : Int} {dirs positions : List FVector} {start : FVector}
    {st st' : SearchState C} {node : FVector}
    (hdirs : ∀ offset ∈ dirs, Aligned unitSize offset)
    (hinv : SearchInv costFunction unitSize dirs positions start st)
    (hnode : node ∈ st.closedNodes)
    (h : dirs.foldlM (visitNeighbor costFunction unitSize node) st = .ok st') :
    SearchInv costFunction unitSize dirs positions start st' ∧
      st'.closedNodes = st.closedNodes :=
  foldlM_except_inv (visitNeighbor costFunction unitSize node)
    (fun s => SearchInv costFunction unitSize dirs positions start s ∧
      s.closedNodes = st.closedNodes) dirs
    (fun s a s' ha hI hf => by
      obtain ⟨h1, h2⟩ := searchInv_visit hI.1 (by rw [hI.2]; exact hnode) ha (hdirs a ha) hf
      exact ⟨h1, h2.trans hI.2⟩)
    st st' ⟨hinv, rfl⟩ h

/-- A run of the search loop that returns a path returns the empty one or
the reconstruction from a closed node that holds the end position, in a state
that satisfies the invariant. -/
theorem searchLoop_result
    {costFunction : DungeonNode C → DungeonNode C → Option (DungeonPathInfo C)}
    {unitSize : Int} {dirs positions : List FVector} {start endPos : FVector}
    (hdirs : ∀ offset ∈ dirs, Aligned unitSize offset) :
    ∀ (fuel : Nat) (st : SearchState C) (path : List FVector),
      SearchInv costFunction unitSize dirs positions start st →
      searchLoop costFunction unitSize dirs endPos fuel st = .ok path →
      path = [] ∨ ∃ st1 : SearchState C,
        SearchInv costFunction unitSize dirs positions start st1 ∧
        endPos ∈ positions ∧ st1.grid.GetIndex endPos ∈ st1.closedNodes ∧
        ReconstructPath st1.grid (st1.grid.GetIndex endPos) = .ok path := by
  intro fuel
  induction fuel with
  | zero =>
    intro st path _ h
    unfold searchLoop at h
    split at h
    · cases h
    · simp only [Except.ok.injEq] at h
      exact Or.inl h.symm
  | succ fuel ih =>
    intro st path hinv h
    unfold searchLoop at h
    split at h
    · simp only [Except.ok.injEq] at h
      exact Or.inl h.symm
    · rename_i tmp queue hpop
      obtain ⟨hinv1, htp, n, hn, hnp⟩ := searchInv_pop hinv hpop
      simp only [hn] at h
      split at h
      · rename_i hend
        rw [hnp] at hend
        subst hend
        exact Or.inr ⟨_, hinv1, htp, List.mem_append_right _ (List.mem_singleton_self _), h⟩
      · split at h
        · cases h
        · rename_i st2 hfold
          obtain ⟨hinv2, -⟩ := searchInv_fold hdirs hinv1
            (List.mem_append_right _ (List.mem_singleton_self _)) hfold
          exact ih st2 path hinv2 h

end SearchLoopTheorems

section StorageTheorems

variable {T : Type}

theorem sum_map_range_getD {α : Type} (d : α) (F : α → Nat) :
    ∀ l : List α, ((List.range l.length).map (fun i => F (l[i]?.getD d))).sum =
      (l.map F).sum := by
  intro l
  induction l with
  | nil => simp
  | cons a l ih =>
    rw [List.length_cons, List.range_succ_eq_map]
    simp only [List.map_cons, List.sum_cons, List.map_map, List.getElem?_cons_zero,
      Option.getD_some]
    congr 1
    rw [← ih]
    congr 1
    apply List.map_congr_left
    intro i _
    simp only [Function.comp, Nat.succ_eq_add_one, List.getElem?_cons_succ]

/-- The list `storageIndices` has as many entries as the storage has cells. -/
theorem length_storageIndices (g : Grid3D T) : g.storageIndices.length = g.cellCount := by
  unfold Grid3D.storageIndices Grid3D.cellCount
  rw [List.length_flatMap]
  rw [← sum_map_range_getD [] (fun plane : List (List T) => (plane.map List.length).sum) g.data]
  congr 1
  apply List.map_congr_left
  intro z _
  simp only [Function.comp]
  rw [List.length_flatMap]
  rw [← sum_map_range_getD [] (fun row : List T => row.length) (g.data[z]?.getD [])]
  congr 1
  apply List.map_congr_left
  intro y _
  simp only [Function.comp, List.length_map, List.length_range]

theorem mem_storageIndices {g : Grid3D T} {index : FVector} (h : (g.cell? index).isSome) :
    index ∈ g.storageIndices := by
  obtain ⟨v, hv⟩ := Option.isSome_iff_exists.1 h
  obtain ⟨h0, h1, h2, plane, row, hp, hr, hx⟩ := cell?_eq_some_iff.1 hv
  unfold Grid3D.storageIndices
  simp only [List.mem_flatMap, List.mem_map, List.mem_range]
  refine ⟨index.Z.toNat, (List.getElem?_eq_some.1 hp).1, index.Y.toNat, ?_, index.X.toNat,
    ?_, ?_⟩
  · rw [hp]; exact (List.getElem?_eq_some.1 hr).1
  · rw [hp]
    simp only [Option.getD_some, hr]
    exact (List.getElem?_eq_some.1 hx).1
  · simp only [Int.ofNat_eq_coe, Int.toNat_of_nonneg h0, Int.toNat_of_nonneg h1,
      Int.toNat_of_nonneg h2]

/-- Distinct cells of the storage are at most as many as the storage has. -/
theorem length_le_cellCount (g : Grid3D T) (indices : List FVector) (hnd : indices.Nodup)
    (hin : ∀ i ∈ indices, (g.cell? i).isSome) : indices.length ≤ g.cellCount := by
  rw [← length_storageIndices]
  exact (hnd.subperm (fun i hi => mem_storageIndices (hin i hi))).length_le

end StorageTheorems

section TrailTheorems

variable {C : Type} [Add C]

/-- Every closed node of the construction loop heads a chain of predecessor
links back to the start node. -/
theorem trail_exists
    {costFunction : DungeonNode C → DungeonNode C → Option (DungeonPathInfo C)}
    {unitSize : Int} {dirs positions : List FVector} {start : FVector}
    {st : SearchState C}
    (hinv : SearchInv costFunction unitSize dirs positions start st) :
    ∀ (k : Nat) (p : FVector), p ∈ positions → st.grid.GetIndex p ∈ st.closedNodes →
      st.closedNodes.indexOf (st.grid.GetIndex p) ≤ k →
      ∃ n rest, n.Position = p ∧
        Trail costFunction unitSize dirs positions start st (n :: rest) := by
  intro k
  induction k with
  | zero =>
    intro p hp hcl hk
    obtain ⟨n, hn, hnp⟩ := hinv.placed p hp
    cases hprev : n.Previous with
    | none =>
      have hps : p = start := by
        by_contra hne
        exact (hinv.root p hp n hn hprev hne).1 hcl
      subst hps
      exact ⟨n, [], hnp, Trail.root n hn hnp hprev (hinv.start_root n hn).2⟩
    | some j =>
      obtain ⟨pp, -, -, N, -, hrank, -⟩ := hinv.link p hp n j hn hprev
      omega
  | succ k ih =>
    intro p hp hcl hk
    obtain ⟨n, hn, hnp⟩ := hinv.placed p hp
    cases hprev : n.Previous with
    | none =>
      have hps : p = start := by
        by_contra hne
        exact (hinv.root p hp n hn hprev hne).1 hcl
      subst hps
      exact ⟨n, [], hnp, Trail.root n hn hnp hprev (hinv.start_root n hn).2⟩
    | some j =>
      obtain ⟨pp, hpp, hppj, N, hN, hrank, hlink⟩ := hinv.link p hp n j hn hprev
      have hjcl : j ∈ st.closedNodes :=
        List.indexOf_lt_length.1 (lt_of_lt_of_le hrank List.indexOf_le_length)
      obtain ⟨N', rest, hN'p, htrail⟩ := ih pp hpp (by rw [hppj]; exact hjcl)
        (by rw [hppj]; omega)
      have hNN : N' = N := by
        cases htrail with
        | root _ h1 h2 _ _ =>
          rw [h2] at hN'p
          subst hN'p
          rw [h1] at hN
          exact Option.some.inj hN
        | step _ _ _ _ _ h3 _ _ _ _ =>
          rw [hN'p, hN] at h3
          exact (Option.some.inj h3).symm
      subst hNN
      refine ⟨n, N' :: rest, hnp, Trail.step n N' rest (by rw [hnp]; exact hp)
        (by rw [hN'p]; exact hpp) (by rw [hnp]; exact hn) (by rw [hN'p, hppj]; exact hprev)
        (by rw [hN'p, hnp, hppj]; exact hrank) hlink htrail⟩

/-- Along a chain the closing order strictly decreases. -/
theorem trail_rank
    {costFunction : DungeonNode C → DungeonNode C → Option (DungeonPathInfo C)}
    {unitSize : Int} {dirs positions : List FVector} {start : FVector}
    {st : SearchState C} {l : List (DungeonNode C)}
    (h : Trail costFunction unitSize dirs positions start st l) :
    ∀ n rest, l = n :: rest → ∀ x ∈ rest,
      st.closedNodes.indexOf (st.grid.GetIndex x.Position) <
        st.closedNodes.indexOf (st.grid.GetIndex n.Position) := by
  induction h with
  | root s _ _ _ _ =>
    intro n rest hl x hx
    simp only [List.cons.injEq] at hl
    obtain ⟨-, rfl⟩ := hl
    cases hx
  | step n N rest _ _ _ _ hrank _ _ ih =>
    intro n' rest' hl x hx
    simp only [List.cons.injEq] at hl
    obtain ⟨rfl, rfl⟩ := hl
    rcases List.mem_cons.1 hx with rfl | hx
    · exact hrank
    · exact lt_trans (ih N rest rfl x hx) hrank

theorem trail_mem
    {costFunction : DungeonNode C → DungeonNode C → Option (DungeonPathInfo C)}
    {unitSize : Int} {dirs positions : List FVector} {start : FVector}
    {st : SearchState C} {l : List (DungeonNode C)}
    (hstart : start ∈ positions)
    (h : Trail costFunction unitSize dirs positions start st l) :
    ∀ x ∈ l, x.Position ∈ positions ∧ st.grid.get? x.Position = some x := by
  induction h with
  | root s h1 h2 _ _ =>
    intro x hx
    simp only [List.mem_singleton] at hx
    subst hx
    rw [h2]
    exact ⟨hstart, h1⟩
  | step n N rest hn _ hget _ _ _ _ ih =>
    intro x hx
    rcases List.mem_cons.1 hx with rfl | hx
    · exact ⟨hn, hget⟩
    · exact ih x hx

/-- The storage indices along a chain are pairwise different. -/
theorem trail_nodup
    {costFunction : DungeonNode C → DungeonNode C → Option (DungeonPathInfo C)}
    {unitSize : Int} {dirs positions : List FVector} {start : FVector}
    {st : SearchState C} {l : List (DungeonNode C)}
    (h : Trail costFunction unitSize dirs positions start st l) :
    (l.map fun x => st.grid.GetIndex x.Position).Nodup := by
  induction h with
  | root s _ _ _ _ => simp
  | step n N rest hn hN hget hprev hrank hlink htrail ih =>
    have hr := trail_rank (Trail.step n N rest hn hN hget hprev hrank hlink htrail)
      n (N :: rest) rfl
    rw [List.map_cons, List.nodup_cons]
    refine ⟨?_, ih⟩
    intro hmem
    obtain ⟨x, hx, hxe⟩ := List.mem_map.1 hmem
    have := hr x hx
    rw [hxe] at this
    exact lt_irrefl _ this

theorem trail_getLast
    {costFunction : DungeonNode C → DungeonNode C → Option (DungeonPathInfo C)}
    {unitSize : Int} {dirs positions : List FVector} {start : FVector}
    {st : SearchState C} {l : List (DungeonNode C)}
    (h : Trail costFunction unitSize dirs positions start st l) :
    (l.map fun x => x.Position).getLast? = some start := by
  induction h with
  | root s _ h2 _ _ => simp [h2]
  | step n N rest _ _ _ _ _ _ _ ih =>
    rw [List.map_cons, List.map_cons, List.getLast?_cons_cons]
    rw [List.map_cons] at ih
    exact ih

/-- The loop of `ReconstructPath`, started at the head of a chain, pushes the
positions of the whole chain. -/
theorem reconstructLoop_trail
    {costFunction : DungeonNode C → DungeonNode C → Option (DungeonPathInfo C)}
    {unitSize : Int} {dirs positions : List FVector} {start : FVector}
    {st : SearchState C} {l : List (DungeonNode C)}
    (h : Trail costFunction unitSize dirs positions start st l) :
    ∀ n rest, l = n :: rest → ∀ (stack : List FVector) (fuel : Nat),
      (∀ x ∈ l, x.Position ∉ stack) → ((l.map fun x => x.Position).Nodup) →
      l.length ≤ fuel →
      reconstructLoop st.grid fuel (some (st.grid.GetIndex n.Position)) stack =
        .ok (stack ++ l.map fun x => x.Position) := by
  induction h with
  | root s h1 h2 h3 _ =>
    intro n rest hl stack fuel hstack _ hfuel
    simp only [List.cons.injEq] at hl
    obtain ⟨rfl, rfl⟩ := hl
    cases fuel with
    | zero => simp at hfuel
    | succ fuel =>
      have hcell : st.grid.cell? (st.grid.GetIndex s.Position) = some s := by
        rw [h2]; exact h1
      unfold reconstructLoop
      simp only [hcell]
      rw [if_neg (hstack s (List.mem_singleton_self _)), h3]
      unfold reconstructLoop
      simp
  | step n N rest hn hN hget hprev hrank hlink htrail ih =>
    intro n' rest' hl stack fuel hstack hnd hfuel
    simp only [List.cons.injEq] at hl
    obtain ⟨rfl, rfl⟩ := hl
    cases fuel with
    | zero => simp at hfuel
    | succ fuel =>
      have hcell : st.grid.cell? (st.grid.GetIndex n.Position) = some n := hget
      unfold reconstructLoop
      simp only [hcell]
      rw [if_neg (hstack n (List.mem_cons_self _ _)), hprev]
      rw [List.map_cons, List.nodup_cons] at hnd
      rw [ih N rest rfl (stack ++ [n.Position]) fuel ?_ hnd.2 (by simpa using hfuel)]
      · simp
      · intro x hx hmem
        rcases List.mem_append.1 hmem with hmem | hmem
        · exact hstack x (List.mem_cons_of_mem _ hx) hmem
        · simp only [List.mem_singleton] at hmem
          exact hnd.1 (List.mem_map.2 ⟨x, hx, hmem⟩)

/-- The method `ReconstructPath`, called on the head of a chain, returns the
positions of the chain from the start node on. -/
theorem reconstructPath_trail
    {costFunction : DungeonNode C → DungeonNode C → Option (DungeonPathInfo C)}
    {unitSize : Int} {dirs positions : List FVector} {start : FVector}
    {st : SearchState C} {n : DungeonNode C} {rest : List (DungeonNode C)}
    (hstart : start ∈ positions)
    (h : Trail costFunction unitSize dirs positions start st (n :: rest)) :
    ReconstructPath st.grid (st.grid.GetIndex n.Position) =
      .ok ((n :: rest).map fun x => x.Position).reverse := by
  have hnd := trail_nodup h
  have hlen : (n :: rest).length ≤ st.grid.cellCount := by
    have := length_le_cellCount st.grid _ hnd (fun i hi => by
      obtain ⟨x, hx, rfl⟩ := List.mem_map.1 hi
      have := (trail_mem hstart h x hx).2
      unfold Grid3D.get? at this
      simp [this])
    simpa using this
  have hnd' : ((n :: rest).map fun x => x.Position).Nodup := by
    have h2 : ((n :: rest).map fun x => st.grid.GetIndex x.Position) =
        ((n :: rest).map fun x => x.Position).map st.grid.GetIndex := by
      rw [List.map_map]; rfl
    rw [h2] at hnd
    exact List.Nodup.of_map _ hnd
  unfold ReconstructPath
  rw [reconstructLoop_trail h n rest rfl [] (st.grid.cellCount + 1) (by simp) hnd' (by omega)]
  simp

end TrailTheorems

section SearchInitTheorems

variable {C : Type} [Add C] [Zero C]

theorem aligned_scale (unitSize : Int) (d : FVector) : Aligned unitSize (d.scale unitSize) :=
  ⟨Dvd.intro_left _ rfl, Dvd.intro_left _ rfl, Dvd.intro_left _ rfl⟩

theorem aligned_of_mem_map_scale {unitSize : Int} {l : List FVector} {offset : FVector}
    (h : offset ∈ l.map (fun d => d.scale unitSize)) : Aligned unitSize offset := by
  obtain ⟨d, -, rfl⟩ := List.mem_map.1 h
  exact aligned_scale unitSize d

/-- The state in which `FindPath` enters its search loop satisfies the
invariant of the search. -/
theorem searchInv_init
    (costFunction : DungeonNode C → DungeonNode C → Option (DungeonPathInfo C))
    (MAX_flt : C) (dirs : List FVector) {pf : DungeonPathfinder3D C}
    {positions : List FVector} (hready : Ready pf positions)
    (hreset : ∀ p ∈ positions, ∃ n, pf.grid.get? p = some n ∧ n.Position = p ∧
      IsReset MAX_flt n)
    {start : FVector} (hstart : start ∈ positions) {s : DungeonNode C}
    (hs : pf.grid.get? start = some s) {g : Grid3D (DungeonNode C)}
    (hg : pf.grid.set? start { s with Cost := 0 } = some g) :
    SearchInv costFunction pf.unitSize dirs positions start
      ⟨g, [{ s with Cost := 0 }], []⟩ := by
  have hunit : 0 < pf.unitSize := loopPositions_unit_pos hready.loop hstart
  have hal : ∀ p ∈ positions, Aligned pf.unitSize p :=
    fun p hp => loopPositions_aligned hready.loop hp
  obtain ⟨hu, hsz, hb, hget, hother⟩ := set?_get? hg
    (by rw [hready.grid_unit]; exact hal start hstart)
  have hold : ∀ p ∈ positions, p ≠ start → g.get? p = pf.grid.get? p :=
    fun p hp hne => hother p (by rw [hready.grid_unit]; exact hal p hp) hne
  obtain ⟨s0, hs0, hs0p, hs0r⟩ := hreset start hstart
  rw [hs] at hs0
  simp only [Option.some.injEq] at hs0
  subst hs0
  constructor
  · exact hu.trans hready.grid_unit
  · exact hal
  · intro p hp
    by_cases hpe : p = start
    · subst hpe
      exact ⟨_, hget, hs0p⟩
    · rw [hold p hp hpe]
      exact hready.placed p hp
  · intro p hpal hpin
    rw [inBounds_congr hsz hb] at hpin
    exact hready.mem_of_inBounds hunit hpal hpin
  · intro i hi; cases hi
  · intro e he
    simp only [List.mem_singleton] at he
    subst he
    show s.Position ∈ positions
    rw [hs0p]; exact hstart
  · exact hstart
  · intro n hn
    rw [hget] at hn
    simp only [Option.some.injEq] at hn
    subst hn
    exact ⟨hs0r.1, hs0r.2.2⟩
  · intro h; exact absurd rfl h
  · intro _ e he
    simp only [List.mem_singleton] at he
    subst he
    exact hs0p
  · intro p hp n hn _ hne
    refine ⟨by simp, ?_⟩
    intro e he
    simp only [List.mem_singleton] at he
    subst he
    show s.Position ≠ p
    rw [hs0p]; exact fun h => hne h.symm
  · intro p hp n j hn hprev
    by_cases hpe : p = start
    · subst hpe
      rw [hget] at hn
      simp only [Option.some.injEq] at hn
      subst hn
      have := hs0r.1
      simp only at hprev
      rw [this] at hprev
      cases hprev
    · rw [hold p hp hpe] at hn
      obtain ⟨n', hn', -, hr⟩ := hreset p hp
      rw [hn] at hn'
      simp only [Option.some.injEq] at hn'
      subst hn'
      rw [hr.1] at hprev
      cases hprev

end SearchInitTheorems

section FindPathTheorems

variable {C : Type} [LinearOrder C] [Add C] [Zero C]

/-- A non-empty path returned by `FindPath` is the reversed chain of
predecessor links from a node at the end position back to the start node. -/
theorem findPath_trail (MAX_flt : C) (pf : DungeonPathfinder3D C) (positions : List FVector)
    (hready : Ready pf positions) (start endPos : FVector) (hstart : start ∈ positions)
    (costFunction : DungeonNode C → DungeonNode C → Option (DungeonPathInfo C))
    (canChangeFloors : Bool) (fuel : Nat) (path : List FVector)
    (h : FindPath MAX_flt pf start endPos costFunction canChangeFloors fuel = .ok path)
    (hne : path ≠ []) :
    ∃ (st : SearchState C) (n : DungeonNode C) (rest : List (DungeonNode C)),
      Trail costFunction pf.unitSize
        ((if !canChangeFloors then Directions2D else Directions).map
          (fun offset => offset.scale pf.unitSize)) positions start st (n :: rest) ∧
      n.Position = endPos ∧ path = ((n :: rest).map fun x => x.Position).reverse := by
  obtain ⟨pf1, hreset, hready1, hunit1, -, hall⟩ := resetNodes_ready MAX_flt pf positions hready
  unfold FindPath at h
  simp only [hreset] at h
  split at h
  · simp only [Except.ok.injEq] at h
    exact absurd h.symm hne
  · obtain ⟨s, hs, -, -⟩ := hall start hstart
    simp only [hs] at h
    split at h
    · cases h
    · rename_i g hg
      have hinv := searchInv_init costFunction MAX_flt
        ((if !canChangeFloors then Directions2D else Directions).map
          (fun offset => offset.scale pf1.unitSize)) hready1 hall hstart hs hg
      rcases searchLoop_result (fun offset ho => aligned_of_mem_map_scale ho) fuel _ path
        hinv h with hp | ⟨st1, hinv1, hend, hcl, hrec⟩
      · exact absurd hp hne
      · obtain ⟨n, rest, hnp, htrail⟩ := trail_exists hinv1 _ endPos hend hcl (le_refl _)
        rw [← hnp, reconstructPath_trail hstart htrail] at hrec
        simp only [Except.ok.injEq] at hrec
        rw [hunit1] at htrail
        exact ⟨st1, n, rest, htrail, hnp, hrec.symm⟩

end FindPathTheorems

/-! ## Theorems: shape of the returned path -/

section PathShapeTheorems

variable {C : Type} [Add C]

theorem trail_chain
    {costFunction : DungeonNode C → DungeonNode C → Option (DungeonPathInfo C)}
    {unitSize : Int} {dirs positions : List FVector} {start : FVector}
    {st : SearchState C} {l : List (DungeonNode C)}
    (h : Trail costFunction unitSize dirs positions start st l) :
    List.Chain' (fun b a : FVector => ∃ offset ∈ dirs, b = a + offset)
      (l.map fun x => x.Position) := by
  induction h with
  | root s _ _ _ _ => simp
  | step n N rest _ _ _ _ _ hlink _ ih =>
    rw [List.map_cons, List.map_cons, List.chain'_cons]
    rw [List.map_cons] at ih
    obtain ⟨offset, ho, -, -, hpos, -⟩ := hlink
    exact ⟨⟨offset, ho, hpos⟩, ih⟩

variable [LinearOrder C] [Zero C]

theorem mem_scaled_directions {unitSize : Int} {canChangeFloors : Bool} {offset : FVector}
    (h : offset ∈ (if !canChangeFloors then Directions2D else Directions).map
      (fun d => d.scale unitSize)) :
    ∃ d : FVector, offset = d.scale unitSize ∧
      (d ∈ ([⟨1, 0, 0⟩, ⟨-1, 0, 0⟩, ⟨0, 1, 0⟩, ⟨0, -1, 0⟩] : List FVector) ∨
        (canChangeFloors = true ∧
          d ∈ ([⟨3, 0, 1⟩, ⟨-3, 0, 1⟩, ⟨0, 3, 1⟩, ⟨0, -3, 1⟩,
            ⟨3, 0, -1⟩, ⟨-3, 0, -1⟩, ⟨0, 3, -1⟩, ⟨0, -3, -1⟩] : List FVector))) := by
  obtain ⟨d, hd, rfl⟩ := List.mem_map.1 h
  refine ⟨d, rfl, ?_⟩
  cases canChangeFloors with
  | false =>
    left
    simpa [Directions2D] using hd
  | true =>
    simp only [Bool.not_true, Bool.false_eq_true, if_false, Directions, List.mem_cons,
      List.mem_nil_iff, or_false] at hd
    simp only [List.mem_cons, List.mem_nil_iff, or_false, true_and]
    tauto

theorem chain_same_floor (R : FVector → FVector → Prop)
    (hR : ∀ a b, R a b → b.Z = a.Z) :
    ∀ (l : List FVector) (a : FVector), List.Chain R a l → ∀ p ∈ l, p.Z = a.Z := by
  intro l
  induction l with
  | nil => intro a _ p hp; cases hp
  | cons b l ih =>
    intro a h p hp
    rw [List.chain_cons] at h
    rcases List.mem_cons.1 hp with rfl | hp
    · exact hR a p h.1
    · rw [ih b h.2 p hp]; exact hR a b h.1

/-- Claim C13.  Let the pathfinder be in the state its constructor and
earlier searches leave it in, and let `start` be one of its node positions.
For every end position, cost function and fuel: a non-empty path returned by
`FindPath` begins with `start`, ends with `end`, and each cell is its
predecessor plus `unitSize` times one of the 4 planar offsets or, only when
`canChangeFloors` is true, one of the 8 offsets (+-3, 0, +-1), (0, +-3, +-1);
with `canChangeFloors` false every cell has the Z coordinate of `start`. -/
theorem findPath_path_shape (MAX_flt : C) (pf : DungeonPathfinder3D C)
    (positions : List FVector) (hready : Ready pf positions) (start endPos : FVector)
    (hstart : start ∈ positions)
    (costFunction : DungeonNode C → DungeonNode C → Option (DungeonPathInfo C))
    (canChangeFloors : Bool) (fuel : Nat) (path : List FVector)
    (h : FindPath MAX_flt pf start endPos costFunction canChangeFloors fuel = .ok path)
    (hne : path ≠ []) :
    path.head? = some start ∧ path.getLast? = some endPos ∧
      List.Chain' (fun a b : FVector => ∃ d : FVector, b = a + d.scale pf.unitSize ∧
        (d ∈ ([⟨1, 0, 0⟩, ⟨-1, 0, 0⟩, ⟨0, 1, 0⟩, ⟨0, -1, 0⟩] : List FVector) ∨
          (canChangeFloors = true ∧
            d ∈ ([⟨3, 0, 1⟩, ⟨-3, 0, 1⟩, ⟨0, 3, 1⟩, ⟨0, -3, 1⟩,
              ⟨3, 0, -1⟩, ⟨-3, 0, -1⟩, ⟨0, 3, -1⟩, ⟨0, -3, -1⟩] : List FVector)))) path ∧
      (canChangeFloors = false → ∀ p ∈ path, p.Z = start.Z) := by
  obtain ⟨st, n, rest, htrail, hnp, hpath⟩ := findPath_trail MAX_flt pf positions hready
    start endPos hstart costFunction canChangeFloors fuel path h hne
  have hhead : path.head? = some start := by
    rw [hpath, List.head?_reverse]
    exact trail_getLast htrail
  have hchain : List.Chain' (fun a b : FVector => ∃ d : FVector, b = a + d.scale pf.unitSize ∧
        (d ∈ ([⟨1, 0, 0⟩, ⟨-1, 0, 0⟩, ⟨0, 1, 0⟩, ⟨0, -1, 0⟩] : List FVector) ∨
          (canChangeFloors = true ∧
            d ∈ ([⟨3, 0, 1⟩, ⟨-3, 0, 1⟩, ⟨0, 3, 1⟩, ⟨0, -3, 1⟩,
              ⟨3, 0, -1⟩, ⟨-3, 0, -1⟩, ⟨0, 3, -1⟩, ⟨0, -3, -1⟩] : List FVector)))) path := by
    rw [hpath, List.chain'_reverse]
    refine List.Chain'.imp ?_ (trail_chain htrail)
    intro b a ⟨offset, ho, hb⟩
    obtain ⟨d, rfl, hd⟩ := mem_scaled_directions ho
    exact ⟨d, hb, hd⟩
  refine ⟨hhead, ?_, hchain, ?_⟩
  · rw [hpath, List.getLast?_reverse]
    simp [hnp]
  · intro hflat p hp
    cases path with
    | nil => cases hp
    | cons a l =>
      simp only [List.head?_cons, Option.some.injEq] at hhead
      subst hhead
      rcases List.mem_cons.1 hp with rfl | hp
      · rfl
      · refine chain_same_floor _ ?_ l a hchain p hp
        rintro x y ⟨d, rfl, hd | ⟨hc, -⟩⟩
        · simp only [List.mem_cons, List.mem_nil_iff, or_false] at hd
          rcases hd with rfl | rfl | rfl | rfl <;> simp [FVector.add_def, FVector.scale]
        · rw [hflat] at hc; cases hc

set_option maxRecDepth 100000 in
theorem samplePositions_loop : loopPositions ⟨40, 40, 30⟩ 5 = some samplePositions := rfl

/-- The pathfinder of the sample volume is in a `Ready` state. -/
theorem samplePathfinder_ready : Ready samplePathfinder samplePositions :=
  ready_of_new 1000000 ⟨40, 40, 30⟩ 5 samplePathfinder samplePositions samplePathfinder_built
    samplePositions_loop

set_option maxRecDepth 1000000 in
/-- Scenario B evaluated: the search with floor changes disallowed, from the
Room cell (10, 10, 10) to the Room cell (25, 10, 10). -/
theorem scenarioB_search :
    FindPath 1000000 samplePathfinder ⟨10, 10, 10⟩ ⟨25, 10, 10⟩
      (fun a b => CostFunction scenarioBGrid sampleSettings distSq a b ⟨25, 10, 10⟩) false 100 =
    .ok [⟨10, 10, 10⟩, ⟨15, 10, 10⟩, ⟨20, 10, 10⟩, ⟨25, 10, 10⟩] := by
  rfl

/-- Claim C13, at a concrete input: the path of scenario B. -/
theorem findPath_path_shape_witness :
    ([⟨10, 10, 10⟩, ⟨15, 10, 10⟩, ⟨20, 10, 10⟩, ⟨25, 10, 10⟩] : List FVector).head? =
        some ⟨10, 10, 10⟩ ∧
      ([⟨10, 10, 10⟩, ⟨15, 10, 10⟩, ⟨20, 10, 10⟩, ⟨25, 10, 10⟩] : List FVector).getLast? =
        some ⟨25, 10, 10⟩ ∧
      List.Chain' (fun a b : FVector => ∃ d : FVector, b = a + d.scale samplePathfinder.unitSize ∧
        (d ∈ ([⟨1, 0, 0⟩, ⟨-1, 0, 0⟩, ⟨0, 1, 0⟩, ⟨0, -1, 0⟩] : List FVector) ∨
          (false = true ∧
            d ∈ ([⟨3, 0, 1⟩, ⟨-3, 0, 1⟩, ⟨0, 3, 1⟩, ⟨0, -3, 1⟩,
              ⟨3, 0, -1⟩, ⟨-3, 0, -1⟩, ⟨0, 3, -1⟩, ⟨0, -3, -1⟩] : List FVector))))
        [⟨10, 10, 10⟩, ⟨15, 10, 10⟩, ⟨20, 10, 10⟩, ⟨25, 10, 10⟩] ∧
      (false = false → ∀ p ∈ ([⟨10, 10, 10⟩, ⟨15, 10, 10⟩, ⟨20, 10, 10⟩, ⟨25, 10, 10⟩] :
        List FVector), p.Z = (⟨10, 10, 10⟩ : FVector).Z) :=
  findPath_path_shape 1000000 samplePathfinder samplePositions samplePathfinder_ready
    ⟨10, 10, 10⟩ ⟨25, 10, 10⟩ (by decide) _ false 100 _ scenarioB_search (by simp)

end PathShapeTheorems

/-! ## Theorems: the returned path does not cross itself -/

section SelfAvoidTheorems

variable {C : Type}

theorem FVector.add_sub_cancel_left (a o : FVector) : a + o - a = o := by
  cases a; cases o
  simp [FVector.add_def, FVector.sub_def]

/-- The footprint of a move between floors contains neither end of the move. -/
theorem stairCells_ne_ends {unitSize : Int} (hunit : 0 < unitSize) {canChangeFloors : Bool}
    {offset : FVector}
    (ho : offset ∈ (if !canChangeFloors then Directions2D else Directions).map
      (fun d => d.scale unitSize))
    (hz : offset.Z ≠ 0) (a : FVector) :
    ∀ c ∈ stairCells unitSize a offset, c ≠ a ∧ c ≠ a + offset := by
  obtain ⟨d, rfl, hd⟩ := mem_scaled_directions ho
  intro c hc
  simp only [stairCells, horizontalOffset, verticalOffset, RoundToInt, Clamp, List.mem_cons,
    List.mem_nil_iff, or_false] at hc
  rcases hd with hd | ⟨-, hd⟩
  · simp only [List.mem_cons, List.mem_nil_iff, or_false] at hd
    rcases hd with rfl | rfl | rfl | rfl <;> simp [FVector.scale] at hz
  · simp only [List.mem_cons, List.mem_nil_iff, or_false] at hd
    cases a with
    | mk ax ay az =>
    rcases hd with rfl | rfl | rfl | rfl | rfl | rfl | rfl | rfl <;>
      rcases hc with rfl | rfl | rfl | rfl <;>
      simp only [FVector.scale, FVector.add_def, ne_eq, FVector.mk.injEq, not_and] <;>
      constructor <;> intro h1 <;> omega

theorem backStair_cons {cf : FVector → FVector → Option (DungeonPathInfo C)}
    {n N : FVector} {rest : List FVector} {a b : FVector} :
    BackStair cf (n :: N :: rest) a b ↔
      (a = N ∧ b = n ∧ flaggedStairs cf N n = true) ∨ BackStair cf (N :: rest) a b := by
  constructor
  · rintro ⟨pre, post, hl, hf⟩
    cases pre with
    | nil =>
      simp only [List.nil_append, List.cons.injEq] at hl
      obtain ⟨rfl, rfl, -⟩ := hl
      exact Or.inl ⟨rfl, rfl, hf⟩
    | cons x pre =>
      simp only [List.cons_append, List.cons.injEq] at hl
      exact Or.inr ⟨pre, post, hl.2, hf⟩
  · rintro (⟨rfl, rfl, hf⟩ | ⟨pre, post, hl, hf⟩)
    · exact ⟨[], rest, rfl, hf⟩
    · exact ⟨n :: pre, post, by rw [hl]; rfl, hf⟩

theorem backStair_single {cf : FVector → FVector → Option (DungeonPathInfo C)}
    {s a b : FVector} : ¬ BackStair cf [s] a b := by
  rintro ⟨pre, post, hl, -⟩
  have := congrArg List.length hl
  simp at this
  omega

variable [Add C]

/-- Along a chain recorded with a cost function of the two positions, the
previous-set of the head holds the earlier cells and the footprints of the
earlier stair moves, no footprint meets the chain, and the footprints of
different stair moves are disjoint. -/
theorem trail_footprints
    {cf : FVector → FVector → Option (DungeonPathInfo C)}
    {unitSize : Int} (hunit : 0 < unitSize) {canChangeFloors : Bool}
    {positions : List FVector} {start : FVector} {st : SearchState C}
    (hvert : ∀ a b info, cf a b = some info → info.IsStairs = true → b.Z ≠ a.Z)
    {l : List (DungeonNode C)}
    (h : Trail (fun a b => cf a.Position b.Position) unitSize
      ((if !canChangeFloors then Directions2D else Directions).map
        (fun d => d.scale unitSize)) positions start st l) :
    ∀ n rest, l = n :: rest →
      (∀ x ∈ rest, x.Position ∈ n.PreviousSet) ∧
      (∀ a b, BackStair cf (l.map fun x => x.Position) a b →
        ∀ c ∈ stairCells unitSize a (b - a),
          c ∈ n.PreviousSet ∧ c ∉ l.map fun x => x.Position) ∧
      (∀ a b a' b', BackStair cf (l.map fun x => x.Position) a b →
        BackStair cf (l.map fun x => x.Position) a' b' → a' ≠ a →
        ∀ c ∈ stairCells unitSize a (b - a), c ∉ stairCells unitSize a' (b' - a')) := by
  induction h with
  | root s _ _ _ _ =>
    intro n rest hl
    simp only [List.cons.injEq] at hl
    obtain ⟨rfl, rfl⟩ := hl
    refine ⟨by simp, ?_, ?_⟩
    · intro a b hab; exact absurd hab backStair_single
    · intro a b a' b' hab; exact absurd hab backStair_single
  | step n N rest _ _ _ _ _ hlink _ ih =>
    intro n' rest' hl
    simp only [List.cons.injEq] at hl
    obtain ⟨rfl, rfl⟩ := hl
    obtain ⟨ih1, ih2, ih3⟩ := ih N rest rfl
    obtain ⟨offset, ho, m0, info, hpos, hm0, hcf, -, hnotin, hstairs, hset, -⟩ := hlink
    simp only [hm0] at hcf
    have hflag : flaggedStairs cf N.Position n.Position = info.IsStairs := by
      unfold flaggedStairs; rw [hcf]
    have hoff : n.Position - N.Position = offset := by
      rw [hpos]; exact FVector.add_sub_cancel_left _ _
    have hsub : ∀ c ∈ N.PreviousSet, c ∈ n.PreviousSet := by
      intro c hc
      rw [hset]
      unfold extendedSet
      simp [hc]
    have hNin : N.Position ∈ n.PreviousSet := by
      rw [hset]; unfold extendedSet; simp
    have hrestin : ∀ x ∈ N :: rest, x.Position ∈ n.PreviousSet := by
      intro x hx
      rcases List.mem_cons.1 hx with rfl | hx
      · exact hNin
      · exact hsub _ (ih1 x hx)
    -- the new step, when it is a stair move
    have hnew : info.IsStairs = true → ∀ c ∈ stairCells unitSize N.Position offset,
        c ∈ n.PreviousSet ∧ c ∉ N.PreviousSet ∧
          c ∉ (n :: N :: rest).map fun x => x.Position := by
      intro hs c hc
      have hz : offset.Z ≠ 0 := by
        have := hvert _ _ info hcf hs
        rw [hpos] at this
        simp only [FVector.add_def] at this
        omega
      obtain ⟨hne1, hne2⟩ := stairCells_ne_ends hunit ho hz N.Position c hc
      refine ⟨?_, hstairs hs c hc, ?_⟩
      · rw [hset]; unfold extendedSet; simp [hs, hc]
      · intro hmem
        simp only [List.map_cons, List.mem_cons, List.mem_map] at hmem
        rcases hmem with hmem | hmem | ⟨x, hx, hxe⟩
        · rw [hpos] at hmem; exact hne2 hmem
        · exact hne1 hmem
        · exact hstairs hs c hc (by rw [← hxe]; exact ih1 x hx)
    have hold : ∀ a b, BackStair cf ((N :: rest).map fun x => x.Position) a b →
        ∀ c ∈ stairCells unitSize a (b - a),
          c ∈ n.PreviousSet ∧ c ∈ N.PreviousSet ∧
            c ∉ (n :: N :: rest).map fun x => x.Position := by
      intro a b hab c hc
      obtain ⟨h1, h2⟩ := ih2 a b hab c hc
      refine ⟨hsub c h1, h1, ?_⟩
      intro hmem
      rw [List.map_cons, List.mem_cons] at hmem
      rcases hmem with hmem | hmem
      · rw [hmem] at h1; exact hnotin h1
      · exact h2 hmem
    refine ⟨hrestin, ?_, ?_⟩
    · intro a b hab c hc
      simp only [List.map_cons] at hab
      rcases backStair_cons.1 hab with ⟨rfl, rfl, hf⟩ | hab
      · rw [hflag] at hf
        rw [hoff] at hc
        exact ⟨(hnew hf c hc).1, (hnew hf c hc).2.2⟩
      · have := hold a b (by simpa only [List.map_cons] using hab) c hc
        exact ⟨this.1, this.2.2⟩
    · intro a b a' b' hab hab' hne c hc hc'
      simp only [List.map_cons] at hab hab'
      rcases backStair_cons.1 hab with ⟨rfl, rfl, hf⟩ | hab
      · rcases backStair_cons.1 hab' with ⟨rfl, rfl, -⟩ | hab'
        · exact hne rfl
        · rw [hflag] at hf
          rw [hoff] at hc
          exact (hnew hf c hc).2.1
            (hold a' b' (by simpa only [List.map_cons] using hab') c hc').2.1
      · rcases backStair_cons.1 hab' with ⟨rfl, rfl, hf'⟩ | hab'
        · rw [hflag] at hf'
          rw [hoff] at hc'
          exact (hnew hf' c hc').2.1
            (hold a b (by simpa only [List.map_cons] using hab) c hc).2.1
        · exact ih3 a b a' b' (by simpa only [List.map_cons] using hab)
            (by simpa only [List.map_cons] using hab') hne c hc hc'


theorem trail_nodup_positions
    {costFunction : DungeonNode C → DungeonNode C → Option (DungeonPathInfo C)}
    {unitSize : Int} {dirs positions : List FVector} {start : FVector}
    {st : SearchState C} {l : List (DungeonNode C)}
    (h : Trail costFunction unitSize dirs positions start st l) :
    (l.map fun x => x.Position).Nodup := by
  have hnd := trail_nodup h
  have h2 : (l.map fun x => st.grid.GetIndex x.Position) =
      (l.map fun x => x.Position).map st.grid.GetIndex := by
    rw [List.map_map]; rfl
  rw [h2] at hnd
  exact List.Nodup.of_map _ hnd

/-- On a flat transition `CostFunction` never sets the stairs flag, and it
accepts only a cell that is neither Stairs nor Blocked. -/
theorem costFunction_flat_inv [Zero C] {grid : Grid3D EStructureType} {cfg : CostSettings C}
    {Distance : FVector → FVector → C} {a b : DungeonNode C} {endPos : FVector}
    {info : DungeonPathInfo C} (hz : (b.Position - a.Position).Z = 0)
    (h : CostFunction grid cfg Distance a b endPos = some info) :
    info.IsStairs = false ∧
      (info.Traversable = true → ∃ sb, grid.get? b.Position = some sb ∧
        sb ≠ EStructureType.STAIRS ∧ sb ≠ EStructureType.STOP) := by
  unfold CostFunction at h
  simp only [hz, if_true] at h
  split at h
  · cases h
  · rename_i sb hsb
    split at h
    · simp only [Option.some.injEq] at h
      subst h
      exact ⟨rfl, fun ht => by simp at ht⟩
    · rename_i hne
      simp only [Option.some.injEq] at h
      subst h
      refine ⟨?_, fun _ => ⟨sb, hsb, fun h1 => hne (Or.inl h1), fun h1 => hne (Or.inr h1)⟩⟩
      split
      · rfl
      · split <;> rfl

/-- The stairs flag of `CostFunction` is set only on a move between floors. -/
theorem costFunction_stairs_vertical [Zero C] {grid : Grid3D EStructureType}
    {cfg : CostSettings C} {Distance : FVector → FVector → C} {a b : DungeonNode C}
    {endPos : FVector} {info : DungeonPathInfo C}
    (h : CostFunction grid cfg Distance a b endPos = some info)
    (hs : info.IsStairs = true) : b.Position.Z ≠ a.Position.Z := by
  intro hz
  have hz' : (b.Position - a.Position).Z = 0 := by
    rw [FVector.sub_def]
    exact sub_eq_zero.2 hz
  rw [(costFunction_flat_inv hz' h).1] at hs
  cases hs

end SelfAvoidTheorems

section SelfAvoidClaim

variable {C : Type} [LinearOrder C] [Add C] [Zero C]

/-- Claim C14, amended.  Let the pathfinder be in the state its constructor
and earlier searches leave it in, let `start` be one of its node positions,
and let the cost function be a function `cf` of the two positions.  Then in
every path that `FindPath` returns no position occurs twice; and when `cf`
sets the stairs flag only on moves between floors (as `CostFunction` does),
for every stair move from `a` to `b` of the path (a step that `cf` flags) no
cell of its footprint is a cell of the path, or a footprint cell of a
different stair move of the path. -/
theorem findPath_self_avoiding (MAX_flt : C) (pf : DungeonPathfinder3D C)
    (positions : List FVector) (hready : Ready pf positions) (start endPos : FVector)
    (hstart : start ∈ positions)
    (costFunction : DungeonNode C → DungeonNode C → Option (DungeonPathInfo C))
    (cf : FVector → FVector → Option (DungeonPathInfo C))
    (hcf : ∀ a b, costFunction a b = cf a.Position b.Position)
    (canChangeFloors : Bool) (fuel : Nat) (path : List FVector)
    (h : FindPath MAX_flt pf start endPos costFunction canChangeFloors fuel = .ok path) :
    path.Nodup ∧
      ((∀ a b info, cf a b = some info → info.IsStairs = true → b.Z ≠ a.Z) →
        ∀ xs a b ys, path = xs ++ a :: b :: ys → flaggedStairs cf a b = true →
          (∀ c ∈ stairCells pf.unitSize a (b - a), c ∉ path) ∧
          ∀ xs' a' b' ys', path = xs' ++ a' :: b' :: ys' → flaggedStairs cf a' b' = true →
            a' ≠ a → ∀ c ∈ stairCells pf.unitSize a (b - a),
              c ∉ stairCells pf.unitSize a' (b' - a')) := by
  have hfun : costFunction = fun a b => cf a.Position b.Position := by
    funext a b; exact hcf a b
  subst hfun
  by_cases hne : path = []
  · subst hne
    refine ⟨List.nodup_nil, ?_⟩
    intro _ xs a b ys hp
    have := congrArg List.length hp
    simp only [List.length_nil, List.length_append, List.length_cons] at this
    omega
  obtain ⟨st, n, rest, htrail, -, hpath⟩ := findPath_trail MAX_flt pf positions hready
    start endPos hstart _ canChangeFloors fuel path h hne
  have hunit : 0 < pf.unitSize := loopPositions_unit_pos hready.loop hstart
  refine ⟨by rw [hpath, List.nodup_reverse]; exact trail_nodup_positions htrail, ?_⟩
  intro hvert
  obtain ⟨-, h2, h3⟩ := trail_footprints hunit hvert htrail n rest rfl
  have hback : ∀ xs a b ys, path = xs ++ a :: b :: ys → flaggedStairs cf a b = true →
      BackStair cf ((n :: rest).map fun x => x.Position) a b := by
    intro xs a b ys hp hf
    refine ⟨ys.reverse, xs.reverse, ?_, hf⟩
    have := congrArg List.reverse hp
    rw [hpath, List.reverse_reverse] at this
    rw [this]
    simp
  have hmem : ∀ c, c ∈ path ↔ c ∈ (n :: rest).map fun x => x.Position := by
    intro c; rw [hpath, List.mem_reverse]
  intro xs a b ys hp hf
  refine ⟨fun c hc hcp => (h2 a b (hback xs a b ys hp hf) c hc).2 ((hmem c).1 hcp), ?_⟩
  intro xs' a' b' ys' hp' hf' hne'
  exact h3 a b a' b' (hback xs a b ys hp hf) (hback xs' a' b' ys' hp' hf') hne'

set_option maxRecDepth 1000000 in
/-- Scenario C evaluated: the search with floor changes allowed, from the
Room cell (10, 10, 10) to the Room cell (30, 15, 15) one floor higher. -/
theorem scenarioC_search :
    FindPath 1000000 samplePathfinder ⟨10, 10, 10⟩ ⟨30, 15, 15⟩
      (fun a b => CostFunction scenarioCGrid sampleSettings distSq a b ⟨30, 15, 15⟩) true 100 =
    .ok [⟨10, 10, 10⟩, ⟨15, 10, 10⟩, ⟨30, 10, 15⟩, ⟨30, 15, 15⟩] := by
  rfl

/-- Claim C14, amended, at a concrete input: the path of scenario C, whose
second step is a stair move, found with `CostFunction`, which flags only
moves between floors. -/
theorem findPath_self_avoiding_witness :
    ([⟨10, 10, 10⟩, ⟨15, 10, 10⟩, ⟨30, 10, 15⟩, ⟨30, 15, 15⟩] : List FVector).Nodup ∧
      ∀ xs a b ys,
        ([⟨10, 10, 10⟩, ⟨15, 10, 10⟩, ⟨30, 10, 15⟩, ⟨30, 15, 15⟩] : List FVector) =
          xs ++ a :: b :: ys →
        flaggedStairs (fun a b => CostFunction scenarioCGrid sampleSettings distSq
          (nodeAt a) (nodeAt b) ⟨30, 15, 15⟩) a b = true →
        (∀ c ∈ stairCells samplePathfinder.unitSize a (b - a),
          c ∉ ([⟨10, 10, 10⟩, ⟨15, 10, 10⟩, ⟨30, 10, 15⟩, ⟨30, 15, 15⟩] : List FVector)) ∧
        ∀ xs' a' b' ys',
          ([⟨10, 10, 10⟩, ⟨15, 10, 10⟩, ⟨30, 10, 15⟩, ⟨30, 15, 15⟩] : List FVector) =
            xs' ++ a' :: b' :: ys' →
          flaggedStairs (fun a b => CostFunction scenarioCGrid sampleSettings distSq
            (nodeAt a) (nodeAt b) ⟨30, 15, 15⟩) a' b' = true →
          a' ≠ a → ∀ c ∈ stairCells samplePathfinder.unitSize a (b - a),
            c ∉ stairCells samplePathfinder.unitSize a' (b' - a') :=
  have key := findPath_self_avoiding 1000000 samplePathfinder samplePositions
    samplePathfinder_ready ⟨10, 10, 10⟩ ⟨30, 15, 15⟩ (by decide)
    (fun a b => CostFunction scenarioCGrid sampleSettings distSq a b ⟨30, 15, 15⟩)
    (fun a b => CostFunction scenarioCGrid sampleSettings distSq (nodeAt a) (nodeAt b)
      ⟨30, 15, 15⟩)
    (fun _ _ => rfl) true 100 _ scenarioC_search
  ⟨key.1, key.2 (fun _ _ _ hc hs => costFunction_stairs_vertical hc hs)⟩

end SelfAvoidClaim

set_option maxRecDepth 1000000 in
/-- Claim C14 fails as stated.  On the sample volume, with a cost function
that makes every step traversable at cost 1 and flags every step as a stair
move, the search from (10, 10, 10) to the next cell (15, 10, 10) returns the
two cells.  The step between them is a flagged stair move of the path, and
its footprint, computed as the search computes it, contains the cell
(15, 10, 10) of the path: the horizontal offset of a planar step is the step
itself. -/
theorem findPath_flagged_planar_step :
    FindPath 1000000 samplePathfinder ⟨10, 10, 10⟩ ⟨15, 10, 10⟩
        (fun _ _ => some ⟨true, 1, true⟩) true 100 =
      .ok [⟨10, 10, 10⟩, ⟨15, 10, 10⟩] ∧
    flaggedStairs (fun _ _ => some (⟨true, 1, true⟩ : DungeonPathInfo Int))
      ⟨10, 10, 10⟩ ⟨15, 10, 10⟩ = true ∧
    (⟨15, 10, 10⟩ : FVector) ∈
      stairCells samplePathfinder.unitSize ⟨10, 10, 10⟩ (⟨15, 10, 10⟩ - ⟨10, 10, 10⟩) ∧
    (⟨15, 10, 10⟩ : FVector) ∈ ([⟨10, 10, 10⟩, ⟨15, 10, 10⟩] : List FVector) := by
  refine ⟨by rfl, by rfl, by decide, by decide⟩

/-! ## Theorems: hallway carving -/

section CarveTheorems

open EStructureType

theorem set?_cell? {T : Type} {g g' : Grid3D T} {p : FVector} {v : T}
    (h : g.set? p v = some g') :
    g'.unit = g.unit ∧ g'.size = g.size ∧ g'.borderOffset = g.borderOffset ∧
      g'.cell? (g.GetIndex p) = some v ∧ ∀ j, j ≠ g.GetIndex p → g'.cell? j = g.cell? j := by
  have hin := cell?_isSome_of_setCell? h
  obtain ⟨g2, h2, hu, hs, hb, hget, hother⟩ := setCell?_spec g (g.GetIndex p) v hin
  unfold Grid3D.set? at h
  rw [h] at h2
  simp only [Option.some.injEq] at h2
  subst h2
  exact ⟨hu, hs, hb, hget, hother⟩

/-- A run of writes of `STAIRS`: every written cell ends as Stairs, every
other cell is unchanged. -/
theorem foldlM_stairs :
    ∀ (cells : List FVector) (g g' : Grid3D EStructureType),
      cells.foldlM (fun g c => g.set? c STAIRS) g = some g' →
      g'.unit = g.unit ∧ g'.size = g.size ∧ g'.borderOffset = g.borderOffset ∧
      (∀ c ∈ cells, g'.get? c = some STAIRS) ∧
      (∀ index, g'.cell? index = g.cell? index ∨
        (g'.cell? index = some STAIRS ∧ ∃ c ∈ cells, index = g.GetIndex c)) := by
  intro cells
  induction cells with
  | nil =>
    intro g g' h
    simp only [List.foldlM_nil, Option.pure_def, Option.some.injEq] at h
    subst h
    exact ⟨rfl, rfl, rfl, by simp, fun _ => Or.inl rfl⟩
  | cons c cells ih =>
    intro g g' h
    simp only [List.foldlM_cons, Option.bind_eq_bind] at h
    cases h1 : g.set? c STAIRS with
    | none => rw [h1] at h; cases h
    | some g1 =>
      rw [h1] at h
      simp only [Option.some_bind] at h
      obtain ⟨hu1, hs1, hb1, hget1, hother1⟩ := set?_cell? h1
      obtain ⟨hu, hs, hb, hall, hcells⟩ := ih g1 g' h
      have hidx : ∀ q, g1.GetIndex q = g.GetIndex q := getIndex_congr hu1
      have hidx' : ∀ q, g'.GetIndex q = g.GetIndex q := fun q =>
        (getIndex_congr hu q).trans (hidx q)
      refine ⟨hu.trans hu1, hs.trans hs1, hb.trans hb1, ?_, ?_⟩
      · intro x hx
        rcases List.mem_cons.1 hx with rfl | hx
        · unfold Grid3D.get?
          rw [hidx']
          rcases hcells (g.GetIndex x) with h2 | ⟨h2, -⟩
          · rw [h2]; exact hget1
          · exact h2
        · exact hall x hx
      · intro index
        rcases hcells index with h2 | ⟨h2, x, hx, hxe⟩
        · by_cases hi : index = g.GetIndex c
          · right
            subst hi
            rw [h2]
            exact ⟨hget1, c, List.mem_cons_self _ _, rfl⟩
          · left
            rw [h2]; exact hother1 index hi
        · right
          exact ⟨h2, x, List.mem_cons_of_mem _ hx, by rw [hxe, hidx]⟩

/-- What one round of the carving loop does to the grid. -/
theorem carveCell_spec {DungeonUnit : Int} {grid g' : Grid3D EStructureType}
    {pre : Option FVector} {current : FVector}
    (h : carveCell DungeonUnit grid pre current = some g') :
    g'.unit = grid.unit ∧ g'.size = grid.size ∧ g'.borderOffset = grid.borderOffset ∧
      (∀ p, pre = some p → (current - p).Z ≠ 0 →
        ∀ c ∈ stairCells DungeonUnit p (current - p), g'.get? c = some STAIRS) ∧
      (∀ index, g'.cell? index = grid.cell? index ∨
        (grid.cell? index = some NONE ∧ g'.cell? index = some HALLWAY) ∨
        (g'.cell? index = some STAIRS ∧ ∃ p, pre = some p ∧ (current - p).Z ≠ 0 ∧
          ∃ c ∈ stairCells DungeonUnit p (current - p), index = grid.GetIndex c)) := by
  unfold carveCell at h
  split at h
  · cases h
  · rename_i s hs
    split at h
    · cases h
    · rename_i g1 hg1
      have h1 : g1.unit = grid.unit ∧ g1.size = grid.size ∧
          g1.borderOffset = grid.borderOffset ∧
          ∀ index, g1.cell? index = grid.cell? index ∨
            (grid.cell? index = some NONE ∧ g1.cell? index = some HALLWAY) := by
        split at hg1
        · rename_i hnone
          subst hnone
          obtain ⟨hu, hsz, hb, hget, hother⟩ := set?_cell? hg1
          refine ⟨hu, hsz, hb, ?_⟩
          intro index
          by_cases hi : index = grid.GetIndex current
          · subst hi
            exact Or.inr ⟨hs, hget⟩
          · exact Or.inl (hother index hi)
        · simp only [Option.some.injEq] at hg1
          subst hg1
          exact ⟨rfl, rfl, rfl, fun _ => Or.inl rfl⟩
      obtain ⟨hu1, hs1, hb1, hc1⟩ := h1
      split at h
      · simp only [Option.some.injEq] at h
        subst h
        refine ⟨hu1, hs1, hb1, ?_, ?_⟩
        · intro p hp; cases hp
        · intro index
          rcases hc1 index with h2 | h2
          · exact Or.inl h2
          · exact Or.inr (Or.inl h2)
      · rename_i p
        simp only at h
        split at h
        · rename_i hz
          obtain ⟨hu, hsz, hb, hall, hcells⟩ := foldlM_stairs _ g1 g' h
          refine ⟨hu.trans hu1, hsz.trans hs1, hb.trans hb1, ?_, ?_⟩
          · intro p' hp' _
            simp only [Option.some.injEq] at hp'
            subst hp'
            exact hall
          · intro index
            rcases hcells index with h2 | ⟨h2, c, hc, hce⟩
            · rw [h2]
              rcases hc1 index with h3 | h3
              · exact Or.inl h3
              · exact Or.inr (Or.inl h3)
            · exact Or.inr (Or.inr ⟨h2, p, rfl, hz, c, hc, by rw [hce, getIndex_congr hu1]⟩)
        · rename_i hz
          simp only [Option.some.injEq] at h
          subst h
          refine ⟨hu1, hs1, hb1, ?_, ?_⟩
          · intro p' hp' hz'
            simp only [Option.some.injEq] at hp'
            subst hp'
            exact absurd hz' hz
          · intro index
            rcases hc1 index with h2 | h2
            · exact Or.inl h2
            · exact Or.inr (Or.inl h2)


theorem carveCell_isSome (DungeonUnit : Int) (grid : Grid3D EStructureType)
    (pre : Option FVector) (current : FVector) (hcur : (grid.get? current).isSome)
    (hcells : ∀ p, pre = some p → (current - p).Z ≠ 0 →
      ∀ c ∈ stairCells DungeonUnit p (current - p), (grid.get? c).isSome) :
    ∃ g', carveCell DungeonUnit grid pre current = some g' := by
  obtain ⟨s, hs⟩ := Option.isSome_iff_exists.1 hcur
  have h1 : ∃ g1, (if s = NONE then grid.set? current HALLWAY else some grid) = some g1 ∧
      SameShape grid g1 := by
    split
    · obtain ⟨g1, hg1⟩ := set?_of_isSome grid current HALLWAY hcur
      exact ⟨g1, hg1, (set?_sameShape hg1).2⟩
    · exact ⟨grid, rfl, SameShape.refl grid⟩
  obtain ⟨g1, hg1, hshape⟩ := h1
  unfold carveCell
  simp only [hs, hg1]
  cases pre with
  | none => exact ⟨g1, rfl⟩
  | some p =>
    simp only
    split
    · rename_i hz
      exact foldlM_of_isSome (fun g c => g.set? c STAIRS)
        (fun g q hq => by
          obtain ⟨g', hg'⟩ := set?_of_isSome g q STAIRS hq
          exact ⟨g', hg', (set?_sameShape hg').2⟩)
        _ g1 (fun c hc => by
          rw [hshape.get?_isSome c]
          exact hcells p rfl hz c hc)
    · exact ⟨g1, rfl⟩

/-- After the carving loop the footprint of every move between floors is
Stairs, and cells that were Stairs before still are. -/
theorem carveLoop_stairs (DungeonUnit : Int) :
    ∀ (path : List FVector) (g : Grid3D EStructureType) (pre : Option FVector)
      (g' : Grid3D EStructureType), carveLoop DungeonUnit g pre path = some g' →
      g'.unit = g.unit ∧
      (∀ index, g.cell? index = some STAIRS → g'.cell? index = some STAIRS) ∧
      (∀ p cur ys, pre = some p → path = cur :: ys → (cur - p).Z ≠ 0 →
        ∀ c ∈ stairCells DungeonUnit p (cur - p), g'.get? c = some STAIRS) ∧
      (∀ xs a b ys, path = xs ++ a :: b :: ys → (b - a).Z ≠ 0 →
        ∀ c ∈ stairCells DungeonUnit a (b - a), g'.get? c = some STAIRS) := by
  intro path
  induction path with
  | nil =>
    intro g pre g' h
    simp only [carveLoop, Option.some.injEq] at h
    subst h
    refine ⟨rfl, fun _ h => h, ?_, ?_⟩
    · intro p cur ys _ hp; cases hp
    · intro xs a b ys hp
      have := congrArg List.length hp
      simp only [List.length_nil, List.length_append, List.length_cons] at this
      omega
  | cons cur rest ih =>
    intro g pre g' h
    unfold carveLoop at h
    split at h
    · cases h
    · rename_i g1 hg1
      obtain ⟨hu1, -, -, hst1, hc1⟩ := carveCell_spec hg1
      obtain ⟨hu, hkeep, hfirst, hlater⟩ := ih g1 (some cur) g' h
      have hkeep1 : ∀ index, g.cell? index = some STAIRS → g1.cell? index = some STAIRS := by
        intro index hi
        rcases hc1 index with h2 | ⟨h2, -⟩ | ⟨h2, -⟩
        · rw [h2]; exact hi
        · rw [hi] at h2; cases h2
        · exact h2
      refine ⟨hu.trans hu1, fun index hi => hkeep index (hkeep1 index hi), ?_, ?_⟩
      · intro p cur' ys hp hpath hz c hc
        simp only [List.cons.injEq] at hpath
        obtain ⟨rfl, rfl⟩ := hpath
        have := hst1 p hp hz c hc
        unfold Grid3D.get? at this ⊢
        rw [getIndex_congr hu]
        exact hkeep _ this
      · intro xs a b ys hpath hz c hc
        cases xs with
        | nil =>
          simp only [List.nil_append, List.cons.injEq] at hpath
          obtain ⟨rfl, rfl⟩ := hpath
          exact hfirst cur b ys rfl rfl hz c hc
        | cons x xs =>
          simp only [List.cons_append, List.cons.injEq] at hpath
          exact hlater xs a b ys hpath.2 hz c hc

/-- The carving loop runs through and changes cells only from Empty to
Corridor or to Stairs, when the cells of the path are in the storage and the
footprint of every move between floors was Empty in the grid `g0` that the
carving started from. -/
theorem carveLoop_carved (DungeonUnit : Int) (g0 : Grid3D EStructureType) :
    ∀ (path : List FVector) (g : Grid3D EStructureType) (pre : Option FVector),
      CarvedFrom g0 g → (∀ x ∈ path, (g0.get? x).isSome) →
      (∀ p cur ys, pre = some p → path = cur :: ys → (cur - p).Z ≠ 0 →
        ∀ c ∈ stairCells DungeonUnit p (cur - p), g0.get? c = some NONE) →
      (∀ xs a b ys, path = xs ++ a :: b :: ys → (b - a).Z ≠ 0 →
        ∀ c ∈ stairCells DungeonUnit a (b - a), g0.get? c = some NONE) →
      ∃ g', carveLoop DungeonUnit g pre path = some g' ∧ CarvedFrom g0 g' := by
  intro path
  induction path with
  | nil =>
    intro g pre hg _ _ _
    exact ⟨g, rfl, hg⟩
  | cons cur rest ih =>
    intro g pre hg hin hfirst hlater
    have hsome : ∀ q, (g0.get? q).isSome → (g.get? q).isSome := by
      intro q hq
      unfold Grid3D.get? at hq ⊢
      rw [getIndex_congr hg.1]
      rcases hg.2.2.2 (g0.GetIndex q) with h2 | ⟨-, h2 | h2⟩
      · rw [h2]; exact hq
      · rw [h2]; rfl
      · rw [h2]; rfl
    obtain ⟨g1, hg1⟩ := carveCell_isSome DungeonUnit g pre cur
      (hsome cur (hin cur (List.mem_cons_self _ _)))
      (fun p hp hz c hc => hsome c (by rw [hfirst p cur rest hp rfl hz c hc]; rfl))
    obtain ⟨hu1, hs1, hb1, -, hc1⟩ := carveCell_spec hg1
    have hg1c : CarvedFrom g0 g1 := by
      refine ⟨hu1.trans hg.1, hs1.trans hg.2.1, hb1.trans hg.2.2.1, ?_⟩
      intro index
      rcases hc1 index with h2 | ⟨h2, h3⟩ | ⟨h2, p, hp, hz, c, hc, hce⟩
      · rw [h2]; exact hg.2.2.2 index
      · rcases hg.2.2.2 index with h4 | ⟨h4, -⟩
        · right
          rw [h4] at h2
          exact ⟨h2, Or.inl h3⟩
        · exact Or.inr ⟨h4, Or.inl h3⟩
      · right
        have := hfirst p cur rest hp rfl hz c hc
        unfold Grid3D.get? at this
        rw [hce, getIndex_congr hg.1]
        exact ⟨this, Or.inr (by rw [← getIndex_congr hg.1, ← hce]; exact h2)⟩
    obtain ⟨g', hg', hcarved⟩ := ih g1 (some cur) hg1c
      (fun x hx => hin x (List.mem_cons_of_mem _ hx))
      (fun p cur' ys hp hpath hz c hc => by
        simp only [Option.some.injEq] at hp
        subst hp
        exact hlater [] cur cur' ys (by rw [hpath]; rfl) hz c hc)
      (fun xs a b ys hpath hz c hc =>
        hlater (cur :: xs) a b ys (by rw [hpath]; rfl) hz c hc)
    refine ⟨g', ?_, hcarved⟩
    unfold carveLoop
    simp only [hg1]
    exact hg'

theorem carvedFrom_self (g : Grid3D EStructureType) : CarvedFrom g g :=
  ⟨rfl, rfl, rfl, fun _ => Or.inl rfl⟩

end CarveTheorems

/-! ## Theorems: carving a found path -/

section CarveFoundTheorems

variable {C : Type} [Add C]

/-- Every cell of a chain but the start was accepted by the cost function,
and so was every step of the chain. -/
theorem trail_accepted
    {costFunction : DungeonNode C → DungeonNode C → Option (DungeonPathInfo C)}
    {unitSize : Int} {dirs positions : List FVector} {start : FVector}
    {st : SearchState C} {l : List (DungeonNode C)}
    (h : Trail costFunction unitSize dirs positions start st l) :
    (∀ x ∈ l.map fun n => n.Position, x = start ∨ ∃ N m0 info, m0.Position = x ∧
      costFunction N m0 = some info ∧ info.Traversable = true) ∧
    (∀ pre b a post, (l.map fun n => n.Position) = pre ++ b :: a :: post →
      ∃ N m0 info, N.Position = a ∧ m0.Position = b ∧
        costFunction N m0 = some info ∧ info.Traversable = true) := by
  induction h with
  | root s _ h2 _ _ =>
    refine ⟨?_, ?_⟩
    · intro x hx
      simp only [List.map_cons, List.map_nil, List.mem_singleton] at hx
      exact Or.inl (hx.trans h2)
    · intro pre b a post hp
      have := congrArg List.length hp
      simp only [List.length_map, List.length_singleton, List.length_append,
        List.length_cons, List.length_nil] at this
      omega
  | step n N rest _ _ _ _ _ hlink _ ih =>
    obtain ⟨offset, -, m0, info, -, hm0, hcf, htr, -⟩ := hlink
    refine ⟨?_, ?_⟩
    · intro x hx
      rw [List.map_cons, List.mem_cons] at hx
      rcases hx with rfl | hx
      · exact Or.inr ⟨N, m0, info, hm0, hcf, htr⟩
      · exact ih.1 x hx
    · intro pre b a post hp
      cases pre with
      | nil =>
        simp only [List.map_cons, List.nil_append, List.cons.injEq] at hp
        obtain ⟨rfl, rfl, -⟩ := hp
        exact ⟨N, m0, info, rfl, hm0, hcf, htr⟩
      | cons x pre =>
        simp only [List.map_cons, List.cons_append, List.cons.injEq] at hp
        exact ih.2 pre b a post (by rw [List.map_cons]; exact hp.2)

end CarveFoundTheorems

section CarveFoundClaim

variable {C : Type} [LinearOrder C] [Add C] [Zero C]

open EStructureType

/-- Claim C17.  Let the pathfinder be in the state its constructor and
earlier searches leave it in, let `start` be one of its node positions and a
cell of the structure grid.  For every path that `FindPath` returns with
`CostFunction` on the grid `grid` (either value of `canChangeFloors`), the
carving of this path into `grid` runs through, and every cell of the result
has its classification of before or was Empty and is now Corridor or
Stairs. -/
theorem carving_monotone (MAX_flt : C) (pf : DungeonPathfinder3D C)
    (positions : List FVector) (hready : Ready pf positions) (start endPos : FVector)
    (hstart : start ∈ positions) (grid : Grid3D EStructureType) (cfg : CostSettings C)
    (Distance : FVector → FVector → C) (canChangeFloors : Bool) (fuel : Nat)
    (path : List FVector) (hs : (grid.get? start).isSome)
    (h : FindPath MAX_flt pf start endPos
      (fun a b => CostFunction grid cfg Distance a b endPos) canChangeFloors fuel = .ok path) :
    ∃ grid', carvePath cfg.DungeonUnit grid path = some grid' ∧
      ∀ index, grid'.cell? index = grid.cell? index ∨
        (grid.cell? index = some NONE ∧
          (grid'.cell? index = some HALLWAY ∨ grid'.cell? index = some STAIRS)) := by
  by_cases hne : path = []
  · subst hne
    exact ⟨grid, rfl, fun _ => Or.inl rfl⟩
  obtain ⟨st, n, rest, htrail, -, hpath⟩ := findPath_trail MAX_flt pf positions hready
    start endPos hstart _ canChangeFloors fuel path h hne
  obtain ⟨hcells, hsteps⟩ := trail_accepted htrail
  have hin : ∀ x ∈ path, (grid.get? x).isSome := by
    intro x hx
    rw [hpath, List.mem_reverse] at hx
    rcases hcells x hx with rfl | ⟨N, m0, info, hm0, hcf, htr⟩
    · exact hs
    · by_cases hz : (m0.Position - N.Position).Z = 0
      · obtain ⟨sb, hsb, -⟩ := (costFunction_flat_inv hz hcf).2 htr
        rw [← hm0, hsb]; rfl
      · obtain ⟨-, ⟨sb, hsb, -⟩, -⟩ := costFunction_vertical_inv hz hcf htr
        rw [← hm0, hsb]; rfl
  have hfoot : ∀ xs a b ys, path = xs ++ a :: b :: ys → (b - a).Z ≠ 0 →
      ∀ c ∈ stairCells cfg.DungeonUnit a (b - a), grid.get? c = some NONE := by
    intro xs a b ys hp hz c hc
    have hrev := congrArg List.reverse hp
    rw [hpath, List.reverse_reverse] at hrev
    obtain ⟨N, m0, info, hN, hm0, hcf, htr⟩ := hsteps ys.reverse b a xs.reverse
      (by rw [hrev]; simp)
    subst hN hm0
    exact (costFunction_vertical_inv hz hcf htr).2.2.2.2.2.1 c hc
  obtain ⟨grid', hg', hcarved⟩ := carveLoop_carved cfg.DungeonUnit grid path grid none
    (carvedFrom_self grid) hin (fun p cur ys hp => by cases hp) hfoot
  exact ⟨grid', hg', hcarved.2.2.2⟩

set_option maxRecDepth 1000000 in
/-- Claim C17, at a concrete input: the path of scenario C carved into the
grid of scenario C. -/
theorem carving_monotone_witness :
    ∃ grid', carvePath sampleSettings.DungeonUnit scenarioCGrid
        [⟨10, 10, 10⟩, ⟨15, 10, 10⟩, ⟨30, 10, 15⟩, ⟨30, 15, 15⟩] = some grid' ∧
      ∀ index, grid'.cell? index = scenarioCGrid.cell? index ∨
        (scenarioCGrid.cell? index = some NONE ∧
          (grid'.cell? index = some HALLWAY ∨ grid'.cell? index = some STAIRS)) :=
  carving_monotone 1000000 samplePathfinder samplePositions samplePathfinder_ready
    ⟨10, 10, 10⟩ ⟨30, 15, 15⟩ (by decide) scenarioCGrid sampleSettings distSq true 100 _
    (by decide) scenarioC_search

end CarveFoundClaim

/-! ## Theorems: stairs after carving -/

section StairsCountTheorems

theorem floorChanges_parity (u : Int) (hu : 0 < u) :
    ∀ path : List FVector,
      List.Chain' (fun a b : FVector =>
        ∃ k : Int, (k = 0 ∨ k = 1 ∨ k = -1) ∧ b.Z = a.Z + k * u) path →
      ∀ s e, path.head? = some s → path.getLast? = some e →
        ∃ m : Int, e.Z = s.Z + m * u ∧ m % 2 = (floorChanges path : Int) % 2 := by
  intro path
  induction path with
  | nil => intro _ s e hs; cases hs
  | cons a rest ih =>
    intro hchain s e hs he
    simp only [List.head?_cons, Option.some.injEq] at hs
    subst hs
    cases rest with
    | nil =>
      simp only [List.getLast?_singleton, Option.some.injEq] at he
      subst he
      exact ⟨0, by simp, by simp [floorChanges]⟩
    | cons b rest =>
      obtain ⟨⟨k, hk, hb⟩, hchain'⟩ := List.chain'_cons.1 hchain
      rw [List.getLast?_cons_cons] at he
      obtain ⟨m, hm, hpar⟩ := ih hchain' b e rfl he
      refine ⟨k + m, by rw [hm, hb]; ring, ?_⟩
      have hfc : floorChanges (a :: b :: rest) =
          (if b.Z ≠ a.Z then 1 else 0) + floorChanges (b :: rest) := rfl
      rw [hfc]
      rcases hk with rfl | rfl | rfl
      · have : b.Z = a.Z := by rw [hb]; simp
        simp only [this, ne_eq, not_true_eq_false, if_false]
        push_cast
        omega
      · have : b.Z ≠ a.Z := by rw [hb]; omega
        simp only [this, ne_eq, not_false_eq_true, if_true]
        push_cast
        omega
      · have : b.Z ≠ a.Z := by rw [hb]; omega
        simp only [this, ne_eq, not_false_eq_true, if_true]
        push_cast
        omega

end StairsCountTheorems

section StairsCountFound

variable {C : Type} [LinearOrder C] [Add C] [Zero C]

/-- A non-empty path that `FindPath` returns between two positions one unit
apart in height has an odd number of moves between floors. -/
theorem findPath_floorChanges_odd (MAX_flt : C) (pf : DungeonPathfinder3D C)
    (positions : List FVector) (hready : Ready pf positions) (start endPos : FVector)
    (hstart : start ∈ positions)
    (costFunction : DungeonNode C → DungeonNode C → Option (DungeonPathInfo C))
    (canChangeFloors : Bool) (fuel : Nat) (path : List FVector)
    (h : FindPath MAX_flt pf start endPos costFunction canChangeFloors fuel = .ok path)
    (hne : path ≠ [])
    (hz : endPos.Z = start.Z + pf.unitSize ∨ endPos.Z = start.Z - pf.unitSize) :
    floorChanges path % 2 = 1 := by
  obtain ⟨st, n, rest, htrail, hnp, hpath⟩ := findPath_trail MAX_flt pf positions hready
    start endPos hstart costFunction canChangeFloors fuel path h hne
  have hu : 0 < pf.unitSize := loopPositions_unit_pos hready.loop hstart
  have hhead : path.head? = some start := by
    rw [hpath, List.head?_reverse]
    exact trail_getLast htrail
  have hlast : path.getLast? = some endPos := by
    rw [hpath, List.getLast?_reverse]
    simp [hnp]
  have hchain : List.Chain' (fun a b : FVector =>
      ∃ k : Int, (k = 0 ∨ k = 1 ∨ k = -1) ∧ b.Z = a.Z + k * pf.unitSize) path := by
    rw [hpath, List.chain'_reverse]
    refine List.Chain'.imp ?_ (trail_chain htrail)
    intro b a ⟨offset, ho, hb⟩
    obtain ⟨d, rfl, hd⟩ := mem_scaled_directions ho
    refine ⟨d.Z, ?_, by rw [hb]; simp [FVector.add_def, FVector.scale]⟩
    rcases hd with hd | ⟨-, hd⟩
    · simp only [List.mem_cons, List.mem_singleton, List.not_mem_nil, or_false] at hd
      rcases hd with rfl | rfl | rfl | rfl <;> simp
    · simp only [List.mem_cons, List.mem_singleton, List.not_mem_nil, or_false] at hd
      rcases hd with rfl | rfl | rfl | rfl | rfl | rfl | rfl | rfl <;> simp
  obtain ⟨m, hm, hpar⟩ := floorChanges_parity pf.unitSize hu path hchain start endPos hhead hlast
  have hm1 : m = 1 ∨ m = -1 := by
    rcases hz with hz | hz
    · left
      have : m * pf.unitSize = 1 * pf.unitSize := by rw [one_mul]; omega
      exact mul_right_cancel₀ (ne_of_gt hu) this
    · right
      have : m * pf.unitSize = (-1) * pf.unitSize := by rw [neg_one_mul]; omega
      exact mul_right_cancel₀ (ne_of_gt hu) this
  rcases hm1 with rfl | rfl <;> omega

end StairsCountFound

section StairsCarvedTheorems

open EStructureType

/-- The function `sqrtLoop` computes the floor of the square root. -/
theorem sqrtLoop_spec : ∀ (fuel n : Nat), n < 4 ^ fuel →
    sqrtLoop fuel n * sqrtLoop fuel n ≤ n ∧ n < (sqrtLoop fuel n + 1) * (sqrtLoop fuel n + 1) := by
  intro fuel
  induction fuel with
  | zero =>
    intro n hn
    simp only [pow_zero, Nat.lt_one_iff] at hn
    subst hn
    simp [sqrtLoop]
  | succ fuel ih =>
    intro n hn
    unfold sqrtLoop
    by_cases h0 : n = 0
    · subst h0; simp
    · simp only [h0, if_false]
      have hq : n / 4 < 4 ^ fuel := by
        rw [pow_succ] at hn
        omega
      obtain ⟨h1, h2⟩ := ih (n / 4) hq
      generalize sqrtLoop fuel (n / 4) = s at h1 h2 ⊢
      have h3 : 4 * (n / 4) ≤ n := Nat.mul_div_le n 4
      have h4 : n < 4 * (n / 4) + 4 := by omega
      split
      · rename_i hle
        refine ⟨hle, ?_⟩
        nlinarith
      · rename_i hle
        refine ⟨by nlinarith, ?_⟩
        omega

set_option maxRecDepth 1000000 in
/-- Scenario C evaluated with the default costs and the distance in
thousandths. -/
theorem scenarioC_search_milli :
    FindPath 1000000000000 samplePathfinder ⟨10, 10, 10⟩ ⟨30, 15, 15⟩
      (fun a b => CostFunction scenarioCGrid milliSettings distMilli a b ⟨30, 15, 15⟩)
      true 100 =
    .ok [⟨10, 10, 10⟩, ⟨15, 10, 10⟩, ⟨30, 10, 15⟩, ⟨30, 15, 15⟩] := by
  rfl

/-- Claim C16, amended.  Whatever path the hallway generators carve into the
grid: when the carving loop has run through, the four footprint cells
`pre + h`, `pre + 2h`, `pre + h + v` and `pre + 2h + v` of every consecutive
pair `(pre, current)` of the path with `current.Z != pre.Z` are Stairs.  When
the path is a non-empty path that `FindPath` returned between two positions
one unit apart in height, the number of its moves between floors is odd, so
at least one.  And in scenario C (the sample volume, a Room cell at
(10, 10, 10) and a Room cell at (30, 15, 15) one floor higher, Empty cells
elsewhere, the default costs, the distance in thousandths) the path that
`FindPath` returns has exactly one move between floors, whose footprint is
Stairs after carving. -/
theorem carve_marks_stairs (C : Type) [LinearOrder C] [Add C] [Zero C] (DungeonUnit : Int)
    (grid grid' : Grid3D EStructureType)
    (path : List FVector) (h : carvePath DungeonUnit grid path = some grid') :
    (∀ xs pre current ys, path = xs ++ pre :: current :: ys → current.Z ≠ pre.Z →
      ∀ c ∈ stairCells DungeonUnit pre (current - pre), grid'.get? c = some STAIRS) ∧
    (∀ (MAX_flt : C) (pf : DungeonPathfinder3D C) (positions : List FVector),
      Ready pf positions → ∀ start endPos : FVector, start ∈ positions →
      ∀ (costFunction : DungeonNode C → DungeonNode C → Option (DungeonPathInfo C))
        (canChangeFloors : Bool) (fuel : Nat),
      FindPath MAX_flt pf start endPos costFunction canChangeFloors fuel = .ok path →
      path ≠ [] →
      (endPos.Z = start.Z + pf.unitSize ∨ endPos.Z = start.Z - pf.unitSize) →
      floorChanges path % 2 = 1 ∧ 1 ≤ floorChanges path) ∧
    (∃ found carved,
      FindPath 1000000000000 samplePathfinder ⟨10, 10, 10⟩ ⟨30, 15, 15⟩
        (fun a b => CostFunction scenarioCGrid milliSettings distMilli a b ⟨30, 15, 15⟩)
        true 100 = .ok found ∧
      floorChanges found = 1 ∧
      carvePath milliSettings.DungeonUnit scenarioCGrid found = some carved ∧
      ∀ c ∈ ([⟨20, 10, 10⟩, ⟨25, 10, 10⟩, ⟨20, 10, 15⟩, ⟨25, 10, 15⟩] : List FVector),
        carved.get? c = some STAIRS) := by
  refine ⟨?_, ?_, ?_⟩
  · intro xs pre current ys hp hz c hc
    have hz' : (current - pre).Z ≠ 0 := by
      rw [FVector.sub_def]
      exact sub_ne_zero.2 hz
    exact (carveLoop_stairs DungeonUnit path grid none grid' h).2.2.2 xs pre current ys hp hz' c hc
  · intro MAX_flt pf positions hready start endPos hstart costFunction canChangeFloors fuel
      hfind hne hz
    have hodd := findPath_floorChanges_odd MAX_flt pf positions hready start endPos hstart
      costFunction canChangeFloors fuel path hfind hne hz
    exact ⟨hodd, by omega⟩
  · obtain ⟨carved, hcarved⟩ : ∃ carved, carvePath milliSettings.DungeonUnit scenarioCGrid
        [⟨10, 10, 10⟩, ⟨15, 10, 10⟩, ⟨30, 10, 15⟩, ⟨30, 15, 15⟩] = some carved := by
      apply Option.isSome_iff_exists.1
      decide
    refine ⟨_, carved, scenarioC_search_milli, by decide, hcarved, ?_⟩
    have := (carveLoop_stairs milliSettings.DungeonUnit _ scenarioCGrid none carved
      hcarved).2.2.2 [⟨10, 10, 10⟩] ⟨15, 10, 10⟩ ⟨30, 10, 15⟩ [⟨30, 15, 15⟩] rfl (by decide)
    intro c hc
    apply this
    simp only [List.mem_cons, List.mem_nil_iff, or_false] at hc
    rcases hc with rfl | rfl | rfl | rfl <;> decide

set_option maxRecDepth 1000000 in
/-- Claim C16, amended, at a concrete input: the path of scenario C, found by
`FindPath` between rooms one unit apart in height and carved into the grid of
scenario C. -/
theorem carve_marks_stairs_witness :
    ∃ carved, carvePath 5 scenarioCGrid
        [⟨10, 10, 10⟩, ⟨15, 10, 10⟩, ⟨30, 10, 15⟩, ⟨30, 15, 15⟩] = some carved ∧
      (∀ c ∈ stairCells 5 ⟨15, 10, 10⟩ ((⟨30, 10, 15⟩ : FVector) - ⟨15, 10, 10⟩),
        carved.get? c = some STAIRS) ∧
      floorChanges [⟨10, 10, 10⟩, ⟨15, 10, 10⟩, ⟨30, 10, 15⟩, ⟨30, 15, 15⟩] % 2 = 1 ∧
      1 ≤ floorChanges [⟨10, 10, 10⟩, ⟨15, 10, 10⟩, ⟨30, 10, 15⟩, ⟨30, 15, 15⟩] := by
  obtain ⟨carved, hcarved⟩ : ∃ carved, carvePath 5 scenarioCGrid
      [⟨10, 10, 10⟩, ⟨15, 10, 10⟩, ⟨30, 10, 15⟩, ⟨30, 15, 15⟩] = some carved := by
    apply Option.isSome_iff_exists.1
    decide
  have key := carve_marks_stairs Int 5 scenarioCGrid carved _ hcarved
  exact ⟨carved, hcarved,
    key.1 [⟨10, 10, 10⟩] ⟨15, 10, 10⟩ ⟨30, 10, 15⟩ [⟨30, 15, 15⟩] rfl (by decide),
    key.2.1 1000000000000 samplePathfinder samplePositions samplePathfinder_ready
      ⟨10, 10, 10⟩ ⟨30, 15, 15⟩ (by decide) _ true 100 scenarioC_search_milli (by simp)
      (Or.inl (by decide))⟩

end StairsCarvedTheorems

section WideVolume

set_option maxRecDepth 1000000 in
/-- The search through the volume `wideGrid` with the default costs and the
distance in thousandths. -/
theorem wideVolume_search :
    FindPath 1000000000000 widePathfinder ⟨100, 100, 100⟩ ⟨650, 100, 150⟩
      (fun a b => CostFunction wideGrid wideSettings distMilli a b ⟨650, 100, 150⟩)
      true 1000 = .ok threeStairPath := by
  rfl

set_option maxRecDepth 1000000 in
/-- Claim C16 fails as stated.  Take the volume of 800 x 200 x 250 with unit
50, whose cells are Empty except for the Room cell (100, 100, 100) and the
Room cell (650, 100, 150) one floor higher, and the default costs (base cost
100, floor-change cost 200, Empty penalty 1, Room penalty 5).  The search
with floor changes allowed returns `threeStairPath`, which has three moves
between floors: up, down and up again.  A move between floors covers three
cells in one step and pays the distance to the end once, so over a long way
two more of them cost less than the six planar steps they replace.  There is
room for a path with one move between floors: every cell of `oneStairPath`
is inside the bounds and `CostFunction` makes each of its steps
traversable. -/
theorem findPath_three_floor_changes :
    wideGrid.get? ⟨100, 100, 100⟩ = some EStructureType.ROOM ∧
    wideGrid.get? ⟨650, 100, 150⟩ = some EStructureType.ROOM ∧
    FindPath 1000000000000 widePathfinder ⟨100, 100, 100⟩ ⟨650, 100, 150⟩
      (fun a b => CostFunction wideGrid wideSettings distMilli a b ⟨650, 100, 150⟩)
      true 1000 = .ok threeStairPath ∧
    floorChanges threeStairPath = 3 ∧
    oneStairPath.head? = some ⟨100, 100, 100⟩ ∧
    oneStairPath.getLast? = some ⟨650, 100, 150⟩ ∧
    (∀ p ∈ oneStairPath, widePathfinder.grid.InBounds p = true) ∧
    (∀ step ∈ oneStairPath.zip oneStairPath.tail,
      stepAllowed wideGrid wideSettings distMilli ⟨650, 100, 150⟩ step.1 step.2 = true) ∧
    floorChanges oneStairPath = 1 := by
  refine ⟨by decide, by decide, wideVolume_search, by decide, by decide, by decide, by decide,
    by decide, by decide⟩

end WideVolume

/-! ## Theorems: costs and queue during the search -/

section RelaxTheorems

variable {C : Type} [LinearOrder C] [Add C] [Zero C]

/-- One round of the loop over the offsets keeps `RelaxInv`, keeps every
step from a closed cell looked at, and has looked at the step it was run
for. -/
theorem relaxInv_visit
    {costFunction : DungeonNode C → DungeonNode C → Option (DungeonPathInfo C)}
    {cf : FVector → FVector → DungeonPathInfo C} {MAX_flt : C}
    {unitSize : Int} {dirs positions : List FVector} {start : FVector}
    {st st' : SearchState C} {np offset : FVector}
    (hcf : ∀ a b : DungeonNode C, a.Position ∈ positions → b.Position ∈ positions →
      (∃ o ∈ dirs, b.Position = a.Position + o) →
      costFunction a b = some (cf a.Position b.Position))
    (hflat : ∀ a b, (cf a b).Traversable = true → (cf a b).IsStairs = false)
    (hinv : SearchInv costFunction unitSize dirs positions start st)
    (hrel : RelaxInv MAX_flt positions start st)
    (hnp : np ∈ positions) (hnode : st.grid.GetIndex np ∈ st.closedNodes)
    (hoff : offset ∈ dirs) (hdirs : ∀ o ∈ dirs, Aligned unitSize o)
    (h : visitNeighbor costFunction unitSize (st.grid.GetIndex np) st offset = .ok st') :
    RelaxInv MAX_flt positions start st' ∧
      (∀ p ∈ positions, st.grid.GetIndex p ∈ st.closedNodes → ∀ o ∈ dirs,
        Relaxed cf st p o → Relaxed cf st' p o) ∧
      Relaxed cf st' np offset := by
  have hoffal := hdirs offset hoff
  obtain ⟨n0, hn0, hn0p⟩ := hinv.placed np hnp
  have hcell : st.grid.cell? (st.grid.GetIndex np) = some n0 := hn0
  have hclne : st.closedNodes ≠ [] := List.ne_nil_of_mem hnode
  unfold visitNeighbor at h
  simp only [hcell, hn0p] at h
  by_cases hin : st.grid.InBounds (np + offset) = true
  swap
  · -- outside the bounds
    simp only [hin, Bool.not_false, if_true, Except.ok.injEq] at h
    subst h
    exact ⟨hrel, fun _ _ _ _ _ hr => hr, fun hi => absurd hi hin⟩
  simp only [hin, Bool.not_true, Bool.false_eq_true, if_false] at h
  have hqal : Aligned unitSize (np + offset) := (hinv.aligned np hnp).add hoffal
  have hqps : np + offset ∈ positions := hinv.inb _ hqal hin
  obtain ⟨m0, hm0, hm0p⟩ := hinv.placed _ hqps
  have hmcell : st.grid.cell? (st.grid.GetIndex (np + offset)) = some m0 := hm0
  simp only [hmcell] at h
  by_cases hcl : st.grid.GetIndex (np + offset) ∈ st.closedNodes
  · simp only [hcl, if_true, Except.ok.injEq] at h
    subst h
    exact ⟨hrel, fun _ _ _ _ _ hr => hr, fun _ _ => Or.inl hcl⟩
  simp only [hcl, if_false] at h
  by_cases hps : m0.Position ∈ n0.PreviousSet
  · simp only [hps, if_true, Except.ok.injEq] at h
    subst h
    refine ⟨hrel, fun _ _ _ _ _ hr => hr, fun _ _ => Or.inl ?_⟩
    rw [← hm0p]
    exact (hrel.set_closed np hnp n0 hn0 _ hps).2
  simp only [hps, if_false] at h
  rw [hcf n0 m0 (by rw [hn0p]; exact hnp) (by rw [hm0p]; exact hqps)
    ⟨offset, hoff, by rw [hn0p, hm0p]⟩, hn0p, hm0p] at h
  simp only at h
  by_cases htr : (cf np (np + offset)).Traversable = true
  swap
  · have htr' : (cf np (np + offset)).Traversable = false := by simpa using htr
    simp only [htr', Bool.not_false, if_true, Except.ok.injEq] at h
    subst h
    exact ⟨hrel, fun _ _ _ _ _ hr => hr, fun _ ht => absurd ht htr⟩
  have hns : (cf np (np + offset)).IsStairs = false := hflat _ _ htr
  simp only [htr, hns, Bool.not_true, Bool.false_eq_true, if_false, Bool.false_and] at h
  by_cases hlt : n0.Cost + (cf np (np + offset)).Cost < m0.Cost
  swap
  · simp only [hlt, if_false, Except.ok.injEq] at h
    subst h
    exact ⟨hrel, fun _ _ _ _ _ hr => hr,
      fun _ _ => Or.inr ⟨n0, m0, hn0, hm0, not_lt.1 hlt⟩⟩
  simp only [hlt, if_true, List.append_nil] at h
  split at h
  · cases h
  rename_i g hg
  simp only [Except.ok.injEq] at h
  subst h
  have hset : st.grid.set? (np + offset) _ = some g := hg
  obtain ⟨hu, hs, hb, hget, hother⟩ := set?_get? hset (by rw [hinv.grid_unit]; exact hqal)
  have hidx' : ∀ p, g.GetIndex p = st.grid.GetIndex p := getIndex_congr hu
  have hold : ∀ p, Aligned unitSize p → p ≠ np + offset → g.get? p = st.grid.get? p :=
    fun p hp hne => hother p (by rw [hinv.grid_unit]; exact hp) hne
  have hne_of : ∀ p, st.grid.GetIndex p ∈ st.closedNodes → p ≠ np + offset := by
    intro p hpc hpe
    rw [hpe] at hpc
    exact hcl hpc
  have hstart_ne : start ≠ np + offset := hne_of start (hinv.start_closed hclne)
  refine ⟨?_, ?_, ?_⟩
  · constructor
    · intro s hs'
      rw [hold start (hinv.aligned _ hinv.start_mem) hstart_ne] at hs'
      exact hrel.start_cost s hs'
    · intro p hp n hn c hc
      by_cases hpe : p = np + offset
      · subst hpe
        rw [hget] at hn
        simp only [Option.some.injEq] at hn
        subst hn
        simp only [List.mem_append, List.mem_singleton] at hc
        rcases hc with hc | hc
        · obtain ⟨h1, h2⟩ := hrel.set_closed np hnp n0 hn0 c hc
          exact ⟨h1, by rw [hidx']; exact h2⟩
        · subst hc
          exact ⟨hnp, by rw [hidx']; exact hnode⟩
      · rw [hold p (hinv.aligned p hp) hpe] at hn
        obtain ⟨h1, h2⟩ := hrel.set_closed p hp n hn c hc
        exact ⟨h1, by rw [hidx']; exact h2⟩
    · intro e he n hn
      rcases List.mem_append.1 he with he | he
      · by_cases hpe : e.Position = np + offset
        · rw [hpe, hget] at hn
          simp only [Option.some.injEq] at hn
          subst hn
          have := hrel.entry_ge e he m0 (by rw [hpe]; exact hm0)
          exact le_of_lt (lt_of_lt_of_le hlt this)
        · rw [hold _ (hinv.aligned _ (hinv.queue_mem e he)) hpe] at hn
          exact hrel.entry_ge e he n hn
      · simp only [List.mem_singleton] at he
        subst he
        rw [hget] at hn
        simp only [Option.some.injEq] at hn
        subst hn
        exact le_refl _
    · intro p hp n hn hpcl hpc
      by_cases hpe : p = np + offset
      · subst hpe
        rw [hget] at hn
        simp only [Option.some.injEq] at hn
        subst hn
        exact ⟨_, List.mem_append_right _ (List.mem_singleton_self _), rfl, rfl⟩
      · rw [hold p (hinv.aligned p hp) hpe] at hn
        rw [hidx'] at hpcl
        obtain ⟨e, he, h1, h2⟩ := hrel.queued p hp n hn hpcl hpc
        exact ⟨e, List.mem_append_left _ he, h1, h2⟩
    · intro p hp n j hn hprev
      rw [inBounds_congr hs hb]
      by_cases hpe : p = np + offset
      · subst hpe; exact hin
      · rw [hold p (hinv.aligned p hp) hpe] at hn
        exact hrel.prev_inb p hp n j hn hprev
  · intro p hp hpc o ho hr hi ht
    rw [inBounds_congr hs hb] at hi
    rcases hr hi ht with h1 | ⟨n, m, h1, h2, h3⟩
    · exact Or.inl (by rw [hidx']; exact h1)
    · have hpal := hinv.aligned p hp
      have hpne : p ≠ np + offset := hne_of p hpc
      by_cases hpe : p + o = np + offset
      · refine Or.inr ⟨n, _, by rw [hold p hpal hpne]; exact h1, by rw [hpe]; exact hget, ?_⟩
        rw [hpe, hm0] at h2
        simp only [Option.some.injEq] at h2
        subst h2
        exact le_of_lt (lt_of_lt_of_le hlt h3)
      · exact Or.inr ⟨n, m, by rw [hold p hpal hpne]; exact h1,
          by rw [hold _ (hpal.add (hdirs o ho)) hpe]; exact h2, h3⟩
  · intro _ _
    exact Or.inr ⟨n0, _, by rw [hold np (hinv.aligned np hnp) (hne_of np hnode)]; exact hn0,
      hget, le_refl _⟩


end RelaxTheorems

section VisitneighborOkPart

variable {C : Type} [LinearOrder C] [Add C]

/-- With a cost function that answers on all node positions, one round of
the loop over the offsets runs without a fault. -/
theorem visitNeighbor_ok
    {costFunction : DungeonNode C → DungeonNode C → Option (DungeonPathInfo C)}
    {cf : FVector → FVector → DungeonPathInfo C}
    {unitSize : Int} {dirs positions : List FVector} {start : FVector}
    {st : SearchState C} {np : FVector} (offset : FVector)
    (hcf : ∀ a b : DungeonNode C, a.Position ∈ positions → b.Position ∈ positions →
      (∃ o ∈ dirs, b.Position = a.Position + o) →
      costFunction a b = some (cf a.Position b.Position))
    (hinv : SearchInv costFunction unitSize dirs positions start st)
    (hnp : np ∈ positions) (hoff : offset ∈ dirs) (hoffal : Aligned unitSize offset) :
    ∃ st', visitNeighbor costFunction unitSize (st.grid.GetIndex np) st offset = .ok st' := by
  obtain ⟨n0, hn0, hn0p⟩ := hinv.placed np hnp
  have hcell : st.grid.cell? (st.grid.GetIndex np) = some n0 := hn0
  unfold visitNeighbor
  simp only [hcell, hn0p]
  by_cases hin : st.grid.InBounds (np + offset) = true
  swap
  · simp only [hin, Bool.not_false, if_true]
    exact ⟨_, rfl⟩
  simp only [hin, Bool.not_true, Bool.false_eq_true, if_false]
  have hqal : Aligned unitSize (np + offset) := (hinv.aligned np hnp).add hoffal
  have hqps : np + offset ∈ positions := hinv.inb _ hqal hin
  obtain ⟨m0, hm0, hm0p⟩ := hinv.placed _ hqps
  have hmcell : st.grid.cell? (st.grid.GetIndex (np + offset)) = some m0 := hm0
  simp only [hmcell]
  split
  · exact ⟨_, rfl⟩
  split
  · exact ⟨_, rfl⟩
  rw [hcf n0 m0 (by rw [hn0p]; exact hnp) (by rw [hm0p]; exact hqps)
    ⟨offset, hoff, by rw [hn0p, hm0p]⟩]
  simp only
  split
  · exact ⟨_, rfl⟩
  split
  · exact ⟨_, rfl⟩
  split
  · obtain ⟨g, hg, -⟩ := setCell?_spec st.grid (st.grid.GetIndex (np + offset))
      { Position := m0.Position, Previous := some (st.grid.GetIndex np),
        PreviousSet := n0.PreviousSet ++ [np] ++ (if (cf n0.Position m0.Position).IsStairs = true then stairCells unitSize np offset else []),
        Cost := n0.Cost + (cf n0.Position m0.Position).Cost } (by rw [hmcell]; rfl)
    rw [hg]
    exact ⟨_, rfl⟩
  · exact ⟨_, rfl⟩

end VisitneighborOkPart

section RelaxTheorems

variable {C : Type} [LinearOrder C] [Add C] [Zero C]

end RelaxTheorems

section RelaxLoopTheorems

variable {C : Type} [LinearOrder C] [Add C] [Zero C]

/-- A loop with faults over a list establishes at every element what its
body establishes and later rounds keep. -/
theorem foldlM_except_post {α σ ε : Type} (f : σ → α → Except ε σ) (I : σ → Prop)
    (P : α → σ → Prop) :
    ∀ (l : List α), (∀ s a s', a ∈ l → I s → f s a = .ok s' → I s' ∧ P a s') →
      (∀ s a b s', a ∈ l → b ∈ l → I s → P b s → f s a = .ok s' → P b s') →
      ∀ s s', I s → l.foldlM f s = .ok s' → I s' ∧ ∀ a ∈ l, P a s' := by
  intro l
  induction l with
  | nil =>
    intro _ _ s s' hI h
    simp only [List.foldlM_nil, pure, Except.pure, Except.ok.injEq] at h
    subst h
    exact ⟨hI, fun a ha => by cases ha⟩
  | cons a l ih =>
    intro hstep hkeep s s' hI h
    simp only [List.foldlM_cons, bind, Except.bind] at h
    cases h1 : f s a with
    | error e => rw [h1] at h; cases h
    | ok s1 =>
      rw [h1] at h
      obtain ⟨hI1, hP1⟩ := hstep s a s1 (List.mem_cons_self _ _) hI h1
      have hI' : ∀ s a s', a ∈ l → I s → f s a = .ok s' → I s' := fun s a s' ha hs hf =>
        (hstep s a s' (List.mem_cons_of_mem _ ha) hs hf).1
      obtain ⟨hIs', hPs'⟩ := ih (fun s a s' ha => hstep s a s' (List.mem_cons_of_mem _ ha))
        (fun s a b s' ha hb => hkeep s a b s' (List.mem_cons_of_mem _ ha)
          (List.mem_cons_of_mem _ hb)) s1 s' hI1 h
      refine ⟨hIs', ?_⟩
      intro b hb
      rcases List.mem_cons.1 hb with rfl | hb
      · have key : ∀ (l' : List α), (∀ x ∈ l', x ∈ l) → ∀ s s', I s → P b s →
            l'.foldlM f s = .ok s' → P b s' := by
          intro l'
          induction l' with
          | nil =>
            intro _ s s' _ hP h
            simp only [List.foldlM_nil, pure, Except.pure, Except.ok.injEq] at h
            subst h; exact hP
          | cons c l' ih' =>
            intro hsub s s' hI hP h
            simp only [List.foldlM_cons, bind, Except.bind] at h
            cases h2 : f s c with
            | error e => rw [h2] at h; cases h
            | ok s2 =>
              rw [h2] at h
              have hc : c ∈ l := hsub c (List.mem_cons_self _ _)
              exact ih' (fun x hx => hsub x (List.mem_cons_of_mem _ hx)) s2 s'
                (hI' s c s2 hc hI h2)
                (hkeep s c b s2 (List.mem_cons_of_mem _ hc) (List.mem_cons_self _ _) hI hP h2) h
        exact key l (fun x hx => hx) s1 s' hI1 hP1 h
      · exact hPs' b hb

/-- A loop with faults over a list runs through when its body does under an
invariant. -/
theorem foldlM_except_ok {α σ ε : Type} (f : σ → α → Except ε σ) (I : σ → Prop) :
    ∀ (l : List α), (∀ s a, a ∈ l → I s → ∃ s', f s a = .ok s' ∧ I s') →
      ∀ s, I s → ∃ s', l.foldlM f s = .ok s' := by
  intro l
  induction l with
  | nil => intro _ s _; exact ⟨s, rfl⟩
  | cons a l ih =>
    intro hstep s hI
    obtain ⟨s1, h1, hI1⟩ := hstep s a (List.mem_cons_self _ _) hI
    obtain ⟨s2, h2⟩ := ih (fun s a ha => hstep s a (List.mem_cons_of_mem _ ha)) s1 hI1
    refine ⟨s2, ?_⟩
    simp only [List.foldlM_cons, bind, Except.bind, h1]
    exact h2

/-- Taking a node from the queue and closing it keeps `RelaxInv` and keeps
looked-at steps looked at. -/
theorem relaxInv_pop
    (cf : FVector → FVector → DungeonPathInfo C) {MAX_flt : C}
    {positions : List FVector} {start : FVector}
    {st : SearchState C} {tmp : DungeonNode C} {rest : List (DungeonNode C)}
    (hrel : RelaxInv MAX_flt positions start st)
    (hpop : popMin st.queue = some (tmp, rest)) :
    RelaxInv MAX_flt positions start
        ⟨st.grid, rest, st.closedNodes ++ [st.grid.GetIndex tmp.Position]⟩ ∧
      ∀ p o, Relaxed cf st p o →
        Relaxed cf ⟨st.grid, rest, st.closedNodes ++ [st.grid.GetIndex tmp.Position]⟩ p o := by
  obtain ⟨hperm, -⟩ := popMin_spec st.queue tmp rest hpop
  have hrest : ∀ e ∈ rest, e ∈ st.queue := fun e he =>
    hperm.symm.subset (List.mem_cons_of_mem _ he)
  refine ⟨?_, ?_⟩
  · constructor
    · exact hrel.start_cost
    · intro p hp n hn c hc
      obtain ⟨h1, h2⟩ := hrel.set_closed p hp n hn c hc
      exact ⟨h1, List.mem_append_left _ h2⟩
    · exact fun e he => hrel.entry_ge e (hrest e he)
    · intro p hp n hn hpcl hpc
      have hpcl' : st.grid.GetIndex p ∉ st.closedNodes :=
        fun hmem => hpcl (List.mem_append_left _ hmem)
      obtain ⟨e, he, h1, h2⟩ := hrel.queued p hp n hn hpcl' hpc
      refine ⟨e, ?_, h1, h2⟩
      rcases List.mem_cons.1 (hperm.subset he) with rfl | he'
      · exfalso
        apply hpcl
        rw [h1]
        exact List.mem_append_right _ (List.mem_singleton_self _)
      · exact he'
    · exact hrel.prev_inb
  · intro p o hr hi ht
    rcases hr hi ht with h1 | h1
    · exact Or.inl (List.mem_append_left _ h1)
    · exact Or.inr h1

end RelaxLoopTheorems

section VisitneighborCountsPart

variable {C : Type} [LinearOrder C] [Add C]

/-- One round of the loop over the offsets leaves both counts of the
termination measure unchanged. -/
theorem visitNeighbor_counts
    {costFunction : DungeonNode C → DungeonNode C → Option (DungeonPathInfo C)}
    {unitSize : Int} {dirs positions : List FVector} {start : FVector}
    {st st' : SearchState C} {node offset : FVector}
    (hinv : SearchInv costFunction unitSize dirs positions start st)
    (hnode : node ∈ st.closedNodes) (hoffal : Aligned unitSize offset)
    (h : visitNeighbor costFunction unitSize node st offset = .ok st') :
    openCount positions st' = openCount positions st ∧ staleCount st' = staleCount st := by
  rcases visitNeighbor_cases costFunction unitSize node st st' offset h with rfl |
    ⟨n, m, info, g, hn, hin, hm, hcl, hps, hinfo, htr, hstairs, hlt, hg, rfl⟩
  · exact ⟨rfl, rfl⟩
  obtain ⟨np, hnp, hidx⟩ := hinv.closed_mem node hnode
  obtain ⟨n0, hn0, hn0p⟩ := hinv.placed np hnp
  have hnn : n0 = n := by
    unfold Grid3D.get? at hn0
    rw [hidx, hn] at hn0
    exact (Option.some.inj hn0).symm
  subst hnn
  have hqal : Aligned unitSize (n0.Position + offset) := by
    rw [hn0p]; exact (hinv.aligned np hnp).add hoffal
  have hqps : n0.Position + offset ∈ positions := hinv.inb _ hqal hin
  obtain ⟨m0, hm0, hm0p⟩ := hinv.placed _ hqps
  have hmm : m0 = m := by
    unfold Grid3D.get? at hm0
    rw [hm] at hm0
    exact (Option.some.inj hm0).symm
  subst hmm
  have hset : st.grid.set? (n0.Position + offset)
      (rewrittenNode unitSize node n0 m0 info offset) = some g := hg
  obtain ⟨hu, -, -, -, -⟩ := set?_get? hset (by rw [hinv.grid_unit]; exact hqal)
  have hidx' : ∀ p, g.GetIndex p = st.grid.GetIndex p := getIndex_congr hu
  refine ⟨?_, ?_⟩
  · unfold openCount
    simp only [hidx']
  · unfold staleCount
    simp only [hidx', List.filter_append, List.length_append]
    have : (List.filter (fun e : DungeonNode C =>
        decide (st.grid.GetIndex e.Position ∈ st.closedNodes))
        [pushedCopy node n0 m0 info]) = [] := by
      rw [List.filter_eq_nil_iff]
      intro e he
      simp only [List.mem_singleton] at he
      subst he
      simp only [decide_eq_true_eq]
      show st.grid.GetIndex m0.Position ∉ st.closedNodes
      rw [hm0p]; exact hcl
    rw [this]
    simp

end VisitneighborCountsPart

section RelaxLoopTheorems

variable {C : Type} [LinearOrder C] [Add C] [Zero C]

end RelaxLoopTheorems

section HeadTheorems

variable {C : Type} [LinearOrder C] [Add C] [Zero C]

theorem mem_append_singleton_of_mem {α : Type} {x y : α} {l : List α} (h : x ∈ l) :
    (y ∈ l ++ [x]) ↔ y ∈ l := by
  simp only [List.mem_append, List.mem_singleton]
  constructor
  · rintro (h1 | rfl)
    · exact h1
    · exact h
  · exact Or.inl

end HeadTheorems

section PopCountsPart

variable {C : Type} [LinearOrder C] [Add C]

/-- Closing the node of a queue entry lowers the termination measure: the
number of open node positions drops, or it stays and the number of stale
queue entries drops. -/
theorem pop_counts
    {costFunction : DungeonNode C → DungeonNode C → Option (DungeonPathInfo C)}
    {unitSize : Int} {dirs positions : List FVector} {start : FVector}
    {st : SearchState C} {tmp : DungeonNode C} {rest : List (DungeonNode C)}
    (hinv : SearchInv costFunction unitSize dirs positions start st)
    (hpop : popMin st.queue = some (tmp, rest)) :
    openCount positions ⟨st.grid, rest, st.closedNodes ++ [st.grid.GetIndex tmp.Position]⟩ <
        openCount positions st ∨
      (openCount positions ⟨st.grid, rest, st.closedNodes ++ [st.grid.GetIndex tmp.Position]⟩ =
          openCount positions st ∧
        staleCount ⟨st.grid, rest, st.closedNodes ++ [st.grid.GetIndex tmp.Position]⟩ <
          staleCount st) := by
  obtain ⟨hperm, -⟩ := popMin_spec st.queue tmp rest hpop
  have htmp : tmp ∈ st.queue := hperm.symm.subset (List.mem_cons_self _ _)
  have htp : tmp.Position ∈ positions := hinv.queue_mem tmp htmp
  by_cases hx : st.grid.GetIndex tmp.Position ∈ st.closedNodes
  · right
    refine ⟨?_, ?_⟩
    · unfold openCount
      simp only [mem_append_singleton_of_mem hx]
    · unfold staleCount
      simp only [mem_append_singleton_of_mem hx]
      have h1 := (hperm.filter (fun e : DungeonNode C =>
        decide (st.grid.GetIndex e.Position ∈ st.closedNodes))).length_eq
      rw [h1, List.filter_cons_of_pos (by simpa using hx)]
      simp
  · left
    unfold openCount
    have hfil : (positions.filter fun p => decide (st.grid.GetIndex p ∉
        st.closedNodes ++ [st.grid.GetIndex tmp.Position])) =
        ((positions.filter fun p => decide (st.grid.GetIndex p ∉ st.closedNodes)).filter
          fun p => decide (st.grid.GetIndex p ≠ st.grid.GetIndex tmp.Position)) := by
      rw [List.filter_filter]
      congr 1
      funext p
      simp only [List.mem_append, List.mem_singleton, not_or, Bool.decide_and,
        Bool.and_comm]
    show (positions.filter fun p => decide (st.grid.GetIndex p ∉
        st.closedNodes ++ [st.grid.GetIndex tmp.Position])).length < _
    rw [hfil]
    apply List.length_filter_lt_length_iff_exists.2
    refine ⟨tmp.Position, ?_, ?_⟩
    · rw [List.mem_filter]
      exact ⟨htp, by simpa using hx⟩
    · simp

end PopCountsPart

section HeadTheorems

variable {C : Type} [LinearOrder C] [Add C] [Zero C]

/-- One full round of the search loop that does not return: the loop over
the offsets runs through, the invariant holds again at the head of the loop,
and the termination measure has dropped. -/
theorem headInv_step
    {costFunction : DungeonNode C → DungeonNode C → Option (DungeonPathInfo C)}
    {cf : FVector → FVector → DungeonPathInfo C} {MAX_flt : C}
    {unitSize : Int} {dirs positions : List FVector} {start endPos : FVector}
    {st : SearchState C} {tmp : DungeonNode C} {rest : List (DungeonNode C)}
    (hcf : ∀ a b : DungeonNode C, a.Position ∈ positions → b.Position ∈ positions →
      (∃ o ∈ dirs, b.Position = a.Position + o) →
      costFunction a b = some (cf a.Position b.Position))
    (hflat : ∀ a b, (cf a b).Traversable = true → (cf a b).IsStairs = false)
    (hdirs : ∀ o ∈ dirs, Aligned unitSize o)
    (hhead : HeadInv costFunction cf MAX_flt unitSize dirs positions start endPos st)
    (hpop : popMin st.queue = some (tmp, rest)) (hne : tmp.Position ≠ endPos) :
    ∃ st2, dirs.foldlM (visitNeighbor costFunction unitSize (st.grid.GetIndex tmp.Position))
        ⟨st.grid, rest, st.closedNodes ++ [st.grid.GetIndex tmp.Position]⟩ = .ok st2 ∧
      HeadInv costFunction cf MAX_flt unitSize dirs positions start endPos st2 ∧
      (openCount positions st2 < openCount positions st ∨
        (openCount positions st2 = openCount positions st ∧ staleCount st2 < staleCount st)) := by
  obtain ⟨hinv1, htp, -⟩ := searchInv_pop hhead.inv hpop
  obtain ⟨hrel1, hkeep1⟩ := relaxInv_pop cf hhead.rel hpop
  have hcount1 := pop_counts hhead.inv hpop
  generalize hst1 : (⟨st.grid, rest, st.closedNodes ++ [st.grid.GetIndex tmp.Position]⟩ :
    SearchState C) = st1 at hinv1 hrel1 hkeep1 hcount1
  have hcl1 : st1.closedNodes = st.closedNodes ++ [st.grid.GetIndex tmp.Position] := by
    rw [← hst1]
  have hg1 : st1.grid = st.grid := by rw [← hst1]
  -- the invariant of the loop over the offsets
  let J : SearchState C → Prop := fun s =>
    SearchInv costFunction unitSize dirs positions start s ∧
    RelaxInv MAX_flt positions start s ∧ s.closedNodes = st1.closedNodes ∧
    (∀ p ∈ positions, st.grid.GetIndex p ∈ st.closedNodes → ∀ o ∈ dirs, Relaxed cf s p o) ∧
    openCount positions s = openCount positions st1 ∧ staleCount s = staleCount st1
  have hidx : ∀ s, SearchInv costFunction unitSize dirs positions start s →
      ∀ p, s.grid.GetIndex p = st.grid.GetIndex p := fun s hs p =>
    getIndex_congr (hs.grid_unit.trans hhead.inv.grid_unit.symm) p
  have hnode : ∀ s, J s → st.grid.GetIndex tmp.Position ∈ s.closedNodes := by
    intro s hJ
    rw [hJ.2.2.1, hcl1]
    exact List.mem_append_right _ (List.mem_singleton_self _)
  have hJ1 : J st1 := by
    refine ⟨hinv1, hrel1, rfl, ?_, rfl, rfl⟩
    intro p hp hpc o ho
    exact hkeep1 p o (hhead.relaxed p hp hpc o ho)
  have hstepJ : ∀ s a s', a ∈ dirs → J s →
      visitNeighbor costFunction unitSize (st.grid.GetIndex tmp.Position) s a = .ok s' →
      J s' ∧ Relaxed cf s' tmp.Position a := by
    intro s a s' ha hJ hv
    obtain ⟨h1, h2⟩ := searchInv_visit hJ.1 (hnode s hJ) ha (hdirs a ha) hv
    have hv' : visitNeighbor costFunction unitSize (s.grid.GetIndex tmp.Position) s a =
        .ok s' := by rw [hidx s hJ.1]; exact hv
    obtain ⟨h3, h4, h5⟩ := relaxInv_visit hcf hflat hJ.1 hJ.2.1 htp
      (by rw [hidx s hJ.1]; exact hnode s hJ) ha hdirs hv'
    obtain ⟨h6, h7⟩ := visitNeighbor_counts hJ.1 (hnode s hJ) (hdirs a ha) hv
    refine ⟨⟨h1, h3, h2.trans hJ.2.2.1, ?_, h6.trans hJ.2.2.2.2.1, h7.trans hJ.2.2.2.2.2⟩, h5⟩
    intro p hp hpc o ho
    refine h4 p hp ?_ o ho (hJ.2.2.2.1 p hp hpc o ho)
    rw [hidx s hJ.1, hJ.2.2.1, hcl1]
    exact List.mem_append_left _ hpc
  obtain ⟨st2, hfold⟩ := foldlM_except_ok
    (visitNeighbor costFunction unitSize (st.grid.GetIndex tmp.Position)) J dirs
    (fun s a ha hJ => by
      obtain ⟨s', hs'⟩ := visitNeighbor_ok a hcf hJ.1 htp ha (hdirs a ha)
      rw [hidx s hJ.1] at hs'
      exact ⟨s', hs', (hstepJ s a s' ha hJ hs').1⟩) st1 hJ1
  obtain ⟨hJ2, hP2⟩ := foldlM_except_post
    (visitNeighbor costFunction unitSize (st.grid.GetIndex tmp.Position)) J
    (fun o s => Relaxed cf s tmp.Position o) dirs
    (fun s a s' ha hJ hv => hstepJ s a s' ha hJ hv)
    (fun s a b s' ha hb hJ hP hv => by
      have hv' : visitNeighbor costFunction unitSize (s.grid.GetIndex tmp.Position) s a =
          .ok s' := by rw [hidx s hJ.1]; exact hv
      obtain ⟨-, h4, -⟩ := relaxInv_visit hcf hflat hJ.1 hJ.2.1 htp
        (by rw [hidx s hJ.1]; exact hnode s hJ) ha hdirs hv'
      exact h4 tmp.Position htp (by rw [hidx s hJ.1]; exact hnode s hJ) b hb hP)
    st1 st2 hJ1 hfold
  refine ⟨st2, hfold, ⟨hJ2.1, hJ2.2.1, ?_, ?_⟩, ?_⟩
  · intro p hp hpc o ho
    rw [hidx st2 hJ2.1, hJ2.2.2.1, hcl1] at hpc
    rcases List.mem_append.1 hpc with hpc | hpc
    · exact hJ2.2.2.2.1 p hp hpc o ho
    · simp only [List.mem_singleton] at hpc
      have hpe : p = tmp.Position := GetIndex_injective_of_aligned st.grid
        (by rw [hhead.inv.grid_unit]; exact hhead.inv.aligned p hp)
        (by rw [hhead.inv.grid_unit]; exact hhead.inv.aligned _ htp) hpc
      rw [hpe]
      exact hP2 o ho
  · intro p hp hpc
    rw [hidx st2 hJ2.1, hJ2.2.2.1, hcl1] at hpc
    rcases List.mem_append.1 hpc with hpc | hpc
    · exact hhead.not_end p hp hpc
    · simp only [List.mem_singleton] at hpc
      have hpe : p = tmp.Position := GetIndex_injective_of_aligned st.grid
        (by rw [hhead.inv.grid_unit]; exact hhead.inv.aligned p hp)
        (by rw [hhead.inv.grid_unit]; exact hhead.inv.aligned _ htp) hpc
      rw [hpe]
      exact hne
  · rw [hJ2.2.2.2.2.1, hJ2.2.2.2.2.2]
    exact hcount1

end HeadTheorems

section TotalTheorems

variable {C : Type} [LinearOrder C] [Add C] [Zero C]

/-- With enough fuel the search loop returns: through the exit of the empty
queue, with the empty path, or through the exit of the end position, with the
reconstructed path.  At either exit the invariant of the loop head holds,
together with any further property `X` that a full round keeps. -/
theorem searchLoop_total
    {costFunction : DungeonNode C → DungeonNode C → Option (DungeonPathInfo C)}
    {cf : FVector → FVector → DungeonPathInfo C} {MAX_flt : C}
    {unitSize : Int} {dirs positions : List FVector} {start endPos : FVector}
    (X : SearchState C → Prop)
    (hcf : ∀ a b : DungeonNode C, a.Position ∈ positions → b.Position ∈ positions →
      (∃ o ∈ dirs, b.Position = a.Position + o) →
      costFunction a b = some (cf a.Position b.Position))
    (hflat : ∀ a b, (cf a b).Traversable = true → (cf a b).IsStairs = false)
    (hdirs : ∀ o ∈ dirs, Aligned unitSize o)
    (hX : ∀ (st : SearchState C) (tmp : DungeonNode C) (rest : List (DungeonNode C))
      (st2 : SearchState C),
      HeadInv costFunction cf MAX_flt unitSize dirs positions start endPos st → X st →
      popMin st.queue = some (tmp, rest) → tmp.Position ≠ endPos →
      dirs.foldlM (visitNeighbor costFunction unitSize (st.grid.GetIndex tmp.Position))
        ⟨st.grid, rest, st.closedNodes ++ [st.grid.GetIndex tmp.Position]⟩ = .ok st2 → X st2) :
    ∀ (a b : Nat) (st : SearchState C),
      HeadInv costFunction cf MAX_flt unitSize dirs positions start endPos st → X st →
      openCount positions st = a → staleCount st = b →
      ∃ fuel0, ∀ fuel, fuel0 ≤ fuel → ∃ path,
        searchLoop costFunction unitSize dirs endPos fuel st = .ok path ∧
        ((path = [] ∧ ∃ st', HeadInv costFunction cf MAX_flt unitSize dirs positions start
            endPos st' ∧ X st' ∧ st'.queue = []) ∨
          (∃ st' tmp rest, HeadInv costFunction cf MAX_flt unitSize dirs positions start
              endPos st' ∧ X st' ∧ popMin st'.queue = some (tmp, rest) ∧
            tmp.Position = endPos ∧
            ReconstructPath st'.grid (st'.grid.GetIndex endPos) = .ok path)) := by
  intro a
  induction a using Nat.strong_induction_on with
  | _ a iha =>
  intro b
  induction b using Nat.strong_induction_on with
  | _ b ihb =>
  intro st hhead hx ha hb
  cases hpop : popMin st.queue with
  | none =>
    have hq : st.queue = [] := popMin_eq_none hpop
    refine ⟨0, fun fuel _ => ⟨[], ?_, Or.inl ⟨rfl, st, hhead, hx, hq⟩⟩⟩
    cases fuel with
    | zero =>
      unfold searchLoop
      simp [hq]
    | succ fuel =>
      unfold searchLoop
      simp only [hpop]
  | some r =>
    obtain ⟨tmp, rest⟩ := r
    obtain ⟨hinv1, htp, n, hn, hnp⟩ := searchInv_pop hhead.inv hpop
    by_cases hend : tmp.Position = endPos
    · -- the exit of the end position
      have hcl : st.grid.GetIndex tmp.Position ∈
          st.closedNodes ++ [st.grid.GetIndex tmp.Position] :=
        List.mem_append_right _ (List.mem_singleton_self _)
      obtain ⟨n', rest', hn'p, htrail⟩ := trail_exists hinv1 _ tmp.Position htp hcl (le_refl _)
      have hrec := reconstructPath_trail hinv1.start_mem htrail
      rw [hn'p] at hrec
      have hrec' : ReconstructPath st.grid (st.grid.GetIndex tmp.Position) =
          .ok ((n' :: rest').map fun x => x.Position).reverse := hrec
      refine ⟨1, fun fuel hfuel => ⟨_, ?_, Or.inr ⟨st, tmp, rest, hhead, hx, hpop, hend,
        by rw [← hend]; exact hrec'⟩⟩⟩
      cases fuel with
      | zero => omega
      | succ fuel =>
        unfold searchLoop
        simp only [hpop, hn]
        rw [if_pos (hnp.trans hend)]
        exact hrec'
    · obtain ⟨st2, hfold, hhead2, hdec⟩ := headInv_step hcf hflat hdirs hhead hpop hend
      have hx2 := hX st tmp rest st2 hhead hx hpop hend hfold
      have hih : ∃ fuel0, ∀ fuel, fuel0 ≤ fuel → ∃ path,
          searchLoop costFunction unitSize dirs endPos fuel st2 = .ok path ∧
          ((path = [] ∧ ∃ st', HeadInv costFunction cf MAX_flt unitSize dirs positions start
              endPos st' ∧ X st' ∧ st'.queue = []) ∨
            (∃ st' tmp rest, HeadInv costFunction cf MAX_flt unitSize dirs positions start
                endPos st' ∧ X st' ∧ popMin st'.queue = some (tmp, rest) ∧
              tmp.Position = endPos ∧
              ReconstructPath st'.grid (st'.grid.GetIndex endPos) = .ok path)) := by
        rcases hdec with hlt | ⟨heq, hlt⟩
        · exact iha _ (by rw [← ha]; exact hlt) _ st2 hhead2 hx2 rfl rfl
        · exact ihb _ (by rw [← hb]; exact hlt) st2 hhead2 hx2 (by rw [heq, ha]) rfl
      obtain ⟨fuel0, hfuel0⟩ := hih
      refine ⟨fuel0 + 1, fun fuel hfuel => ?_⟩
      cases fuel with
      | zero => omega
      | succ fuel =>
        obtain ⟨path, hpath, hexit⟩ := hfuel0 fuel (by omega)
        refine ⟨path, ?_, hexit⟩
        unfold searchLoop
        simp only [hpop, hn]
        rw [if_neg (fun h => hend (hnp.symm.trans h))]
        simp only [hfold]
        exact hpath

end TotalTheorems

/-! ## Theorems: the empty path and reachability -/

section ReachTheorems

variable {C : Type} [LinearOrder C] [Add C] [Zero C]

end ReachTheorems

section RelaxinvInitPart

variable {C : Type} [LinearOrder C] [Zero C]

/-- The state in which `FindPath` enters its search loop satisfies
`RelaxInv`, when `0 < MAX_flt`. -/
theorem relaxInv_init (MAX_flt : C) {pf : DungeonPathfinder3D C}
    {positions : List FVector} (hready : Ready pf positions)
    (hreset : ∀ p ∈ positions, ∃ n, pf.grid.get? p = some n ∧ n.Position = p ∧
      IsReset MAX_flt n)
    {start : FVector} (hstart : start ∈ positions) {s : DungeonNode C}
    (hs : pf.grid.get? start = some s) {g : Grid3D (DungeonNode C)}
    (hg : pf.grid.set? start { s with Cost := 0 } = some g) :
    RelaxInv MAX_flt positions start ⟨g, [{ s with Cost := 0 }], []⟩ := by
  have hal : ∀ p ∈ positions, Aligned pf.unitSize p :=
    fun p hp => loopPositions_aligned hready.loop hp
  obtain ⟨hu, hsz, hb, hget, hother⟩ := set?_get? hg
    (by rw [hready.grid_unit]; exact hal start hstart)
  have hold : ∀ p ∈ positions, p ≠ start → g.get? p = pf.grid.get? p :=
    fun p hp hne => hother p (by rw [hready.grid_unit]; exact hal p hp) hne
  obtain ⟨s0, hs0, hs0p, hs0r⟩ := hreset start hstart
  rw [hs] at hs0
  simp only [Option.some.injEq] at hs0
  subst hs0
  have hcell : ∀ p ∈ positions, ∀ n, g.get? p = some n →
      n.Previous = none ∧ n.PreviousSet = [] ∧ (p ≠ start → n.Cost = MAX_flt) ∧
        (p = start → n.Cost = 0 ∧ n.Position = start) := by
    intro p hp n hn
    by_cases hpe : p = start
    · subst hpe
      rw [hget] at hn
      simp only [Option.some.injEq] at hn
      subst hn
      exact ⟨hs0r.1, hs0r.2.2, fun h => absurd rfl h, fun _ => ⟨rfl, hs0p⟩⟩
    · rw [hold p hp hpe] at hn
      obtain ⟨n', hn', -, hr⟩ := hreset p hp
      rw [hn] at hn'
      simp only [Option.some.injEq] at hn'
      subst hn'
      exact ⟨hr.1, hr.2.2, fun _ => hr.2.1, fun h => absurd h hpe⟩
  constructor
  · intro n hn
    exact ((hcell start hstart n hn).2.2.2 rfl).1
  · intro p hp n hn c hc
    rw [(hcell p hp n hn).2.1] at hc
    cases hc
  · intro e he n hn
    simp only [List.mem_singleton] at he
    subst he
    simp only [hs0p] at hn
    rw [((hcell start hstart n hn).2.2.2 rfl).1]
  · intro p hp n hn _ hlt
    by_cases hpe : p = start
    · subst hpe
      refine ⟨_, List.mem_singleton_self _, hs0p, ?_⟩
      rw [((hcell p hp n hn).2.2.2 rfl).1]
    · rw [(hcell p hp n hn).2.2.1 hpe] at hlt
      exact absurd hlt (lt_irrefl _)
  · intro p hp n j hn hprev
    rw [(hcell p hp n hn).1] at hprev
    cases hprev

end RelaxinvInitPart

section ReachTheorems

variable {C : Type} [LinearOrder C] [Add C] [Zero C]

end ReachTheorems

section SameboundsFoldPart

variable {C : Type} [LinearOrder C] [Add C]

/-- The loop over the offsets keeps the extent and the border offset of the
node grid. -/
theorem sameBounds_fold
    {costFunction : DungeonNode C → DungeonNode C → Option (DungeonPathInfo C)}
    {unitSize : Int} {dirs : List FVector} {g0 : Grid3D (DungeonNode C)}
    (st : SearchState C) {st' : SearchState C} {node : FVector} (hb : SameBounds g0 st)
    (h : dirs.foldlM (visitNeighbor costFunction unitSize node) st = .ok st') :
    SameBounds g0 st' :=
  foldlM_except_inv (visitNeighbor costFunction unitSize node) (SameBounds g0) dirs
    (fun s a s' _ hI hf => by
      rcases visitNeighbor_cases costFunction unitSize node s s' a hf with rfl |
        ⟨n, m, info, g, -, -, -, -, -, -, -, -, -, hg, rfl⟩
      · exact hI
      · have hin := cell?_isSome_of_setCell? hg
        obtain ⟨g2, h2, -, hs, hb', -, -⟩ := setCell?_spec s.grid _
          (rewrittenNode unitSize node n m info a) hin
        rw [hg] at h2
        simp only [Option.some.injEq] at h2
        subst h2
        exact ⟨hs.trans hI.1, hb'.trans hI.2⟩)
    st st' hb h

end SameboundsFoldPart

section ReachTheorems

variable {C : Type} [LinearOrder C] [Add C] [Zero C]

end ReachTheorems

section TrailCostPart

variable {C : Type} [Add C] [Zero C]

/-- The cost of the head of a chain is the sum of the costs of its steps. -/
theorem trail_cost
    {costFunction : DungeonNode C → DungeonNode C → Option (DungeonPathInfo C)}
    {cf : FVector → FVector → DungeonPathInfo C}
    {unitSize : Int} {dirs positions : List FVector} {start : FVector}
    {st : SearchState C} {l : List (DungeonNode C)}
    (hcf : ∀ a b : DungeonNode C, a.Position ∈ positions → b.Position ∈ positions →
      (∃ o ∈ dirs, b.Position = a.Position + o) →
      costFunction a b = some (cf a.Position b.Position))
    (hs0 : ∀ s, st.grid.get? start = some s → s.Cost = 0)
    (h : Trail costFunction unitSize dirs positions start st l) :
    ∀ n rest, l = n :: rest → n.Cost = backTotal cf (l.map fun x => x.Position) := by
  induction h with
  | root s h1 _ _ _ =>
    intro n rest hl
    simp only [List.cons.injEq] at hl
    obtain ⟨rfl, rfl⟩ := hl
    simp only [List.map_cons, List.map_nil, backTotal]
    exact hs0 s h1
  | step n N rest hn hN _ _ _ hlink _ ih =>
    intro n' rest' hl
    simp only [List.cons.injEq] at hl
    obtain ⟨rfl, rfl⟩ := hl
    obtain ⟨offset, ho, m0, info, hpos, hm0, hinfo, -, -, -, -, hcost⟩ := hlink
    rw [hcf N m0 hN (by rw [hm0]; exact hn) ⟨offset, ho, by rw [hm0]; exact hpos⟩, hm0] at hinfo
    simp only [Option.some.injEq] at hinfo
    subst hinfo
    simp only [List.map_cons, backTotal]
    rw [hcost, ih N rest rfl]
    simp only [List.map_cons]

end TrailCostPart

section ReachTheorems

variable {C : Type} [LinearOrder C] [Add C] [Zero C]

end ReachTheorems

section TrailClosedPart

variable {C : Type} [Add C]

/-- Every cell of a chain is closed when its head is. -/
theorem trail_closed
    {costFunction : DungeonNode C → DungeonNode C → Option (DungeonPathInfo C)}
    {unitSize : Int} {dirs positions : List FVector} {start : FVector}
    {st : SearchState C} {l : List (DungeonNode C)}
    (h : Trail costFunction unitSize dirs positions start st l) :
    ∀ n rest, l = n :: rest → st.grid.GetIndex n.Position ∈ st.closedNodes →
      ∀ x ∈ l, st.grid.GetIndex x.Position ∈ st.closedNodes := by
  intro n rest hl hcl x hx
  subst hl
  rcases List.mem_cons.1 hx with rfl | hx
  · exact hcl
  · have := trail_rank h n rest rfl x hx
    exact List.indexOf_lt_length.1 (lt_of_lt_of_le this List.indexOf_le_length)

end TrailClosedPart

section ReachTheorems

variable {C : Type} [LinearOrder C] [Add C] [Zero C]

/-- The head of a chain of planar steps is reachable from the start by
traversable planar unit steps through cells inside the bounds. -/
theorem trail_reach
    {costFunction : DungeonNode C → DungeonNode C → Option (DungeonPathInfo C)}
    {cf : FVector → FVector → DungeonPathInfo C} {MAX_flt : C}
    (pf : DungeonPathfinder3D C) {positions : List FVector} {start : FVector}
    (st : SearchState C) {l : List (DungeonNode C)}
    (hcf : ∀ a b : DungeonNode C, a.Position ∈ positions → b.Position ∈ positions →
      (∃ o ∈ Directions2D.map (fun d => d.scale pf.unitSize), b.Position = a.Position + o) →
      costFunction a b = some (cf a.Position b.Position))
    (hrel : RelaxInv MAX_flt positions start st) (hb : SameBounds pf.grid st)
    (h : Trail costFunction pf.unitSize
      (Directions2D.map fun d => d.scale pf.unitSize) positions start st l) :
    ∀ n rest, l = n :: rest →
      Relation.ReflTransGen (PlanarStep pf cf) start n.Position := by
  induction h with
  | root s _ h2 _ _ =>
    intro n rest hl
    simp only [List.cons.injEq] at hl
    obtain ⟨rfl, rfl⟩ := hl
    rw [h2]
  | step n N rest hn hN hget hprev _ hlink _ ih =>
    intro n' rest' hl
    simp only [List.cons.injEq] at hl
    obtain ⟨rfl, rfl⟩ := hl
    obtain ⟨offset, ho, m0, info, hpos, hm0, hinfo, htr, -⟩ := hlink
    rw [hcf N m0 hN (by rw [hm0]; exact hn) ⟨offset, ho, by rw [hm0]; exact hpos⟩, hm0] at hinfo
    simp only [Option.some.injEq] at hinfo
    subst hinfo
    obtain ⟨d, hd, rfl⟩ := List.mem_map.1 ho
    refine Relation.ReflTransGen.tail (ih N rest rfl) ⟨?_, ⟨d, hd, hpos⟩, htr⟩
    rw [← inBounds_congr hb.1 hb.2]
    exact hrel.prev_inb _ hn n _ hget hprev

end ReachTheorems

section EmptyPathClaim

variable {C : Type} [LinearOrder C] [Add C] [Zero C]

/-- When the queue has run empty, every cell that traversable steps reach
from a closed cell is closed: a reached open cell would have a cost below
`MAX_flt` and with it a queue entry. -/
theorem closed_of_planarStep
    {costFunction : DungeonNode C → DungeonNode C → Option (DungeonPathInfo C)}
    {cf : FVector → FVector → DungeonPathInfo C} {MAX_flt : C}
    {pf : DungeonPathfinder3D C} {positions : List FVector} {start endPos : FVector}
    {st : SearchState C}
    (hcf : ∀ a b : DungeonNode C, a.Position ∈ positions → b.Position ∈ positions →
      (∃ o ∈ Directions2D.map (fun d => d.scale pf.unitSize), b.Position = a.Position + o) →
      costFunction a b = some (cf a.Position b.Position))
    (hmax : ∀ l : List FVector, l.Nodup → (∀ p ∈ l, p ∈ positions) →
      backTotal cf l < MAX_flt)
    (hhead : HeadInv costFunction cf MAX_flt pf.unitSize
      (Directions2D.map fun d => d.scale pf.unitSize) positions start endPos st)
    (hb : SameBounds pf.grid st) (hq : st.queue = []) {a b : FVector}
    (ha : a ∈ positions ∧ st.grid.GetIndex a ∈ st.closedNodes)
    (hstep : PlanarStep pf cf a b) :
    b ∈ positions ∧ st.grid.GetIndex b ∈ st.closedNodes := by
  obtain ⟨hin, ⟨d, hd, hbe⟩, htr⟩ := hstep
  have ho : d.scale pf.unitSize ∈ Directions2D.map fun d => d.scale pf.unitSize :=
    List.mem_map.2 ⟨d, hd, rfl⟩
  have hin' : st.grid.InBounds b = true := by
    rw [inBounds_congr hb.1 hb.2]; exact hin
  have hbal : Aligned pf.unitSize b := by
    rw [hbe]; exact (hhead.inv.aligned a ha.1).add (aligned_scale _ d)
  have hbps : b ∈ positions := hhead.inv.inb b hbal hin'
  refine ⟨hbps, ?_⟩
  by_contra hbcl
  rw [hbe] at hin' htr hbcl
  rcases hhead.relaxed a ha.1 ha.2 _ ho hin' htr with h1 | ⟨n, m, hn, hm, hle⟩
  · exact hbcl h1
  · obtain ⟨n', rest, hn'p, htrail⟩ := trail_exists hhead.inv _ a ha.1 ha.2 (le_refl _)
    have hn'get := (trail_mem hhead.inv.start_mem htrail n' (List.mem_cons_self _ _)).2
    rw [hn'p, hn] at hn'get
    simp only [Option.some.injEq] at hn'get
    subst hn'get
    have hcost := trail_cost hcf hhead.rel.start_cost htrail n rest rfl
    have hnd := trail_nodup_positions htrail
    have hclosed := trail_closed htrail n rest rfl (by rw [hn'p]; exact ha.2)
    have hnotin : a + d.scale pf.unitSize ∉ (n :: rest).map fun x => x.Position := by
      intro hmem
      obtain ⟨x, hx, hxe⟩ := List.mem_map.1 hmem
      apply hbcl
      rw [← hxe]
      exact hclosed x hx
    have htotal := hmax ((a + d.scale pf.unitSize) :: (n :: rest).map fun x => x.Position)
      (List.nodup_cons.2 ⟨hnotin, hnd⟩)
      (fun p hp => by
        rcases List.mem_cons.1 hp with rfl | hp
        · rw [← hbe]; exact hbps
        · obtain ⟨x, hx, rfl⟩ := List.mem_map.1 hp
          exact (trail_mem hhead.inv.start_mem htrail x hx).1)
    simp only [List.map_cons, backTotal] at htotal
    simp only [List.map_cons] at hcost
    rw [← hcost, hn'p] at htotal
    have hlt : m.Cost < MAX_flt := lt_of_le_of_lt hle htotal
    obtain ⟨e, he, -⟩ := hhead.rel.queued _ (by rw [← hbe]; exact hbps) m hm hbcl hlt
    rw [hq] at he
    cases he

/-- Claim C12, amended.  With floor changes disallowed, let the pathfinder be
in the state its constructor and earlier searches leave it in, let `start` be
one of its node positions and `end` any other position, and let the cost
function answer on all node positions as a function `cf` of the two positions
that sets the stairs flag on no traversable step and whose costs along any
list of distinct node positions add up to less than `MAX_flt`.  Then with
enough fuel `FindPath` returns a path, and this path is empty if and only if
`end` is not reached from `start` by traversable planar unit steps through
cells inside the bounds. -/
theorem findPath_empty_iff_unreachable (MAX_flt : C) (pf : DungeonPathfinder3D C)
    (positions : List FVector) (hready : Ready pf positions) (start endPos : FVector)
    (hstart : start ∈ positions) (hne : start ≠ endPos)
    (costFunction : DungeonNode C → DungeonNode C → Option (DungeonPathInfo C))
    (cf : FVector → FVector → DungeonPathInfo C)
    (hcf : ∀ a b : DungeonNode C, a.Position ∈ positions → b.Position ∈ positions →
      (∃ d ∈ Directions2D, b.Position = a.Position + d.scale pf.unitSize) →
      costFunction a b = some (cf a.Position b.Position))
    (hflat : ∀ a b, (cf a b).Traversable = true → (cf a b).IsStairs = false)
    (hmax : ∀ l : List FVector, l.Nodup → (∀ p ∈ l, p ∈ positions) →
      backTotal cf l < MAX_flt) :
    ∃ fuel0, ∀ fuel, fuel0 ≤ fuel → ∃ path,
      FindPath MAX_flt pf start endPos costFunction false fuel = .ok path ∧
      (path = [] ↔ ¬ Relation.ReflTransGen (PlanarStep pf cf) start endPos) := by
  have hcf' : ∀ a b : DungeonNode C, a.Position ∈ positions → b.Position ∈ positions →
      (∃ o ∈ Directions2D.map (fun d => d.scale pf.unitSize), b.Position = a.Position + o) →
      costFunction a b = some (cf a.Position b.Position) := by
    rintro a b ha hb ⟨o, ho, hbe⟩
    obtain ⟨d, hd, rfl⟩ := List.mem_map.1 ho
    exact hcf a b ha hb ⟨d, hd, hbe⟩
  obtain ⟨pf1, hreset, hready1, hunit1, hsize1, hall⟩ :=
    resetNodes_ready MAX_flt pf positions hready
  obtain ⟨s, hs, hsp, -⟩ := hall start hstart
  obtain ⟨g, hg⟩ := set?_of_isSome pf1.grid start { s with Cost := 0 } (by rw [hs]; rfl)
  have hinv0 := searchInv_init costFunction MAX_flt
    (Directions2D.map fun d => d.scale pf1.unitSize) hready1 hall hstart hs hg
  have hrel0 := relaxInv_init MAX_flt hready1 hall hstart hs hg
  obtain ⟨-, hsz, hbo, -, -⟩ := set?_get? hg
    (by rw [hready1.grid_unit]; exact loopPositions_aligned hready1.loop hstart)
  have hb0 : SameBounds pf.grid ⟨g, [{ s with Cost := 0 }], []⟩ :=
    ⟨hsz.trans hsize1, by
      show g.borderOffset = pf.grid.borderOffset
      rw [hbo, hready1.border, hunit1, hready.border]⟩
  rw [hunit1] at hinv0
  have hhead0 : HeadInv costFunction cf MAX_flt pf.unitSize
      (Directions2D.map fun d => d.scale pf.unitSize) positions start endPos
      ⟨g, [{ s with Cost := 0 }], []⟩ :=
    ⟨hinv0, hrel0, (fun p _ hp => by cases hp), (fun p _ hp => by cases hp)⟩
  obtain ⟨fuel0, hfuel0⟩ := searchLoop_total (SameBounds pf.grid) hcf' hflat
    (fun o ho => aligned_of_mem_map_scale ho)
    (fun st tmp rest st2 _ hx _ _ hfold => sameBounds_fold ⟨st.grid, rest, _⟩ hx hfold)
    _ _ _ hhead0 hb0 rfl rfl
  refine ⟨fuel0, fun fuel hfuel => ?_⟩
  obtain ⟨path, hpath, hexit⟩ := hfuel0 fuel hfuel
  refine ⟨path, ?_, ?_⟩
  · unfold FindPath
    simp only [hreset, hne, if_false, hs, hg, Bool.not_false, if_true, hunit1]
    exact hpath
  · rcases hexit with ⟨rfl, st', hhead', hb', hq⟩ |
      ⟨st', tmp, rest, hhead', hb', hpop, hend, hrec⟩
    · -- the queue ran empty
      refine ⟨fun _ hreach => ?_, fun _ => rfl⟩
      have h0 : (0 : C) < MAX_flt := by
        have := hmax [start] (List.nodup_singleton _) (fun p hp => by
          simp only [List.mem_singleton] at hp; rw [hp]; exact hstart)
        simpa [backTotal] using this
      have hsc : start ∈ positions ∧ st'.grid.GetIndex start ∈ st'.closedNodes := by
        refine ⟨hstart, ?_⟩
        by_contra hncl
        obtain ⟨n, hn, -⟩ := hhead'.inv.placed start hstart
        obtain ⟨e, he, -⟩ := hhead'.rel.queued start hstart n hn hncl
          (by rw [hhead'.rel.start_cost n hn]; exact h0)
        rw [hq] at he
        cases he
      have hall' : ∀ x, Relation.ReflTransGen (PlanarStep pf cf) start x →
          x ∈ positions ∧ st'.grid.GetIndex x ∈ st'.closedNodes := by
        intro x hx
        induction hx with
        | refl => exact hsc
        | tail _ hstep ih => exact closed_of_planarStep hcf' hmax hhead' hb' hq ih hstep
      exact hhead'.not_end endPos (hall' endPos hreach).1 (hall' endPos hreach).2 rfl
    · -- the end position was taken from the queue
      obtain ⟨hinv1, htp, -⟩ := searchInv_pop hhead'.inv hpop
      obtain ⟨hrel1, -⟩ := relaxInv_pop cf hhead'.rel hpop
      have hcl : st'.grid.GetIndex tmp.Position ∈
          st'.closedNodes ++ [st'.grid.GetIndex tmp.Position] :=
        List.mem_append_right _ (List.mem_singleton_self _)
      obtain ⟨n, rest', hnp, htrail⟩ := trail_exists hinv1 _ tmp.Position htp hcl (le_refl _)
      have hrec' := reconstructPath_trail hinv1.start_mem htrail
      rw [hnp, hend] at hrec'
      have hrec'' : ReconstructPath st'.grid (st'.grid.GetIndex endPos) =
          .ok ((n :: rest').map fun x => x.Position).reverse := hrec'
      rw [hrec] at hrec''
      simp only [Except.ok.injEq] at hrec''
      have hreach := trail_reach pf ⟨st'.grid, rest, _⟩ hcf' hrel1 hb' htrail n rest' rfl
      rw [hnp, hend] at hreach
      refine ⟨fun hp => ?_, fun hnr => absurd hreach hnr⟩
      rw [hp] at hrec''
      simp at hrec''

end EmptyPathClaim

section EmptyPathExamples

/-- With every step costing 1, the total of a list of positions is at most its
length. -/
theorem backTotal_unit_le (l : List FVector) :
    backTotal (fun _ _ => (⟨true, 1, false⟩ : DungeonPathInfo Int)) l ≤ (l.length : Int) := by
  induction l with
  | nil => simp [backTotal]
  | cons b rest ih =>
    cases rest with
    | nil => simp [backTotal]
    | cons a rest =>
      simp only [backTotal, List.length_cons, Nat.cast_add, Nat.cast_one] at ih ⊢
      omega

set_option maxRecDepth 100000 in
theorem samplePositions_length : samplePositions.length = 384 := by
  rfl

set_option maxRecDepth 1000000 in
/-- Claim C12 fails as stated, in two runs on the sample volume with floor
changes disallowed.  In the first every step is traversable and costs as much
as `MAX_flt` stands for: no neighbour of the start is ever queued, and the
path to the adjacent cell (15, 10, 10) is empty.  In the second the steps
along the row `Y = 10, Z = 10` are traversable and flagged as stair moves: the
footprint of the step to (15, 10, 10) takes in (20, 10, 10), and the path to
(20, 10, 10) is empty.  In both the end is reached by traversable planar unit
steps. -/
theorem findPath_empty_though_reachable :
    ((∀ n : Nat, FindPath 1000000 samplePathfinder ⟨10, 10, 10⟩ ⟨15, 10, 10⟩
        (fun _ _ => some ⟨true, 1000000, false⟩) false (n + 2) = .ok []) ∧
      Relation.ReflTransGen
        (PlanarStep samplePathfinder
          (fun _ _ => (⟨true, 1000000, false⟩ : DungeonPathInfo Int)))
        ⟨10, 10, 10⟩ ⟨15, 10, 10⟩) ∧
    ((∀ n : Nat, FindPath 1000000 samplePathfinder ⟨10, 10, 10⟩ ⟨20, 10, 10⟩
        (fun _ b => some ⟨decide (b.Position.Y = 10 ∧ b.Position.Z = 10), 0, true⟩)
        false (n + 4) = .ok []) ∧
      Relation.ReflTransGen
        (PlanarStep samplePathfinder
          (fun _ b => (⟨decide (b.Y = 10 ∧ b.Z = 10), 0, true⟩ : DungeonPathInfo Int)))
        ⟨10, 10, 10⟩ ⟨20, 10, 10⟩) :=
  ⟨⟨fun _ => rfl,
      Relation.ReflTransGen.single ⟨by decide, ⟨⟨1, 0, 0⟩, by decide, by decide⟩, rfl⟩⟩,
    ⟨fun _ => rfl,
      Relation.ReflTransGen.tail
        (Relation.ReflTransGen.tail Relation.ReflTransGen.refl
          (show PlanarStep samplePathfinder _ ⟨10, 10, 10⟩ ⟨15, 10, 10⟩ from
            ⟨by decide, ⟨⟨1, 0, 0⟩, by decide, by decide⟩, rfl⟩))
        (show PlanarStep samplePathfinder _ ⟨15, 10, 10⟩ ⟨20, 10, 10⟩ from
          ⟨by decide, ⟨⟨1, 0, 0⟩, by decide, by decide⟩, rfl⟩)⟩⟩

/-- Claim C12 as amended, at a concrete input: the sample volume, every step
traversable at cost 1, from (10, 10, 10) to (25, 10, 10). -/
theorem findPath_empty_iff_unreachable_witness :
    ∃ fuel0, ∀ fuel, fuel0 ≤ fuel → ∃ path,
      FindPath 1000000 samplePathfinder ⟨10, 10, 10⟩ ⟨25, 10, 10⟩
        (fun _ _ => some ⟨true, 1, false⟩) false fuel = .ok path ∧
      (path = [] ↔ ¬ Relation.ReflTransGen
        (PlanarStep samplePathfinder (fun _ _ => (⟨true, 1, false⟩ : DungeonPathInfo Int)))
        ⟨10, 10, 10⟩ ⟨25, 10, 10⟩) :=
  findPath_empty_iff_unreachable 1000000 samplePathfinder samplePositions
    samplePathfinder_ready ⟨10, 10, 10⟩ ⟨25, 10, 10⟩ (by decide) (by decide)
    (fun _ _ => some ⟨true, 1, false⟩) (fun _ _ => ⟨true, 1, false⟩)
    (fun _ _ _ _ _ => rfl) (fun _ _ _ => rfl)
    (fun l hl hsub => by
      have h1 := backTotal_unit_le l
      have h2 : l.length ≤ samplePositions.length :=
        (List.Nodup.subperm hl hsub).length_le
      rw [samplePositions_length] at h2
      omega)

end EmptyPathExamples

/-! ## Theorems: the straight corridor between two rooms -/

section FlatInfo

variable {C : Type} [Zero C] [Add C]

open EStructureType

theorem costFunction_flatInfo (grid : Grid3D EStructureType) (cfg : CostSettings C)
    (Distance : FVector → FVector → C) (endPos : FVector) (a b : DungeonNode C)
    (hz : (b.Position - a.Position).Z = 0) (hb : (grid.get? b.Position).isSome) :
    CostFunction grid cfg Distance a b endPos =
      some (flatInfo grid cfg Distance endPos a.Position b.Position) := by
  obtain ⟨sb, hsb⟩ := Option.isSome_iff_exists.1 hb
  unfold flatInfo CostFunction
  simp only [hz, if_true, hsb]
  split_ifs <;> rfl

theorem flatInfo_isStairs (grid : Grid3D EStructureType) (cfg : CostSettings C)
    (Distance : FVector → FVector → C) (endPos a b : FVector) :
    (flatInfo grid cfg Distance endPos a b).IsStairs = false := by
  unfold flatInfo
  by_cases hz : (b - a).Z = 0
  · simp only [hz, if_true]
    cases hcf : CostFunction grid cfg Distance ⟨a, none, [], 0⟩ ⟨b, none, [], 0⟩ endPos with
    | none => rfl
    | some info => exact (costFunction_flat_inv hz hcf).1
  · simp only [hz, if_false]

theorem flatInfo_of_get? (grid : Grid3D EStructureType) (cfg : CostSettings C)
    (Distance : FVector → FVector → C) (endPos a b : FVector) (hz : (b - a).Z = 0)
    (s : EStructureType) (hs : grid.get? b = some s) :
    flatInfo grid cfg Distance endPos a b =
      if s = STAIRS ∨ s = STOP then ⟨false, Distance b endPos, false⟩
      else if s = ROOM then ⟨true, Distance b endPos + cfg.RoomExtraCost, false⟩
      else if s = NONE then ⟨true, Distance b endPos + cfg.NoneExtraCost, false⟩
      else ⟨true, Distance b endPos, false⟩ := by
  unfold flatInfo CostFunction
  simp only [hz, if_true, hs]
  split_ifs <;> rfl

end FlatInfo

section CostBoundLemmas

variable {C : Type} [LinearOrder C] [Add C]

theorem costBound_visit
    {costFunction : DungeonNode C → DungeonNode C → Option (DungeonPathInfo C)}
    {unitSize : Int} {st st' : SearchState C} {node offset : FVector}
    (line : List (FVector × C)) (hb : CostBound line st)
    (h : visitNeighbor costFunction unitSize node st offset = .ok st') :
    CostBound line st' := by
  rcases visitNeighbor_cases _ _ _ _ _ _ h with
    rfl | ⟨n, m, info, g, -, -, hm, hncl, -, -, -, -, -, hg, rfl⟩
  · exact hb
  · obtain ⟨g', hg', hu, -, -, -, hother⟩ := setCell?_spec st.grid
      (st.grid.GetIndex (n.Position + offset)) (rewrittenNode unitSize node n m info offset)
      (by rw [hm]; rfl)
    rw [hg] at hg'
    obtain rfl := Option.some.inj hg'
    intro x hx hcl k hk
    have hidx : g.GetIndex x.1 = st.grid.GetIndex x.1 := getIndex_congr hu x.1
    have hcl' : st.grid.GetIndex x.1 ∈ st.closedNodes := by rw [← hidx]; exact hcl
    have hne : g.GetIndex x.1 ≠ st.grid.GetIndex (n.Position + offset) := by
      rw [hidx]
      intro heq
      exact hncl (heq ▸ hcl')
    have hk' : st.grid.get? x.1 = some k := by
      have := hother _ hne
      unfold Grid3D.get? at hk ⊢
      rw [← hidx, ← this]
      exact hk
    exact hb x hx hcl' k hk'

theorem costBound_fold
    {costFunction : DungeonNode C → DungeonNode C → Option (DungeonPathInfo C)}
    {unitSize : Int} {dirs : List FVector} (st : SearchState C) {st' : SearchState C}
    {node : FVector} (line : List (FVector × C)) (hb : CostBound line st)
    (h : dirs.foldlM (visitNeighbor costFunction unitSize node) st = .ok st') :
    CostBound line st' :=
  foldlM_except_inv (visitNeighbor costFunction unitSize node) (CostBound line) dirs
    (fun _ _ _ _ hs hv => costBound_visit line hs hv) st st' hb h

end CostBoundLemmas

section CostBoundPop

variable {C : Type} [LinearOrder C] [Add C] [Zero C]

/-- Taking the cheapest entry from the queue, while some open node costs at
most `t` and `t` is within the bound of every open position of `line`: the
node taken costs at most `t`, and the bounds of `line` hold with it closed. -/
theorem costBound_pop
    {costFunction : DungeonNode C → DungeonNode C → Option (DungeonPathInfo C)}
    {cf : FVector → FVector → DungeonPathInfo C} {MAX_flt : C}
    {unitSize : Int} {dirs positions : List FVector} {start endPos : FVector}
    {st : SearchState C} {tmp : DungeonNode C} {rest : List (DungeonNode C)}
    (line : List (FVector × C))
    (hhead : HeadInv costFunction cf MAX_flt unitSize dirs positions start endPos st)
    (hb : CostBound line st) (hpop : popMin st.queue = some (tmp, rest))
    {t : C} {q : FVector} {nq : DungeonNode C} (hq : q ∈ positions)
    (hqo : st.grid.GetIndex q ∉ st.closedNodes) (hnq : st.grid.get? q = some nq)
    (hcost : nq.Cost ≤ t) (hmax : t < MAX_flt)
    (hline : ∀ x ∈ line, st.grid.GetIndex x.1 ∉ st.closedNodes → t ≤ x.2) :
    (∀ n, st.grid.get? tmp.Position = some n → n.Cost ≤ t) ∧
      CostBound line ⟨st.grid, rest, st.closedNodes ++ [st.grid.GetIndex tmp.Position]⟩ := by
  obtain ⟨hperm, hmin⟩ := popMin_spec _ _ _ hpop
  obtain ⟨e, he, -, hec⟩ := hhead.rel.queued q hq nq hnq hqo (lt_of_le_of_lt hcost hmax)
  have htmp : tmp ∈ st.queue := hperm.symm.subset (List.mem_cons_self _ _)
  have h1 : ∀ n, st.grid.get? tmp.Position = some n → n.Cost ≤ t := fun n hn =>
    le_trans (hhead.rel.entry_ge tmp htmp n hn)
      (le_trans (not_lt.1 (hmin e he)) (by rw [hec]; exact hcost))
  refine ⟨h1, ?_⟩
  intro x hx hcl n hn
  by_cases hc : st.grid.GetIndex x.1 ∈ st.closedNodes
  · exact hb x hx hc n hn
  · have hcl' : st.grid.GetIndex x.1 ∈
        st.closedNodes ++ [st.grid.GetIndex tmp.Position] := hcl
    rcases List.mem_append.1 hcl' with h | h
    · exact absurd h hc
    · have heq : st.grid.GetIndex x.1 = st.grid.GetIndex tmp.Position :=
        List.mem_singleton.1 h
      have hn' : st.grid.get? tmp.Position = some n := by
        have hn2 : st.grid.get? x.1 = some n := hn
        unfold Grid3D.get? at hn2 ⊢
        rw [← heq]; exact hn2
      exact le_trans (h1 n hn') (hline x hx hc)

end CostBoundPop

section StraightLine

variable {C : Type} [LinearOrder C] [Add C] [Zero C]

/-- One step along a line of positions with cost bounds: if `p` is closed at
a cost within its bound and the step to `q` is traversable, the node of `q`
costs at most the bound of `q`.  Of the addition of costs only `hadd` is
used. -/
theorem relaxed_next
    {costFunction : DungeonNode C → DungeonNode C → Option (DungeonPathInfo C)}
    {cf : FVector → FVector → DungeonPathInfo C} {MAX_flt : C}
    {pf : DungeonPathfinder3D C} {positions : List FVector} {start endPos : FVector}
    {st : SearchState C} (hadd : ∀ a b c : C, a ≤ b → a + c ≤ b + c)
    (line : List (FVector × C))
    (hhead : HeadInv costFunction cf MAX_flt pf.unitSize
      (Directions2D.map fun d => d.scale pf.unitSize) positions start endPos st)
    (hsb : SameBounds pf.grid st) (hb : CostBound line st)
    {p q o : FVector} {tp tq : C} {np : DungeonNode C}
    (hp : p ∈ positions) (hpc : st.grid.GetIndex p ∈ st.closedNodes)
    (hnp : st.grid.get? p = some np) (hcp : np.Cost ≤ tp)
    (ho : o ∈ Directions2D.map fun d => d.scale pf.unitSize) (hq : q = p + o)
    (hqin : pf.grid.InBounds q = true) (htr : (cf p q).Traversable = true)
    (hstep : tp + (cf p q).Cost ≤ tq) (hql : (q, tq) ∈ line) :
    q ∈ positions ∧ ∃ nq, st.grid.get? q = some nq ∧ nq.Cost ≤ tq := by
  subst hq
  have hin : st.grid.InBounds (p + o) = true := by
    rw [inBounds_congr hsb.1 hsb.2]; exact hqin
  have hqpos : p + o ∈ positions :=
    hhead.inv.inb _ ((hhead.inv.aligned p hp).add (aligned_of_mem_map_scale ho)) hin
  refine ⟨hqpos, ?_⟩
  obtain ⟨nq, hnq, -⟩ := hhead.inv.placed _ hqpos
  refine ⟨nq, hnq, ?_⟩
  rcases hhead.relaxed p hp hpc o ho hin htr with hcl | ⟨n, m, hn, hm, hle⟩
  · exact hb _ hql hcl nq hnq
  · rw [hnp] at hn
    obtain rfl := Option.some.inj hn
    rw [hnq] at hm
    obtain rfl := Option.some.inj hm
    exact le_trans hle (le_trans (hadd _ _ _ hcp) hstep)

/-- At the head of the loop some node of the straight line from `S` to `E` is
open and costs at most its bound; the bounds grow along the line. -/
theorem line_frontier
    {costFunction : DungeonNode C → DungeonNode C → Option (DungeonPathInfo C)}
    {cf : FVector → FVector → DungeonPathInfo C} {MAX_flt : C}
    {pf : DungeonPathfinder3D C} {positions : List FVector} {S E : FVector}
    {st : SearchState C} (hadd : ∀ a b c : C, a ≤ b → a + c ≤ b + c)
    (hhead : HeadInv costFunction cf MAX_flt pf.unitSize
      (Directions2D.map fun d => d.scale pf.unitSize) positions S E st)
    (hsb : SameBounds pf.grid st) {P1 P2 o : FVector} {t1 t2 t3 : C}
    (hb : CostBound [(S, 0), (P1, t1), (P2, t2), (E, t3)] st)
    (ho : o ∈ Directions2D.map fun d => d.scale pf.unitSize)
    (h1 : P1 = S + o) (h2 : P2 = P1 + o) (h3 : E = P2 + o)
    (hin1 : pf.grid.InBounds P1 = true) (hin2 : pf.grid.InBounds P2 = true)
    (hin3 : pf.grid.InBounds E = true)
    (htr1 : (cf S P1).Traversable = true) (htr2 : (cf P1 P2).Traversable = true)
    (htr3 : (cf P2 E).Traversable = true)
    (hs1 : 0 + (cf S P1).Cost ≤ t1) (hs2 : t1 + (cf P1 P2).Cost ≤ t2)
    (hs3 : t2 + (cf P2 E).Cost ≤ t3)
    (hm1 : 0 ≤ t1) (hm2 : t1 ≤ t2) (hm3 : t2 ≤ t3) :
    ∃ t q nq, q ∈ positions ∧ st.grid.GetIndex q ∉ st.closedNodes ∧
      st.grid.get? q = some nq ∧ nq.Cost ≤ t ∧ t ≤ t3 ∧
      ∀ x ∈ [(S, 0), (P1, t1), (P2, t2), (E, t3)],
        st.grid.GetIndex x.1 ∉ st.closedNodes → t ≤ x.2 := by
  have hS := hhead.inv.start_mem
  obtain ⟨nS, hnS, -⟩ := hhead.inv.placed S hS
  have hcS : nS.Cost ≤ 0 := le_of_eq (hhead.rel.start_cost nS hnS)
  by_cases c0 : st.grid.GetIndex S ∈ st.closedNodes
  swap
  · refine ⟨0, S, nS, hS, c0, hnS, hcS, le_trans hm1 (le_trans hm2 hm3), ?_⟩
    intro x hx _
    simp only [List.mem_cons, List.mem_singleton, List.not_mem_nil, or_false] at hx
    rcases hx with rfl | rfl | rfl | rfl
    · exact le_refl _
    · exact hm1
    · exact le_trans hm1 hm2
    · exact le_trans hm1 (le_trans hm2 hm3)
  obtain ⟨hP1, n1, hn1, hc1⟩ := relaxed_next hadd _ hhead hsb hb hS c0 hnS hcS ho h1 hin1 htr1
    hs1
    (by simp)
  by_cases c1 : st.grid.GetIndex P1 ∈ st.closedNodes
  swap
  · refine ⟨t1, P1, n1, hP1, c1, hn1, hc1, le_trans hm2 hm3, ?_⟩
    intro x hx hxo
    simp only [List.mem_cons, List.mem_singleton, List.not_mem_nil, or_false] at hx
    rcases hx with rfl | rfl | rfl | rfl
    · exact absurd c0 hxo
    · exact le_refl _
    · exact hm2
    · exact le_trans hm2 hm3
  obtain ⟨hP2, n2, hn2, hc2⟩ := relaxed_next hadd _ hhead hsb hb hP1 c1 hn1 hc1 ho h2 hin2
    htr2 hs2
    (by simp)
  by_cases c2 : st.grid.GetIndex P2 ∈ st.closedNodes
  swap
  · refine ⟨t2, P2, n2, hP2, c2, hn2, hc2, hm3, ?_⟩
    intro x hx hxo
    simp only [List.mem_cons, List.mem_singleton, List.not_mem_nil, or_false] at hx
    rcases hx with rfl | rfl | rfl | rfl
    · exact absurd c0 hxo
    · exact absurd c1 hxo
    · exact le_refl _
    · exact hm3
  obtain ⟨hP3, n3, hn3, hc3⟩ := relaxed_next hadd _ hhead hsb hb hP2 c2 hn2 hc2 ho h3 hin3
    htr3 hs3
    (by simp)
  have c3 : st.grid.GetIndex E ∉ st.closedNodes := fun hcl => hhead.not_end E hP3 hcl rfl
  refine ⟨t3, E, n3, hP3, c3, hn3, hc3, le_refl _, ?_⟩
  intro x hx hxo
  simp only [List.mem_cons, List.mem_singleton, List.not_mem_nil, or_false] at hx
  rcases hx with rfl | rfl | rfl | rfl
  · exact absurd c0 hxo
  · exact absurd c1 hxo
  · exact absurd c2 hxo
  · exact le_refl _

end StraightLine

section StraightGeometry

theorem planar_offset_Z {unitSize : Int} {offset : FVector}
    (h : offset ∈ Directions2D.map fun d => d.scale unitSize) : offset.Z = 0 := by
  obtain ⟨d, hd, rfl⟩ := List.mem_map.1 h
  simp only [Directions2D, List.mem_cons, List.mem_singleton, List.not_mem_nil, or_false] at hd
  rcases hd with rfl | rfl | rfl | rfl <;> simp [FVector.scale]

theorem planar_steps_one : ∀ d ∈ Directions2D, ∀ d1 ∈ Directions2D,
    d1.X = d.X + d.X + d.X → d1.Y = d.Y + d.Y + d.Y → False := by
  decide

theorem planar_steps_two : ∀ d ∈ Directions2D, ∀ d1 ∈ Directions2D, ∀ d2 ∈ Directions2D,
    d1.X + d2.X = d.X + d.X + d.X → d1.Y + d2.Y = d.Y + d.Y + d.Y → False := by
  decide

theorem planar_steps_three : ∀ d ∈ Directions2D, ∀ d1 ∈ Directions2D, ∀ d2 ∈ Directions2D,
    ∀ d3 ∈ Directions2D, d1.X + d2.X + d3.X = d.X + d.X + d.X →
      d1.Y + d2.Y + d3.Y = d.Y + d.Y + d.Y → d1 = d ∧ d2 = d ∧ d3 = d := by
  decide

set_option maxRecDepth 100000 in
theorem planar_steps_four : ∀ d ∈ Directions2D, ∀ d1 ∈ Directions2D, ∀ d2 ∈ Directions2D,
    ∀ d3 ∈ Directions2D, ∀ d4 ∈ Directions2D, d1.X + d2.X + d3.X + d4.X = d.X + d.X + d.X →
      d1.Y + d2.Y + d3.Y + d4.Y = d.Y + d.Y + d.Y → False := by
  decide

end StraightGeometry

section StraightCost

variable {C : Type} [LinearOrder C] [Add C] [Zero C]

open EStructureType

theorem flatInfo_cost_ge (grid : Grid3D EStructureType) (cfg : CostSettings C)
    (Distance : FVector → FVector → C) (endPos a b : FVector)
    (hgrow : ∀ t c : C, 0 ≤ c → t ≤ t + c) (hz : (b - a).Z = 0)
    (hb : (grid.get? b).isSome) (hN : 0 ≤ cfg.NoneExtraCost) (hR : 0 ≤ cfg.RoomExtraCost) :
    Distance b endPos ≤ (flatInfo grid cfg Distance endPos a b).Cost := by
  obtain ⟨s, hs⟩ := Option.isSome_iff_exists.1 hb
  rw [flatInfo_of_get? grid cfg Distance endPos a b hz s hs]
  split_ifs
  · exact le_refl _
  · exact hgrow _ _ hR
  · exact hgrow _ _ hN
  · exact le_refl _

theorem stepsTotal_mono (U : C) (hgrow : ∀ t c : C, 0 ≤ c → t ≤ t + c) (hU : 0 ≤ U) :
    ∀ k m : Nat, k ≤ m → stepsTotal U k ≤ stepsTotal U m := by
  intro k m h
  induction m with
  | zero =>
    have : k = 0 := by omega
    rw [this]
  | succ m ih =>
    by_cases hk : k = m + 1
    · rw [hk]
    · exact le_trans (ih (by omega)) (hgrow _ _ hU)

/-- Every step into a cell other than the end costs at least `U`: the search
accumulates along `k` such steps at least what `k` steps of cost `U` add up
to. -/
theorem backTotal_lower (grid : Grid3D EStructureType) (cfg : CostSettings C)
    (Distance : FVector → FVector → C) (endPos : FVector) (positions : List FVector)
    (unitSize : Int) (U : C)
    (hmono : ∀ a b c d : C, a ≤ b → c ≤ d → a + c ≤ b + d)
    (hgrow : ∀ t c : C, 0 ≤ c → t ≤ t + c)
    (hgrid : ∀ p ∈ positions, (grid.get? p).isSome)
    (hN : 0 ≤ cfg.NoneExtraCost) (hR : 0 ≤ cfg.RoomExtraCost)
    (hDmin : ∀ p ∈ positions, p ≠ endPos → U ≤ Distance p endPos) :
    ∀ l : List FVector,
      List.Chain' (fun b a : FVector =>
        ∃ offset ∈ Directions2D.map (fun d => d.scale unitSize), b = a + offset) l →
      (∀ p ∈ l, p ∈ positions ∧ p ≠ endPos) →
      stepsTotal U (l.length - 1) ≤ backTotal (flatInfo grid cfg Distance endPos) l := by
  intro l
  induction l with
  | nil => intro _ _; exact le_refl _
  | cons b rest ih =>
    intro hchain hall
    cases rest with
    | nil => exact le_refl _
    | cons a rest =>
      obtain ⟨⟨offset, ho, hbo⟩, hchain'⟩ := List.chain'_cons.1 hchain
      have ih' := ih hchain' (fun p hp => hall p (List.mem_cons_of_mem _ hp))
      obtain ⟨hbpos, hbne⟩ := hall b (List.mem_cons_self _ _)
      have hz : (b - a).Z = 0 := by
        rw [hbo, FVector.add_sub_cancel_left]; exact planar_offset_Z ho
      have hc := le_trans (hDmin b hbpos hbne)
        (flatInfo_cost_ge grid cfg Distance endPos a b hgrow hz (hgrid b hbpos) hN hR)
      simp only [List.length_cons, Nat.add_sub_cancel] at ih' ⊢
      exact hmono _ _ _ _ ih' hc

end StraightCost

section StraightPath

variable {C : Type} [LinearOrder C] [Add C] [Zero C]

open EStructureType

/-- A backward list of planar unit steps from `S` to the cell `E` three units
further along one axis, whose total is at most a bound `T` below what four
steps of cost `U` and the step into `E` add up to, is the straight line. -/
theorem straight_of_total (grid : Grid3D EStructureType) (cfg : CostSettings C)
    (Distance : FVector → FVector → C) (positions : List FVector) (u : Int) (hu : 0 < u)
    (S P1 P2 E d : FVector) (U T : C) (hd : d ∈ Directions2D)
    (h1 : P1 = S + d.scale u) (h2 : P2 = P1 + d.scale u) (h3 : E = P2 + d.scale u)
    (hmono : ∀ a b c d : C, a ≤ b → c ≤ d → a + c ≤ b + d)
    (hgrow : ∀ t c : C, 0 ≤ c → t ≤ t + c)
    (hgrid : ∀ p ∈ positions, (grid.get? p).isSome)
    (hN : 0 ≤ cfg.NoneExtraCost) (hR : 0 ≤ cfg.RoomExtraCost) (hU : 0 ≤ U)
    (hDmin : ∀ p ∈ positions, p ≠ E → U ≤ Distance p E)
    (hEroom : grid.get? E = some ROOM)
    (hline : T < stepsTotal U 4 + (Distance E E + cfg.RoomExtraCost))
    (rest : List FVector)
    (hchain : List.Chain' (fun b a : FVector =>
      ∃ offset ∈ Directions2D.map (fun d => d.scale u), b = a + offset) (E :: rest))
    (hnd : (E :: rest).Nodup) (hlast : (E :: rest).getLast? = some S)
    (hpos : ∀ p ∈ E :: rest, p ∈ positions)
    (hle : backTotal (flatInfo grid cfg Distance E) (E :: rest) ≤ T) :
    rest = [P2, P1, S] := by
  have hu0 : u ≠ 0 := ne_of_gt hu
  have hE : E = S + d.scale u + d.scale u + d.scale u := by rw [h3, h2, h1]
  cases rest with
  | nil =>
    exfalso
    simp only [List.getLast?_singleton, Option.some.injEq] at hlast
    rw [← hlast] at hE
    have hx := congrArg FVector.X hE
    have hy := congrArg FVector.Y hE
    simp only [FVector.add_def, FVector.scale] at hx hy
    have hx' : (0 : Int) * u = (d.X + d.X + d.X) * u := by linarith
    have hy' : (0 : Int) * u = (d.Y + d.Y + d.Y) * u := by linarith
    have hx'' := mul_right_cancel₀ hu0 hx'
    have hy'' := mul_right_cancel₀ hu0 hy'
    simp only [Directions2D, List.mem_cons, List.mem_singleton, List.not_mem_nil,
      or_false] at hd
    rcases hd with rfl | rfl | rfl | rfl <;> simp at hx'' hy''
  | cons a rest' =>
    obtain ⟨⟨o, ho, hEa⟩, hchain'⟩ := List.chain'_cons.1 hchain
    have hz : (E - a).Z = 0 := by
      rw [hEa, FVector.add_sub_cancel_left]; exact planar_offset_Z ho
    have hcE : (flatInfo grid cfg Distance E a E).Cost =
        Distance E E + cfg.RoomExtraCost := by
      rw [flatInfo_of_get? grid cfg Distance E a E hz ROOM hEroom]
      simp
    have hrest : ∀ p ∈ a :: rest', p ∈ positions ∧ p ≠ E := by
      intro p hp
      refine ⟨hpos p (List.mem_cons_of_mem _ hp), ?_⟩
      rintro rfl
      exact (List.nodup_cons.1 hnd).1 hp
    have hlow := backTotal_lower grid cfg Distance E positions u U hmono hgrow hgrid hN hR
      hDmin (a :: rest') hchain' hrest
    have hlen : rest'.length < 4 := by
      by_contra hcon
      have h4 : 4 ≤ (a :: rest').length - 1 := by
        simp only [List.length_cons, Nat.add_sub_cancel]; omega
      have h5 : stepsTotal U 4 + (Distance E E + cfg.RoomExtraCost) ≤
          backTotal (flatInfo grid cfg Distance E) (E :: a :: rest') := by
        have : backTotal (flatInfo grid cfg Distance E) (E :: a :: rest') =
            backTotal (flatInfo grid cfg Distance E) (a :: rest') +
              (flatInfo grid cfg Distance E a E).Cost := rfl
        rw [this, hcE]
        exact hmono _ _ _ _ (le_trans (stepsTotal_mono U hgrow hU 4 _ h4) hlow) (le_refl _)
      exact absurd (lt_of_le_of_lt (le_trans h5 hle) hline) (lt_irrefl _)
    obtain ⟨d3, hd3, rfl⟩ := List.mem_map.1 ho
    rcases rest' with _ | ⟨x, _ | ⟨y, _ | ⟨z, _ | ⟨w, rest''⟩⟩⟩⟩
    · -- one step
      exfalso
      simp only [List.getLast?_cons_cons, List.getLast?_singleton, Option.some.injEq] at hlast
      subst hlast
      rw [hEa] at hE
      have hx := congrArg FVector.X hE
      have hy := congrArg FVector.Y hE
      simp only [FVector.add_def, FVector.scale] at hx hy
      have hx' : d3.X * u = (d.X + d.X + d.X) * u := by linarith
      have hy' : d3.Y * u = (d.Y + d.Y + d.Y) * u := by linarith
      exact planar_steps_one d hd d3 hd3 (mul_right_cancel₀ hu0 hx')
        (mul_right_cancel₀ hu0 hy')
    · -- two steps
      exfalso
      simp only [List.getLast?_cons_cons, List.getLast?_singleton, Option.some.injEq] at hlast
      subst hlast
      obtain ⟨⟨o2, ho2, ha⟩, -⟩ := List.chain'_cons.1 hchain'
      obtain ⟨d2, hd2, rfl⟩ := List.mem_map.1 ho2
      rw [hEa, ha] at hE
      have hx := congrArg FVector.X hE
      have hy := congrArg FVector.Y hE
      simp only [FVector.add_def, FVector.scale] at hx hy
      have hx' : (d2.X + d3.X) * u = (d.X + d.X + d.X) * u := by linarith
      have hy' : (d2.Y + d3.Y) * u = (d.Y + d.Y + d.Y) * u := by linarith
      exact planar_steps_two d hd d2 hd2 d3 hd3 (mul_right_cancel₀ hu0 hx')
        (mul_right_cancel₀ hu0 hy')
    · -- three steps
      simp only [List.getLast?_cons_cons, List.getLast?_singleton, Option.some.injEq] at hlast
      subst hlast
      obtain ⟨⟨o2, ho2, ha⟩, hchain''⟩ := List.chain'_cons.1 hchain'
      obtain ⟨d2, hd2, rfl⟩ := List.mem_map.1 ho2
      obtain ⟨⟨o1, ho1, hxy⟩, -⟩ := List.chain'_cons.1 hchain''
      obtain ⟨d1, hd1, rfl⟩ := List.mem_map.1 ho1
      have hE' := hE
      rw [hEa, ha, hxy] at hE'
      have hx := congrArg FVector.X hE'
      have hy := congrArg FVector.Y hE'
      simp only [FVector.add_def, FVector.scale] at hx hy
      have hx' : (d1.X + d2.X + d3.X) * u = (d.X + d.X + d.X) * u := by linarith
      have hy' : (d1.Y + d2.Y + d3.Y) * u = (d.Y + d.Y + d.Y) * u := by linarith
      obtain ⟨rfl, rfl, rfl⟩ := planar_steps_three d hd d1 hd1 d2 hd2 d3 hd3
        (mul_right_cancel₀ hu0 hx') (mul_right_cancel₀ hu0 hy')
      rw [h2, h1, ha, hxy]
    · -- four steps
      exfalso
      simp only [List.getLast?_cons_cons, List.getLast?_singleton, Option.some.injEq] at hlast
      subst hlast
      obtain ⟨⟨o2, ho2, ha⟩, hchain''⟩ := List.chain'_cons.1 hchain'
      obtain ⟨d2, hd2, rfl⟩ := List.mem_map.1 ho2
      obtain ⟨⟨o1, ho1, hxy⟩, hchain3⟩ := List.chain'_cons.1 hchain''
      obtain ⟨d1, hd1, rfl⟩ := List.mem_map.1 ho1
      obtain ⟨⟨o0, ho0, hyz⟩, -⟩ := List.chain'_cons.1 hchain3
      obtain ⟨d0, hd0, rfl⟩ := List.mem_map.1 ho0
      rw [hEa, ha, hxy, hyz] at hE
      have hx := congrArg FVector.X hE
      have hy := congrArg FVector.Y hE
      simp only [FVector.add_def, FVector.scale] at hx hy
      have hx' : (d0.X + d1.X + d2.X + d3.X) * u = (d.X + d.X + d.X) * u := by linarith
      have hy' : (d0.Y + d1.Y + d2.Y + d3.Y) * u = (d.Y + d.Y + d.Y) * u := by linarith
      exact planar_steps_four d hd d0 hd0 d1 hd1 d2 hd2 d3 hd3 (mul_right_cancel₀ hu0 hx')
        (mul_right_cancel₀ hu0 hy')
    · simp only [List.length_cons] at hlen
      omega

end StraightPath

section StraightCarve

open EStructureType

theorem inBounds_between {T : Type} (g : Grid3D T) (u : Int) (hu : 0 < u) (S d : FVector)
    (hd : d ∈ Directions2D) (hS : g.InBounds S = true)
    (hE : g.InBounds (S + d.scale u + d.scale u + d.scale u) = true) :
    g.InBounds (S + d.scale u) = true ∧ g.InBounds (S + d.scale u + d.scale u) = true := by
  rw [inBounds_eq_true_iff] at hS hE ⊢
  rw [inBounds_eq_true_iff]
  simp only [Directions2D, List.mem_cons, List.mem_singleton, List.not_mem_nil, or_false] at hd
  rcases hd with rfl | rfl | rfl | rfl <;>
    simp only [FVector.add_def, FVector.scale] at hE ⊢ <;>
    refine ⟨⟨⟨?_, ?_⟩, ⟨?_, ?_⟩, ⟨?_, ?_⟩⟩, ⟨⟨?_, ?_⟩, ⟨?_, ?_⟩, ⟨?_, ?_⟩⟩⟩ <;> omega

theorem planar_line_distinct (u : Int) (hu : 0 < u) (S d : FVector) (hd : d ∈ Directions2D) :
    S ≠ S + d.scale u + d.scale u + d.scale u ∧
      S + d.scale u ≠ S + d.scale u + d.scale u ∧
      S + d.scale u ≠ S + d.scale u + d.scale u + d.scale u ∧
      S + d.scale u + d.scale u ≠ S + d.scale u + d.scale u + d.scale u := by
  obtain ⟨x, y, z⟩ := S
  simp only [Directions2D, List.mem_cons, List.mem_singleton, List.not_mem_nil, or_false] at hd
  rcases hd with rfl | rfl | rfl | rfl <;>
    simp only [FVector.add_def, FVector.scale, ne_eq, FVector.mk.injEq] <;>
    refine ⟨?_, ?_, ?_, ?_⟩ <;> omega

/-- Carving the straight path through two Empty cells between two Room cells
makes the two cells Corridor. -/
theorem carve_straight (DungeonUnit : Int) (grid : Grid3D EStructureType)
    (S P1 P2 E : FVector) (hP1al : Aligned grid.unit P1) (hP2al : Aligned grid.unit P2)
    (hEal : Aligned grid.unit E) (h12 : P1 ≠ P2) (h1E : P1 ≠ E) (h2E : P2 ≠ E)
    (hz1 : (P1 - S).Z = 0) (hz2 : (P2 - P1).Z = 0) (hz3 : (E - P2).Z = 0)
    (hS : grid.get? S = some ROOM) (hP1 : grid.get? P1 = some NONE)
    (hP2 : grid.get? P2 = some NONE) (hE : grid.get? E = some ROOM) :
    ∃ grid', carvePath DungeonUnit grid [S, P1, P2, E] = some grid' ∧
      grid'.get? P1 = some HALLWAY ∧ grid'.get? P2 = some HALLWAY := by
  obtain ⟨g1, hg1⟩ := set?_of_isSome grid P1 HALLWAY (by rw [hP1]; rfl)
  obtain ⟨hu1, -, -, hg1P1, hg1o⟩ := set?_get? hg1 hP1al
  have hg1P2 : g1.get? P2 = some NONE := by rw [hg1o P2 hP2al h12.symm]; exact hP2
  have hg1E : g1.get? E = some ROOM := by rw [hg1o E hEal h1E.symm]; exact hE
  obtain ⟨g2, hg2⟩ := set?_of_isSome g1 P2 HALLWAY (by rw [hg1P2]; rfl)
  obtain ⟨-, -, -, hg2P2, hg2o⟩ := set?_get? hg2 (by rw [hu1]; exact hP2al)
  have hg2P1 : g2.get? P1 = some HALLWAY := by
    rw [hg2o P1 (by rw [hu1]; exact hP1al) h12]; exact hg1P1
  have hg2E : g2.get? E = some ROOM := by
    rw [hg2o E (by rw [hu1]; exact hEal) h2E.symm]; exact hg1E
  refine ⟨g2, ?_, hg2P1, hg2P2⟩
  simp [carvePath, carveLoop, carveCell, hS, hP1, hg1, hz1, hg1P2, hg2, hz2, hg2E, hz3]

end StraightCarve

section StraightCorridorClaim

variable {C : Type} [LinearOrder C] [Add C] [Zero C]

open EStructureType

/-- Claim C15, amended.  Costs are values of any linearly ordered type with
an addition of which only two properties are used, both of which the
rounding addition of `float` has: it is monotone in both arguments, and
adding a non-negative cost does not make a total smaller.  Let the pathfinder
be in the state its constructor and earlier searches leave it in and let the
structure grid have a cell for each of its node positions.  Let `S` and `E`
be Room cells inside the bounds, `E` three units from `S` along one axis,
with the Empty cells `P1` and `P2` between them.  Let the room and empty
penalties be non-negative, let the distance to `E` be non-negative at `E` and
at least `U >= 0` at every other node position, and let the cost that the
search accumulates along the straight line, the three step costs added to 0
in order, be below `MAX_flt` and below what four steps of cost `U` and the
step into `E` accumulate (with the default penalties 1 and 5 and unit 5: 22
against 25).  Then `FindPath` with floor changes disallowed and
`CostFunction`, given enough fuel, returns the four cells `S, P1, P2, E`, and
carving this path makes `P1` and `P2` Corridor. -/
theorem findPath_straight_corridor (MAX_flt : C) (pf : DungeonPathfinder3D C)
    (positions : List FVector) (hready : Ready pf positions)
    (grid : Grid3D EStructureType) (cfg : CostSettings C) (Distance : FVector → FVector → C)
    (S P1 P2 E d : FVector) (U : C)
    (hmono : ∀ a b c d : C, a ≤ b → c ≤ d → a + c ≤ b + d)
    (hgrow : ∀ t c : C, 0 ≤ c → t ≤ t + c)
    (hS : S ∈ positions) (hSin : pf.grid.InBounds S = true) (hEin : pf.grid.InBounds E = true)
    (hd : d ∈ Directions2D)
    (h1 : P1 = S + d.scale pf.unitSize) (h2 : P2 = P1 + d.scale pf.unitSize)
    (h3 : E = P2 + d.scale pf.unitSize)
    (hunit : grid.unit = pf.unitSize) (hgrid : ∀ p ∈ positions, (grid.get? p).isSome)
    (hSroom : grid.get? S = some ROOM) (hEroom : grid.get? E = some ROOM)
    (hP1 : grid.get? P1 = some NONE) (hP2 : grid.get? P2 = some NONE)
    (hN : 0 ≤ cfg.NoneExtraCost) (hR : 0 ≤ cfg.RoomExtraCost) (hU : 0 ≤ U)
    (hDE : 0 ≤ Distance E E)
    (hDmin : ∀ p ∈ positions, p ≠ E → U ≤ Distance p E)
    (hfour : 0 + (Distance P1 E + cfg.NoneExtraCost) + (Distance P2 E + cfg.NoneExtraCost) +
        (Distance E E + cfg.RoomExtraCost) <
      0 + U + U + U + U + (Distance E E + cfg.RoomExtraCost))
    (hmax : 0 + (Distance P1 E + cfg.NoneExtraCost) + (Distance P2 E + cfg.NoneExtraCost) +
        (Distance E E + cfg.RoomExtraCost) < MAX_flt) :
    (∃ fuel0, ∀ fuel, fuel0 ≤ fuel →
      FindPath MAX_flt pf S E (fun a b => CostFunction grid cfg Distance a b E) false fuel =
        .ok [S, P1, P2, E]) ∧
    ∃ grid', carvePath cfg.DungeonUnit grid [S, P1, P2, E] = some grid' ∧
      grid'.get? P1 = some HALLWAY ∧ grid'.get? P2 = some HALLWAY := by
  have hadd : ∀ a b c : C, a ≤ b → a + c ≤ b + c := fun a b c h => hmono a b c c h (le_refl _)
  have hu : 0 < pf.unitSize := loopPositions_unit_pos hready.loop hS
  have hE3 : E = S + d.scale pf.unitSize + d.scale pf.unitSize + d.scale pf.unitSize := by
    rw [h3, h2, h1]
  obtain ⟨hd03, hd12, hd13, hd23⟩ := planar_line_distinct pf.unitSize hu S d hd
  rw [← h1] at hd03 hd12 hd13 hd23
  rw [← h2] at hd03 hd12 hd13 hd23
  rw [← h3] at hd03 hd13 hd23
  have hSal : Aligned pf.unitSize S := loopPositions_aligned hready.loop hS
  have hoal : Aligned pf.unitSize (d.scale pf.unitSize) := aligned_scale _ _
  have hP1al : Aligned pf.unitSize P1 := h1 ▸ hSal.add hoal
  have hP2al : Aligned pf.unitSize P2 := h2 ▸ hP1al.add hoal
  have hEal : Aligned pf.unitSize E := h3 ▸ hP2al.add hoal
  have ho : d.scale pf.unitSize ∈ Directions2D.map fun d => d.scale pf.unitSize :=
    List.mem_map.2 ⟨d, hd, rfl⟩
  have hoz : (d.scale pf.unitSize).Z = 0 := planar_offset_Z ho
  have hz1 : (P1 - S).Z = 0 := by rw [h1, FVector.add_sub_cancel_left]; exact hoz
  have hz2 : (P2 - P1).Z = 0 := by rw [h2, FVector.add_sub_cancel_left]; exact hoz
  have hz3 : (E - P2).Z = 0 := by rw [h3, FVector.add_sub_cancel_left]; exact hoz
  obtain ⟨hin1, hin2⟩ := inBounds_between pf.grid pf.unitSize hu S d hd hSin (hE3 ▸ hEin)
  rw [← h1] at hin1 hin2
  rw [← h2] at hin2
  refine ⟨?_, carve_straight cfg.DungeonUnit grid S P1 P2 E (hunit ▸ hP1al) (hunit ▸ hP2al)
    (hunit ▸ hEal) hd12 hd13 hd23 hz1 hz2 hz3 hSroom hP1 hP2 hEroom⟩
  -- the cost function as a function of the two positions
  have hcf : ∀ a b : DungeonNode C, a.Position ∈ positions → b.Position ∈ positions →
      (∃ o ∈ Directions2D.map (fun d => d.scale pf.unitSize), b.Position = a.Position + o) →
      (fun a b => CostFunction grid cfg Distance a b E) a b =
        some (flatInfo grid cfg Distance E a.Position b.Position) := by
    rintro a b - hb ⟨o, ho', hbo⟩
    exact costFunction_flatInfo grid cfg Distance E a b
      (by rw [hbo, FVector.add_sub_cancel_left]; exact planar_offset_Z ho') (hgrid _ hb)
  have hflat : ∀ a b, (flatInfo grid cfg Distance E a b).Traversable = true →
      (flatInfo grid cfg Distance E a b).IsStairs = false :=
    fun a b _ => flatInfo_isStairs grid cfg Distance E a b
  have hc1 : flatInfo grid cfg Distance E S P1 =
      ⟨true, Distance P1 E + cfg.NoneExtraCost, false⟩ := by
    rw [flatInfo_of_get? grid cfg Distance E S P1 hz1 NONE hP1]; simp
  have hc2 : flatInfo grid cfg Distance E P1 P2 =
      ⟨true, Distance P2 E + cfg.NoneExtraCost, false⟩ := by
    rw [flatInfo_of_get? grid cfg Distance E P1 P2 hz2 NONE hP2]; simp
  have hc3 : flatInfo grid cfg Distance E P2 E =
      ⟨true, Distance E E + cfg.RoomExtraCost, false⟩ := by
    rw [flatInfo_of_get? grid cfg Distance E P2 E hz3 ROOM hEroom]; simp
  have hP1pos : P1 ∈ positions := hready.mem_of_inBounds hu hP1al hin1
  have hP2pos : P2 ∈ positions := hready.mem_of_inBounds hu hP2al hin2
  have h0c1 : 0 ≤ Distance P1 E + cfg.NoneExtraCost :=
    le_trans (le_trans hU (hDmin P1 hP1pos hd13)) (hgrow _ _ hN)
  have h0c2 : 0 ≤ Distance P2 E + cfg.NoneExtraCost :=
    le_trans (le_trans hU (hDmin P2 hP2pos hd23)) (hgrow _ _ hN)
  have h0c3 : 0 ≤ Distance E E + cfg.RoomExtraCost := le_trans hDE (hgrow _ _ hR)
  -- the search loop
  obtain ⟨pf1, hreset, hready1, hunit1, hsize1, hall⟩ :=
    resetNodes_ready MAX_flt pf positions hready
  obtain ⟨s, hs, hsp, -⟩ := hall S hS
  obtain ⟨g, hg⟩ := set?_of_isSome pf1.grid S { s with Cost := 0 } (by rw [hs]; rfl)
  have hinv0 := searchInv_init (fun a b => CostFunction grid cfg Distance a b E) MAX_flt
    (Directions2D.map fun d => d.scale pf1.unitSize) hready1 hall hS hs hg
  have hrel0 := relaxInv_init MAX_flt hready1 hall hS hs hg
  obtain ⟨-, hsz, hbo, -, -⟩ := set?_get? hg
    (by rw [hready1.grid_unit]; exact loopPositions_aligned hready1.loop hS)
  have hb0 : SameBounds pf.grid ⟨g, [{ s with Cost := 0 }], []⟩ :=
    ⟨hsz.trans hsize1, by
      show g.borderOffset = pf.grid.borderOffset
      rw [hbo, hready1.border, hunit1, hready.border]⟩
  rw [hunit1] at hinv0
  have hhead0 : HeadInv (fun a b => CostFunction grid cfg Distance a b E)
      (flatInfo grid cfg Distance E) MAX_flt pf.unitSize
      (Directions2D.map fun d => d.scale pf.unitSize) positions S E
      ⟨g, [{ s with Cost := 0 }], []⟩ :=
    ⟨hinv0, hrel0, (fun p _ hp => by cases hp), (fun p _ hp => by cases hp)⟩
  have hfront : ∀ st : SearchState C,
      HeadInv (fun a b => CostFunction grid cfg Distance a b E)
        (flatInfo grid cfg Distance E) MAX_flt pf.unitSize
        (Directions2D.map fun d => d.scale pf.unitSize) positions S E st →
      SameBounds pf.grid st →
      CostBound [(S, 0), (P1, 0 + (Distance P1 E + cfg.NoneExtraCost)),
        (P2, 0 + (Distance P1 E + cfg.NoneExtraCost) + (Distance P2 E + cfg.NoneExtraCost)),
        (E, 0 + (Distance P1 E + cfg.NoneExtraCost) + (Distance P2 E + cfg.NoneExtraCost) +
        (Distance E E + cfg.RoomExtraCost))] st →
      ∃ t q nq, q ∈ positions ∧ st.grid.GetIndex q ∉ st.closedNodes ∧
        st.grid.get? q = some nq ∧ nq.Cost ≤ t ∧ t < MAX_flt ∧
        (t ≤ 0 + (Distance P1 E + cfg.NoneExtraCost) + (Distance P2 E + cfg.NoneExtraCost) +
        (Distance E E + cfg.RoomExtraCost)) ∧
        ∀ x ∈ [(S, 0), (P1, 0 + (Distance P1 E + cfg.NoneExtraCost)),
          (P2, 0 + (Distance P1 E + cfg.NoneExtraCost) + (Distance P2 E + cfg.NoneExtraCost)),
          (E, 0 + (Distance P1 E + cfg.NoneExtraCost) + (Distance P2 E + cfg.NoneExtraCost) +
        (Distance E E + cfg.RoomExtraCost))],
          st.grid.GetIndex x.1 ∉ st.closedNodes → t ≤ x.2 := by
    intro st hhead hsb hb
    obtain ⟨t, q, nq, hq, hqo, hnq, hcost, hle, hline⟩ :=
      line_frontier hadd hhead hsb hb ho h1 h2 h3 hin1 hin2 hEin
        (by rw [hc1]) (by rw [hc2]) (by rw [hc3])
        (by rw [hc1]) (by rw [hc2]) (by rw [hc3])
        (hgrow _ _ h0c1) (hgrow _ _ h0c2) (hgrow _ _ h0c3)
    exact ⟨t, q, nq, hq, hqo, hnq, hcost, lt_of_le_of_lt hle hmax, hle, hline⟩
  obtain ⟨fuel0, hfuel0⟩ := searchLoop_total
    (fun st => SameBounds pf.grid st ∧
      CostBound [(S, 0), (P1, 0 + (Distance P1 E + cfg.NoneExtraCost)),
        (P2, 0 + (Distance P1 E + cfg.NoneExtraCost) + (Distance P2 E + cfg.NoneExtraCost)),
        (E, 0 + (Distance P1 E + cfg.NoneExtraCost) + (Distance P2 E + cfg.NoneExtraCost) +
        (Distance E E + cfg.RoomExtraCost))] st)
    hcf hflat (fun o ho => aligned_of_mem_map_scale ho)
    (fun st tmp rest st2 hhead hx hpop _ hfold => by
      obtain ⟨t, q, nq, hq, hqo, hnq, hcost, hlt, -, hline⟩ := hfront st hhead hx.1 hx.2
      exact ⟨sameBounds_fold ⟨st.grid, rest, _⟩ hx.1 hfold,
        costBound_fold ⟨st.grid, rest, _⟩ _
          (costBound_pop _ hhead hx.2 hpop hq hqo hnq hcost hlt hline).2 hfold⟩)
    _ _ _ hhead0 ⟨hb0, fun x _ hcl => by cases hcl⟩ rfl rfl
  refine ⟨fuel0, fun fuel hfuel => ?_⟩
  obtain ⟨path, hpath, hexit⟩ := hfuel0 fuel hfuel
  unfold FindPath
  simp only [hreset, hd03, if_false, hs, hg, Bool.not_false, if_true, hunit1]
  rw [hpath]
  congr 1
  rcases hexit with ⟨-, st', hhead', hx', hq⟩ | ⟨st', tmp, rest, hhead', hx', hpop, hend, hrec⟩
  · -- the queue cannot run empty
    exfalso
    obtain ⟨t, q, nq, hq', hqo, hnq, hcost, hlt, -, -⟩ := hfront st' hhead' hx'.1 hx'.2
    obtain ⟨e, he, -⟩ := hhead'.rel.queued q hq' nq hnq hqo (lt_of_le_of_lt hcost hlt)
    rw [hq] at he
    cases he
  · -- the end position was taken from the queue
    obtain ⟨t, q, nq, hq', hqo, hnq, hcost, hlt, hle, hline⟩ := hfront st' hhead' hx'.1 hx'.2
    obtain ⟨htmp, -⟩ := costBound_pop _ hhead' hx'.2 hpop hq' hqo hnq hcost hlt hline
    obtain ⟨hinv1, htp, -⟩ := searchInv_pop hhead'.inv hpop
    obtain ⟨hrel1, -⟩ := relaxInv_pop (flatInfo grid cfg Distance E) hhead'.rel hpop
    have hcl : st'.grid.GetIndex tmp.Position ∈
        st'.closedNodes ++ [st'.grid.GetIndex tmp.Position] :=
      List.mem_append_right _ (List.mem_singleton_self _)
    obtain ⟨n, rest', hnp, htrail⟩ := trail_exists hinv1 _ tmp.Position htp hcl (le_refl _)
    have hrec' := reconstructPath_trail hinv1.start_mem htrail
    rw [hnp, hend] at hrec'
    have hrec'' : ReconstructPath st'.grid (st'.grid.GetIndex E) =
        .ok ((n :: rest').map fun x => x.Position).reverse := hrec'
    rw [hrec] at hrec''
    simp only [Except.ok.injEq] at hrec''
    have hnE : n.Position = E := hnp.trans hend
    have hmem := trail_mem hinv1.start_mem htrail
    have hnget : st'.grid.get? tmp.Position = some n := by
      have := (hmem n (List.mem_cons_self _ _)).2
      rw [hnp] at this
      exact this
    have hcostn := trail_cost hcf hrel1.start_cost htrail n rest' rfl
    have hLe : (n :: rest').map (fun x => x.Position) = E :: rest'.map fun x => x.Position := by
      rw [List.map_cons, hnE]
    have hstraight := straight_of_total grid cfg Distance positions pf.unitSize hu S P1 P2 E d U
      (0 + (Distance P1 E + cfg.NoneExtraCost) + (Distance P2 E + cfg.NoneExtraCost) +
        (Distance E E + cfg.RoomExtraCost))
      hd h1 h2 h3 hmono hgrow hgrid hN hR hU hDmin hEroom hfour
      (rest'.map fun x => x.Position)
      (hLe ▸ trail_chain htrail) (hLe ▸ trail_nodup_positions htrail)
      (hLe ▸ trail_getLast htrail)
      (fun p hp => by
        rw [← hLe] at hp
        obtain ⟨x, hx, rfl⟩ := List.mem_map.1 hp
        exact (hmem x hx).1)
      (by rw [← hLe, ← hcostn]; exact le_trans (htmp n hnget) hle)
    rw [hrec'', hLe, hstraight]
    rfl

end StraightCorridorClaim

section StraightCorridorExample

open EStructureType

set_option maxRecDepth 1000000 in
theorem scenarioB_grid_cells : ∀ p ∈ samplePositions, (scenarioBGrid.get? p).isSome := by
  decide

set_option maxRecDepth 1000000 in
theorem scenarioB_distances :
    ∀ p ∈ samplePositions, p ≠ ⟨25, 10, 10⟩ → 5000 ≤ distMilli p ⟨25, 10, 10⟩ := by
  decide

set_option maxRecDepth 1000000 in
/-- Claim C15, at a concrete input: scenario B on the sample volume, with the
default costs and the distance in thousandths. -/
theorem findPath_straight_corridor_witness :
    (∃ fuel0, ∀ fuel, fuel0 ≤ fuel →
      FindPath 1000000 samplePathfinder ⟨10, 10, 10⟩ ⟨25, 10, 10⟩
        (fun a b => CostFunction scenarioBGrid milliSettings distMilli a b ⟨25, 10, 10⟩)
        false fuel = .ok [⟨10, 10, 10⟩, ⟨15, 10, 10⟩, ⟨20, 10, 10⟩, ⟨25, 10, 10⟩]) ∧
    ∃ grid', carvePath milliSettings.DungeonUnit scenarioBGrid
        [⟨10, 10, 10⟩, ⟨15, 10, 10⟩, ⟨20, 10, 10⟩, ⟨25, 10, 10⟩] = some grid' ∧
      grid'.get? ⟨15, 10, 10⟩ = some HALLWAY ∧ grid'.get? ⟨20, 10, 10⟩ = some HALLWAY :=
  findPath_straight_corridor 1000000 samplePathfinder samplePositions samplePathfinder_ready
    scenarioBGrid milliSettings distMilli ⟨10, 10, 10⟩ ⟨15, 10, 10⟩ ⟨20, 10, 10⟩ ⟨25, 10, 10⟩
    ⟨1, 0, 0⟩ 5000 (fun _ _ _ _ h h' => Int.add_le_add h h')
    (fun _ _ h => Int.le_add_of_nonneg_right h)
    (by decide) (by decide) (by decide) (by decide) (by decide) (by decide)
    (by decide) (by decide) scenarioB_grid_cells (by decide) (by decide) (by decide)
    (by decide) (by decide) (by decide) (by decide) (by decide)
    scenarioB_distances (by decide) (by decide)

end StraightCorridorExample

section StraightCorridorSettings

open EStructureType

set_option maxRecDepth 1000000 in
/-- Claim C15 fails as stated.  On the sample volume the Room cells
(10, 10, 10) and (25, 10, 10) are inside the bounds, on one floor and three
units apart along the X axis, with the Empty cells (15, 10, 10) and
(20, 10, 10) between them.  With an Empty penalty of six units (a property of
the generator that can be set) and a Corridor along the next row, the search
with floor changes disallowed and `CostFunction` returns six cells, through
the Corridor, and not the four cells of the straight line. -/
theorem scenarioB_detour :
    detourGrid.get? ⟨10, 10, 10⟩ = some ROOM ∧ detourGrid.get? ⟨25, 10, 10⟩ = some ROOM ∧
    detourGrid.get? ⟨15, 10, 10⟩ = some NONE ∧ detourGrid.get? ⟨20, 10, 10⟩ = some NONE ∧
    samplePathfinder.grid.InBounds ⟨10, 10, 10⟩ = true ∧
    samplePathfinder.grid.InBounds ⟨25, 10, 10⟩ = true ∧
    FindPath 1000000 samplePathfinder ⟨10, 10, 10⟩ ⟨25, 10, 10⟩
      (fun a b => CostFunction detourGrid detourSettings distMilli a b ⟨25, 10, 10⟩)
      false 1000 =
    .ok [⟨10, 10, 10⟩, ⟨10, 15, 10⟩, ⟨15, 15, 10⟩, ⟨20, 15, 10⟩, ⟨25, 15, 10⟩,
      ⟨25, 10, 10⟩] := by
  refine ⟨by decide, by decide, by decide, by decide, by decide, by decide, by rfl⟩

end StraightCorridorSettings

/-! ## Theorems: loop edges with probability 0 -/

section ZeroProbability

/-- Claim C21.  With `additionalEdgeProbability = 0` the function
`AddRandomEdgesToMST` returns the list `mstEdges` itself, for every list of
candidate edges, every list `mstEdges` and all random draws: the draws of
`RandRange` are arbitrary, those of `FRand` are not negative, as the engine
guarantees. -/
theorem addRandomEdges_probability_zero {P : Type} [LinearOrder P] [Zero P]
    (originalEdges mstEdges : List FEdge) (randRange : Nat → Nat) (fRand : Nat → P)
    (hrange : ∀ k, 0 ≤ fRand k) :
    AddRandomEdgesToMST originalEdges mstEdges 0 randRange fRand = mstEdges :=
  addRandomEdges_none originalEdges mstEdges 0 randRange fRand (fun k => not_lt.2 (hrange k))

/-- Claim C21, at a concrete input: the sample graph with its first two edges
as the tree and draws that run through 0, 1, 2, ... -/
theorem addRandomEdges_probability_zero_witness :
    AddRandomEdgesToMST sampleEdges (sampleEdges.take 2) (0 : Int) (fun i => i)
      (fun k => (k : Int)) = sampleEdges.take 2 :=
  addRandomEdges_probability_zero sampleEdges (sampleEdges.take 2) (fun i => i)
    (fun k => (k : Int)) (fun k => Int.ofNat_nonneg k)

end ZeroProbability

/-! ## Theorems: the storage of a grid -/

section GridStorage

variable {T : Type}

theorem grid_new_data (fill : T) (size : FVector) (borderOffset unit : Int)
    (hX : 0 < size.X) (hY : 0 < size.Y) :
    (Grid3D.new fill size borderOffset unit).data =
      List.replicate (Int.tdiv (size.Z + 1) unit).toNat
        (List.replicate (Int.tdiv (size.Y + 1) unit).toNat
          (List.replicate (Int.tdiv (size.X + 1) unit).toNat fill)) := by
  unfold Grid3D.new
  have : ¬ (size.X ≤ 0 ∨ size.Y ≤ 0 ∨ size.X ≤ 0) := by omega
  simp only [this, if_false, RoundToInt]

theorem grid_new_data_nil (fill : T) (size : FVector) (borderOffset unit : Int)
    (h : size.X ≤ 0 ∨ size.Y ≤ 0) :
    (Grid3D.new fill size borderOffset unit).data = [] := by
  unfold Grid3D.new
  have : size.X ≤ 0 ∨ size.Y ≤ 0 ∨ size.X ≤ 0 := by omega
  simp only [this, if_true]

theorem tdiv_toNat_cast {a unit : Int} (ha : 0 ≤ a) (hu : 1 ≤ unit) :
    ((Int.tdiv a unit).toNat : Int) = a / unit := by
  rw [Int.tdiv_eq_ediv ha (by omega)]
  exact Int.toNat_of_nonneg (Int.ediv_nonneg ha (by omega))

/-- Claim C22 fails as stated: the sample volume has extents 40, 40 and 30
and unit 5; its storage is 6 planes of 8 rows of 8 cells, while the rounded-up
quotients of 31 and 41 by 5 are 7 and 9. -/
theorem grid_new_not_ceil :
    (sampleGrid.data.length = 6 ∧ ⌈((30 : ℚ) + 1) / 5⌉ = 7) ∧
    ((∀ plane ∈ sampleGrid.data, plane.length = 8) ∧ ⌈((40 : ℚ) + 1) / 5⌉ = 9) ∧
    (∀ plane ∈ sampleGrid.data, ∀ row ∈ plane, row.length = 8) := by
  refine ⟨⟨by decide, ?_⟩, ⟨by decide, ?_⟩, by decide⟩
  · rw [Int.ceil_eq_iff]; norm_num
  · rw [Int.ceil_eq_iff]; norm_num

theorem grid_new_data_storage (fill : T) (size : FVector) (borderOffset unit : Int) :
    (Grid3D.new fill size borderOffset unit).data =
      Grid3D.storage RoundToInt fill size.X size.Y size.Z unit := by
  unfold Grid3D.new Grid3D.storage
  split <;> rfl

theorem roundHalfUp_nonneg (x : ℚ) (hx : 0 < x) : 0 ≤ roundHalfUp (x + 1) := by
  unfold roundHalfUp
  exact Int.floor_nonneg.2 (by linarith)

/-- Claim C22, amended.  The extents are numbers of any ordered type, as the
engine's `double` with its fractional values, and `roundToInt` is the
engine's rounding of such a number to an `int`, which gives no negative
result for the sum of a positive number and 1.  For positive extents and a
unit of at least 1 the storage that the constructor allocates has, along
each axis, the quotient of `roundToInt (extent + 1)` by the unit rounded
down: so many planes (Z), in every plane so many rows (Y), in every row so
many cells (X).  For whole-number extents this is the quotient of
`extent + 1` by the unit rounded down. -/
theorem grid_new_storage {R : Type} [LinearOrder R] [Zero R] [One R] [Add R]
    (roundToInt : R → Int) (fill : T) (X Y Z : R) (unit : Int)
    (hX : 0 < X) (hY : 0 < Y) (hZ : 0 < Z) (hunit : 1 ≤ unit)
    (hround : ∀ x : R, 0 < x → 0 ≤ roundToInt (x + 1)) :
    (((Grid3D.storage roundToInt fill X Y Z unit).length : Int) = roundToInt (Z + 1) / unit ∧
      ∀ plane ∈ Grid3D.storage roundToInt fill X Y Z unit,
        (plane.length : Int) = roundToInt (Y + 1) / unit ∧
        ∀ row ∈ plane, (row.length : Int) = roundToInt (X + 1) / unit) ∧
    ∀ (size : FVector) (borderOffset : Int), 0 < size.X → 0 < size.Y → 0 < size.Z →
      (Grid3D.new fill size borderOffset unit).data =
        Grid3D.storage RoundToInt fill size.X size.Y size.Z unit ∧
      ((Grid3D.new fill size borderOffset unit).data.length : Int) = (size.Z + 1) / unit ∧
      ∀ plane ∈ (Grid3D.new fill size borderOffset unit).data,
        (plane.length : Int) = (size.Y + 1) / unit ∧
        ∀ row ∈ plane, (row.length : Int) = (size.X + 1) / unit := by
  constructor
  · have hdata : Grid3D.storage roundToInt fill X Y Z unit =
        List.replicate (Int.tdiv (roundToInt (Z + 1)) unit).toNat
          (List.replicate (Int.tdiv (roundToInt (Y + 1)) unit).toNat
            (List.replicate (Int.tdiv (roundToInt (X + 1)) unit).toNat fill)) := by
      unfold Grid3D.storage
      have : ¬ (X ≤ 0 ∨ Y ≤ 0 ∨ X ≤ 0) := by
        rintro (h | h | h)
        · exact absurd hX (not_lt.2 h)
        · exact absurd hY (not_lt.2 h)
        · exact absurd hX (not_lt.2 h)
      simp only [this, if_false]
    rw [hdata]
    refine ⟨?_, ?_⟩
    · rw [List.length_replicate]
      exact tdiv_toNat_cast (hround Z hZ) hunit
    · intro plane hplane
      obtain rfl := List.eq_of_mem_replicate hplane
      refine ⟨?_, ?_⟩
      · rw [List.length_replicate]
        exact tdiv_toNat_cast (hround Y hY) hunit
      · intro row hrow
        obtain rfl := List.eq_of_mem_replicate hrow
        rw [List.length_replicate]
        exact tdiv_toNat_cast (hround X hX) hunit
  · intro size borderOffset hX' hY' hZ'
    refine ⟨grid_new_data_storage fill size borderOffset unit, ?_⟩
    rw [grid_new_data fill size borderOffset unit hX' hY']
    refine ⟨?_, ?_⟩
    · rw [List.length_replicate]
      exact tdiv_toNat_cast (by omega) hunit
    · intro plane hplane
      obtain rfl := List.eq_of_mem_replicate hplane
      refine ⟨?_, ?_⟩
      · rw [List.length_replicate]
        exact tdiv_toNat_cast (by omega) hunit
      · intro row hrow
        obtain rfl := List.eq_of_mem_replicate hrow
        rw [List.length_replicate]
        exact tdiv_toNat_cast (by omega) hunit

/-- Claim C22 as amended, at a concrete input: the fractional extents 33.6,
33.6 and 3.6 with unit 5 and rounding to the nearest whole number, where
`roundToInt (33.6 + 1) = 35` gives 7 cells; and the whole-number extents of
the sample volume. -/
theorem grid_new_storage_witness :
    (((Grid3D.storage roundHalfUp EStructureType.NONE (168 / 5 : ℚ) (168 / 5) (18 / 5)
        5).length : Int) = roundHalfUp (18 / 5 + 1) / 5 ∧
      ∀ plane ∈ Grid3D.storage roundHalfUp EStructureType.NONE (168 / 5 : ℚ) (168 / 5)
          (18 / 5) 5,
        (plane.length : Int) = roundHalfUp (168 / 5 + 1) / 5 ∧
        ∀ row ∈ plane, (row.length : Int) = roundHalfUp (168 / 5 + 1) / 5) ∧
    ∀ (size : FVector) (borderOffset : Int), 0 < size.X → 0 < size.Y → 0 < size.Z →
      (Grid3D.new EStructureType.NONE size borderOffset 5).data =
        Grid3D.storage RoundToInt EStructureType.NONE size.X size.Y size.Z 5 ∧
      ((Grid3D.new EStructureType.NONE size borderOffset 5).data.length : Int) =
        (size.Z + 1) / 5 ∧
      ∀ plane ∈ (Grid3D.new EStructureType.NONE size borderOffset 5).data,
        (plane.length : Int) = (size.Y + 1) / 5 ∧
        ∀ row ∈ plane, (row.length : Int) = (size.X + 1) / 5 :=
  grid_new_storage roundHalfUp EStructureType.NONE (168 / 5 : ℚ) (168 / 5) (18 / 5) 5
    (by norm_num) (by norm_num) (by norm_num) (by decide) roundHalfUp_nonneg

/-- The rounding in the constructor matters for fractional extents: with
extents 3.6 and unit 1 the storage has `roundToInt 4.6 = 5` planes of 5 rows
of 5 cells, one more than the whole part of 4.6. -/
theorem storage_fractional :
    Grid3D.storage roundHalfUp EStructureType.NONE (18 / 5 : ℚ) (18 / 5) (18 / 5) 1 =
      List.replicate 5 (List.replicate 5 (List.replicate 5 EStructureType.NONE)) ∧
    ⌊(18 / 5 : ℚ) + 1⌋ = 4 := by
  have h46 : roundHalfUp (18 / 5 + 1) = 5 := by
    unfold roundHalfUp
    rw [Int.floor_eq_iff]
    norm_num
  refine ⟨?_, ?_⟩
  · unfold Grid3D.storage
    have : ¬ ((18 / 5 : ℚ) ≤ 0 ∨ (18 / 5 : ℚ) ≤ 0 ∨ (18 / 5 : ℚ) ≤ 0) := by norm_num
    simp only [this, if_false, h46]
    rfl
  · rw [Int.floor_eq_iff]
    norm_num

/-- Claim C23 at the failing input: with extents 5, 5 and 0 and unit 1 the
constructor does not return early, and the storage is one plane of 6 rows of
6 cells. -/
theorem grid_new_zero_height :
    (Grid3D.new EStructureType.NONE ⟨5, 5, 0⟩ 1 1).data =
      [List.replicate 6 (List.replicate 6 EStructureType.NONE)] := by
  decide

end GridStorage

section GridStorageMore

variable {T : Type}

/-- With a positive unit, a height extent that is negative, or 0 with a unit
above 1, leaves the storage empty although the constructor does not return
early. -/
theorem grid_new_data_nil_of_height (fill : T) (size : FVector) (borderOffset unit : Int)
    (hunit : 1 ≤ unit) (hZ : size.Z < 0 ∨ (size.Z = 0 ∧ 1 < unit)) :
    (Grid3D.new fill size borderOffset unit).data = [] := by
  by_cases hxy : size.X ≤ 0 ∨ size.Y ≤ 0
  · exact grid_new_data_nil fill size borderOffset unit hxy
  · rw [grid_new_data fill size borderOffset unit (by omega) (by omega)]
    have : (Int.tdiv (size.Z + 1) unit).toNat = 0 := by
      rcases hZ with h | ⟨h, hu⟩
      · have h1 : Int.tdiv (size.Z + 1) unit = -(Int.tdiv (-(size.Z + 1)) unit) := by
          rw [Int.neg_tdiv, Int.neg_neg]
        have h2 : 0 ≤ Int.tdiv (-(size.Z + 1)) unit :=
          Int.tdiv_nonneg (by omega) (by omega)
        omega
      · rw [h]
        have h1 : Int.tdiv (0 + 1) unit = 0 := Int.tdiv_eq_zero_of_lt (by omega) (by omega)
        rw [h1]; rfl
    rw [this]; rfl

/-- Claim C24.  `GetIndex` is one-to-one on positions whose coordinates are
multiples of the unit, and with a unit above 1 there are two different
positions, neither of them aligned, with the same index. -/
theorem getIndex_injective_and_aliasing :
    (∀ (g : Grid3D T) (p q : FVector), Aligned g.unit p → Aligned g.unit q → p ≠ q →
      g.GetIndex p ≠ g.GetIndex q) ∧
    (∀ g : Grid3D T, 1 < g.unit → ∃ p q : FVector, p ≠ q ∧ ¬ Aligned g.unit p ∧
      ¬ Aligned g.unit q ∧ g.GetIndex p = g.GetIndex q) := by
  refine ⟨fun g p q hp hq hne h => hne (GetIndex_injective_of_aligned g hp hq h), ?_⟩
  intro g hu
  have h1 : ¬ g.unit ∣ 1 := fun h => by
    have := Int.le_of_dvd (by decide) h
    omega
  refine ⟨⟨1, 0, 0⟩, ⟨1, 1, 0⟩, by decide, fun h => h1 h.1, fun h => h1 h.1, ?_⟩
  have h0 : Int.tdiv 1 g.unit = 0 := Int.tdiv_eq_zero_of_lt (by decide) hu
  simp [Grid3D.GetIndex, RoundToInt, h0]

/-- Claim C24, at a concrete input: two aligned positions of the sample volume
have different indices, and two positions that are not aligned share one. -/
theorem getIndex_injective_and_aliasing_witness :
    sampleGrid.GetIndex ⟨5, 0, 0⟩ ≠ sampleGrid.GetIndex ⟨10, 0, 0⟩ ∧
    ∃ p q : FVector, p ≠ q ∧ ¬ Aligned sampleGrid.unit p ∧ ¬ Aligned sampleGrid.unit q ∧
      sampleGrid.GetIndex p = sampleGrid.GetIndex q :=
  ⟨getIndex_injective_and_aliasing.1 sampleGrid ⟨5, 0, 0⟩ ⟨10, 0, 0⟩
      ⟨⟨1, rfl⟩, ⟨0, rfl⟩, ⟨0, rfl⟩⟩ ⟨⟨2, rfl⟩, ⟨0, rfl⟩, ⟨0, rfl⟩⟩ (by decide),
    getIndex_injective_and_aliasing.2 sampleGrid (by decide)⟩

end GridStorageMore

/-! ## Theorems: door points -/

section DoorPoints

/-- Claim C25.  For a list `DoorPoints` without duplicates and every point
`door`, the list after `AddDoorPoint(door)` has no duplicates and holds
`door`; it is the list of before when `door` was in it, and the list of before
with `door` appended otherwise. -/
theorem addDoorPoint_unique (DoorPoints : List FVector) (door : FVector)
    (hnd : DoorPoints.Nodup) :
    (AddDoorPoint DoorPoints door).Nodup ∧ door ∈ AddDoorPoint DoorPoints door ∧
      (door ∈ DoorPoints → AddDoorPoint DoorPoints door = DoorPoints) ∧
      (door ∉ DoorPoints → AddDoorPoint DoorPoints door = DoorPoints ++ [door]) := by
  unfold AddDoorPoint
  by_cases h : door ∈ DoorPoints
  · simp only [h, if_true, not_true_eq_false, false_implies, implies_true, and_true]
    exact hnd
  · simp only [h, if_false, not_false_eq_true, true_implies, false_implies, and_true,
      true_and, List.mem_append, List.mem_singleton, or_true]
    exact List.Nodup.append hnd (List.nodup_singleton _) (by simpa using h)

/-- Claim C25, at a concrete input: a point that is new and one that is not. -/
theorem addDoorPoint_unique_witness :
    ((AddDoorPoint [⟨5, 5, 5⟩, ⟨10, 5, 5⟩] ⟨15, 5, 5⟩).Nodup ∧
      (⟨15, 5, 5⟩ : FVector) ∈ AddDoorPoint [⟨5, 5, 5⟩, ⟨10, 5, 5⟩] ⟨15, 5, 5⟩ ∧
      ((⟨15, 5, 5⟩ : FVector) ∈ ([⟨5, 5, 5⟩, ⟨10, 5, 5⟩] : List FVector) →
        AddDoorPoint [⟨5, 5, 5⟩, ⟨10, 5, 5⟩] ⟨15, 5, 5⟩ = [⟨5, 5, 5⟩, ⟨10, 5, 5⟩]) ∧
      ((⟨15, 5, 5⟩ : FVector) ∉ ([⟨5, 5, 5⟩, ⟨10, 5, 5⟩] : List FVector) →
        AddDoorPoint [⟨5, 5, 5⟩, ⟨10, 5, 5⟩] ⟨15, 5, 5⟩ =
          [⟨5, 5, 5⟩, ⟨10, 5, 5⟩] ++ [⟨15, 5, 5⟩])) ∧
    AddDoorPoint [⟨5, 5, 5⟩, ⟨10, 5, 5⟩] ⟨10, 5, 5⟩ = [⟨5, 5, 5⟩, ⟨10, 5, 5⟩] :=
  ⟨addDoorPoint_unique [⟨5, 5, 5⟩, ⟨10, 5, 5⟩] ⟨15, 5, 5⟩ (by decide), by decide⟩

end DoorPoints

/-! ## Theorems: the volume test of the two room generators -/

section VolumeTest

/-- Claim C30 fails as stated: in the 40 x 40 x 30 volume with unit 5, the box
from (5, 10, 10) to (15, 20, 15) passes the test of `GenerateProcGenRooms`
and is rejected by the test of `GeneratePremadeRooms`, whose lower bound on X
and Y is twice the unit. -/
theorem premade_rejects_what_procGen_accepts :
    procGenOutOfBounds ⟨40, 40, 30⟩ 5 ⟨⟨5, 10, 10⟩, ⟨15, 20, 15⟩⟩ = false ∧
    premadeOutOfBounds ⟨40, 40, 30⟩ 5 ⟨⟨5, 10, 10⟩, ⟨15, 20, 15⟩⟩ = true := by
  decide

/-- Claim C30, amended.  With a unit that is not negative,
`GeneratePremadeRooms` rejects a box as out of volume if and only if
`GenerateProcGenRooms` would reject it or the least X or the least Y of the
box is below twice the unit. -/
theorem premade_outOfBounds_iff (DungeonSize : FVector) (DungeonUnit : Int) (bounds : FBox)
    (hunit : 0 ≤ DungeonUnit) :
    premadeOutOfBounds DungeonSize DungeonUnit bounds = true ↔
      (procGenOutOfBounds DungeonSize DungeonUnit bounds = true ∨
        bounds.Min.X < DungeonUnit * 2 ∨ bounds.Min.Y < DungeonUnit * 2) := by
  simp only [premadeOutOfBounds, procGenOutOfBounds, Bool.or_eq_true, decide_eq_true_eq]
  constructor
  · rintro (((((h | h) | h) | h) | h) | h)
    · exact Or.inr (Or.inl h)
    · exact Or.inl (Or.inl (Or.inl (Or.inl (Or.inl (Or.inr h)))))
    · exact Or.inr (Or.inr h)
    · exact Or.inl (Or.inl (Or.inl (Or.inr h)))
    · exact Or.inl (Or.inl (Or.inr h))
    · exact Or.inl (Or.inr h)
  · rintro ((((((h | h) | h) | h) | h) | h) | h | h)
    · exact Or.inl (Or.inl (Or.inl (Or.inl (Or.inl (by omega)))))
    · exact Or.inl (Or.inl (Or.inl (Or.inl (Or.inr h))))
    · exact Or.inl (Or.inl (Or.inl (Or.inr (by omega))))
    · exact Or.inl (Or.inl (Or.inr h))
    · exact Or.inl (Or.inr h)
    · exact Or.inr h
    · exact Or.inl (Or.inl (Or.inl (Or.inl (Or.inl h))))
    · exact Or.inl (Or.inl (Or.inl (Or.inr h)))

/-- Claim C30 as amended, at a concrete input: the 40 x 40 x 30 volume with
unit 5 and the box from (5, 10, 10) to (15, 20, 15). -/
theorem premade_outOfBounds_iff_witness :
    premadeOutOfBounds ⟨40, 40, 30⟩ 5 ⟨⟨5, 10, 10⟩, ⟨15, 20, 15⟩⟩ = true ↔
      (procGenOutOfBounds ⟨40, 40, 30⟩ 5 ⟨⟨5, 10, 10⟩, ⟨15, 20, 15⟩⟩ = true ∨
        (5 : Int) < 5 * 2 ∨ (10 : Int) < 5 * 2) :=
  premade_outOfBounds_iff ⟨40, 40, 30⟩ 5 ⟨⟨5, 10, 10⟩, ⟨15, 20, 15⟩⟩ (by decide)

end VolumeTest

/-! ## Theorems: the order of choice in `MinimumSpanningTree` -/

section TieBreak

variable {W : Type} [LinearOrder W]

theorem crosses_iff {closedSet : List FVector} {e : FEdge} :
    Crosses closedSet e ↔ closedVertices closedSet e = 1 :=
  closedVertices_eq_one.symm

theorem scanInv_step (D : FVector → FVector → W) (closedSet : List FVector)
    (processed : List FEdge) (acc : Option (FEdge × W)) (e : FEdge)
    (h : ScanInv D closedSet processed acc) :
    ScanInv D closedSet (processed ++ [e]) (scanStep D closedSet acc e) := by
  unfold scanStep
  by_cases hc : closedVertices closedSet e = 1
  · have hce : Crosses closedSet e := crosses_iff.2 hc
    simp only [hc, ne_eq, not_true_eq_false, if_false]
    cases acc with
    | none =>
      refine ⟨rfl, processed, [], rfl, hce, ?_, ?_⟩
      · intro x hx hcx
        rcases List.mem_append.1 hx with hx | hx
        · exact absurd hcx (h x hx)
        · rw [List.mem_singleton.1 hx]
      · intro x hx hcx
        exact absurd hcx (h x hx)
    | some p =>
      obtain ⟨a, w⟩ := p
      obtain ⟨hw, pre, post, hsplit, hca, hmin, hfirst⟩ := h
      by_cases hlt : D e.Vertex0 e.Vertex1 < w
      · simp only [hlt, if_true]
        refine ⟨rfl, processed, [], rfl, hce, ?_, ?_⟩
        · intro x hx hcx
          rcases List.mem_append.1 hx with hx | hx
          · exact le_of_lt (lt_of_lt_of_le hlt (hw ▸ hmin x hx hcx))
          · rw [List.mem_singleton.1 hx]
        · intro x hx hcx
          exact lt_of_lt_of_le hlt (hw ▸ hmin x hx hcx)
      · simp only [hlt, if_false]
        refine ⟨hw, pre, post ++ [e], by rw [hsplit]; simp, hca, ?_, hfirst⟩
        intro x hx hcx
        rcases List.mem_append.1 hx with hx | hx
        · exact hmin x hx hcx
        · rw [List.mem_singleton.1 hx, ← hw]
          exact not_lt.1 hlt
  · have hce : ¬ Crosses closedSet e := fun h' => hc (crosses_iff.1 h')
    simp only [hc, ne_eq, not_false_eq_true, if_true]
    cases acc with
    | none =>
      intro x hx
      rcases List.mem_append.1 hx with hx | hx
      · exact h x hx
      · rw [List.mem_singleton.1 hx]; exact hce
    | some p =>
      obtain ⟨a, w⟩ := p
      obtain ⟨hw, pre, post, hsplit, hca, hmin, hfirst⟩ := h
      refine ⟨hw, pre, post ++ [e], by rw [hsplit]; simp, hca, ?_, hfirst⟩
      intro x hx hcx
      rcases List.mem_append.1 hx with hx | hx
      · exact hmin x hx hcx
      · rw [List.mem_singleton.1 hx] at hcx
        exact absurd hcx hce

theorem scanInv_foldl (D : FVector → FVector → W) (closedSet : List FVector) :
    ∀ (rest processed : List FEdge) (acc : Option (FEdge × W)),
      ScanInv D closedSet processed acc →
      ScanInv D closedSet (processed ++ rest) (rest.foldl (scanStep D closedSet) acc) := by
  intro rest
  induction rest with
  | nil => intro processed acc h; simpa using h
  | cons e rest ih =>
    intro processed acc h
    have := ih (processed ++ [e]) _ (scanInv_step D closedSet processed acc e h)
    simpa using this

/-- The edge that the scan of one growth step chooses is the first, in the
order of the list, of the lightest edges with exactly one end point in the
closed set. -/
theorem scanEdges_firstLeast {D : FVector → FVector → W} {closedSet : List FVector}
    {edges : List FEdge} {a : FEdge} {w : W}
    (h : scanEdges D closedSet edges = some (a, w)) : FirstLeast D closedSet edges a := by
  have := scanInv_foldl D closedSet edges [] none (fun _ hx => by cases hx)
  unfold scanEdges at h
  rw [h] at this
  simpa using this.2

theorem closedAfter_append (start : FVector) (chosen : List FEdge) (e : FEdge) :
    closedAfter start (chosen ++ [e]) =
      setAdd (setAdd (closedAfter start chosen) e.Vertex0) e.Vertex1 := by
  unfold closedAfter
  rw [List.foldl_append]
  rfl

/-- Claim C26.  `MinimumSpanningTree` returns, and at every growth step the
edge it has chosen is, among the candidate edges with exactly one end point in
the closed set of that step that have the least weight, the one that comes
first in the list of candidate edges.  The closed set of step `i` holds the
start vertex and the end points of the edges chosen before. -/
theorem mst_tie_break (Distance : FVector → FVector → W) (edges : List FEdge)
    (startVertex : FVector) :
    ∃ R, MinimumSpanningTree Distance edges startVertex = some R ∧
      ∀ (i : Nat) (h : i < R.length),
        FirstLeast Distance (closedAfter startVertex (R.take i)) edges (R.get ⟨i, h⟩) := by
  obtain ⟨R, hR⟩ := mst_returns Distance edges startVertex
  refine ⟨R, hR, ?_⟩
  obtain ⟨st, hinv, hres, -⟩ :=
    mstLoop_sound Distance edges (fun st =>
        st.closedSet = closedAfter startVertex st.results ∧
        ∀ (i : Nat) (h : i < st.results.length),
          FirstLeast Distance (closedAfter startVertex (st.results.take i)) edges
            (st.results.get ⟨i, h⟩))
      (fun st e w hP hscan => by
        obtain ⟨hcl, hall⟩ := hP
        refine ⟨?_, ?_⟩
        · show setAdd (setAdd st.closedSet e.Vertex0) e.Vertex1 =
            closedAfter startVertex (st.results ++ [e])
          rw [closedAfter_append, hcl]
        · intro i hi
          have hi' : i < (st.results ++ [e]).length := hi
          rw [List.length_append, List.length_singleton] at hi'
          show FirstLeast Distance (closedAfter startVertex ((st.results ++ [e]).take i)) edges
            ((st.results ++ [e]).get ⟨i, hi⟩)
          by_cases hlt : i < st.results.length
          · rw [List.take_append_of_le_length (le_of_lt hlt)]
            have hget : (st.results ++ [e]).get ⟨i, hi⟩ = st.results.get ⟨i, hlt⟩ := by
              simp [List.getElem_append_left hlt]
            rw [hget]
            exact hall i hlt
          · have hieq : i = st.results.length := by omega
            subst hieq
            have hget : (st.results ++ [e]).get ⟨st.results.length, hi⟩ = e := by
              simp
            rw [hget, List.take_left' rfl, ← hcl]
            exact scanEdges_firstLeast hscan)
      _ _ R ⟨rfl, fun i h => by cases h⟩ hR
  subst hres
  exact hinv.2

end TieBreak

section TieBreakExample

/-- Claim C26, at a concrete input: the four sides of a square, all of one
weight, from the corner (0, 0, 0); the sides are chosen in the order of the
list. -/
theorem mst_tie_break_witness :
    (∃ R, MinimumSpanningTree distSq tieEdges ⟨0,0,0⟩ = some R ∧
      ∀ (i : Nat) (h : i < R.length),
        FirstLeast distSq (closedAfter ⟨0,0,0⟩ (R.take i)) tieEdges (R.get ⟨i, h⟩)) ∧
    MinimumSpanningTree distSq tieEdges ⟨0,0,0⟩ = some (tieEdges.take 3) :=
  ⟨mst_tie_break distSq tieEdges ⟨0,0,0⟩, by decide⟩

end TieBreakExample

/-! ## Theorems: `MinimumSpanningTree` on a graph in several pieces -/

section Component

variable {W : Type} [LinearOrder W]

theorem mst_empty_of_isolated (D : FVector → FVector → W) (edges : List FEdge)
    (start : FVector) (hstart : start ∉ vertices edges) :
    MinimumSpanningTree D edges start = some [] := by
  obtain ⟨R, hR⟩ := mst_returns D edges start
  obtain ⟨st, hinv, hres, -⟩ :=
    mstLoop_sound D edges (fun st => st.results = [] ∧ st.closedSet = setAdd [] start)
      (fun st e w hP hscan => by
        exfalso
        obtain ⟨he, hc, -, -⟩ := scanEdges_some hscan
        rw [hP.2] at hc
        have hmem : ∀ x, x ∈ setAdd [] start → x = start := by
          intro x hx
          rcases mem_setAdd.1 hx with h | h
          · cases h
          · exact h
        rcases closedVertices_eq_one.1 hc with ⟨h0, -⟩ | ⟨-, h1⟩
        · exact hstart (mem_vertices.2 ⟨e, he, Or.inl (hmem _ h0)⟩)
        · exact hstart (mem_vertices.2 ⟨e, he, Or.inr (hmem _ h1)⟩))
      _ _ R ⟨rfl, rfl⟩ hR
  rw [hR, ← hres, hinv.1]

/-- Claim C27.  For every list of candidate edges, connected or not, and
every start vertex, `MinimumSpanningTree` returns; the edges returned are
candidate edges between vertices that the candidate edges join to the start
vertex, they form no cycle, they join the start vertex to every vertex the
candidate edges join it to, and their number is the number of these vertices
less one.  When the start vertex is an end point of no candidate edge the
result is empty. -/
theorem mst_spans_component (Distance : FVector → FVector → W) (edges : List FEdge)
    (startVertex : FVector) :
    ∃ R, MinimumSpanningTree Distance edges startVertex = some R ∧
      (∃ component : Finset FVector,
        (∀ x, x ∈ component ↔ Reach edges startVertex x) ∧
        R.length + 1 = component.card) ∧
      Acyclic R ∧
      (∀ x, Reach edges startVertex x → Reach R startVertex x) ∧
      (∀ e ∈ R, e ∈ edges ∧ Reach edges startVertex e.Vertex0 ∧
        Reach edges startVertex e.Vertex1) ∧
      (startVertex ∉ vertices edges → R = []) := by
  by_cases hstart : startVertex ∈ vertices edges
  swap
  · refine ⟨[], mst_empty_of_isolated Distance edges startVertex hstart,
      ⟨{startVertex}, ?_, rfl⟩, ?_, ?_, ?_, fun _ => rfl⟩
    · intro x
      rw [Finset.mem_singleton]
      constructor
      · rintro rfl; exact Relation.ReflTransGen.refl
      · intro h
        rcases h.eq_or_mem with h | h
        · exact h.symm
        · exact absurd h.1 hstart
    · intro i h; cases h
    · intro x h
      rcases h.eq_or_mem with h | h
      · subst h; exact Relation.ReflTransGen.refl
      · exact absurd h.1 hstart
    · intro e he; cases he
  obtain ⟨R, hR⟩ := mst_returns Distance edges startVertex
  refine ⟨R, hR, ?_⟩
  obtain ⟨st, hinv, hres, hstop⟩ :=
    mstLoop_sound Distance edges (fun st => TreeInv edges startVertex st ∧
        ∀ x ∈ vertices edges, x ∈ st.closedSet ∨ x ∈ st.openSet)
      (fun st e w hP hscan => by
        refine ⟨treeInv_step Distance edges startVertex st e w hP.1 hscan, ?_⟩
        intro x hx
        by_cases hx0 : x = e.Vertex0
        · left; simp only [MSTState.choose, mem_setAdd]; tauto
        by_cases hx1 : x = e.Vertex1
        · left; simp only [MSTState.choose, mem_setAdd]; tauto
        rcases hP.2 x hx with h | h
        · left; simp only [MSTState.choose, mem_setAdd]; tauto
        · right; simp only [MSTState.choose, mem_setRemove]; tauto)
      _ _ R ⟨treeInv_init edges startVertex hstart, initial_cover edges startVertex⟩ hR
  obtain ⟨hinv, hcover⟩ := hinv
  have hnone : ∀ e ∈ edges, closedVertices st.closedSet e ≠ 1 := by
    rcases hstop with h | h
    · intro e he hc
      have hall : ∀ x ∈ vertices edges, x ∈ st.closedSet := by
        intro x hx
        rcases hcover x hx with h' | h'
        · exact h'
        · rw [h] at h'; cases h'
      rcases closedVertices_eq_one.1 hc with ⟨-, h1⟩ | ⟨h0, -⟩
      · exact h1 (hall _ (mem_vertices.2 ⟨e, he, Or.inr rfl⟩))
      · exact h0 (hall _ (mem_vertices.2 ⟨e, he, Or.inl rfl⟩))
    · exact scanEdges_none h
  have hreach : ∀ x, x ∈ st.closedSet ↔ Reach edges startVertex x := by
    intro x
    constructor
    · intro hx
      exact (hinv.reach x hx).mono hinv.sub
    · intro hx
      exact closed_of_reach hnone hx hinv.start_mem
  subst hres
  refine ⟨⟨st.closedSet.toFinset, ?_, ?_⟩, hinv.acyclic, ?_, ?_, fun h => absurd hstart h⟩
  · intro x
    rw [List.mem_toFinset]
    exact hreach x
  · rw [List.toFinset_card_of_nodup hinv.nodup, hinv.card]
  · intro x hx
    exact hinv.reach x ((hreach x).2 hx)
  · intro e he
    refine ⟨hinv.sub e he, ?_, ?_⟩
    · exact (hreach _).1 (hinv.verts _ (mem_vertices.2 ⟨e, he, Or.inl rfl⟩))
    · exact (hreach _).1 (hinv.verts _ (mem_vertices.2 ⟨e, he, Or.inr rfl⟩))

/-- Claim C27, at a concrete input: a graph in two pieces, from an end of
its path of three vertices; and from a vertex off the graph. -/
theorem mst_spans_component_witness :
    (∃ R, MinimumSpanningTree distSq splitEdges ⟨0,0,0⟩ = some R ∧
      (∃ component : Finset FVector,
        (∀ x, x ∈ component ↔ Reach splitEdges ⟨0,0,0⟩ x) ∧
        R.length + 1 = component.card) ∧
      Acyclic R ∧
      (∀ x, Reach splitEdges ⟨0,0,0⟩ x → Reach R ⟨0,0,0⟩ x) ∧
      (∀ e ∈ R, e ∈ splitEdges ∧ Reach splitEdges ⟨0,0,0⟩ e.Vertex0 ∧
        Reach splitEdges ⟨0,0,0⟩ e.Vertex1) ∧
      ((⟨0,0,0⟩ : FVector) ∉ vertices splitEdges → R = [])) ∧
    MinimumSpanningTree distSq splitEdges ⟨0,0,0⟩ = some (splitEdges.take 2) ∧
    MinimumSpanningTree distSq splitEdges ⟨1,1,1⟩ = some [] :=
  ⟨mst_spans_component distSq splitEdges ⟨0,0,0⟩, by decide, by decide⟩

end Component

/-! ## Theorems: floor progression (`RoomCountCalculation`) -/

section FloorProgression

theorem incrementAt_isSome (array : List Int) (index : Int) (h0 : 0 ≤ index)
    (h1 : index < array.length) :
    incrementAt array index = some (array.set index.toNat (array.getD index.toNat 0 + 1)) := by
  unfold incrementAt
  have hlt : index.toNat < array.length := by omega
  have hget : array[index.toNat]? = some (array.getD index.toNat 0) := by
    rw [List.getD_eq_getElem?_getD, List.getElem?_eq_getElem hlt]
    rfl
  simp only [not_lt.2 h0, if_false, hget]

theorem readAt_set (array : List Int) (index : Int) (v : Int) (h0 : 0 ≤ index)
    (h1 : index < array.length) : readAt (array.set index.toNat v) index = some v := by
  unfold readAt
  have hlt : index.toNat < array.length := by omega
  simp only [not_lt.2 h0, if_false]
  rw [List.getElem?_set_self hlt]

theorem countRoom_fields {cfg : FloorSettings} {st st1 : FloorState} {loc : FVector}
    (h : countRoom cfg st loc = some st1) :
    st1.currentFloorIndex = st.currentFloorIndex ∧
      st1.freeGenerationMode = st.freeGenerationMode := by
  unfold countRoom at h
  split_ifs at h <;> dsimp only at h <;> split at h <;>
    first
    | (obtain rfl := Option.some.inj h; exact ⟨rfl, rfl⟩)
    | cases h

theorem advanceFloor_fields (cfg : FloorSettings) (st : FloorState) :
    (cfg.DungeonUnit * (st.currentFloorIndex + 2) ≤ cfg.NormalFloorSize.Z →
      (advanceFloor cfg st).currentFloorIndex = st.currentFloorIndex + 1 ∧
        (advanceFloor cfg st).freeGenerationMode = st.freeGenerationMode) ∧
    (cfg.NormalFloorSize.Z < cfg.DungeonUnit * (st.currentFloorIndex + 2) →
      (advanceFloor cfg st).currentFloorIndex = st.currentFloorIndex ∧
        (advanceFloor cfg st).freeGenerationMode = true) := by
  unfold advanceFloor
  have e : st.currentFloorIndex + 1 + 1 = st.currentFloorIndex + 2 := by omega
  refine ⟨fun h => ?_, fun h => ?_⟩
  · have : ¬ cfg.DungeonUnit * (st.currentFloorIndex + 1 + 1) > cfg.NormalFloorSize.Z := by
      rw [e]; omega
    simp only [this, if_false, and_self]
  · have : cfg.DungeonUnit * (st.currentFloorIndex + 1 + 1) > cfg.NormalFloorSize.Z := by
      rw [e]; omega
    simp only [this, if_true, and_true]
    omega

end FloorProgression

section FloorProgressionClaims

theorem countRoom_returns (cfg : FloorSettings) (st : FloorState) (loc : FVector)
    (hidx : 0 ≤ st.currentFloorIndex ∧ st.currentFloorIndex ≤ st.floorRoomCount.length)
    (hground : IsGroundFloor cfg loc = true → 0 ≤ cfg.GroundFloorIndex ∧
      (cfg.GroundFloorIndex < st.floorRoomCount.length ∨
        cfg.GroundFloorIndex ≤ st.currentFloorIndex)) :
    ∃ st1, countRoom cfg st loc = some st1 ∧
      (IsGroundFloor cfg loc = true →
        st1.currentGroundFloorRoomCount = floorCounter cfg st loc) ∧
      (IsGroundFloor cfg loc = false →
        readAt st1.floorRoomCount st.currentFloorIndex = some (floorCounter cfg st loc)) := by
  obtain ⟨h0, hlen⟩ := hidx
  unfold countRoom floorCounter
  by_cases hg : IsGroundFloor cfg loc = true
  · obtain ⟨hg0, hg1⟩ := hground hg
    rw [if_pos hg, if_pos hg]
    by_cases hadd : st.currentFloorIndex > (st.floorRoomCount.length : Int) - 1
    · simp only [hadd, if_true]
      rw [incrementAt_isSome _ _ hg0 (by rw [List.length_append, List.length_singleton]; omega)]
      exact ⟨_, rfl, (fun _ => rfl), (fun h => by rw [hg] at h; cases h)⟩
    · simp only [hadd, if_false]
      rw [incrementAt_isSome _ _ hg0 (by omega)]
      exact ⟨_, rfl, (fun _ => rfl), (fun h => by rw [hg] at h; cases h)⟩
  · have hg' : IsGroundFloor cfg loc = false := by simpa using hg
    rw [if_neg hg, if_neg hg]
    by_cases hadd : st.currentFloorIndex > (st.floorRoomCount.length : Int) - 1
    · have hlen' : st.currentFloorIndex.toNat = st.floorRoomCount.length := by omega
      simp only [hadd, if_true]
      rw [incrementAt_isSome _ _ h0 (by rw [List.length_append, List.length_singleton]; omega)]
      refine ⟨_, rfl, (fun h => absurd h hg), (fun _ => ?_)⟩
      show readAt ((st.floorRoomCount ++ [0]).set _ _) _ = _
      rw [readAt_set _ _ _ h0 (by rw [List.length_append, List.length_singleton]; omega), hlen']
      simp
    · simp only [hadd, if_false]
      rw [incrementAt_isSome _ _ h0 (by omega)]
      refine ⟨_, rfl, (fun h => absurd h hg), (fun _ => ?_)⟩
      show readAt (st.floorRoomCount.set _ _) _ = _
      rw [readAt_set _ _ _ h0 (by omega)]

/-- What one call of `RoomCountCalculation` does to the floor index and to
`freeGenerationMode`, by the counter that the call compares with its minimum. -/
theorem roomCount_core (cfg : FloorSettings) (st : FloorState) (loc : FVector)
    (hidx : 0 ≤ st.currentFloorIndex ∧ st.currentFloorIndex ≤ st.floorRoomCount.length)
    (hground : IsGroundFloor cfg loc = true → 0 ≤ cfg.GroundFloorIndex ∧
      (cfg.GroundFloorIndex < st.floorRoomCount.length ∨
        cfg.GroundFloorIndex ≤ st.currentFloorIndex)) :
    ∃ st', RoomCountCalculation cfg st loc = some st' ∧
      (floorMinimum cfg loc ≤ floorCounter cfg st loc →
        cfg.DungeonUnit * (st.currentFloorIndex + 2) ≤ cfg.NormalFloorSize.Z →
        st'.currentFloorIndex = st.currentFloorIndex + 1 ∧
          st'.freeGenerationMode = st.freeGenerationMode) ∧
      (floorMinimum cfg loc ≤ floorCounter cfg st loc →
        cfg.NormalFloorSize.Z < cfg.DungeonUnit * (st.currentFloorIndex + 2) →
        st'.currentFloorIndex = st.currentFloorIndex ∧ st'.freeGenerationMode = true) ∧
      (floorCounter cfg st loc < floorMinimum cfg loc →
        st'.currentFloorIndex = st.currentFloorIndex ∧
          st'.freeGenerationMode = st.freeGenerationMode) ∧
      (IsGroundFloor cfg loc = true →
        st'.currentGroundFloorRoomCount = floorCounter cfg st loc) ∧
      (IsGroundFloor cfg loc = false →
        readAt st'.floorRoomCount st.currentFloorIndex = some (floorCounter cfg st loc)) := by
  obtain ⟨st1, hst1, hcg, hcn⟩ := countRoom_returns cfg st loc hidx hground
  obtain ⟨hi1, hf1⟩ := countRoom_fields hst1
  have hadv := advanceFloor_fields cfg st1
  rw [hi1, hf1] at hadv
  have hadvc : (advanceFloor cfg st1).currentGroundFloorRoomCount =
      st1.currentGroundFloorRoomCount ∧
      (advanceFloor cfg st1).floorRoomCount = st1.floorRoomCount := by
    unfold advanceFloor
    dsimp only
    split_ifs <;> exact ⟨rfl, rfl⟩
  unfold RoomCountCalculation
  rw [hst1]
  by_cases hg : IsGroundFloor cfg loc = true
  · have hm : floorMinimum cfg loc = cfg.MinGroundFloorRoomCount := by
      unfold floorMinimum; rw [if_pos hg]
    show ∃ st', (if IsGroundFloor cfg loc = true then _ else _) = some st' ∧ _
    rw [if_pos hg, hm, ← hcg hg]
    by_cases hr : st1.currentGroundFloorRoomCount ≥ cfg.MinGroundFloorRoomCount
    · rw [if_pos hr]
      refine ⟨_, rfl, (fun _ h => hadv.1 h), (fun _ h => hadv.2 h), (fun h => ?_),
        (fun _ => hadvc.1), (fun h => by rw [hg] at h; cases h)⟩
      omega
    · rw [if_neg hr]
      exact ⟨_, rfl, (fun h => absurd h hr), (fun h => absurd h hr), (fun _ => ⟨hi1, hf1⟩),
        (fun _ => rfl), (fun h => by rw [hg] at h; cases h)⟩
  · have hg' : IsGroundFloor cfg loc = false := by simpa using hg
    have hm : floorMinimum cfg loc = cfg.MinRoomCount := by
      unfold floorMinimum; rw [if_neg hg]
    have hread := hcn hg'
    show ∃ st', (if IsGroundFloor cfg loc = true then _ else _) = some st' ∧ _
    rw [if_neg hg, hi1, hread, hm]
    show ∃ st', (if floorCounter cfg st loc ≥ cfg.MinRoomCount then _ else _) = some st' ∧ _
    by_cases hr : floorCounter cfg st loc ≥ cfg.MinRoomCount
    · rw [if_pos hr]
      refine ⟨_, rfl, (fun _ h => hadv.1 h), (fun _ h => hadv.2 h), (fun h => ?_),
        (fun h => absurd h hg), (fun _ => ?_)⟩
      · omega
      · rw [hadvc.2]; exact hread
    · rw [if_neg hr]
      exact ⟨_, rfl, (fun h => absurd h hr), (fun h => absurd h hr), (fun _ => ⟨hi1, hf1⟩),
        (fun h => absurd h hg), (fun _ => hread)⟩

/-- Claim C28.  Let `currentFloorIndex` be an index of `floorRoomCount` or
its length, and for a room on the ground floor let `GroundFloorIndex` be an
index of `floorRoomCount` as the call extends it.  Then
`RoomCountCalculation` returns, and with the counter as it stands once the
room is counted (`currentGroundFloorRoomCount` for a room on the ground
floor, `floorRoomCount[currentFloorIndex]` otherwise): when the counter has
reached its minimum and `DungeonUnit*(currentFloorIndex+2)` does not exceed
`NormalFloorSize.Z`, the floor index grows by one and `freeGenerationMode` is
as before; when the counter has reached its minimum and the product exceeds
`NormalFloorSize.Z`, the floor index is as before and `freeGenerationMode` is
true; when the counter is below its minimum both are as before. -/
theorem roomCount_floor_advance (cfg : FloorSettings) (st : FloorState) (loc : FVector)
    (hidx : 0 ≤ st.currentFloorIndex ∧ st.currentFloorIndex ≤ st.floorRoomCount.length)
    (hground : IsGroundFloor cfg loc = true → 0 ≤ cfg.GroundFloorIndex ∧
      (cfg.GroundFloorIndex < st.floorRoomCount.length ∨
        cfg.GroundFloorIndex ≤ st.currentFloorIndex)) :
    ∃ st', RoomCountCalculation cfg st loc = some st' ∧
      (floorMinimum cfg loc ≤ floorCounter cfg st loc →
        cfg.DungeonUnit * (st.currentFloorIndex + 2) ≤ cfg.NormalFloorSize.Z →
        st'.currentFloorIndex = st.currentFloorIndex + 1 ∧
          st'.freeGenerationMode = st.freeGenerationMode) ∧
      (floorMinimum cfg loc ≤ floorCounter cfg st loc →
        cfg.NormalFloorSize.Z < cfg.DungeonUnit * (st.currentFloorIndex + 2) →
        st'.currentFloorIndex = st.currentFloorIndex ∧ st'.freeGenerationMode = true) ∧
      (floorCounter cfg st loc < floorMinimum cfg loc →
        st'.currentFloorIndex = st.currentFloorIndex ∧
          st'.freeGenerationMode = st.freeGenerationMode) ∧
      (IsGroundFloor cfg loc = true →
        st'.currentGroundFloorRoomCount = floorCounter cfg st loc) ∧
      (IsGroundFloor cfg loc = false →
        readAt st'.floorRoomCount st.currentFloorIndex = some (floorCounter cfg st loc)) :=
  roomCount_core cfg st loc hidx hground

end FloorProgressionClaims

section FloorInvariant

/-- Claim C28, at a concrete input: the fourth room of the first floor with
the default minimum of 4, in a floor volume that is 20 high with unit 5. -/
theorem roomCount_floor_advance_witness :
    ∃ st', RoomCountCalculation sampleFloorSettings ⟨[3], 0, 0, false⟩ ⟨10, 10, 5⟩ = some st' ∧
      (floorMinimum sampleFloorSettings ⟨10, 10, 5⟩ ≤
          floorCounter sampleFloorSettings ⟨[3], 0, 0, false⟩ ⟨10, 10, 5⟩ →
        (5 : Int) * (0 + 2) ≤ 20 →
        st'.currentFloorIndex = 0 + 1 ∧ st'.freeGenerationMode = false) ∧
      (floorMinimum sampleFloorSettings ⟨10, 10, 5⟩ ≤
          floorCounter sampleFloorSettings ⟨[3], 0, 0, false⟩ ⟨10, 10, 5⟩ →
        (20 : Int) < 5 * (0 + 2) →
        st'.currentFloorIndex = 0 ∧ st'.freeGenerationMode = true) ∧
      (floorCounter sampleFloorSettings ⟨[3], 0, 0, false⟩ ⟨10, 10, 5⟩ <
          floorMinimum sampleFloorSettings ⟨10, 10, 5⟩ →
        st'.currentFloorIndex = 0 ∧ st'.freeGenerationMode = false) ∧
      (IsGroundFloor sampleFloorSettings ⟨10, 10, 5⟩ = true →
        st'.currentGroundFloorRoomCount =
          floorCounter sampleFloorSettings ⟨[3], 0, 0, false⟩ ⟨10, 10, 5⟩) ∧
      (IsGroundFloor sampleFloorSettings ⟨10, 10, 5⟩ = false →
        readAt st'.floorRoomCount 0 =
          some (floorCounter sampleFloorSettings ⟨[3], 0, 0, false⟩ ⟨10, 10, 5⟩)) :=
  roomCount_floor_advance sampleFloorSettings ⟨[3], 0, 0, false⟩ ⟨10, 10, 5⟩ (by decide)
    (by decide)

theorem advanceFloor_cases (cfg : FloorSettings) (st : FloorState) :
    ((advanceFloor cfg st).currentFloorIndex = st.currentFloorIndex + 1 ∧
      cfg.DungeonUnit * ((advanceFloor cfg st).currentFloorIndex + 1) ≤ cfg.NormalFloorSize.Z ∧
      (advanceFloor cfg st).freeGenerationMode = st.freeGenerationMode) ∨
    ((advanceFloor cfg st).currentFloorIndex = st.currentFloorIndex ∧
      (advanceFloor cfg st).freeGenerationMode = true) := by
  by_cases h : cfg.DungeonUnit * (st.currentFloorIndex + 2) ≤ cfg.NormalFloorSize.Z
  · obtain ⟨hi, hf⟩ := (advanceFloor_fields cfg st).1 h
    refine Or.inl ⟨hi, ?_, hf⟩
    rw [hi]
    have e : st.currentFloorIndex + 1 + 1 = st.currentFloorIndex + 2 := by omega
    rw [e]; exact h
  · exact Or.inr ((advanceFloor_fields cfg st).2 (not_le.1 h))

/-- One call of `RoomCountCalculation` keeps the floor index inside the floor
volume, does not lower it and does not leave free generation mode. -/
theorem roomCount_step {cfg : FloorSettings} {st st' : FloorState} {loc : FVector}
    (h : RoomCountCalculation cfg st loc = some st')
    (hinv : cfg.DungeonUnit * (st.currentFloorIndex + 1) ≤ cfg.NormalFloorSize.Z) :
    cfg.DungeonUnit * (st'.currentFloorIndex + 1) ≤ cfg.NormalFloorSize.Z ∧
      st.currentFloorIndex ≤ st'.currentFloorIndex ∧
      (st.freeGenerationMode = true → st'.freeGenerationMode = true) := by
  have hkeep : ∀ st1 : FloorState, st1.currentFloorIndex = st.currentFloorIndex →
      st1.freeGenerationMode = st.freeGenerationMode →
      (st' = st1 ∨ st' = advanceFloor cfg st1) →
      cfg.DungeonUnit * (st'.currentFloorIndex + 1) ≤ cfg.NormalFloorSize.Z ∧
        st.currentFloorIndex ≤ st'.currentFloorIndex ∧
        (st.freeGenerationMode = true → st'.freeGenerationMode = true) := by
    intro st1 hi hf hst
    rcases hst with rfl | rfl
    · rw [hi, hf]; exact ⟨hinv, le_refl _, id⟩
    · rcases advanceFloor_cases cfg st1 with ⟨h1, h2, h3⟩ | ⟨h1, h2⟩
      · refine ⟨h2, ?_, ?_⟩
        · rw [h1, hi]; omega
        · rw [h3, hf]; exact id
      · refine ⟨?_, ?_, fun _ => h2⟩
        · rw [h1, hi]; exact hinv
        · rw [h1, hi]
  unfold RoomCountCalculation at h
  cases hc : countRoom cfg st loc with
  | none => rw [hc] at h; cases h
  | some st1 =>
    obtain ⟨hi, hf⟩ := countRoom_fields hc
    rw [hc] at h
    dsimp only at h
    refine hkeep st1 hi hf ?_
    split_ifs at h
    · exact Or.inr (Option.some.inj h).symm
    · exact Or.inl (Option.some.inj h).symm
    · split at h
      · cases h
      · split_ifs at h
        · exact Or.inr (Option.some.inj h).symm
        · exact Or.inl (Option.some.inj h).symm

/-- Claim C29.  Start from a state whose floor index is inside the floor
volume, `DungeonUnit*(currentFloorIndex+1) <= NormalFloorSize.Z`.  After any
calls of `RoomCountCalculation` (state `s1`) and after any further calls
(state `s2`): the inequality holds in both states, the floor index of `s2` is
not below that of `s1`, and when `freeGenerationMode` is true in `s1` it is
true in `s2`. -/
theorem floor_index_invariant (cfg : FloorSettings) (st s1 s2 : FloorState)
    (l1 l2 : List FVector)
    (hinv : cfg.DungeonUnit * (st.currentFloorIndex + 1) ≤ cfg.NormalFloorSize.Z)
    (h1 : roomCountCalls cfg st l1 = some s1) (h2 : roomCountCalls cfg s1 l2 = some s2) :
    cfg.DungeonUnit * (s1.currentFloorIndex + 1) ≤ cfg.NormalFloorSize.Z ∧
      cfg.DungeonUnit * (s2.currentFloorIndex + 1) ≤ cfg.NormalFloorSize.Z ∧
      s1.currentFloorIndex ≤ s2.currentFloorIndex ∧
      (s1.freeGenerationMode = true → s2.freeGenerationMode = true) := by
  have hrun : ∀ (s0 s' : FloorState) (l : List FVector),
      cfg.DungeonUnit * (s0.currentFloorIndex + 1) ≤ cfg.NormalFloorSize.Z →
      roomCountCalls cfg s0 l = some s' →
      cfg.DungeonUnit * (s'.currentFloorIndex + 1) ≤ cfg.NormalFloorSize.Z ∧
        s0.currentFloorIndex ≤ s'.currentFloorIndex ∧
        (s0.freeGenerationMode = true → s'.freeGenerationMode = true) := by
    intro s0 s' l h0 hl
    exact foldlM_option_inv (RoomCountCalculation cfg)
      (fun s => cfg.DungeonUnit * (s.currentFloorIndex + 1) ≤ cfg.NormalFloorSize.Z ∧
        s0.currentFloorIndex ≤ s.currentFloorIndex ∧
        (s0.freeGenerationMode = true → s.freeGenerationMode = true))
      l (fun s a s' _ hI hf => by
        obtain ⟨ha, hb, hc⟩ := roomCount_step hf hI.1
        exact ⟨ha, le_trans hI.2.1 hb, fun h => hc (hI.2.2 h)⟩)
      s0 s' ⟨h0, le_refl _, id⟩ hl
  obtain ⟨a1, -, -⟩ := hrun st s1 l1 hinv h1
  obtain ⟨a2, b2, c2⟩ := hrun s1 s2 l2 a1 h2
  exact ⟨a1, a2, b2, c2⟩

/-- Claim C29, at a concrete input: from the state that `GenerateDungeon`
sets up, twelve rooms floor by floor (state `s1`), then four rooms on the top
floor (state `s2`), with the default minimum counts in a floor volume that is
20 high with unit 5. -/
theorem floor_index_invariant_witness :
    roomCountCalls sampleFloorSettings initialFloorState
        [⟨10, 10, 5⟩, ⟨10, 10, 5⟩, ⟨10, 10, 5⟩, ⟨10, 10, 5⟩, ⟨10, 10, 10⟩, ⟨10, 10, 10⟩,
          ⟨10, 10, 10⟩, ⟨10, 10, 10⟩, ⟨10, 10, 15⟩, ⟨10, 10, 15⟩, ⟨10, 10, 15⟩,
          ⟨10, 10, 20⟩] = some ⟨[4, 4, 3, 1], 3, 3, false⟩ ∧
    roomCountCalls sampleFloorSettings ⟨[4, 4, 3, 1], 3, 3, false⟩
        [⟨10, 10, 20⟩, ⟨10, 10, 20⟩, ⟨10, 10, 20⟩, ⟨10, 10, 20⟩] =
      some ⟨[4, 4, 3, 5], 3, 3, true⟩ ∧
    ((5 : Int) * (3 + 1) ≤ 20 ∧ (5 : Int) * (3 + 1) ≤ 20 ∧ (3 : Int) ≤ 3 ∧
      (false = true → true = true)) :=
  ⟨by decide, by decide,
    floor_index_invariant sampleFloorSettings initialFloorState ⟨[4, 4, 3, 1], 3, 3, false⟩
      ⟨[4, 4, 3, 5], 3, 3, true⟩
      [⟨10, 10, 5⟩, ⟨10, 10, 5⟩, ⟨10, 10, 5⟩, ⟨10, 10, 5⟩, ⟨10, 10, 10⟩, ⟨10, 10, 10⟩,
        ⟨10, 10, 10⟩, ⟨10, 10, 10⟩, ⟨10, 10, 15⟩, ⟨10, 10, 15⟩, ⟨10, 10, 15⟩, ⟨10, 10, 20⟩]
      [⟨10, 10, 20⟩, ⟨10, 10, 20⟩, ⟨10, 10, 20⟩, ⟨10, 10, 20⟩]
      (by decide) (by decide) (by decide)⟩

theorem incrementAt_length {array counts : List Int} {index : Int}
    (h : incrementAt array index = some counts) : counts.length = array.length := by
  unfold incrementAt at h
  split_ifs at h
  split at h
  · cases h
  · obtain rfl := Option.some.inj h
    exact List.length_set _ _ _

theorem roomCount_length {cfg : FloorSettings} {st st' : FloorState} {loc : FVector}
    (h : RoomCountCalculation cfg st loc = some st') :
    st.floorRoomCount.length ≤ st'.floorRoomCount.length ∧
      (st.currentFloorIndex = st.floorRoomCount.length →
        st'.floorRoomCount.length = st.floorRoomCount.length + 1) ∧
      st'.currentFloorIndex ≤ st.currentFloorIndex + 1 := by
  have hadv : ∀ s : FloorState, (advanceFloor cfg s).floorRoomCount = s.floorRoomCount ∧
      (advanceFloor cfg s).currentFloorIndex ≤ s.currentFloorIndex + 1 := by
    intro s
    refine ⟨?_, ?_⟩
    · unfold advanceFloor; dsimp only; split_ifs <;> rfl
    · rcases advanceFloor_cases cfg s with ⟨h1, -, -⟩ | ⟨h1, -⟩ <;> omega
  have hcount : ∀ st1, countRoom cfg st loc = some st1 →
      st.floorRoomCount.length ≤ st1.floorRoomCount.length ∧
      (st.currentFloorIndex = st.floorRoomCount.length →
        st1.floorRoomCount.length = st.floorRoomCount.length + 1) := by
    intro st1 hc
    unfold countRoom at hc
    by_cases hadd : st.currentFloorIndex > (st.floorRoomCount.length : Int) - 1
    · have hlen : (st.floorRoomCount ++ [0]).length = st.floorRoomCount.length + 1 := by
        rw [List.length_append, List.length_singleton]
      simp only [hadd, if_true] at hc
      by_cases hg : IsGroundFloor cfg loc = true
      · rw [if_pos hg] at hc
        cases hinc : incrementAt (st.floorRoomCount ++ [0]) cfg.GroundFloorIndex with
        | none => rw [hinc] at hc; cases hc
        | some counts =>
          rw [hinc] at hc
          obtain rfl := Option.some.inj hc
          have hl := incrementAt_length hinc
          exact ⟨by show _ ≤ counts.length; omega, fun _ => by show counts.length = _; omega⟩
      · rw [if_neg hg] at hc
        cases hinc : incrementAt (st.floorRoomCount ++ [0]) st.currentFloorIndex with
        | none => rw [hinc] at hc; cases hc
        | some counts =>
          rw [hinc] at hc
          obtain rfl := Option.some.inj hc
          have hl := incrementAt_length hinc
          exact ⟨by show _ ≤ counts.length; omega, fun _ => by show counts.length = _; omega⟩
    · simp only [hadd, if_false] at hc
      by_cases hg : IsGroundFloor cfg loc = true
      · rw [if_pos hg] at hc
        cases hinc : incrementAt st.floorRoomCount cfg.GroundFloorIndex with
        | none => rw [hinc] at hc; cases hc
        | some counts =>
          rw [hinc] at hc
          obtain rfl := Option.some.inj hc
          have hl := incrementAt_length hinc
          exact ⟨by show _ ≤ counts.length; omega, fun h => by omega⟩
      · rw [if_neg hg] at hc
        cases hinc : incrementAt st.floorRoomCount st.currentFloorIndex with
        | none => rw [hinc] at hc; cases hc
        | some counts =>
          rw [hinc] at hc
          obtain rfl := Option.some.inj hc
          have hl := incrementAt_length hinc
          exact ⟨by show _ ≤ counts.length; omega, fun h => by omega⟩
  unfold RoomCountCalculation at h
  cases hc : countRoom cfg st loc with
  | none => rw [hc] at h; cases h
  | some st1 =>
    obtain ⟨hi, -⟩ := countRoom_fields hc
    obtain ⟨hl1, hl2⟩ := hcount st1 hc
    rw [hc] at h
    dsimp only at h
    have hfin : st' = st1 ∨ st' = advanceFloor cfg st1 := by
      split_ifs at h
      · exact Or.inr (Option.some.inj h).symm
      · exact Or.inl (Option.some.inj h).symm
      · split at h
        · cases h
        · split_ifs at h
          · exact Or.inr (Option.some.inj h).symm
          · exact Or.inl (Option.some.inj h).symm
    rcases hfin with rfl | rfl
    · exact ⟨hl1, hl2, by omega⟩
    · rw [(hadv st1).1]
      exact ⟨hl1, hl2, by have := (hadv st1).2; omega⟩

/-- A sequence of calls of `RoomCountCalculation` runs through when the floor
index is an index of `floorRoomCount` or its length and `GroundFloorIndex` is
an index of it. -/
theorem roomCountCalls_returns (cfg : FloorSettings) :
    ∀ (locations : List FVector) (st : FloorState),
      0 ≤ st.currentFloorIndex → st.currentFloorIndex ≤ st.floorRoomCount.length →
      0 ≤ cfg.GroundFloorIndex → cfg.GroundFloorIndex < st.floorRoomCount.length →
      ∃ st', roomCountCalls cfg st locations = some st' := by
  intro locations
  induction locations with
  | nil => intro st _ _ _ _; exact ⟨st, rfl⟩
  | cons loc rest ih =>
    intro st h0 h1 hg0 hg1
    obtain ⟨s, hs, -⟩ := roomCount_core cfg st loc ⟨h0, h1⟩ (fun _ => ⟨hg0, Or.inl hg1⟩)
    obtain ⟨hl1, hl2, hl3⟩ := roomCount_length hs
    have hstep : s.currentFloorIndex = st.currentFloorIndex ∨
        s.currentFloorIndex = st.currentFloorIndex + 1 := by
      have := hl3
      have h5 : st.currentFloorIndex ≤ s.currentFloorIndex := by
        unfold RoomCountCalculation at hs
        cases hc : countRoom cfg st loc with
        | none => rw [hc] at hs; cases hs
        | some st1 =>
          obtain ⟨hi, -⟩ := countRoom_fields hc
          rw [hc] at hs
          dsimp only at hs
          have hfin : s = st1 ∨ s = advanceFloor cfg st1 := by
            split_ifs at hs
            · exact Or.inr (Option.some.inj hs).symm
            · exact Or.inl (Option.some.inj hs).symm
            · split at hs
              · cases hs
              · split_ifs at hs
                · exact Or.inr (Option.some.inj hs).symm
                · exact Or.inl (Option.some.inj hs).symm
          rcases hfin with rfl | rfl
          · omega
          · rcases advanceFloor_cases cfg st1 with ⟨h1', -, -⟩ | ⟨h1', -⟩ <;> omega
      omega
    obtain ⟨s', hs'⟩ := ih s (by omega)
      (by
        by_cases heq : st.currentFloorIndex = st.floorRoomCount.length
        · have := hl2 heq; omega
        · omega)
      hg0 (by omega)
    refine ⟨s', ?_⟩
    show (loc :: rest).foldlM (RoomCountCalculation cfg) st = some s'
    rw [List.foldlM_cons, hs]
    exact hs'

end FloorInvariant

/-! ## Theorems: neighbour queries -/

theorem filterMap_guard_eq {α β : Type} (f : α → β) (p : β → Bool) (l : List α) :
    l.filterMap (fun a => if !p (f a) then none else some (f a)) = (l.map f).filter p := by
  induction l with
  | nil => rfl
  | cons a l ih =>
    rw [List.filterMap_cons, ih, List.map_cons, List.filter_cons]
    cases h : p (f a) <;> simp

theorem getNebighors_eq {C : Type} (pf : DungeonPathfinder3D C) (pos : FVector) :
    GetNebighors pf pos =
      (Directions.map (fun d => pos + d.scale pf.unitSize)).filter
        (fun p => pf.grid.InBounds p) := by
  unfold GetNebighors
  simp only []
  rw [filterMap_guard_eq (fun offset => pos + offset) (fun p => pf.grid.InBounds p),
    List.map_map]
  rfl

theorem getNebighors2D_eq {C : Type} (pf : DungeonPathfinder3D C) (pos : FVector) :
    GetNebighors2D pf pos =
      (Directions2D.map (fun d => pos + d.scale pf.unitSize)).filter
        (fun p => pf.grid.InBoundsIgnoreOffset p) := by
  unfold GetNebighors2D
  simp only []
  rw [filterMap_guard_eq (fun offset => pos + offset)
    (fun p => pf.grid.InBoundsIgnoreOffset p), List.map_map]
  rfl

set_option maxRecDepth 1000000 in
/-- Claim C32, as stated, fails: in the sample pathfinder the position
`(5, 10, 10)` is `(10, 10, 10)` plus the direction `(-1, 0, 0)` times the unit
and satisfies `InBoundsIgnoreOffset`, yet `GetNebighors` leaves it out, because
it lies on the border margin. -/
theorem getNebighors_skips_margin :
    (⟨-1, 0, 0⟩ : FVector) ∈ Directions ∧
    (⟨5, 10, 10⟩ : FVector) = ⟨10, 10, 10⟩ + (⟨-1, 0, 0⟩ : FVector).scale samplePathfinder.unitSize ∧
    samplePathfinder.grid.InBoundsIgnoreOffset ⟨5, 10, 10⟩ = true ∧
    (⟨5, 10, 10⟩ : FVector) ∉ GetNebighors samplePathfinder ⟨10, 10, 10⟩ := by
  refine ⟨by decide, by decide, by decide, by decide⟩

/-- Claim C32, amended.  `GetNebighors` returns, in direction order, exactly
the positions `pos + d * unitSize` over the twelve directions for which the
margin-aware `InBounds` holds; `GetNebighors2D` returns exactly those over
the four planar directions for which `InBoundsIgnoreOffset` holds.  Either
result is a list computed from the extents, the border margin and the unit
alone: two pathfinders that agree on these give the same answers, whatever
their nodes hold. -/
theorem neighbor_queries_bounds_filtered {C : Type} (pf : DungeonPathfinder3D C)
    (pos : FVector) :
    GetNebighors pf pos =
        (Directions.map (fun d => pos + d.scale pf.unitSize)).filter
          (fun p => pf.grid.InBounds p) ∧
      GetNebighors2D pf pos =
        (Directions2D.map (fun d => pos + d.scale pf.unitSize)).filter
          (fun p => pf.grid.InBoundsIgnoreOffset p) ∧
      ∀ pf' : DungeonPathfinder3D C, pf'.grid.size = pf.grid.size →
        pf'.grid.borderOffset = pf.grid.borderOffset → pf'.unitSize = pf.unitSize →
        GetNebighors pf' pos = GetNebighors pf pos ∧
          GetNebighors2D pf' pos = GetNebighors2D pf pos := by
  refine ⟨getNebighors_eq pf pos, getNebighors2D_eq pf pos, ?_⟩
  intro pf' hsize hborder hunit
  rw [getNebighors_eq, getNebighors_eq, getNebighors2D_eq, getNebighors2D_eq]
  unfold Grid3D.InBounds Grid3D.InBoundsIgnoreOffset
  rw [hsize, hborder, hunit]
  exact ⟨rfl, rfl⟩

set_option maxRecDepth 1000000 in
/-- Claim C32, amended, at the sample pathfinder and the position
`(10, 10, 10)`, compared with the freshly allocated node grid. -/
theorem neighbor_queries_bounds_filtered_witness :
    GetNebighors samplePathfinder ⟨10, 10, 10⟩ =
        [⟨15, 10, 10⟩, ⟨10, 15, 10⟩, ⟨25, 10, 15⟩, ⟨10, 25, 15⟩] ∧
      GetNebighors2D samplePathfinder ⟨10, 10, 10⟩ =
        [⟨15, 10, 10⟩, ⟨5, 10, 10⟩, ⟨10, 15, 10⟩, ⟨10, 5, 10⟩] ∧
      GetNebighors { grid := sampleNodeGrid, unitSize := 5 } ⟨10, 10, 10⟩ =
        GetNebighors samplePathfinder ⟨10, 10, 10⟩ :=
  ⟨by decide, by decide,
    ((neighbor_queries_bounds_filtered samplePathfinder ⟨10, 10, 10⟩).2.2
      { grid := sampleNodeGrid, unitSize := 5 } (by decide) (by decide) (by decide)).1⟩

/-! ## Theorems: storage of a grid whose extent is no multiple of the unit -/

/-- Reading a freshly constructed grid succeeds at every index below the
allocated cell counts. -/
theorem grid_new_cell {T : Type} (fill : T) (size : FVector) (borderOffset unit : Int)
    (hX : 0 < size.X) (hY : 0 < size.Y) (index : FVector)
    (hx : 0 ≤ index.X ∧ index.X < Int.tdiv (size.X + 1) unit)
    (hy : 0 ≤ index.Y ∧ index.Y < Int.tdiv (size.Y + 1) unit)
    (hz : 0 ≤ index.Z ∧ index.Z < Int.tdiv (size.Z + 1) unit) :
    (Grid3D.new fill size borderOffset unit).cell? index = some fill := by
  rw [cell?_eq_some_iff, grid_new_data fill size borderOffset unit hX hY]
  refine ⟨hx.1, hy.1, hz.1,
    List.replicate (Int.tdiv (size.Y + 1) unit).toNat
      (List.replicate (Int.tdiv (size.X + 1) unit).toNat fill),
    List.replicate (Int.tdiv (size.X + 1) unit).toNat fill, ?_, ?_, ?_⟩
  · rw [List.getElem?_replicate, if_pos (by omega)]
  · rw [List.getElem?_replicate, if_pos (by omega)]
  · rw [List.getElem?_replicate, if_pos (by omega)]

/-- On one axis: an aligned coordinate strictly between the margin `unit` and
`extent - unit` has its index below the allocated cell count. -/
theorem index_lt_of_margin {unit extent x : Int} (hu : 1 ≤ unit) (hal : unit ∣ x)
    (hlo : unit < x) (hhi : x < extent - unit) :
    0 ≤ Int.tdiv x unit ∧ Int.tdiv x unit < Int.tdiv (extent + 1) unit := by
  obtain ⟨k, rfl⟩ := hal
  have hk : 0 ≤ k := by
    by_contra hneg
    have : unit * k ≤ 0 := Int.mul_nonpos_of_nonneg_of_nonpos (by omega) (by omega)
    omega
  have hx0 : 0 ≤ unit * k := Int.mul_nonneg (by omega) hk
  rw [Int.tdiv_eq_ediv hx0 (by omega), Int.tdiv_eq_ediv (by omega : 0 ≤ extent + 1) (by omega),
    Int.mul_ediv_cancel_left k (by omega : unit ≠ 0)]
  refine ⟨hk, ?_⟩
  have : k + 1 ≤ (extent + 1) / unit := by
    rw [Int.le_ediv_iff_mul_le (by omega)]
    have : (k + 1) * unit = unit * k + unit := by ring
    omega
  omega

/-- The second half of the indexing-safety property holds: in a grid whose
border margin equals its unit, every aligned position that satisfies
`InBounds` is backed by storage. -/
theorem inBounds_index_safe {T : Type} (fill : T) (size : FVector) (unit : Int)
    (hu : 1 ≤ unit) (pos : FVector) (hal : Aligned unit pos)
    (hin : (Grid3D.new fill size unit unit).InBounds pos = true) :
    (Grid3D.new fill size unit unit).get? pos = some fill := by
  have hgeo : (Grid3D.new fill size unit unit).size = size ∧
      (Grid3D.new fill size unit unit).borderOffset = unit ∧
      (Grid3D.new fill size unit unit).unit = unit := by
    unfold Grid3D.new; split <;> exact ⟨rfl, rfl, rfl⟩
  rw [inBounds_eq_true_iff, hgeo.1, hgeo.2.1] at hin
  obtain ⟨⟨hx1, hx2⟩, ⟨hy1, hy2⟩, ⟨hz1, hz2⟩⟩ := hin
  obtain ⟨hax, hay, haz⟩ := hal
  unfold Grid3D.get? Grid3D.GetIndex
  rw [hgeo.2.2]
  exact grid_new_cell fill size unit unit (by omega) (by omega) _
    (index_lt_of_margin hu hax hx1 hx2) (index_lt_of_margin hu hay hy1 hy2)
    (index_lt_of_margin hu haz hz1 hz2)

/-- Claim C37 at a failing input: in the volume of extent 31 with unit 5 the
position `(30, 5, 5)` is aligned and satisfies `InBoundsIgnoreOffset`, its
index on the first axis is 6, every row of the storage has 6 cells (indices
0 to 5), and the access falls outside the storage. -/
theorem ignoreOffset_index_outside_storage :
    Aligned 5 (⟨30, 5, 5⟩ : FVector) ∧
    oddGrid.InBoundsIgnoreOffset ⟨30, 5, 5⟩ = true ∧
    oddGrid.GetIndex ⟨30, 5, 5⟩ = ⟨6, 1, 1⟩ ∧
    (∀ plane ∈ oddGrid.data, ∀ row ∈ plane, row.length = 6) ∧
    oddGrid.get? ⟨30, 5, 5⟩ = none ∧
    oddGrid.set? ⟨30, 5, 5⟩ EStructureType.ROOM = none := by
  refine ⟨⟨⟨6, rfl⟩, ⟨1, rfl⟩, ⟨1, rfl⟩⟩, by decide, by decide, by decide, by decide, by rfl⟩

set_option maxRecDepth 1000000 in
/-- Claim C38 at a failing input: for the extent 31 on every axis and unit 5
the construction loop visits `x = 30`, whose index 6 lies outside the six
allocated cells, so the constructor writes outside the storage. -/
theorem constructor_outside_storage :
    (⟨30, 0, 0⟩ : FVector) ∈ (loopPositions ⟨31, 31, 31⟩ 5).getD [] ∧
    (Grid3D.new (DungeonNode.new (1000000 : Int) FVector.ZeroVector) ⟨31, 31, 31⟩ 5 5).set?
      ⟨30, 0, 0⟩ (DungeonNode.new 1000000 ⟨30, 0, 0⟩) = none ∧
    DungeonPathfinder3D.new (1000000 : Int) ⟨31, 31, 31⟩ 5 = .error .outOfStorage := by
  refine ⟨by decide, by rfl, by rfl⟩

/-! ## Theorems: room groups across generation runs -/

theorem addToGroup_last (groups : List (List Nat)) (group : List Nat) (room : Nat) :
    addToGroup (groups ++ [group]) (groups.length : Int) room =
      some (groups ++ [group ++ [room]]) := by
  unfold addToGroup
  rw [if_neg (by omega)]
  simp

theorem addSpawned_last (groups : List (List Nat)) :
    ∀ (spawned : List (Option Nat)) (group : List Nat),
      ∃ group', addSpawned (groups.length : Int) (groups ++ [group]) spawned =
        some (groups ++ [group']) := by
  intro spawned
  induction spawned with
  | nil => intro group; exact ⟨group, rfl⟩
  | cons r rest ih =>
    intro group
    cases r with
    | none => exact ih group
    | some room =>
      obtain ⟨group', h⟩ := ih (group ++ [room])
      exact ⟨group', by rw [addSpawned, addToGroup_last]; exact h⟩

/-- A placement routine entered with `currentRoomGroupIndex = spawnedRooms.Num()`
accesses the group it has just appended and leaves with the same relation. -/
theorem placement_keeps_index (IsRoomProcGen : Bool) (p : Placement) (st : GroupState)
    (h : st.currentRoomGroupIndex = st.spawnedRooms.length) :
    ∃ st', (if IsRoomProcGen then GenerateProcGenRooms p st
        else GeneratePremadeRooms p st) = some st' ∧
      st'.currentRoomGroupIndex = st'.spawnedRooms.length := by
  obtain ⟨group', hadd⟩ := addSpawned_last st.spawnedRooms p.spawned []
  cases IsRoomProcGen with
  | true =>
    simp only [if_true, GenerateProcGenRooms]
    cases hc : p.canAdd with
    | false => exact ⟨st, by simp, h⟩
    | true =>
      simp only [if_true, h, hadd]
      exact ⟨_, rfl, by simp⟩
  | false =>
    simp only [Bool.false_eq_true, if_false, GeneratePremadeRooms]
    cases hc : p.canAdd with
    | false => exact ⟨st, by simp, h⟩
    | true =>
      cases hr : p.roomSpawned with
      | true =>
        simp only [if_true, h, hadd]
        exact ⟨_, rfl, by simp⟩
      | false =>
        simp only [if_true, Bool.false_eq_true, if_false]
        exact ⟨_, rfl, by simp; exact h⟩

theorem placementLoop_keeps_index (IsRoomProcGen : Bool) :
    ∀ (placements : List Placement) (st : GroupState),
      st.currentRoomGroupIndex = st.spawnedRooms.length →
      ∃ st', placementLoop IsRoomProcGen placements st = some st' ∧
        st'.currentRoomGroupIndex = st'.spawnedRooms.length := by
  intro placements
  induction placements with
  | nil => intro st h; exact ⟨st, rfl, h⟩
  | cons p rest ih =>
    intro st h
    obtain ⟨st1, h1, hinv⟩ := placement_keeps_index IsRoomProcGen p st h
    obtain ⟨st2, h2, hinv2⟩ := ih st1 hinv
    exact ⟨st2, by rw [placementLoop, h1]; exact h2, hinv2⟩

/-- On a generator whose `currentRoomGroupIndex` is 0, as in the first run,
`GenerateDungeon` makes every group access inside the storage, and when the
entrance spawned it ends with `currentRoomGroupIndex = spawnedRooms.Num()`. -/
theorem first_run_group_index (IsRoomProcGen : Bool) (roomListNum : Int) (entrance : Nat)
    (placements : List Placement) (st : GroupState) (h : st.currentRoomGroupIndex = 0) :
    ∃ st', GenerateDungeon IsRoomProcGen roomListNum (some entrance) placements st = some st' ∧
      st'.currentRoomGroupIndex = st'.spawnedRooms.length := by
  unfold GenerateDungeon GenerateRooms
  have hadd : addToGroup ([] ++ [[]]) 0 entrance = some ([] ++ [[] ++ [entrance]]) :=
    addToGroup_last [] [] entrance
  simp only [hadd, h]
  by_cases hr : roomListNum ≤ 0
  · rw [if_pos hr]; exact ⟨_, rfl, by simp⟩
  · rw [if_neg hr]; exact placementLoop_keeps_index IsRoomProcGen placements _ (by simp)

/-- Claim C39 at a failing input: on a fresh generator a first run with one
accepted placement ends with two groups and `currentRoomGroupIndex = 2`; the
second run empties `spawnedRooms` but keeps the index, so after the entrance
the index is 3, and the accepted placement appends a second group (index 1)
and then accesses `spawnedRooms[3]`, outside the array.  The same happens
with pre-authored rooms. -/
theorem second_run_group_index :
    GenerateDungeon true 1 (some 0) [acceptedPlacement 1] initialGroupState =
      some { spawnedRooms := [[0], [1]], currentRoomGroupIndex := 2 } ∧
    GenerateRooms true 1 (some 0) []
        { spawnedRooms := [], currentRoomGroupIndex := 2 } =
      some { spawnedRooms := [[0]], currentRoomGroupIndex := 3 } ∧
    addToGroup ([[0]] ++ [[]]) 3 1 = none ∧
    GenerateDungeon true 1 (some 0) [acceptedPlacement 1]
      { spawnedRooms := [[0], [1]], currentRoomGroupIndex := 2 } = none ∧
    GenerateDungeon false 1 (some 0) [acceptedPlacement 1]
      { spawnedRooms := [[0], [1]], currentRoomGroupIndex := 2 } = none := by
  refine ⟨by decide, by decide, by decide, by decide, by decide⟩

/-! ## Theorems: hallway graph per floor -/

/-- Claim C31 at a failing input: of three floors, the second has an empty
tetrahedralization.  The first floor gets its edges, the second none, and the
third, whose tetrahedralization is not empty and which gets four edges when
it is processed alone, gets none either: the loop has returned. -/
theorem floorBased_return_drops_later_floors :
    (sampleFloor 15).tetrahedra.isEmpty = false ∧
    (FindPossibleHallwaysFloorBased distSq (0 : Int)
        [sampleFloor 5, emptyFloor 10, sampleFloor 15] []).map
      (fun floorEdgeMap =>
        ((mapFind floorEdgeMap 5).map List.length, mapFind floorEdgeMap 10,
          mapFind floorEdgeMap 15)) = some (some 4, none, none) ∧
    (FindPossibleHallwaysFloorBased distSq (0 : Int) [sampleFloor 15] []).map
      (fun floorEdgeMap => mapFind floorEdgeMap 15) =
      some (some [⟨⟨0, 0, 15⟩, ⟨1, 0, 15⟩⟩, ⟨⟨0, 0, 15⟩, ⟨0, 1, 15⟩⟩,
        ⟨⟨0, 0, 15⟩, ⟨0, 0, 16⟩⟩, ⟨⟨1, 0, 15⟩, ⟨2, 2, 17⟩⟩]) := by
  refine ⟨by decide, by decide, by decide⟩

/-! ## Theorems: room footprint -/

theorem mem_armLocations (c : FVector) (s : Int) (step p : FVector) :
    p ∈ armLocations c s step ↔ ∃ i : Int, 1 ≤ i ∧ i ≤ s - 1 ∧ p = c + step.scale i := by
  unfold armLocations
  simp only [List.mem_map, List.mem_range]
  constructor
  · rintro ⟨k, hk, rfl⟩
    exact ⟨(k : Int) + 1, by omega, by omega, rfl⟩
  · rintro ⟨i, h1, h2, rfl⟩
    exact ⟨(i - 1).toNat, by omega, by rw [Int.toNat_of_nonneg (by omega)]; simp⟩

theorem length_armLocations (c : FVector) (s : Int) (step : FVector) :
    (armLocations c s step).length = (s - 1).toNat := by
  simp [armLocations]

theorem mem_cornerLocations (c : FVector) (sx sy tx ty : Int) (p : FVector) :
    p ∈ cornerLocations c sx sy tx ty ↔
      ∃ i j : Int, (1 ≤ i ∧ i ≤ sx - 1) ∧ (1 ≤ j ∧ j ≤ sy - 1) ∧
        p = c + ⟨tx * i, ty * j, 0⟩ := by
  unfold cornerLocations
  simp only [List.mem_flatMap, List.mem_map, List.mem_range]
  constructor
  · rintro ⟨k, hk, l, hl, rfl⟩
    exact ⟨(k : Int) + 1, (l : Int) + 1, by omega, by omega, rfl⟩
  · rintro ⟨i, j, hi, hj, rfl⟩
    refine ⟨(i - 1).toNat, by omega, (j - 1).toNat, by omega, ?_⟩
    rw [Int.toNat_of_nonneg (by omega), Int.toNat_of_nonneg (by omega)]
    simp

theorem length_flatMap_const {α β : Type} (f : α → List β) (n : Nat)
    (h : ∀ a, (f a).length = n) : ∀ l : List α, (l.flatMap f).length = l.length * n := by
  intro l
  induction l with
  | nil => simp
  | cons a l ih =>
    rw [List.flatMap_cons, List.length_append, ih, h, List.length_cons]
    ring

theorem length_cornerLocations (c : FVector) (sx sy tx ty : Int) :
    (cornerLocations c sx sy tx ty).length = (sx - 1).toNat * (sy - 1).toNat := by
  unfold cornerLocations
  rw [length_flatMap_const _ (sy - 1).toNat (fun a => by rw [List.length_map, List.length_range]),
    List.length_range]

theorem getRandomNumber_some (unit : Int) (hU : unit ≠ 0) (rand : Int → Int → Int)
    (min max : Int) : ∃ v, GetRandomNumberWithInterval unit rand min max = some v := by
  unfold GetRandomNumberWithInterval
  rw [if_neg hU]
  exact ⟨_, rfl⟩

theorem armLocations_one (c step : FVector) : armLocations c 1 step = [] := rfl

theorem cornerLocations_one_left (c : FVector) (sy tx ty : Int) :
    cornerLocations c 1 sy tx ty = [] := rfl

theorem cornerLocations_one_right (c : FVector) (sx tx ty : Int) :
    cornerLocations c sx 1 tx ty = [] := by
  apply List.eq_nil_of_length_eq_zero
  rw [length_cornerLocations]
  simp

/-- The result of `GetRandomRoomProperties` with the guards resolved: the
centre, the four arms, the four quadrants. -/
theorem getRandomRoomProperties_eq (cfg : FloorSettings) (st : FloorState)
    (sx sy sz : Int) (randX randY randZ : Int → Int → Int)
    (hU : cfg.DungeonUnit ≠ 0) (hx : 1 ≤ sx) (hy : 1 ≤ sy) :
    ∃ c, GetRandomRoomProperties cfg st sx sy sz randX randY randZ =
      some ([c] ++ armLocations c sx ⟨-cfg.DungeonUnit, 0, 0⟩ ++
          armLocations c sx ⟨cfg.DungeonUnit, 0, 0⟩ ++
          armLocations c sy ⟨0, -cfg.DungeonUnit, 0⟩ ++
          armLocations c sy ⟨0, cfg.DungeonUnit, 0⟩ ++
          cornerLocations c sx sy (-cfg.DungeonUnit) (-cfg.DungeonUnit) ++
          cornerLocations c sx sy cfg.DungeonUnit (-cfg.DungeonUnit) ++
          cornerLocations c sx sy (-cfg.DungeonUnit) cfg.DungeonUnit ++
          cornerLocations c sx sy cfg.DungeonUnit cfg.DungeonUnit,
        ⟨2 * sx - 1, 2 * sy - 1, 2 * sz - 1⟩) := by
  obtain ⟨x, hxv⟩ := getRandomNumber_some cfg.DungeonUnit hU randX 0 cfg.NormalFloorSize.X
  obtain ⟨y, hyv⟩ := getRandomNumber_some cfg.DungeonUnit hU randY 0 cfg.NormalFloorSize.Y
  have hz : ∃ z, (if !st.freeGenerationMode then some (cfg.DungeonUnit * (st.currentFloorIndex + 1))
      else GetRandomNumberWithInterval cfg.DungeonUnit randZ 0 cfg.NormalFloorSize.Z) = some z := by
    cases st.freeGenerationMode with
    | false => exact ⟨_, rfl⟩
    | true => exact getRandomNumber_some cfg.DungeonUnit hU randZ 0 cfg.NormalFloorSize.Z
  obtain ⟨z, hzv⟩ := hz
  refine ⟨⟨x, y, z⟩, ?_⟩
  unfold GetRandomRoomProperties
  simp only [hxv, hyv, hzv]
  have hs : (⟨sx + (sx - 1), sy + (sy - 1), sz + (sz - 1)⟩ : FVector) =
      ⟨2 * sx - 1, 2 * sy - 1, 2 * sz - 1⟩ := by
    rw [FVector.mk.injEq]; omega
  rw [hs]
  by_cases h1 : sx > 1
  · by_cases h2 : sy > 1
    · simp only [h1, h2, and_self, if_true]
    · have : sy = 1 := by omega
      subst this
      simp [h1, armLocations_one, cornerLocations_one_right]
  · have : sx = 1 := by omega
    subst this
    by_cases h2 : sy > 1
    · simp [h2, armLocations_one, cornerLocations_one_left]
    · have : sy = 1 := by omega
      subst this
      simp [armLocations_one, cornerLocations_one_left]

/-- Membership in the resolved footprint list: the points of the centred
rectangle. -/
theorem mem_footprint (c : FVector) (unit sx sy : Int) (hx : 1 ≤ sx) (hy : 1 ≤ sy)
    (p : FVector) :
    p ∈ [c] ++ armLocations c sx ⟨-unit, 0, 0⟩ ++ armLocations c sx ⟨unit, 0, 0⟩ ++
        armLocations c sy ⟨0, -unit, 0⟩ ++ armLocations c sy ⟨0, unit, 0⟩ ++
        cornerLocations c sx sy (-unit) (-unit) ++ cornerLocations c sx sy unit (-unit) ++
        cornerLocations c sx sy (-unit) unit ++ cornerLocations c sx sy unit unit ↔
      ∃ i j : Int, (-(sx - 1) ≤ i ∧ i ≤ sx - 1) ∧ (-(sy - 1) ≤ j ∧ j ≤ sy - 1) ∧
        p = c + ⟨i * unit, j * unit, 0⟩ := by
  simp only [List.mem_append, List.mem_singleton, mem_armLocations, mem_cornerLocations]
  obtain ⟨cx, cy, cz⟩ := c
  obtain ⟨px, py, pz⟩ := p
  simp only [FVector.add_def, FVector.scale, FVector.mk.injEq]
  constructor
  · rintro (((((((((⟨rfl, rfl, rfl⟩ | ⟨i, h1, h2, rfl, rfl, rfl⟩) | ⟨i, h1, h2, rfl, rfl, rfl⟩) |
      ⟨i, h1, h2, rfl, rfl, rfl⟩) | ⟨i, h1, h2, rfl, rfl, rfl⟩) |
      ⟨i, j, hi, hj, rfl, rfl, rfl⟩) | ⟨i, j, hi, hj, rfl, rfl, rfl⟩) |
      ⟨i, j, hi, hj, rfl, rfl, rfl⟩) | ⟨i, j, hi, hj, rfl, rfl, rfl⟩))
    · exact ⟨0, 0, by omega, by omega, by simp, by simp, by simp⟩
    · exact ⟨-i, 0, by omega, by omega, by ring, by ring, by ring⟩
    · exact ⟨i, 0, by omega, by omega, by ring, by ring, by ring⟩
    · exact ⟨0, -i, by omega, by omega, by ring, by ring, by ring⟩
    · exact ⟨0, i, by omega, by omega, by ring, by ring, by ring⟩
    · exact ⟨-i, -j, by omega, by omega, by ring, by ring, by ring⟩
    · exact ⟨i, -j, by omega, by omega, by ring, by ring, by ring⟩
    · exact ⟨-i, j, by omega, by omega, by ring, by ring, by ring⟩
    · exact ⟨i, j, by omega, by omega, by ring, by ring, by ring⟩
  · rintro ⟨i, j, hi, hj, rfl, rfl, rfl⟩
    rcases lt_trichotomy i 0 with hi0 | rfl | hi0
    · rcases lt_trichotomy j 0 with hj0 | rfl | hj0
      · exact Or.inl (Or.inl (Or.inl (Or.inr
          ⟨-i, -j, by omega, by omega, by ring, by ring, by ring⟩)))
      · exact Or.inl (Or.inl (Or.inl (Or.inl (Or.inl (Or.inl (Or.inl (Or.inr
          ⟨-i, by omega, by omega, by ring, by ring, by ring⟩)))))))
      · exact Or.inl (Or.inr ⟨-i, j, by omega, by omega, by ring, by ring, by ring⟩)
    · rcases lt_trichotomy j 0 with hj0 | rfl | hj0
      · exact Or.inl (Or.inl (Or.inl (Or.inl (Or.inl (Or.inr
          ⟨-j, by omega, by omega, by ring, by ring, by ring⟩)))))
      · exact Or.inl (Or.inl (Or.inl (Or.inl (Or.inl (Or.inl (Or.inl (Or.inl
          ⟨by ring, by ring, by ring⟩)))))))
      · exact Or.inl (Or.inl (Or.inl (Or.inl (Or.inr
          ⟨j, by omega, by omega, by ring, by ring, by ring⟩))))
    · rcases lt_trichotomy j 0 with hj0 | rfl | hj0
      · exact Or.inl (Or.inl (Or.inr
          ⟨i, -j, by omega, by omega, by ring, by ring, by ring⟩))
      · exact Or.inl (Or.inl (Or.inl (Or.inl (Or.inl (Or.inl (Or.inr
          ⟨i, by omega, by omega, by ring, by ring, by ring⟩))))))
      · exact Or.inr ⟨i, j, by omega, by omega, by ring, by ring, by ring⟩

/-- The length of the resolved footprint list. -/
theorem length_footprint (c : FVector) (unit sx sy : Int) (hx : 1 ≤ sx) (hy : 1 ≤ sy) :
    (([c] ++ armLocations c sx ⟨-unit, 0, 0⟩ ++ armLocations c sx ⟨unit, 0, 0⟩ ++
        armLocations c sy ⟨0, -unit, 0⟩ ++ armLocations c sy ⟨0, unit, 0⟩ ++
        cornerLocations c sx sy (-unit) (-unit) ++ cornerLocations c sx sy unit (-unit) ++
        cornerLocations c sx sy (-unit) unit ++ cornerLocations c sx sy unit unit).length : Int) =
      (2 * sx - 1) * (2 * sy - 1) := by
  simp only [List.length_append, List.length_singleton, length_armLocations,
    length_cornerLocations]
  push_cast
  rw [Int.toNat_of_nonneg (by omega : 0 ≤ sx - 1), Int.toNat_of_nonneg (by omega : 0 ≤ sy - 1)]
  ring

/-- A list whose members are exactly the images of an integer rectangle under
an injective map, and which is as long as the rectangle is large, has no
repeated member. -/
theorem nodup_of_rectangle (l : List FVector) (f : Int × Int → FVector)
    (hf : Function.Injective f) (a b : Int) (ha : 0 ≤ a) (hb : 0 ≤ b)
    (hmem : ∀ p, p ∈ l ↔ ∃ i j : Int, (-a ≤ i ∧ i ≤ a) ∧ (-b ≤ j ∧ j ≤ b) ∧ p = f (i, j))
    (hlen : (l.length : Int) = (2 * a + 1) * (2 * b + 1)) : l.Nodup := by
  have hset : l.toFinset = (Finset.Icc (-a) a ×ˢ Finset.Icc (-b) b).image f := by
    ext p
    simp only [List.mem_toFinset, Finset.mem_image, Finset.mem_product, Finset.mem_Icc,
      Prod.exists]
    rw [hmem]
    constructor
    · rintro ⟨i, j, hi, hj, rfl⟩
      exact ⟨i, j, ⟨hi, hj⟩, rfl⟩
    · rintro ⟨i, j, ⟨hi, hj⟩, rfl⟩
      exact ⟨i, j, hi, hj, rfl⟩
  have hcard : l.toFinset.card = l.length := by
    rw [hset, Finset.card_image_of_injective _ hf, Finset.card_product, Int.card_Icc,
      Int.card_Icc]
    have h1 : ((a + 1 - -a).toNat : Int) = 2 * a + 1 := by
      rw [Int.toNat_of_nonneg (by omega)]; ring
    have h2 : ((b + 1 - -b).toNat : Int) = 2 * b + 1 := by
      rw [Int.toNat_of_nonneg (by omega)]; ring
    have : (((a + 1 - -a).toNat * (b + 1 - -b).toNat : Nat) : Int) = (l.length : Int) := by
      rw [hlen]; push_cast; rw [h1, h2]
    exact_mod_cast this
  have h := (Multiset.toFinset_card_eq_card_iff_nodup (m := (l : Multiset FVector))).1
    (by simpa using hcard)
  simpa using h

/-- Claim C40.  With a unit other than zero (the unit is a divisor in the
routine) and sampled scales `sx, sy >= 1`, `GetRandomRoomProperties` returns
`(2 sx - 1) (2 sy - 1)` pairwise distinct locations, exactly the points
`center + (i * DungeonUnit, j * DungeonUnit, 0)` with `|i| <= sx - 1` and
`|j| <= sy - 1`, the centre first, and the total scale
`(2 sx - 1, 2 sy - 1, 2 sz - 1)`. -/
theorem roomProperties_footprint (cfg : FloorSettings) (st : FloorState)
    (sx sy sz : Int) (randX randY randZ : Int → Int → Int)
    (hU : cfg.DungeonUnit ≠ 0) (hx : 1 ≤ sx) (hy : 1 ≤ sy) :
    ∃ center locations,
      GetRandomRoomProperties cfg st sx sy sz randX randY randZ =
        some (locations, ⟨2 * sx - 1, 2 * sy - 1, 2 * sz - 1⟩) ∧
      locations.head? = some center ∧
      (locations.length : Int) = (2 * sx - 1) * (2 * sy - 1) ∧
      locations.Nodup ∧
      ∀ p, p ∈ locations ↔ ∃ i j : Int, |i| ≤ sx - 1 ∧ |j| ≤ sy - 1 ∧
        p = center + ⟨i * cfg.DungeonUnit, j * cfg.DungeonUnit, 0⟩ := by
  obtain ⟨c, hc⟩ := getRandomRoomProperties_eq cfg st sx sy sz randX randY randZ hU hx hy
  refine ⟨c, _, hc, by simp, length_footprint c cfg.DungeonUnit sx sy hx hy, ?_, ?_⟩
  · refine nodup_of_rectangle _
      (fun ij => c + ⟨ij.1 * cfg.DungeonUnit, ij.2 * cfg.DungeonUnit, 0⟩) ?_ (sx - 1) (sy - 1)
      (by omega) (by omega) ?_ ?_
    · rintro ⟨i, j⟩ ⟨i', j'⟩ h
      simp only [FVector.add_def, FVector.mk.injEq, add_right_inj] at h
      rw [Prod.mk.injEq]
      exact ⟨mul_right_cancel₀ hU h.1, mul_right_cancel₀ hU h.2.1⟩
    · intro p
      exact mem_footprint c cfg.DungeonUnit sx sy hx hy p
    · rw [length_footprint c cfg.DungeonUnit sx sy hx hy]; ring
  · intro p
    rw [mem_footprint c cfg.DungeonUnit sx sy hx hy]
    simp only [abs_le]

/-- Claim C40 at the sample settings with sampled scales `(2, 3, 1)`. -/
theorem roomProperties_footprint_witness :
    sampleFloorSettings.DungeonUnit ≠ 0 ∧ (1 : Int) ≤ 2 ∧ (1 : Int) ≤ 3 ∧
    ∃ center locations,
      GetRandomRoomProperties sampleFloorSettings initialFloorState 2 3 1
          (fun _ _ => 2) (fun _ _ => 3) (fun _ _ => 0) =
        some (locations, ⟨2 * 2 - 1, 2 * 3 - 1, 2 * 1 - 1⟩) ∧
      locations.head? = some center ∧
      (locations.length : Int) = (2 * 2 - 1) * (2 * 3 - 1) ∧
      locations.Nodup ∧
      ∀ p, p ∈ locations ↔ ∃ i j : Int, |i| ≤ 2 - 1 ∧ |j| ≤ 3 - 1 ∧
        p = center + ⟨i * sampleFloorSettings.DungeonUnit,
          j * sampleFloorSettings.DungeonUnit, 0⟩ :=
  ⟨by decide, by decide, by decide,
    roomProperties_footprint sampleFloorSettings initialFloorState 2 3 1
      (fun _ _ => 2) (fun _ _ => 3) (fun _ _ => 0) (by decide) (by decide) (by decide)⟩

/-! ## Theorems: path reconstruction on arbitrary predecessor chains -/

/-- The pointers of a predecessor chain: as many as positions, each in the
storage at a node whose position is on the chain, and pairwise distinct when
the positions are. -/
theorem prevChain_pointers {C : Type} {grid : Grid3D (DungeonNode C)}
    {ptr : Option FVector} {chain : List FVector} (h : PrevChain grid ptr chain) :
    ∃ ptrs : List FVector, ptrs.length = chain.length ∧
      (∀ i ∈ ptrs, ∃ n, grid.cell? i = some n ∧ n.Position ∈ chain) ∧
      (chain.Nodup → ptrs.Nodup) := by
  induction h with
  | null => exact ⟨[], rfl, by simp, fun _ => List.nodup_nil⟩
  | @link ptr node rest hcell _ ih =>
    obtain ⟨ptrs, hlen, hin, hnd⟩ := ih
    refine ⟨ptr :: ptrs, by simp [hlen], ?_, ?_⟩
    · intro i hi
      rcases List.mem_cons.1 hi with rfl | hi
      · exact ⟨node, hcell, List.mem_cons_self _ _⟩
      · obtain ⟨n, hn, hmem⟩ := hin i hi
        exact ⟨n, hn, List.mem_cons_of_mem _ hmem⟩
    · intro hchain
      rw [List.nodup_cons] at hchain ⊢
      refine ⟨?_, hnd hchain.2⟩
      intro hmem
      obtain ⟨n, hn, hpos⟩ := hin ptr hmem
      rw [hcell] at hn
      obtain rfl := Option.some.inj hn
      exact hchain.1 hpos

theorem reconstructLoop_chain {C : Type} {grid : Grid3D (DungeonNode C)}
    {ptr : Option FVector} {chain : List FVector} (h : PrevChain grid ptr chain) :
    ∀ (stack : List FVector) (fuel : Nat), (∀ p ∈ chain, p ∉ stack) → chain.Nodup →
      chain.length ≤ fuel → reconstructLoop grid fuel ptr stack = .ok (stack ++ chain) := by
  induction h with
  | null => intro stack fuel _ _ _; cases fuel <;> simp [reconstructLoop]
  | @link ptr node rest hcell _ ih =>
    intro stack fuel hfresh hnd hfuel
    cases fuel with
    | zero => simp at hfuel
    | succ fuel =>
      rw [reconstructLoop]
      simp only [hcell]
      rw [if_neg (hfresh _ (List.mem_cons_self _ _))]
      rw [List.nodup_cons] at hnd
      have hrec := ih (stack ++ [node.Position]) fuel (by
        intro p hp hmem
        rcases List.mem_append.1 hmem with hm | hm
        · exact hfresh p (List.mem_cons_of_mem _ hp) hm
        · rw [List.mem_singleton] at hm
          subst hm
          exact hnd.1 hp) hnd.2 (by simpa using hfuel)
      exact hrec.trans (by simp)

theorem reconstructLoop_terminates {C : Type} {grid : Grid3D (DungeonNode C)}
    (hvalid : PointersValid grid) :
    ∀ (fuel : Nat) (ptr : Option FVector) (stack ptrs : List FVector),
      (∀ q, ptr = some q → (grid.cell? q).isSome) →
      (∀ i ∈ ptrs, ∃ n, grid.cell? i = some n ∧ n.Position ∈ stack) →
      ptrs.Nodup → stack.Nodup → grid.cellCount + 1 ≤ ptrs.length + fuel →
      ∃ path, reconstructLoop grid fuel ptr stack = .ok path ∧ path.Nodup ∧
        stack <+: path := by
  intro fuel
  induction fuel with
  | zero =>
    intro ptr stack ptrs hptr hin hnd hstack hfuel
    cases ptr with
    | none => exact ⟨stack, rfl, hstack, List.prefix_refl _⟩
    | some q =>
      have hle := length_le_cellCount grid ptrs hnd (fun i hi => by
        obtain ⟨n, hn, -⟩ := hin i hi
        rw [hn]; rfl)
      omega
  | succ fuel ih =>
    intro ptr stack ptrs hptr hin hnd hstack hfuel
    cases ptr with
    | none => exact ⟨stack, rfl, hstack, List.prefix_refl _⟩
    | some q =>
      have hq := hptr q rfl
      obtain ⟨node, hnode⟩ := Option.isSome_iff_exists.1 hq
      rw [reconstructLoop]
      simp only [hnode]
      by_cases hmem : node.Position ∈ stack
      · rw [if_pos hmem]
        exact ⟨stack, rfl, hstack, List.prefix_refl _⟩
      · rw [if_neg hmem]
        have hqnew : q ∉ ptrs := by
          intro hq'
          obtain ⟨n, hn, hpos⟩ := hin q hq'
          rw [hnode] at hn
          obtain rfl := Option.some.inj hn
          exact hmem hpos
        have hin' : ∀ i ∈ ptrs ++ [q], ∃ n, grid.cell? i = some n ∧
            n.Position ∈ stack ++ [node.Position] := by
          intro i hi
          rcases List.mem_append.1 hi with hi | hi
          · obtain ⟨n, hn, hpos⟩ := hin i hi
            exact ⟨n, hn, List.mem_append_left _ hpos⟩
          · rw [List.mem_singleton] at hi
            subst hi
            exact ⟨node, hnode, List.mem_append_right _ (List.mem_singleton_self _)⟩
        have hnd' : (ptrs ++ [q]).Nodup := by
          rw [List.nodup_append]
          refine ⟨hnd, List.nodup_singleton _, ?_⟩
          intro a ha hb
          rw [List.mem_singleton] at hb
          subst hb
          exact hqnew ha
        have hstack' : (stack ++ [node.Position]).Nodup := by
          rw [List.nodup_append]
          refine ⟨hstack, List.nodup_singleton _, ?_⟩
          intro a ha hb
          rw [List.mem_singleton] at hb
          subst hb
          exact hmem ha
        have hfuel' : grid.cellCount + 1 ≤ (ptrs ++ [q]).length + fuel := by
          simp only [List.length_append, List.length_singleton]
          omega
        obtain ⟨path, hpath, hpnd, hpre⟩ := ih node.Previous (stack ++ [node.Position])
          (ptrs ++ [q]) (fun q' hq' => hvalid q node q' hnode hq') hin' hnd' hstack' hfuel'
        exact ⟨path, hpath, hpnd, (List.prefix_append _ _).trans hpre⟩

theorem chainGrid_chain :
    PrevChain (chainGrid none) (some ⟨2, 0, 0⟩) [⟨2, 0, 0⟩, ⟨1, 0, 0⟩, ⟨0, 0, 0⟩] :=
  @PrevChain.link Int (chainGrid none) ⟨2, 0, 0⟩ ⟨⟨2, 0, 0⟩, some ⟨1, 0, 0⟩, [], 2⟩ _ rfl
    (@PrevChain.link Int (chainGrid none) ⟨1, 0, 0⟩ ⟨⟨1, 0, 0⟩, some ⟨0, 0, 0⟩, [], 1⟩ _ rfl
      (@PrevChain.link Int (chainGrid none) ⟨0, 0, 0⟩ ⟨⟨0, 0, 0⟩, none, [], 0⟩ _ rfl
        PrevChain.null))

theorem chainGrid_valid (first : Option FVector)
    (hfirst : ∀ q, first = some q → ((chainGrid first).cell? q).isSome) :
    PointersValid (chainGrid first) := by
  intro ptr node q hcell hprev
  obtain ⟨h0, h1, h2, plane, row, hp, hr, hx⟩ := cell?_eq_some_iff.1 hcell
  have hplane := List.getElem?_mem hp
  simp only [chainGrid, List.mem_singleton] at hplane
  subst hplane
  have hrow := List.getElem?_mem hr
  simp only [List.mem_singleton] at hrow
  subst hrow
  have hnode := List.getElem?_mem hx
  simp only [List.mem_cons, List.mem_singleton, List.not_mem_nil, or_false] at hnode
  rcases hnode with rfl | rfl | rfl
  · exact hfirst q hprev
  · obtain rfl := Option.some.inj hprev; rfl
  · obtain rfl := Option.some.inj hprev; rfl

/-- Claim C34.  For a node whose `Previous` chain is finite with pairwise
distinct positions, `ReconstructPath` returns the chain's positions reversed:
the node without predecessor first, the given node last.  For every chain,
cyclic or not, whose pointers stay inside the grid, `ReconstructPath`
returns, its result has no repeated position and it ends with the given
node's position. -/
theorem reconstructPath_chain {C : Type} (grid : Grid3D (DungeonNode C)) (node : FVector) :
    (∀ chain, PrevChain grid (some node) chain → chain.Nodup →
      ReconstructPath grid node = .ok chain.reverse) ∧
    (PointersValid grid → ∀ n, grid.cell? node = some n →
      ∃ path, ReconstructPath grid node = .ok path ∧ path.Nodup ∧
        path.getLast? = some n.Position) := by
  constructor
  · intro chain hchain hnd
    obtain ⟨ptrs, hlen, hin, hpn⟩ := prevChain_pointers hchain
    have hle := length_le_cellCount grid ptrs (hpn hnd) (fun i hi => by
      obtain ⟨n, hn, -⟩ := hin i hi
      rw [hn]; rfl)
    unfold ReconstructPath
    rw [reconstructLoop_chain hchain [] (grid.cellCount + 1) (by simp) hnd (by omega)]
    simp
  · intro hvalid n hn
    unfold ReconstructPath
    rw [reconstructLoop]
    simp only [hn, List.not_mem_nil, if_false, List.nil_append]
    obtain ⟨path, hpath, hpnd, hpre⟩ := reconstructLoop_terminates hvalid grid.cellCount
      n.Previous [n.Position] [node] (fun q hq => hvalid node n q hn hq)
      (by
        intro i hi
        rw [List.mem_singleton] at hi
        subst hi
        exact ⟨n, hn, List.mem_singleton_self _⟩)
      (List.nodup_singleton _) (List.nodup_singleton _)
      (by show grid.cellCount + 1 ≤ 1 + grid.cellCount; omega)
    rw [hpath]
    refine ⟨path.reverse, rfl, List.nodup_reverse.2 hpnd, ?_⟩
    obtain ⟨more, rfl⟩ := hpre
    simp

/-- Claim C34 on a row of three nodes: the straight chain from the third
node gives the three positions in start-to-goal order, and with the first
node pointing back to the third the walk still returns. -/
theorem reconstructPath_chain_witness :
    ReconstructPath (chainGrid none) ⟨2, 0, 0⟩ =
        .ok ([⟨2, 0, 0⟩, ⟨1, 0, 0⟩, ⟨0, 0, 0⟩] : List FVector).reverse ∧
      ∃ path, ReconstructPath (chainGrid (some ⟨2, 0, 0⟩)) ⟨2, 0, 0⟩ = .ok path ∧
        path.Nodup ∧ path.getLast? = some ⟨2, 0, 0⟩ :=
  ⟨(reconstructPath_chain (chainGrid none) ⟨2, 0, 0⟩).1 _ chainGrid_chain (by decide),
    (reconstructPath_chain (chainGrid (some ⟨2, 0, 0⟩)) ⟨2, 0, 0⟩).2
      (chainGrid_valid _ (fun q hq => by obtain rfl := Option.some.inj hq; rfl)) _ rfl⟩

/-! ## Theorems: termination of the search for every cost function -/

section TerminationRound

variable {C : Type} [LinearOrder C] [Add C]

/-- The only fault of one round of the loop over the offsets is an access
outside the storage. -/
theorem visitNeighbor_fault
    (costFunction : DungeonNode C → DungeonNode C → Option (DungeonPathInfo C))
    (unitSize : Int) (node : FVector) (st : SearchState C) (offset : FVector) (e : Fault)
    (h : visitNeighbor costFunction unitSize node st offset = .error e) :
    e = .outOfStorage := by
  unfold visitNeighbor at h
  repeat' first
    | split at h
    | dsimp only at h
  all_goals first
    | (cases h; done)
    | (injection h with h; exact h.symm)

theorem foldlM_visit_fault
    (costFunction : DungeonNode C → DungeonNode C → Option (DungeonPathInfo C))
    (unitSize : Int) (node : FVector) (e : Fault) :
    ∀ (dirs : List FVector) (st : SearchState C),
      dirs.foldlM (visitNeighbor costFunction unitSize node) st = .error e →
      e = .outOfStorage := by
  intro dirs
  induction dirs with
  | nil => intro st h; cases h
  | cons o dirs ih =>
    intro st h
    simp only [List.foldlM_cons, bind, Except.bind] at h
    cases h1 : visitNeighbor costFunction unitSize node st o with
    | error e1 =>
      rw [h1] at h
      injection h with h
      subst h
      exact visitNeighbor_fault _ _ _ _ _ _ h1
    | ok s1 =>
      rw [h1] at h
      exact ih s1 h

/-- With a cost function that answers on every pair of nodes, one round of the
loop over the offsets runs without a fault. -/
theorem visitNeighbor_total
    {costFunction : DungeonNode C → DungeonNode C → Option (DungeonPathInfo C)}
    {unitSize : Int} {dirs positions : List FVector} {start : FVector}
    {st : SearchState C} {np : FVector} (offset : FVector)
    (htot : ∀ a b : DungeonNode C, (costFunction a b).isSome)
    (hinv : SearchInv costFunction unitSize dirs positions start st)
    (hnp : np ∈ positions) (hoffal : Aligned unitSize offset) :
    ∃ st', visitNeighbor costFunction unitSize (st.grid.GetIndex np) st offset = .ok st' := by
  obtain ⟨n0, hn0, hn0p⟩ := hinv.placed np hnp
  have hcell : st.grid.cell? (st.grid.GetIndex np) = some n0 := hn0
  unfold visitNeighbor
  simp only [hcell, hn0p]
  by_cases hin : st.grid.InBounds (np + offset) = true
  swap
  · simp only [hin, Bool.not_false, if_true]
    exact ⟨_, rfl⟩
  simp only [hin, Bool.not_true, Bool.false_eq_true, if_false]
  have hqal : Aligned unitSize (np + offset) := (hinv.aligned np hnp).add hoffal
  have hqps : np + offset ∈ positions := hinv.inb _ hqal hin
  obtain ⟨m0, hm0, hm0p⟩ := hinv.placed _ hqps
  have hmcell : st.grid.cell? (st.grid.GetIndex (np + offset)) = some m0 := hm0
  simp only [hmcell]
  split
  · exact ⟨_, rfl⟩
  split
  · exact ⟨_, rfl⟩
  obtain ⟨info, hinfo⟩ := Option.isSome_iff_exists.1 (htot n0 m0)
  rw [hinfo]
  simp only
  split
  · exact ⟨_, rfl⟩
  split
  · exact ⟨_, rfl⟩
  split
  · obtain ⟨g, hg, -⟩ := setCell?_spec st.grid (st.grid.GetIndex (np + offset))
      { Position := m0.Position, Previous := some (st.grid.GetIndex np),
        PreviousSet := n0.PreviousSet ++ [np] ++ (if info.IsStairs = true then stairCells unitSize np offset else []),
        Cost := n0.Cost + info.Cost } (by rw [hmcell]; rfl)
    rw [hg]
    exact ⟨_, rfl⟩
  · exact ⟨_, rfl⟩

/-- One full round of the search loop keeps the invariant and lowers the
measure: the number of open positions, then the number of stale entries. -/
theorem search_round_counts
    {costFunction : DungeonNode C → DungeonNode C → Option (DungeonPathInfo C)}
    {unitSize : Int} {dirs positions : List FVector} {start : FVector}
    {st st2 : SearchState C} {tmp : DungeonNode C} {rest : List (DungeonNode C)}
    (hdirs : ∀ o ∈ dirs, Aligned unitSize o)
    (hinv : SearchInv costFunction unitSize dirs positions start st)
    (hpop : popMin st.queue = some (tmp, rest))
    (hfold : dirs.foldlM (visitNeighbor costFunction unitSize (st.grid.GetIndex tmp.Position))
      ⟨st.grid, rest, st.closedNodes ++ [st.grid.GetIndex tmp.Position]⟩ = .ok st2) :
    SearchInv costFunction unitSize dirs positions start st2 ∧
      (openCount positions st2 < openCount positions st ∨
        (openCount positions st2 = openCount positions st ∧ staleCount st2 < staleCount st)) := by
  obtain ⟨hinv1, -, -⟩ := searchInv_pop hinv hpop
  have hcount1 := pop_counts hinv hpop
  generalize hst1 : (⟨st.grid, rest, st.closedNodes ++ [st.grid.GetIndex tmp.Position]⟩ :
    SearchState C) = st1 at hinv1 hcount1 hfold
  have hcl1 : st.grid.GetIndex tmp.Position ∈ st1.closedNodes := by
    rw [← hst1]; exact List.mem_append_right _ (List.mem_singleton_self _)
  have hJ := foldlM_except_inv
    (visitNeighbor costFunction unitSize (st.grid.GetIndex tmp.Position))
    (fun s => SearchInv costFunction unitSize dirs positions start s ∧
      s.closedNodes = st1.closedNodes ∧ openCount positions s = openCount positions st1 ∧
      staleCount s = staleCount st1) dirs
    (fun s a s' ha hs hv => by
      have hnode : st.grid.GetIndex tmp.Position ∈ s.closedNodes := by rw [hs.2.1]; exact hcl1
      obtain ⟨h1, h2⟩ := searchInv_visit hs.1 hnode ha (hdirs a ha) hv
      obtain ⟨h3, h4⟩ := visitNeighbor_counts hs.1 hnode (hdirs a ha) hv
      exact ⟨h1, h2.trans hs.2.1, h3.trans hs.2.2.1, h4.trans hs.2.2.2⟩)
    st1 st2 ⟨hinv1, rfl, rfl, rfl⟩ hfold
  refine ⟨hJ.1, ?_⟩
  rw [hJ.2.2.1, hJ.2.2.2]
  exact hcount1

/-- From every state of the search loop that satisfies the invariant, the
loop returns after finitely many rounds: there is an amount of fuel from
which on the result no longer changes, and this result is a path or the
fault of an access outside the storage; with a cost function that answers on
every pair of nodes it is a path. -/
theorem searchLoop_returns
    {costFunction : DungeonNode C → DungeonNode C → Option (DungeonPathInfo C)}
    {unitSize : Int} {dirs positions : List FVector} {start : FVector} (endPos : FVector)
    (hdirs : ∀ o ∈ dirs, Aligned unitSize o) :
    ∀ (a b : Nat) (st : SearchState C),
      SearchInv costFunction unitSize dirs positions start st →
      openCount positions st = a → staleCount st = b →
      ∃ fuel0 r, (∀ fuel, fuel0 ≤ fuel →
          searchLoop costFunction unitSize dirs endPos fuel st = r) ∧
        ((∃ path, r = .ok path) ∨ r = .error .outOfStorage) ∧
        ((∀ x y : DungeonNode C, (costFunction x y).isSome) → ∃ path, r = .ok path) := by
  intro a
  induction a using Nat.strong_induction_on with
  | _ a iha =>
  intro b
  induction b using Nat.strong_induction_on with
  | _ b ihb =>
  intro st hinv ha hb
  cases hpop : popMin st.queue with
  | none =>
    have hq : st.queue = [] := popMin_eq_none hpop
    refine ⟨0, .ok [], fun fuel _ => ?_, Or.inl ⟨[], rfl⟩, fun _ => ⟨[], rfl⟩⟩
    cases fuel with
    | zero =>
      unfold searchLoop
      simp [hq]
    | succ fuel =>
      unfold searchLoop
      simp only [hpop]
  | some r =>
    obtain ⟨tmp, rest⟩ := r
    obtain ⟨hinv1, htp, n, hn, hnp⟩ := searchInv_pop hinv hpop
    by_cases hend : n.Position = endPos
    · have hcl : st.grid.GetIndex tmp.Position ∈
          st.closedNodes ++ [st.grid.GetIndex tmp.Position] :=
        List.mem_append_right _ (List.mem_singleton_self _)
      obtain ⟨n', rest', hn'p, htrail⟩ := trail_exists hinv1 _ tmp.Position htp hcl (le_refl _)
      have hrec := reconstructPath_trail hinv1.start_mem htrail
      rw [hn'p] at hrec
      have hrec' : ReconstructPath st.grid (st.grid.GetIndex tmp.Position) =
          .ok ((n' :: rest').map fun x => x.Position).reverse := hrec
      refine ⟨1, .ok ((n' :: rest').map fun x => x.Position).reverse, fun fuel hfuel => ?_,
        Or.inl ⟨_, rfl⟩, fun _ => ⟨_, rfl⟩⟩
      cases fuel with
      | zero => omega
      | succ fuel =>
        unfold searchLoop
        simp only [hpop, hn]
        rw [if_pos hend]
        exact hrec'
    · cases hfold : dirs.foldlM
          (visitNeighbor costFunction unitSize (st.grid.GetIndex tmp.Position))
          ⟨st.grid, rest, st.closedNodes ++ [st.grid.GetIndex tmp.Position]⟩ with
      | error e =>
        have he := foldlM_visit_fault costFunction unitSize _ e dirs _ hfold
        subst he
        refine ⟨1, .error .outOfStorage, fun fuel hfuel => ?_, Or.inr rfl, fun htot => ?_⟩
        · cases fuel with
          | zero => omega
          | succ fuel =>
            unfold searchLoop
            simp only [hpop, hn]
            rw [if_neg hend]
            simp only [hfold]
        · exfalso
          have hcl1 : st.grid.GetIndex tmp.Position ∈
              st.closedNodes ++ [st.grid.GetIndex tmp.Position] :=
            List.mem_append_right _ (List.mem_singleton_self _)
          obtain ⟨s', hs'⟩ := foldlM_except_ok
            (visitNeighbor costFunction unitSize (st.grid.GetIndex tmp.Position))
            (fun s => SearchInv costFunction unitSize dirs positions start s ∧
              s.closedNodes = st.closedNodes ++ [st.grid.GetIndex tmp.Position]) dirs
            (fun s a ha hs => by
              have hidx : s.grid.GetIndex tmp.Position = st.grid.GetIndex tmp.Position :=
                getIndex_congr (hs.1.grid_unit.trans hinv.grid_unit.symm) _
              obtain ⟨s', hs'⟩ := visitNeighbor_total a htot hs.1 htp (hdirs a ha)
              rw [hidx] at hs'
              obtain ⟨h1, h2⟩ := searchInv_visit hs.1 (by rw [hs.2]; exact hcl1) ha
                (hdirs a ha) hs'
              exact ⟨s', hs', h1, h2.trans hs.2⟩)
            ⟨st.grid, rest, st.closedNodes ++ [st.grid.GetIndex tmp.Position]⟩ ⟨hinv1, rfl⟩
          rw [hfold] at hs'
          cases hs'
      | ok st2 =>
        obtain ⟨hinv2, hdec⟩ := search_round_counts hdirs hinv hpop hfold
        have hih : ∃ fuel0 r, (∀ fuel, fuel0 ≤ fuel →
              searchLoop costFunction unitSize dirs endPos fuel st2 = r) ∧
            ((∃ path, r = .ok path) ∨ r = .error .outOfStorage) ∧
            ((∀ x y : DungeonNode C, (costFunction x y).isSome) → ∃ path, r = .ok path) := by
          rcases hdec with hlt | ⟨heq, hlt⟩
          · exact iha _ (by rw [← ha]; exact hlt) _ st2 hinv2 rfl rfl
          · exact ihb _ (by rw [← hb]; exact hlt) st2 hinv2 (by rw [heq, ha]) rfl
        obtain ⟨fuel0, r, hr, hshape, htotal⟩ := hih
        refine ⟨fuel0 + 1, r, fun fuel hfuel => ?_, hshape, htotal⟩
        cases fuel with
        | zero => omega
        | succ fuel =>
          unfold searchLoop
          simp only [hpop, hn]
          rw [if_neg hend]
          simp only [hfold]
          exact hr fuel (by omega)

end TerminationRound

section Termination

variable {C : Type} [LinearOrder C] [Add C] [Zero C]

/-- Claim C35.  Let the pathfinder be in the state its constructor and
earlier searches leave it in and let `start` address the cell of one of its
nodes.  For every end position, every cost function and either value of
`canChangeFloors` the search loop of `FindPath` makes finitely many rounds:
from some amount of fuel on the result is the same, and it is a path or the
fault that the cost function reported, never exhaustion; with a cost
function that answers on every pair of nodes it is a path. -/
theorem findPath_terminates (MAX_flt : C) (pf : DungeonPathfinder3D C)
    (positions : List FVector) (hready : Ready pf positions) (start endPos : FVector)
    (hstart : ∃ p ∈ positions, pf.grid.GetIndex start = pf.grid.GetIndex p)
    (costFunction : DungeonNode C → DungeonNode C → Option (DungeonPathInfo C))
    (canChangeFloors : Bool) :
    ∃ fuel0 r, (∀ fuel, fuel0 ≤ fuel →
        FindPath MAX_flt pf start endPos costFunction canChangeFloors fuel = r) ∧
      ((∃ path, r = .ok path) ∨ r = .error .outOfStorage) ∧
      ((∀ x y : DungeonNode C, (costFunction x y).isSome) → ∃ path, r = .ok path) := by
  obtain ⟨p, hp, hidx⟩ := hstart
  obtain ⟨pf1, hreset, hready1, hunit1, hsize1, hall⟩ :=
    resetNodes_ready MAX_flt pf positions hready
  have hidx1 : pf1.grid.GetIndex start = pf1.grid.GetIndex p := by
    have hu : pf1.grid.unit = pf.grid.unit := by
      rw [hready1.grid_unit, hunit1, hready.grid_unit]
    rw [getIndex_congr hu, getIndex_congr hu]
    exact hidx
  by_cases hse : start = endPos
  · refine ⟨0, .ok [], fun fuel _ => ?_, Or.inl ⟨[], rfl⟩, fun _ => ⟨[], rfl⟩⟩
    unfold FindPath
    simp only [hreset, hse, if_true]
  obtain ⟨s, hs, hsp, -⟩ := hall p hp
  obtain ⟨g, hg⟩ := set?_of_isSome pf1.grid p { s with Cost := 0 } (by rw [hs]; rfl)
  have hs' : pf1.grid.get? start = some s := by
    unfold Grid3D.get? at hs ⊢
    rw [hidx1]; exact hs
  have hg' : pf1.grid.set? start { s with Cost := 0 } = some g := by
    unfold Grid3D.set? at hg ⊢
    rw [hidx1]; exact hg
  have hinv0 := searchInv_init costFunction MAX_flt
    ((if !canChangeFloors then Directions2D else Directions).map
      fun offset => offset.scale pf1.unitSize) hready1 hall hp hs hg
  obtain ⟨fuel0, r, hr, hshape, htotal⟩ := searchLoop_returns endPos
    (fun o ho => aligned_of_mem_map_scale ho) _ _ _ hinv0 rfl rfl
  refine ⟨fuel0, r, fun fuel hfuel => ?_, hshape, htotal⟩
  unfold FindPath
  simp only [hreset, hse, if_false, hs', hg']
  exact hr fuel hfuel

end Termination

set_option maxRecDepth 1000000 in
/-- Claim C35 on the sample pathfinder, from the unaligned start
`(11, 12, 13)` in the cell of the node `(10, 10, 10)`, with a cost function
that answers everywhere and floor changes allowed. -/
theorem findPath_terminates_witness :
    ∃ fuel0 r, (∀ fuel, fuel0 ≤ fuel →
        FindPath 1000000 samplePathfinder ⟨11, 12, 13⟩ ⟨20, 10, 10⟩
          (fun _ _ => some ⟨true, 1, false⟩) true fuel = r) ∧
      ((∃ path, r = .ok path) ∨ r = .error .outOfStorage) ∧
      ((∀ x y : DungeonNode Int,
          ((fun _ _ => some ⟨true, 1, false⟩ : DungeonNode Int → DungeonNode Int →
            Option (DungeonPathInfo Int)) x y).isSome) → ∃ path, r = .ok path) :=
  findPath_terminates 1000000 samplePathfinder samplePositions samplePathfinder_ready
    ⟨11, 12, 13⟩ ⟨20, 10, 10⟩ ⟨⟨10, 10, 10⟩, by decide, by decide⟩
    (fun _ _ => some ⟨true, 1, false⟩) true

/-! ## Theorems: least total cost of flat searches -/

section LeastCostTotals

variable {C : Type}

theorem accTotal_append_pair [Add C] (cf : FVector → FVector → DungeonPathInfo C)
    (a b : FVector) : ∀ (xs : List FVector) (t : C),
      accTotal cf t (xs ++ [a, b]) = accTotal cf t (xs ++ [a]) + (cf a b).Cost := by
  intro xs
  induction xs with
  | nil => intro t; simp [accTotal]
  | cons x xs ih =>
    intro t
    cases xs with
    | nil => exact ih (t + (cf x a).Cost)
    | cons y ys => exact ih (t + (cf x y).Cost)

/-- The cost that the search accumulates along a chain of predecessor links
is the total of the path read from its start: the same additions in the same
order. -/
theorem backTotal_eq_accTotal [Add C] [Zero C] (cf : FVector → FVector → DungeonPathInfo C) :
    ∀ r : List FVector, backTotal cf r = accTotal cf 0 r.reverse := by
  intro r
  induction r with
  | nil => rfl
  | cons b r ih =>
    cases r with
    | nil => rfl
    | cons a rest =>
      have h : (b :: a :: rest).reverse = rest.reverse ++ [a, b] := by simp
      have h' : (a :: rest).reverse = rest.reverse ++ [a] := by simp
      rw [h, accTotal_append_pair, ← h', ← ih]
      rfl

theorem backTotal_reverse [Add C] [Zero C] (cf : FVector → FVector → DungeonPathInfo C)
    (l : List FVector) : backTotal cf l.reverse = pathTotal cf l := by
  rw [backTotal_eq_accTotal, List.reverse_reverse]
  rfl

theorem lineBounds_ge [LinearOrder C] [Add C] [Zero C]
    (cf : FVector → FVector → DungeonPathInfo C)
    (hgrow : ∀ t c : C, 0 ≤ c → t ≤ t + c) (hnonneg : ∀ a b, 0 ≤ (cf a b).Cost) :
    ∀ (l : List FVector) (t : C), ∀ x ∈ lineBounds cf t l, t ≤ x.2 := by
  intro l
  induction l with
  | nil => intro t x hx; cases hx
  | cons a l ih =>
    intro t x hx
    cases l with
    | nil =>
      simp only [lineBounds, List.mem_singleton] at hx
      rw [hx]
    | cons b rest =>
      simp only [lineBounds, List.mem_cons] at hx
      rcases hx with rfl | hx
      · exact le_refl _
      · exact le_trans (hgrow t _ (hnonneg a b)) (ih _ x hx)

theorem lineBounds_head [Add C] (cf : FVector → FVector → DungeonPathInfo C) (a : FVector)
    (l : List FVector) (t : C) : (a, t) ∈ lineBounds cf t (a :: l) := by
  cases l with
  | nil => simp [lineBounds]
  | cons b rest => simp [lineBounds]

theorem lineBounds_last [Add C] (cf : FVector → FVector → DungeonPathInfo C) (E : FVector) :
    ∀ (l : List FVector) (a : FVector) (t : C), (a :: l).getLast? = some E →
      (E, accTotal cf t (a :: l)) ∈ lineBounds cf t (a :: l) := by
  intro l
  induction l with
  | nil =>
    intro a t h
    simp only [List.getLast?_singleton, Option.some.injEq] at h
    subst h
    simp [lineBounds, accTotal]
  | cons b rest ih =>
    intro a t h
    have h' : (b :: rest).getLast? = some E := by
      rw [List.getLast?_cons_cons] at h; exact h
    have := ih b (t + (cf a b).Cost) h'
    simp only [lineBounds, accTotal, List.mem_cons]
    right
    exact this

end LeastCostTotals

section LeastCostCap

variable {C : Type} [LinearOrder C] [Add C]

theorem costCap_visit
    {costFunction : DungeonNode C → DungeonNode C → Option (DungeonPathInfo C)}
    {unitSize : Int} {st st' : SearchState C} {node offset : FVector}
    {MAX_flt : C} {positions : List FVector} {start : FVector}
    (hcap : CostCap MAX_flt positions start st)
    (h : visitNeighbor costFunction unitSize node st offset = .ok st') :
    CostCap MAX_flt positions start st' := by
  rcases visitNeighbor_cases _ _ _ _ _ _ h with
    rfl | ⟨n, m, info, g, -, -, hm, -, -, -, -, -, hlt, hg, rfl⟩
  · exact hcap
  · obtain ⟨g', hg', hu, -, -, hself, hother⟩ := setCell?_spec st.grid
      (st.grid.GetIndex (n.Position + offset)) (rewrittenNode unitSize node n m info offset)
      (by rw [hm]; rfl)
    rw [hg] at hg'
    obtain rfl := Option.some.inj hg'
    intro p hp hps k hk
    have hidx : g.GetIndex p = st.grid.GetIndex p := getIndex_congr hu p
    by_cases hne : g.GetIndex p = st.grid.GetIndex (n.Position + offset)
    · have hk' : g.cell? (st.grid.GetIndex (n.Position + offset)) = some k := by
        unfold Grid3D.get? at hk
        rw [← hne]; exact hk
      rw [hself] at hk'
      obtain rfl := Option.some.inj hk'
      have hm' : st.grid.get? p = some m := by
        unfold Grid3D.get?
        rw [← hidx, hne]; exact hm
      exact le_trans (le_of_lt hlt) (hcap p hp hps m hm')
    · have hk' : st.grid.get? p = some k := by
        have := hother _ hne
        unfold Grid3D.get? at hk ⊢
        rw [← hidx, ← this]
        exact hk
      exact hcap p hp hps k hk'

theorem costCap_fold
    {costFunction : DungeonNode C → DungeonNode C → Option (DungeonPathInfo C)}
    {unitSize : Int} {dirs : List FVector} (st : SearchState C) {st' : SearchState C}
    {node : FVector} {MAX_flt : C} {positions : List FVector} {start : FVector}
    (hcap : CostCap MAX_flt positions start st)
    (h : dirs.foldlM (visitNeighbor costFunction unitSize node) st = .ok st') :
    CostCap MAX_flt positions start st' :=
  foldlM_except_inv (visitNeighbor costFunction unitSize node)
    (CostCap MAX_flt positions start) dirs
    (fun _ _ _ _ hs hv => costCap_visit hs hv) st st' hcap h

end LeastCostCap

section LeastCostFrontier

variable {C : Type} [LinearOrder C] [Add C] [Zero C]

/-- At the head of the loop, on every sequence of traversable planar steps
from a node within its bound to the end position, some node is open and costs
at most its bound, and this bound is within the bound of every open position
of the sequence. -/
theorem frontier_of_line
    {costFunction : DungeonNode C → DungeonNode C → Option (DungeonPathInfo C)}
    {cf : FVector → FVector → DungeonPathInfo C} {MAX_flt : C}
    {pf : DungeonPathfinder3D C} {positions : List FVector} {S E : FVector}
    {st : SearchState C} (hadd : ∀ a b c : C, a ≤ b → a + c ≤ b + c)
    (hgrow : ∀ t c : C, 0 ≤ c → t ≤ t + c) (hnonneg : ∀ a b, 0 ≤ (cf a b).Cost)
    (hhead : HeadInv costFunction cf MAX_flt pf.unitSize
      (Directions2D.map fun d => d.scale pf.unitSize) positions S E st)
    (hsb : SameBounds pf.grid st) :
    ∀ (l : List FVector) (a : FVector) (t : C) (na : DungeonNode C),
      List.Chain' (PlanarStep pf cf) (a :: l) → (a :: l).getLast? = some E →
      a ∈ positions → st.grid.get? a = some na → na.Cost ≤ t →
      CostBound (lineBounds cf t (a :: l)) st →
      ∃ tq q nq, q ∈ positions ∧ st.grid.GetIndex q ∉ st.closedNodes ∧
        st.grid.get? q = some nq ∧ nq.Cost ≤ tq ∧
        ∀ x ∈ lineBounds cf t (a :: l), st.grid.GetIndex x.1 ∉ st.closedNodes → tq ≤ x.2 := by
  intro l
  induction l with
  | nil =>
    intro a t na _ hlast ha hna hcost _
    simp only [List.getLast?_singleton, Option.some.injEq] at hlast
    have hc : st.grid.GetIndex a ∉ st.closedNodes := fun hcl => hhead.not_end a ha hcl hlast
    exact ⟨t, a, na, ha, hc, hna, hcost, fun x hx _ => lineBounds_ge cf hgrow hnonneg _ _ x hx⟩
  | cons b rest ih =>
    intro a t na hchain hlast ha hna hcost hb
    by_cases hc : st.grid.GetIndex a ∈ st.closedNodes
    swap
    · exact ⟨t, a, na, ha, hc, hna, hcost, fun x hx _ => lineBounds_ge cf hgrow hnonneg _ _ x hx⟩
    rw [List.chain'_cons] at hchain
    obtain ⟨⟨hin, ⟨d, hd, hbe⟩, htr⟩, hchain'⟩ := hchain
    have ho : d.scale pf.unitSize ∈ Directions2D.map fun d => d.scale pf.unitSize :=
      List.mem_map.2 ⟨d, hd, rfl⟩
    have hline : lineBounds cf t (a :: b :: rest) =
        (a, t) :: lineBounds cf (t + (cf a b).Cost) (b :: rest) := rfl
    obtain ⟨hbpos, nb, hnb, hcb⟩ := relaxed_next hadd (lineBounds cf t (a :: b :: rest)) hhead
      hsb hb ha hc hna hcost ho hbe hin htr (le_refl _)
      (by rw [hline]; exact List.mem_cons_of_mem _ (lineBounds_head cf b rest _))
    have hb' : CostBound (lineBounds cf (t + (cf a b).Cost) (b :: rest)) st := by
      intro x hx
      exact hb x (by rw [hline]; exact List.mem_cons_of_mem _ hx)
    have hlast' : (b :: rest).getLast? = some E := by
      rw [List.getLast?_cons_cons] at hlast; exact hlast
    obtain ⟨tq, q, nq, hq, hqo, hnq, hcq, hall⟩ := ih b _ nb hchain' hlast' hbpos hnb hcb hb'
    refine ⟨tq, q, nq, hq, hqo, hnq, hcq, ?_⟩
    intro x hx hxo
    rw [hline] at hx
    rcases List.mem_cons.1 hx with rfl | hx
    · exact absurd hc hxo
    · exact hall x hx hxo

/-- Taking the cheapest entry from the queue while some open node costs at
most `tq` and `tq` is within the bound of every open position of `line`: the
node taken costs at most the bound of every open position of `line`, and the
bounds of `line` hold with it closed. -/
theorem costBound_pop_cap
    {costFunction : DungeonNode C → DungeonNode C → Option (DungeonPathInfo C)}
    {cf : FVector → FVector → DungeonPathInfo C} {MAX_flt : C}
    {unitSize : Int} {dirs positions : List FVector} {start endPos : FVector}
    {st : SearchState C} {tmp : DungeonNode C} {rest : List (DungeonNode C)}
    (line : List (FVector × C))
    (hhead : HeadInv costFunction cf MAX_flt unitSize dirs positions start endPos st)
    (hb : CostBound line st) (hcap : CostCap MAX_flt positions start st)
    (hpop : popMin st.queue = some (tmp, rest))
    {tq : C} {q : FVector} {nq : DungeonNode C} (hq : q ∈ positions)
    (hqo : st.grid.GetIndex q ∉ st.closedNodes) (hnq : st.grid.get? q = some nq)
    (hcost : nq.Cost ≤ tq)
    (hline : ∀ x ∈ line, st.grid.GetIndex x.1 ∉ st.closedNodes → tq ≤ x.2)
    (h0 : ∀ x ∈ line, 0 ≤ x.2) :
    (∀ n, st.grid.get? tmp.Position = some n →
        ∀ x ∈ line, st.grid.GetIndex x.1 ∉ st.closedNodes → n.Cost ≤ x.2) ∧
      CostBound line ⟨st.grid, rest, st.closedNodes ++ [st.grid.GetIndex tmp.Position]⟩ := by
  obtain ⟨-, htp, -⟩ := searchInv_pop hhead.inv hpop
  have h1 : ∀ n, st.grid.get? tmp.Position = some n →
      ∀ x ∈ line, st.grid.GetIndex x.1 ∉ st.closedNodes → n.Cost ≤ x.2 := by
    intro n hn x hx hxo
    by_cases hmax : tq < MAX_flt
    · exact le_trans ((costBound_pop line hhead hb hpop hq hqo hnq hcost hmax hline).1 n hn)
        (hline x hx hxo)
    · by_cases hs : tmp.Position = start
      · rw [hs] at hn
        rw [hhead.rel.start_cost n hn]
        exact h0 x hx
      · exact le_trans (hcap _ htp hs n hn) (le_trans (not_lt.1 hmax) (hline x hx hxo))
  refine ⟨h1, ?_⟩
  intro x hx hcl n hn
  by_cases hc : st.grid.GetIndex x.1 ∈ st.closedNodes
  · exact hb x hx hc n hn
  · have hcl' : st.grid.GetIndex x.1 ∈
        st.closedNodes ++ [st.grid.GetIndex tmp.Position] := hcl
    rcases List.mem_append.1 hcl' with h | h
    · exact absurd h hc
    · have heq : st.grid.GetIndex x.1 = st.grid.GetIndex tmp.Position :=
        List.mem_singleton.1 h
      have hn' : st.grid.get? tmp.Position = some n := by
        have hn2 : st.grid.get? x.1 = some n := hn
        unfold Grid3D.get? at hn2 ⊢
        rw [← heq]; exact hn2
      exact h1 n hn' x hx hc

/-- The positions of a chain of predecessor links, read from the start, are
a sequence of traversable planar steps into cells inside the bounds. -/
theorem trail_planar_chain
    {costFunction : DungeonNode C → DungeonNode C → Option (DungeonPathInfo C)}
    {cf : FVector → FVector → DungeonPathInfo C} {MAX_flt : C}
    (pf : DungeonPathfinder3D C) {positions : List FVector} {start : FVector}
    (st : SearchState C) {l : List (DungeonNode C)}
    (hcf : ∀ a b : DungeonNode C, a.Position ∈ positions → b.Position ∈ positions →
      (∃ o ∈ Directions2D.map (fun d => d.scale pf.unitSize), b.Position = a.Position + o) →
      costFunction a b = some (cf a.Position b.Position))
    (hrel : RelaxInv MAX_flt positions start st) (hb : SameBounds pf.grid st)
    (h : Trail costFunction pf.unitSize
      (Directions2D.map fun d => d.scale pf.unitSize) positions start st l) :
    List.Chain' (fun b a => PlanarStep pf cf a b) (l.map fun x => x.Position) := by
  induction h with
  | root s _ _ _ _ => simp
  | step n N rest hn hN hget hprev _ hlink _ ih =>
    simp only [List.map_cons, List.chain'_cons] at ih ⊢
    refine ⟨?_, ih⟩
    obtain ⟨offset, ho, m0, info, hpos, hm0, hinfo, htr, -⟩ := hlink
    rw [hcf N m0 hN (by rw [hm0]; exact hn) ⟨offset, ho, by rw [hm0]; exact hpos⟩, hm0] at hinfo
    simp only [Option.some.injEq] at hinfo
    subst hinfo
    obtain ⟨d, hd, rfl⟩ := List.mem_map.1 ho
    refine ⟨?_, ⟨d, hd, hpos⟩, htr⟩
    rw [← inBounds_congr hb.1 hb.2]
    exact hrel.prev_inb _ hn n _ hget hprev

end LeastCostFrontier

section LeastCostFuel

variable {C : Type} [LinearOrder C] [Add C]

/-- More fuel does not change a result of the search loop. -/
theorem searchLoop_mono
    (costFunction : DungeonNode C → DungeonNode C → Option (DungeonPathInfo C))
    (unitSize : Int) (dirs : List FVector) (endPos : FVector) :
    ∀ (fuel : Nat) (st : SearchState C) (path : List FVector),
      searchLoop costFunction unitSize dirs endPos fuel st = .ok path →
      ∀ fuel', fuel ≤ fuel' →
        searchLoop costFunction unitSize dirs endPos fuel' st = .ok path := by
  intro fuel
  induction fuel with
  | zero =>
    intro st path h fuel' _
    unfold searchLoop at h
    by_cases hq : 0 < st.queue.length
    · rw [if_pos hq] at h; cases h
    · rw [if_neg hq] at h
      have hnil : st.queue = [] := List.length_eq_zero.1 (by omega)
      cases fuel' with
      | zero => unfold searchLoop; rw [if_neg hq]; exact h
      | succ k =>
        unfold searchLoop
        rw [hnil]
        simp only [popMin]
        exact h
  | succ fuel ih =>
    intro st path h fuel' hle
    cases fuel' with
    | zero => omega
    | succ k =>
      unfold searchLoop at h ⊢
      cases hpop : popMin st.queue with
      | none => rw [hpop] at h; exact h
      | some r =>
        obtain ⟨tmp, rest⟩ := r
        rw [hpop] at h
        simp only at h ⊢
        cases hcell : st.grid.cell? (st.grid.GetIndex tmp.Position) with
        | none => rw [hcell] at h; cases h
        | some n =>
          rw [hcell] at h
          simp only at h ⊢
          by_cases hend : n.Position = endPos
          · rw [if_pos hend] at h ⊢; exact h
          · rw [if_neg hend] at h ⊢
            cases hfold : dirs.foldlM
                (visitNeighbor costFunction unitSize (st.grid.GetIndex tmp.Position))
                ⟨st.grid, rest, st.closedNodes ++ [st.grid.GetIndex tmp.Position]⟩ with
            | error e => rw [hfold] at h; cases h
            | ok st2 =>
              rw [hfold] at h
              exact ih st2 path h k (by omega)

end LeastCostFuel

section LeastCostClaim

variable {C : Type} [LinearOrder C] [Add C] [Zero C]

/-- Claim C36, amended.  Costs are values of any linearly ordered type with
an addition of which only two properties are used, both of which the
rounding addition of `float` has: adding the same cost on the right of both
sides keeps `<=`, and adding a non-negative cost does not make a total
smaller.  No other law of addition is used; the total of a path is
`pathTotal`, its step costs added one after the other from 0 in the order of
the path, as the search adds them.  With floor changes disallowed, let the
pathfinder be in the state its constructor and earlier searches leave it in,
let `start` be one of its node positions, and let the cost function answer on
all node positions as a function `cf` of the two positions whose costs are
non-negative and which sets the stairs flag on no traversable step.  Then
with enough fuel `FindPath` returns, and every non-empty path it returns is a
sequence of traversable planar unit steps through cells inside the bounds
from `start` to `end` whose total cost is least among all such sequences. -/
theorem findPath_least_cost (MAX_flt : C) (pf : DungeonPathfinder3D C)
    (positions : List FVector) (hready : Ready pf positions) (start endPos : FVector)
    (hstart : start ∈ positions)
    (hadd : ∀ a b c : C, a ≤ b → a + c ≤ b + c) (hgrow : ∀ t c : C, 0 ≤ c → t ≤ t + c)
    (costFunction : DungeonNode C → DungeonNode C → Option (DungeonPathInfo C))
    (cf : FVector → FVector → DungeonPathInfo C)
    (hcf : ∀ a b : DungeonNode C, a.Position ∈ positions → b.Position ∈ positions →
      (∃ d ∈ Directions2D, b.Position = a.Position + d.scale pf.unitSize) →
      costFunction a b = some (cf a.Position b.Position))
    (hflat : ∀ a b, (cf a b).Traversable = true → (cf a b).IsStairs = false)
    (hnonneg : ∀ a b, 0 ≤ (cf a b).Cost) :
    (∃ fuel0, ∀ fuel, fuel0 ≤ fuel → ∃ path,
      FindPath MAX_flt pf start endPos costFunction false fuel = .ok path) ∧
    ∀ fuel path, FindPath MAX_flt pf start endPos costFunction false fuel = .ok path →
      path ≠ [] →
      path.head? = some start ∧ path.getLast? = some endPos ∧
        List.Chain' (PlanarStep pf cf) path ∧
        ∀ line : List FVector, line.head? = some start → line.getLast? = some endPos →
          List.Chain' (PlanarStep pf cf) line → pathTotal cf path ≤ pathTotal cf line := by
  have hcf' : ∀ a b : DungeonNode C, a.Position ∈ positions → b.Position ∈ positions →
      (∃ o ∈ Directions2D.map (fun d => d.scale pf.unitSize), b.Position = a.Position + o) →
      costFunction a b = some (cf a.Position b.Position) := by
    rintro a b ha hb ⟨o, ho, hbe⟩
    obtain ⟨d, hd, rfl⟩ := List.mem_map.1 ho
    exact hcf a b ha hb ⟨d, hd, hbe⟩
  obtain ⟨pf1, hreset, hready1, hunit1, hsize1, hall⟩ :=
    resetNodes_ready MAX_flt pf positions hready
  by_cases hse : start = endPos
  · refine ⟨⟨0, fun fuel _ => ⟨[], ?_⟩⟩, fun fuel path h hne => ?_⟩
    · unfold FindPath
      simp only [hreset, hse, if_true]
    · exfalso
      unfold FindPath at h
      simp only [hreset, hse, if_true, Except.ok.injEq] at h
      exact hne h.symm
  obtain ⟨s, hs, hsp, -⟩ := hall start hstart
  obtain ⟨g, hg⟩ := set?_of_isSome pf1.grid start { s with Cost := 0 } (by rw [hs]; rfl)
  have hinv0 := searchInv_init costFunction MAX_flt
    (Directions2D.map fun d => d.scale pf1.unitSize) hready1 hall hstart hs hg
  have hrel0 := relaxInv_init MAX_flt hready1 hall hstart hs hg
  have hsal : Aligned pf1.grid.unit start := by
    rw [hready1.grid_unit]; exact loopPositions_aligned hready1.loop hstart
  obtain ⟨-, hsz, hbo, -, hother⟩ := set?_get? hg hsal
  have hb0 : SameBounds pf.grid ⟨g, [{ s with Cost := 0 }], []⟩ :=
    ⟨hsz.trans hsize1, by
      show g.borderOffset = pf.grid.borderOffset
      rw [hbo, hready1.border, hunit1, hready.border]⟩
  have hcap0 : CostCap MAX_flt positions start ⟨g, [{ s with Cost := 0 }], []⟩ := by
    intro p hp hps n hn
    have hpal : Aligned pf1.grid.unit p := by
      rw [hready1.grid_unit]; exact loopPositions_aligned hready1.loop hp
    have hn1 : g.get? p = some n := hn
    rw [hother p hpal hps] at hn1
    obtain ⟨n', hn', -, hr'⟩ := hall p hp
    rw [hn'] at hn1
    obtain rfl := Option.some.inj hn1
    exact le_of_eq hr'.2.1
  rw [hunit1] at hinv0
  have hhead0 : HeadInv costFunction cf MAX_flt pf.unitSize
      (Directions2D.map fun d => d.scale pf.unitSize) positions start endPos
      ⟨g, [{ s with Cost := 0 }], []⟩ :=
    ⟨hinv0, hrel0, (fun p _ hp => by cases hp), (fun p _ hp => by cases hp)⟩
  -- what each round keeps: the bounds of the grid, the cap on the costs, and
  -- along every competing sequence the cost bounds of the closed nodes
  let X : SearchState C → Prop := fun st =>
    SameBounds pf.grid st ∧ CostCap MAX_flt positions start st ∧
    ∀ line : List FVector, line.head? = some start → line.getLast? = some endPos →
      List.Chain' (PlanarStep pf cf) line → CostBound (lineBounds cf 0 line) st
  have hX0 : X ⟨g, [{ s with Cost := 0 }], []⟩ :=
    ⟨hb0, hcap0, fun line _ _ _ x _ hcl => by cases hcl⟩
  have hfront : ∀ (st : SearchState C) (tmp : DungeonNode C) (rest : List (DungeonNode C)),
      HeadInv costFunction cf MAX_flt pf.unitSize
        (Directions2D.map fun d => d.scale pf.unitSize) positions start endPos st → X st →
      popMin st.queue = some (tmp, rest) →
      ∀ line : List FVector, line.head? = some start → line.getLast? = some endPos →
        List.Chain' (PlanarStep pf cf) line →
        (∀ n, st.grid.get? tmp.Position = some n →
          ∀ x ∈ lineBounds cf 0 line, st.grid.GetIndex x.1 ∉ st.closedNodes → n.Cost ≤ x.2) ∧
        CostBound (lineBounds cf 0 line)
          ⟨st.grid, rest, st.closedNodes ++ [st.grid.GetIndex tmp.Position]⟩ := by
    intro st tmp rest hhead hx hpop line hhd hlast hchain
    cases line with
    | nil => cases hhd
    | cons a l =>
      simp only [List.head?_cons, Option.some.injEq] at hhd
      subst hhd
      obtain ⟨ns, hns, -⟩ := hhead.inv.placed a hstart
      obtain ⟨tq, q, nq, hq, hqo, hnq, hcq, hallq⟩ := frontier_of_line hadd hgrow hnonneg hhead
        hx.1 l a 0 ns hchain hlast hstart hns (le_of_eq (hhead.rel.start_cost ns hns))
        (hx.2.2 (a :: l) rfl hlast hchain)
      exact costBound_pop_cap _ hhead (hx.2.2 (a :: l) rfl hlast hchain) hx.2.1 hpop hq hqo hnq
        hcq hallq (fun x hx' => lineBounds_ge cf hgrow hnonneg _ _ x hx')
  obtain ⟨fuel0, hfuel0⟩ := searchLoop_total X hcf' hflat
    (fun o ho => aligned_of_mem_map_scale ho)
    (fun st tmp rest st2 hhead hx hpop _ hfold =>
      ⟨sameBounds_fold ⟨st.grid, rest, _⟩ hx.1 hfold,
        costCap_fold ⟨st.grid, rest, _⟩ hx.2.1 hfold,
        fun line hhd hlast hchain => costBound_fold ⟨st.grid, rest, _⟩ _
          (hfront st tmp rest hhead hx hpop line hhd hlast hchain).2 hfold⟩)
    _ _ _ hhead0 hX0 rfl rfl
  have hfind : ∀ fuel, FindPath MAX_flt pf start endPos costFunction false fuel =
      searchLoop costFunction pf.unitSize (Directions2D.map fun d => d.scale pf.unitSize)
        endPos fuel ⟨g, [{ s with Cost := 0 }], []⟩ := by
    intro fuel
    unfold FindPath
    simp only [hreset, hse, if_false, hs, hg, Bool.not_false, if_true, hunit1]
  refine ⟨⟨fuel0, fun fuel hfuel => ?_⟩, ?_⟩
  · obtain ⟨path, hpath, -⟩ := hfuel0 fuel hfuel
    exact ⟨path, by rw [hfind]; exact hpath⟩
  intro fuel path h hne
  rw [hfind] at h
  obtain ⟨path0, hpath0, hexit⟩ := hfuel0 (max fuel fuel0) (le_max_right _ _)
  rw [searchLoop_mono _ _ _ _ fuel _ path h (max fuel fuel0) (le_max_left _ _)] at hpath0
  simp only [Except.ok.injEq] at hpath0
  subst hpath0
  rcases hexit with ⟨rfl, -⟩ | ⟨st', tmp, rest, hhead', hX', hpop, hend, hrec⟩
  · exact absurd rfl hne
  obtain ⟨hinv1, htp, -⟩ := searchInv_pop hhead'.inv hpop
  obtain ⟨hrel1, -⟩ := relaxInv_pop cf hhead'.rel hpop
  have hcl : st'.grid.GetIndex tmp.Position ∈
      st'.closedNodes ++ [st'.grid.GetIndex tmp.Position] :=
    List.mem_append_right _ (List.mem_singleton_self _)
  obtain ⟨n, rest', hnp, htrail⟩ := trail_exists hinv1 _ tmp.Position htp hcl (le_refl _)
  have hrec' := reconstructPath_trail hinv1.start_mem htrail
  rw [hnp, hend] at hrec'
  have hrec'' : ReconstructPath st'.grid (st'.grid.GetIndex endPos) =
      .ok ((n :: rest').map fun x => x.Position).reverse := hrec'
  rw [hrec] at hrec''
  simp only [Except.ok.injEq] at hrec''
  have hsb1 : SameBounds pf.grid
      ⟨st'.grid, rest, st'.closedNodes ++ [st'.grid.GetIndex tmp.Position]⟩ := hX'.1
  have hchain := trail_planar_chain pf _ hcf' hrel1 hsb1 htrail
  have hlast := trail_getLast htrail
  have hcost := trail_cost hcf' hrel1.start_cost htrail n rest' rfl
  have hnget := (trail_mem hinv1.start_mem htrail n (List.mem_cons_self _ _)).2
  have hnget' : st'.grid.get? tmp.Position = some n := by
    rw [← hnp]; exact hnget
  have hopen : st'.grid.GetIndex endPos ∉ st'.closedNodes := fun hc =>
    hhead'.not_end endPos (hend ▸ htp) hc rfl
  rw [hrec'']
  refine ⟨?_, ?_, ?_, ?_⟩
  · rw [List.head?_reverse]; exact hlast
  · rw [List.getLast?_reverse]
    simp only [List.map_cons, List.head?_cons, hnp, hend]
  · rw [List.chain'_reverse]
    exact hchain
  · intro line hhd hlst hch
    have h1 := (hfront st' tmp rest hhead' hX' hpop line hhd hlst hch).1 n hnget'
    cases line with
    | nil => cases hhd
    | cons a l =>
      have hin := lineBounds_last cf endPos l a 0 hlst
      have hle := h1 _ hin hopen
      rw [← backTotal_reverse, List.reverse_reverse, ← hcost]
      exact hle

end LeastCostClaim

set_option maxRecDepth 1000000 in
/-- Claim C36 fails as stated.  On the sample volume with floor changes
disallowed, take the cost function `stairFlagInfo` of the two positions, whose
costs are 1 or 10.  The search from (10, 10, 10) to (20, 10, 10) returns a
path of four steps and total cost 4, while the two steps along the row are
traversable planar unit steps through cells inside the bounds with total
cost 2: the first of them is flagged as a stair move, and its footprint
keeps (20, 10, 10) from being entered out of (15, 10, 10). -/
theorem findPath_not_least_with_stair_flag :
    (∀ a b, 0 ≤ (stairFlagInfo a b).Cost) ∧
    FindPath 1000000 samplePathfinder ⟨10, 10, 10⟩ ⟨20, 10, 10⟩
        (fun a b => some (stairFlagInfo a.Position b.Position)) false 400 =
      .ok [⟨10, 10, 10⟩, ⟨10, 15, 10⟩, ⟨15, 15, 10⟩, ⟨20, 15, 10⟩, ⟨20, 10, 10⟩] ∧
    pathTotal stairFlagInfo
      [⟨10, 10, 10⟩, ⟨10, 15, 10⟩, ⟨15, 15, 10⟩, ⟨20, 15, 10⟩, ⟨20, 10, 10⟩] = 4 ∧
    List.Chain' (PlanarStep samplePathfinder stairFlagInfo)
      [⟨10, 10, 10⟩, ⟨15, 10, 10⟩, ⟨20, 10, 10⟩] ∧
    pathTotal stairFlagInfo [⟨10, 10, 10⟩, ⟨15, 10, 10⟩, ⟨20, 10, 10⟩] = 2 := by
  refine ⟨?_, by rfl, by decide, ?_, by decide⟩
  · intro a b
    unfold stairFlagInfo
    simp only
    split <;> decide
  · have hstep : ∀ a b : FVector, samplePathfinder.grid.InBounds b = true →
        b = a + (⟨1, 0, 0⟩ : FVector).scale samplePathfinder.unitSize →
        PlanarStep samplePathfinder stairFlagInfo a b := fun a b hin hb =>
      ⟨hin, ⟨⟨1, 0, 0⟩, by decide, hb⟩, rfl⟩
    simp only [List.chain'_cons, List.chain'_singleton, and_true]
    exact ⟨hstep _ _ (by decide) (by decide), hstep _ _ (by decide) (by decide)⟩

set_option maxRecDepth 1000000 in
/-- Claim C36, amended, on the sample volume with every step traversable at
cost 1 and never flagged. -/
theorem findPath_least_cost_witness :
    (∃ fuel0, ∀ fuel, fuel0 ≤ fuel → ∃ path,
      FindPath 1000000 samplePathfinder ⟨10, 10, 10⟩ ⟨20, 10, 10⟩
        (fun _ _ => some ⟨true, 1, false⟩) false fuel = .ok path) ∧
    ∀ fuel path, FindPath 1000000 samplePathfinder ⟨10, 10, 10⟩ ⟨20, 10, 10⟩
        (fun _ _ => some ⟨true, 1, false⟩) false fuel = .ok path →
      path ≠ [] →
      path.head? = some ⟨10, 10, 10⟩ ∧ path.getLast? = some ⟨20, 10, 10⟩ ∧
        List.Chain' (PlanarStep samplePathfinder (fun _ _ => ⟨true, 1, false⟩)) path ∧
        ∀ line : List FVector, line.head? = some ⟨10, 10, 10⟩ →
          line.getLast? = some ⟨20, 10, 10⟩ →
          List.Chain' (PlanarStep samplePathfinder (fun _ _ => ⟨true, 1, false⟩)) line →
          pathTotal (fun _ _ => (⟨true, 1, false⟩ : DungeonPathInfo Int)) path ≤
            pathTotal (fun _ _ => (⟨true, 1, false⟩ : DungeonPathInfo Int)) line :=
  findPath_least_cost 1000000 samplePathfinder samplePositions samplePathfinder_ready
    ⟨10, 10, 10⟩ ⟨20, 10, 10⟩ (by decide) (fun _ _ c h => Int.add_le_add_right h c)
    (fun _ _ h => Int.le_add_of_nonneg_right h) (fun _ _ => some ⟨true, 1, false⟩)
    (fun _ _ => ⟨true, 1, false⟩) (fun _ _ _ _ _ => rfl) (fun _ _ _ => rfl)
    (fun _ _ => show (0 : Int) ≤ 1 by decide)

/-! ## Theorems: door points of hallway carving -/

section DoorTheorems

open EStructureType

theorem roomAt_recordDoor (floorBased : Bool) (p d : FVector)
    (rooms : List (List HallwayRoom)) (k j : Nat) :
    roomAt (recordDoor floorBased p d rooms) k j =
      (roomAt rooms k j).map (fun room =>
        if isAnchor floorBased room p then
          { room with DoorPoints := AddDoorPoint room.DoorPoints d,
                      IsConnectedToHallway := true }
        else room) := by
  unfold roomAt recordDoor
  rw [List.getElem?_map]
  cases rooms[k]? with
  | none => rfl
  | some roomGroup =>
    simp only [Option.map_some']
    rw [List.getElem?_map]

theorem mem_addDoorPoint_self (l : List FVector) (d : FVector) : d ∈ AddDoorPoint l d := by
  unfold AddDoorPoint
  split
  · assumption
  · exact List.mem_append_right _ (List.mem_singleton_self _)

theorem mem_addDoorPoint_of_mem (l : List FVector) (d x : FVector) (h : x ∈ l) :
    x ∈ AddDoorPoint l d := by
  unfold AddDoorPoint
  split
  · exact h
  · exact List.mem_append_left _ h

theorem roomsKept_self (rooms : List (List HallwayRoom)) : RoomsKept rooms rooms :=
  fun _ _ room h => ⟨room, h, rfl, fun _ hd => hd, fun hc => hc⟩

theorem roomsKept_then {a b c : List (List HallwayRoom)} (h1 : RoomsKept a b)
    (h2 : RoomsKept b c) : RoomsKept a c := by
  intro k j room h
  obtain ⟨r1, hr1, hb1, hd1, hc1⟩ := h1 k j room h
  obtain ⟨r2, hr2, hb2, hd2, hc2⟩ := h2 k j r1 hr1
  exact ⟨r2, hr2, hb2.trans hb1, fun d hd => hd2 d (hd1 d hd), fun hc => hc2 (hc1 hc)⟩

theorem recordDoor_kept (floorBased : Bool) (p d : FVector) (rooms : List (List HallwayRoom)) :
    RoomsKept rooms (recordDoor floorBased p d rooms) := by
  intro k j room h
  rw [roomAt_recordDoor, h]
  simp only [Option.map_some']
  split
  · exact ⟨_, rfl, rfl, fun x hx => mem_addDoorPoint_of_mem _ _ _ hx, fun _ => rfl⟩
  · exact ⟨_, rfl, rfl, fun _ hx => hx, fun hc => hc⟩

/-- A room anchored at `p` has the door point and is connected after
`recordDoor`. -/
theorem recordDoor_records (floorBased : Bool) (p d : FVector)
    (rooms : List (List HallwayRoom)) (k j : Nat) (room : HallwayRoom)
    (h : roomAt rooms k j = some room) (ha : isAnchor floorBased room p = true) :
    ∃ room', roomAt (recordDoor floorBased p d rooms) k j = some room' ∧
      room'.Bounds = room.Bounds ∧ d ∈ room'.DoorPoints ∧
      room'.IsConnectedToHallway = true := by
  rw [roomAt_recordDoor, h]
  simp only [Option.map_some', ha, if_true]
  exact ⟨_, rfl, rfl, mem_addDoorPoint_self _ _, rfl⟩

theorem isAnchor_congr (floorBased : Bool) (room room' : HallwayRoom) (p : FVector)
    (h : room'.Bounds = room.Bounds) : isAnchor floorBased room' p = isAnchor floorBased room p := by
  unfold isAnchor
  rw [h]

theorem doorLogic_kept (floorBased : Bool) (grid : Grid3D EStructureType)
    (pre current : FVector) (rooms rooms' : List (List HallwayRoom))
    (h : doorLogic floorBased grid pre current rooms = some rooms') :
    RoomsKept rooms rooms' := by
  unfold doorLogic at h
  dsimp only at h
  repeat' split at h
  all_goals first
    | (cases h; done)
    | (obtain rfl := Option.some.inj h; first | exact roomsKept_self _ | exact recordDoor_kept _ _ _ _)

theorem hallwayRound_kept (floorBased : Bool) (DungeonUnit : Int)
    (state state' : Grid3D EStructureType × List (List HallwayRoom)) (pre : Option FVector)
    (current : FVector)
    (h : hallwayRound floorBased DungeonUnit state pre current = some state') :
    RoomsKept state.2 state'.2 := by
  unfold hallwayRound at h
  split at h
  · cases h
  split at h
  · cases h
  split at h
  · obtain rfl := Option.some.inj h
    exact roomsKept_self _
  split at h
  · cases h
  rename_i rooms hdoor
  have hk := doorLogic_kept _ _ _ _ _ _ hdoor
  dsimp only at h
  split at h
  · split at h
    · cases h
    · obtain rfl := Option.some.inj h
      exact hk
  · obtain rfl := Option.some.inj h
    exact hk

theorem hallwayLoop_kept (floorBased : Bool) (DungeonUnit : Int) :
    ∀ (path : List FVector) (state state' : Grid3D EStructureType × List (List HallwayRoom))
      (pre : Option FVector),
      hallwayLoop floorBased DungeonUnit state pre path = some state' →
      RoomsKept state.2 state'.2 := by
  intro path
  induction path with
  | nil =>
    intro state state' pre h
    simp only [hallwayLoop, Option.some.injEq] at h
    subst h
    exact roomsKept_self _
  | cons current rest ih =>
    intro state state' pre h
    rw [hallwayLoop] at h
    cases hr : hallwayRound floorBased DungeonUnit state pre current with
    | none => rw [hr] at h; cases h
    | some st1 =>
      rw [hr] at h
      exact roomsKept_then (hallwayRound_kept _ _ _ _ _ _ hr) (ih st1 state' _ h)

theorem hallwayLoop_append (floorBased : Bool) (DungeonUnit : Int) (x : FVector)
    (l2 : List FVector) :
    ∀ (l1 : List FVector) (state : Grid3D EStructureType × List (List HallwayRoom))
      (pre : Option FVector),
      hallwayLoop floorBased DungeonUnit state pre (l1 ++ x :: l2) =
        (hallwayLoop floorBased DungeonUnit state pre (l1 ++ [x])).bind
          (fun mid => hallwayLoop floorBased DungeonUnit mid (some x) l2) := by
  intro l1
  induction l1 with
  | nil =>
    intro state pre
    simp only [List.nil_append, hallwayLoop]
    cases hallwayRound floorBased DungeonUnit state pre x <;> rfl
  | cons a l1 ih =>
    intro state pre
    simp only [List.cons_append, hallwayLoop]
    cases hallwayRound floorBased DungeonUnit state pre a with
    | none => rfl
    | some st1 => exact ih st1 (some a)

theorem hallwayLoop_last (floorBased : Bool) (DungeonUnit : Int) (x : FVector) :
    ∀ (l1 : List FVector) (state mid : Grid3D EStructureType × List (List HallwayRoom))
      (pre : Option FVector),
      hallwayLoop floorBased DungeonUnit state pre (l1 ++ [x]) = some mid →
      ∃ state' pre', hallwayRound floorBased DungeonUnit state' pre' x = some mid := by
  intro l1
  induction l1 with
  | nil =>
    intro state mid pre h
    simp only [List.nil_append, hallwayLoop] at h
    cases hr : hallwayRound floorBased DungeonUnit state pre x with
    | none => rw [hr] at h; cases h
    | some st1 =>
      rw [hr] at h
      simp only [Option.some.injEq] at h
      subst h
      exact ⟨state, pre, hr⟩
  | cons a l1 ih =>
    intro state mid pre h
    simp only [List.cons_append, hallwayLoop] at h
    cases hr : hallwayRound floorBased DungeonUnit state pre a with
    | none => rw [hr] at h; cases h
    | some st1 =>
      rw [hr] at h
      exact ih st1 mid _ h

end DoorTheorems

section DoorRoundTheorems

open EStructureType

/-- The door logic on a Room cell next to a cell that is neither Room nor
Empty nor Blocked records the door at the Room cell. -/
theorem doorLogic_records (floorBased : Bool) (grid : Grid3D EStructureType)
    (pre current : FVector) (rooms : List (List HallwayRoom)) (p c : EStructureType)
    (hp : grid.get? pre = some p) (hc : grid.get? current = some c)
    (h : (p = ROOM ∧ c ≠ ROOM ∧ c ≠ NONE ∧ c ≠ STOP) ∨
      (c = ROOM ∧ p ≠ ROOM ∧ p ≠ NONE ∧ p ≠ STOP)) :
    doorLogic floorBased grid pre current rooms =
      some (recordDoor floorBased (if p = ROOM then pre else current)
        (doorPoint2 pre (current - pre)) rooms) := by
  unfold doorLogic
  simp only [hc, hp]
  rcases h with ⟨h1, h2, h3, h4⟩ | ⟨h1, h2, h3, h4⟩
  · rw [if_pos ⟨h2, h3, h4⟩, if_pos h1, if_pos h1]
  · rw [if_neg (fun hh => hh.1 h1), if_pos h1, if_pos ⟨h2, h3, h4⟩, if_neg h2]

/-- The hallway write of a round: afterwards the cell of `current` is not
Empty, and every cell with another index is unchanged. -/
theorem hallway_write (grid g1 : Grid3D EStructureType) (current : FVector)
    (s : EStructureType) (hs : grid.get? current = some s)
    (h : (if s = NONE then grid.set? current HALLWAY else some grid) = some g1) :
    g1.unit = grid.unit ∧
      g1.get? current = some (if s = NONE then HALLWAY else s) ∧
      ∀ q, grid.GetIndex q ≠ grid.GetIndex current → g1.get? q = grid.get? q := by
  by_cases hn : s = NONE
  · rw [if_pos hn] at h
    obtain ⟨hu, -, -, hself, hother⟩ := set?_cell? h
    refine ⟨hu, ?_, ?_⟩
    · rw [if_pos hn]
      unfold Grid3D.get?
      rw [getIndex_congr hu]
      exact hself
    · intro q hq
      unfold Grid3D.get?
      rw [getIndex_congr hu]
      exact hother _ hq
  · rw [if_neg hn] at h
    obtain rfl := Option.some.inj h
    exact ⟨rfl, by rw [if_neg hn]; exact hs, fun _ _ => rfl⟩

/-- After its round a cell of the path is not Empty. -/
theorem hallwayRound_not_empty (floorBased : Bool) (DungeonUnit : Int)
    (state mid : Grid3D EStructureType × List (List HallwayRoom)) (pre : Option FVector)
    (x : FVector) (h : hallwayRound floorBased DungeonUnit state pre x = some mid) :
    mid.1.get? x ≠ some NONE := by
  unfold hallwayRound at h
  split at h
  · cases h
  rename_i s hs
  split at h
  · cases h
  rename_i g1 hg1
  obtain ⟨hu, hx, -⟩ := hallway_write _ _ _ _ hs hg1
  have hx' : g1.get? x ≠ some NONE := by
    rw [hx]
    by_cases hn : s = NONE
    · rw [if_pos hn]; simp
    · rw [if_neg hn]; simpa using hn
  split at h
  · obtain rfl := Option.some.inj h
    exact hx'
  split at h
  · cases h
  dsimp only at h
  split at h
  · split at h
    · cases h
    · rename_i g2 hg2
      obtain rfl := Option.some.inj h
      obtain ⟨hu2, -, -, -, hcells⟩ := foldlM_stairs _ _ _ hg2
      show g2.get? x ≠ some NONE
      unfold Grid3D.get? at hx' ⊢
      rw [getIndex_congr hu2]
      rcases hcells (g1.GetIndex x) with he | ⟨he, -⟩
      · rw [he]; exact hx'
      · rw [he]; simp
  · obtain rfl := Option.some.inj h
    exact hx'

/-- A round on a pair of cells of which exactly one is Room, and the other
neither Empty (as it stands before the round, for `pre`) nor Blocked, records
the door at the Room cell. -/
theorem hallwayRound_records (floorBased : Bool) (DungeonUnit : Int)
    (grid : Grid3D EStructureType) (rooms : List (List HallwayRoom))
    (state' : Grid3D EStructureType × List (List HallwayRoom)) (pre current : FVector)
    (p c : EStructureType)
    (h : hallwayRound floorBased DungeonUnit (grid, rooms) (some pre) current = some state')
    (hp : grid.get? pre = some p) (hc : grid.get? current = some c) (hpn : p ≠ NONE)
    (hcond : (p = ROOM ∧ c ≠ ROOM ∧ c ≠ STOP) ∨ (c = ROOM ∧ p ≠ ROOM ∧ p ≠ STOP)) :
    state'.2 = recordDoor floorBased (if p = ROOM then pre else current)
      (doorPoint2 pre (current - pre)) rooms := by
  have hidx : grid.GetIndex pre ≠ grid.GetIndex current := by
    intro heq
    have : grid.get? pre = grid.get? current := by
      unfold Grid3D.get?; rw [heq]
    rw [hp, hc] at this
    obtain rfl := Option.some.inj this
    rcases hcond with ⟨h1, h2, -⟩ | ⟨h1, h2, -⟩
    · exact h2 h1
    · exact h2 h1
  unfold hallwayRound at h
  simp only [hc] at h
  split at h
  · cases h
  rename_i g1 hg1
  obtain ⟨-, hx, hother⟩ := hallway_write _ _ _ _ hc hg1
  have hp1 : g1.get? pre = some p := by rw [hother pre hidx]; exact hp
  have hdoor := doorLogic_records floorBased g1 pre current rooms p
    (if c = NONE then HALLWAY else c) hp1 hx (by
      rcases hcond with ⟨h1, h2, h3⟩ | ⟨h1, h2, h3⟩
      · left
        refine ⟨h1, ?_⟩
        by_cases hn : c = NONE
        · rw [if_pos hn]; exact ⟨by decide, by decide, by decide⟩
        · rw [if_neg hn]; exact ⟨h2, hn, h3⟩
      · right
        rw [h1]
        exact ⟨by decide, h2, hpn, h3⟩)
  simp only [hdoor] at h
  split at h
  · split at h
    · cases h
    · obtain rfl := Option.some.inj h
      rfl
  · obtain rfl := Option.some.inj h
    rfl

/-- Claim C33, amended.  In either hallway generator, let a path be carved
and let `pre`, `current` be consecutive cells of it.  Of the two cells, as
the grid has them when the round of `current` begins, let exactly one be
Room and the other not Blocked, and let the Room cell be the anchor of a
placed room.  Then after the carving of the path this room holds the
midpoint `pre + (current - pre) / 2` (stored doubled) among its door points
and is marked as connected.  Carving a path removes no door point of any room
and disconnects no room, so this remains so after the carving of further
paths. -/
theorem door_recorded_at_room_transition (floorBased : Bool) (DungeonUnit : Int)
    (grid : Grid3D EStructureType) (spawnedRooms : List (List HallwayRoom))
    (l1 : List FVector) (pre current : FVector) (l2 : List FVector)
    (final : Grid3D EStructureType × List (List HallwayRoom))
    (hcarve : hallwayPath floorBased DungeonUnit (grid, spawnedRooms)
      (l1 ++ pre :: current :: l2) = some final) :
    (∃ mid, hallwayPath floorBased DungeonUnit (grid, spawnedRooms) (l1 ++ [pre]) = some mid ∧
      ∀ p c, mid.1.get? pre = some p → mid.1.get? current = some c →
        ((p = ROOM ∧ c ≠ ROOM ∧ c ≠ STOP) ∨ (c = ROOM ∧ p ≠ ROOM ∧ p ≠ STOP)) →
        ∀ k j room, roomAt spawnedRooms k j = some room →
          isAnchor floorBased room (if p = ROOM then pre else current) = true →
          ∃ room', roomAt final.2 k j = some room' ∧ room'.Bounds = room.Bounds ∧
            doorPoint2 pre (current - pre) ∈ room'.DoorPoints ∧
            room'.IsConnectedToHallway = true) ∧
    ∀ (state later : Grid3D EStructureType × List (List HallwayRoom)) (path : List FVector),
      hallwayPath floorBased DungeonUnit state path = some later →
      RoomsKept state.2 later.2 := by
  refine ⟨?_, fun state later path h => hallwayLoop_kept _ _ path state later none h⟩
  unfold hallwayPath at hcarve ⊢
  rw [hallwayLoop_append] at hcarve
  cases hmid : hallwayLoop floorBased DungeonUnit (grid, spawnedRooms) none (l1 ++ [pre]) with
  | none => rw [hmid] at hcarve; cases hcarve
  | some mid =>
    rw [hmid] at hcarve
    have hcarve' : hallwayLoop floorBased DungeonUnit mid (some pre) (current :: l2) =
        some final := hcarve
    clear hcarve
    rw [hallwayLoop] at hcarve'
    refine ⟨mid, rfl, ?_⟩
    intro p c hp hc hcond k j room hroom hanchor
    cases hround : hallwayRound floorBased DungeonUnit mid (some pre) current with
    | none => rw [hround] at hcarve'; cases hcarve'
    | some st1 =>
      rw [hround] at hcarve'
      have hcarve : hallwayLoop floorBased DungeonUnit st1 (some current) l2 = some final :=
        hcarve'
      obtain ⟨state', pre', hlast⟩ := hallwayLoop_last _ _ _ _ _ _ _ hmid
      have hpn : p ≠ NONE := by
        intro hpe
        exact hallwayRound_not_empty _ _ _ _ _ _ hlast (by rw [hp, hpe])
      have hrec := hallwayRound_records floorBased DungeonUnit mid.1 mid.2 st1 pre current p c
        hround hp hc hpn hcond
      obtain ⟨roomM, hroomM, hbM, -, -⟩ := hallwayLoop_kept _ _ _ _ _ _ hmid k j room hroom
      obtain ⟨room1, hroom1, hb1, hd1, hc1⟩ := recordDoor_records floorBased
        (if p = ROOM then pre else current) (doorPoint2 pre (current - pre)) mid.2 k j roomM
        hroomM (by rw [isAnchor_congr _ _ _ _ hbM]; exact hanchor)
      rw [← hrec] at hroom1
      obtain ⟨roomF, hroomF, hbF, hdF, hcF⟩ := hallwayLoop_kept _ _ _ _ _ _ hcarve k j room1 hroom1
      exact ⟨roomF, hroomF, hbF.trans (hb1.trans hbM), hdF _ hd1, hcF hc1⟩

end DoorRoundTheorems

set_option maxRecDepth 1000000 in
/-- Claim C33, as stated, fails, in either hallway generator.  In the sample
volume let `(10, 10, 10)` be Blocked and `(15, 10, 10)` Room, the anchor of
the placed room `sampleRoom`.  Carving the path from the one to the other
leaves the room without door point and not connected: the door logic skips a
Room cell whose neighbour on the path is Blocked. -/
theorem no_door_next_to_blocked :
    blockedDoorGrid.get? ⟨10, 10, 10⟩ = some EStructureType.STOP ∧
    blockedDoorGrid.get? ⟨15, 10, 10⟩ = some EStructureType.ROOM ∧
    isAnchor false sampleRoom ⟨15, 10, 10⟩ = true ∧
    isAnchor true sampleRoom ⟨15, 10, 10⟩ = true ∧
    (hallwayPath false 5 (blockedDoorGrid, [[sampleRoom]])
        [⟨10, 10, 10⟩, ⟨15, 10, 10⟩]).map
      (fun state => state.2.map (fun roomGroup => roomGroup.map
        (fun room => (room.DoorPoints, room.IsConnectedToHallway)))) =
      some [[([], false)]] ∧
    (hallwayPath true 5 (blockedDoorGrid, [[sampleRoom]])
        [⟨10, 10, 10⟩, ⟨15, 10, 10⟩]).map
      (fun state => state.2.map (fun roomGroup => roomGroup.map
        (fun room => (room.DoorPoints, room.IsConnectedToHallway)))) =
      some [[([], false)]] := by
  refine ⟨by decide, by decide, by decide, by decide, by decide, by decide⟩

set_option maxRecDepth 1000000 in
/-- Claim C33, amended, on the sample volume: the path through the Room cell
`(15, 10, 10)`, entered from the Empty cell `(10, 10, 10)`. -/
theorem door_recorded_at_room_transition_witness :
    (∃ mid, hallwayPath false 5 (sampleGridWith ⟨15, 10, 10⟩ EStructureType.ROOM, [[sampleRoom]])
        ([] ++ [⟨10, 10, 10⟩]) = some mid ∧
      ∀ p c, mid.1.get? ⟨10, 10, 10⟩ = some p → mid.1.get? ⟨15, 10, 10⟩ = some c →
        ((p = EStructureType.ROOM ∧ c ≠ EStructureType.ROOM ∧ c ≠ EStructureType.STOP) ∨
          (c = EStructureType.ROOM ∧ p ≠ EStructureType.ROOM ∧ p ≠ EStructureType.STOP)) →
        ∀ k j room, roomAt [[sampleRoom]] k j = some room →
          isAnchor false room
            (if p = EStructureType.ROOM then ⟨10, 10, 10⟩ else ⟨15, 10, 10⟩) = true →
          ∃ room', roomAt ((hallwayPath false 5
                (sampleGridWith ⟨15, 10, 10⟩ EStructureType.ROOM, [[sampleRoom]])
                ([] ++ ⟨10, 10, 10⟩ :: ⟨15, 10, 10⟩ :: [⟨20, 10, 10⟩])).getD
              (sampleGrid, [])).2 k j = some room' ∧
            room'.Bounds = room.Bounds ∧
            doorPoint2 ⟨10, 10, 10⟩ (⟨15, 10, 10⟩ - ⟨10, 10, 10⟩) ∈ room'.DoorPoints ∧
            room'.IsConnectedToHallway = true) ∧
    ∀ (state later : Grid3D EStructureType × List (List HallwayRoom)) (path : List FVector),
      hallwayPath false 5 state path = some later → RoomsKept state.2 later.2 :=
  door_recorded_at_room_transition false 5
    (sampleGridWith ⟨15, 10, 10⟩ EStructureType.ROOM) [[sampleRoom]] []
    ⟨10, 10, 10⟩ ⟨15, 10, 10⟩ [⟨20, 10, 10⟩] _ (by rfl)

section DoorGridTheorems

open EStructureType

/-- On the structure grid a round with the door logic does what `carveCell`
does. -/
theorem hallwayRound_grid (floorBased : Bool) (DungeonUnit : Int)
    (state state' : Grid3D EStructureType × List (List HallwayRoom)) (pre : Option FVector)
    (current : FVector)
    (h : hallwayRound floorBased DungeonUnit state pre current = some state') :
    carveCell DungeonUnit state.1 pre current = some state'.1 := by
  unfold hallwayRound at h
  unfold carveCell
  split at h
  · cases h
  rename_i s hs
  simp only [hs]
  split at h
  · cases h
  rename_i g1 hg1
  split at h
  · obtain rfl := Option.some.inj h
    rfl
  split at h
  · cases h
  dsimp only at h ⊢
  split at h
  · rename_i hz
    rw [if_pos hz]
    split at h
    · cases h
    · rename_i g2 hg2
      obtain rfl := Option.some.inj h
      exact hg2
  · rename_i hz
    rw [if_neg hz]
    obtain rfl := Option.some.inj h
    rfl

/-- On the structure grid the carving of a path with the door logic does
what `carvePath` does. -/
theorem hallwayPath_grid (floorBased : Bool) (DungeonUnit : Int) :
    ∀ (path : List FVector) (state state' : Grid3D EStructureType × List (List HallwayRoom))
      (pre : Option FVector),
      hallwayLoop floorBased DungeonUnit state pre path = some state' →
      carveLoop DungeonUnit state.1 pre path = some state'.1 := by
  intro path
  induction path with
  | nil =>
    intro state state' pre h
    simp only [hallwayLoop, Option.some.injEq] at h
    subst h
    rfl
  | cons current rest ih =>
    intro state state' pre h
    rw [hallwayLoop] at h
    cases hr : hallwayRound floorBased DungeonUnit state pre current with
    | none => rw [hr] at h; cases h
    | some st1 =>
      rw [hr] at h
      rw [carveLoop, hallwayRound_grid _ _ _ _ _ _ hr]
      exact ih st1 state' _ h

end DoorGridTheorems

/-! ## Theorems: grids whose storage covers their extent -/

section CoverTheorems

/-- On one axis: when the allocated cells cover the extent, every aligned
coordinate from 0 below the extent has its index inside the storage. -/
theorem index_lt_of_cover {unit extent x : Int} (hu : 1 ≤ unit) (hal : unit ∣ x)
    (h0 : 0 ≤ x) (hx : x < extent)
    (hcover : extent ≤ Int.tdiv (extent + 1) unit * unit) :
    0 ≤ Int.tdiv x unit ∧ Int.tdiv x unit < Int.tdiv (extent + 1) unit := by
  obtain ⟨k, rfl⟩ := hal
  have hk : 0 ≤ k := by
    by_contra hneg
    have hk1 : k ≤ -1 := by omega
    have : unit * k ≤ unit * (-1) := Int.mul_le_mul_of_nonneg_left hk1 (by omega)
    omega
  rw [Int.tdiv_eq_ediv h0 (by omega), Int.mul_ediv_cancel_left k (by omega : unit ≠ 0)]
  refine ⟨hk, ?_⟩
  have hlt : unit * k < unit * Int.tdiv (extent + 1) unit := by
    rw [mul_comm unit (Int.tdiv (extent + 1) unit)]
    omega
  exact Int.lt_of_mul_lt_mul_left hlt (by omega)

theorem inBoundsIgnoreOffset_eq_true_iff {T : Type} (g : Grid3D T) (pos : FVector) :
    g.InBoundsIgnoreOffset pos = true ↔
      (0 < pos.X ∧ pos.X < g.size.X) ∧ (0 < pos.Y ∧ pos.Y < g.size.Y) ∧
      (0 < pos.Z ∧ pos.Z < g.size.Z) := by
  unfold Grid3D.InBoundsIgnoreOffset FBox.IsInside
  simp only [Bool.and_eq_true, decide_eq_true_eq, gt_iff_lt]
  tauto

/-- The first half of the indexing-safety property holds for the grids whose
allocated cells cover the extent on every axis (as when the unit divides the
extent): every aligned position that satisfies `InBoundsIgnoreOffset` is
backed by storage. -/
theorem ignoreOffset_index_safe {T : Type} (fill : T) (size : FVector)
    (borderOffset unit : Int) (hu : 1 ≤ unit)
    (hcx : size.X ≤ Int.tdiv (size.X + 1) unit * unit)
    (hcy : size.Y ≤ Int.tdiv (size.Y + 1) unit * unit)
    (hcz : size.Z ≤ Int.tdiv (size.Z + 1) unit * unit)
    (pos : FVector) (hal : Aligned unit pos)
    (hin : (Grid3D.new fill size borderOffset unit).InBoundsIgnoreOffset pos = true) :
    (Grid3D.new fill size borderOffset unit).get? pos = some fill := by
  have hgeo : (Grid3D.new fill size borderOffset unit).size = size ∧
      (Grid3D.new fill size borderOffset unit).unit = unit := by
    unfold Grid3D.new; split <;> exact ⟨rfl, rfl⟩
  rw [inBoundsIgnoreOffset_eq_true_iff, hgeo.1] at hin
  obtain ⟨⟨hx1, hx2⟩, ⟨hy1, hy2⟩, ⟨hz1, hz2⟩⟩ := hin
  obtain ⟨hax, hay, haz⟩ := hal
  unfold Grid3D.get? Grid3D.GetIndex
  rw [hgeo.2]
  exact grid_new_cell fill size borderOffset unit (by omega) (by omega) _
    (index_lt_of_cover hu hax (le_of_lt hx1) hx2 hcx)
    (index_lt_of_cover hu hay (le_of_lt hy1) hy2 hcy)
    (index_lt_of_cover hu haz (le_of_lt hz1) hz2 hcz)

/-- The constructor of the pathfinder stays inside the storage when the
allocated cells cover the extent on every axis (as when the unit divides the
extent); the pathfinder it returns is `Ready`. -/
theorem constructor_ok_of_cover {C : Type} (MAX_flt : C) (size : FVector) (unitSize : Int)
    (hu : 1 ≤ unitSize) (hX : 0 < size.X) (hY : 0 < size.Y)
    (hcx : size.X ≤ Int.tdiv (size.X + 1) unitSize * unitSize)
    (hcy : size.Y ≤ Int.tdiv (size.Y + 1) unitSize * unitSize)
    (hcz : size.Z ≤ Int.tdiv (size.Z + 1) unitSize * unitSize) :
    ∃ pf positions, DungeonPathfinder3D.new MAX_flt size unitSize = .ok pf ∧
      Ready pf positions := by
  have hloop : ∃ positions, loopPositions size unitSize = some positions := by
    unfold loopPositions
    rw [if_neg (by omega), if_neg (by omega)]
    exact ⟨_, rfl⟩
  obtain ⟨positions, hloop⟩ := hloop
  have hcells : ∀ p ∈ positions,
      ((Grid3D.new (DungeonNode.new MAX_flt FVector.ZeroVector) size unitSize unitSize).get?
        p).isSome := by
    intro p hp
    obtain ⟨⟨hax, hay, haz⟩, ⟨hx1, hx2⟩, ⟨hy1, hy2⟩, ⟨hz1, hz2⟩⟩ :=
      (mem_loopPositions hloop (by omega) p).1 hp
    have hunit : (Grid3D.new (DungeonNode.new MAX_flt FVector.ZeroVector) size unitSize
        unitSize).unit = unitSize := by unfold Grid3D.new; split <;> rfl
    unfold Grid3D.get? Grid3D.GetIndex
    rw [hunit, grid_new_cell _ size unitSize unitSize hX hY _
      (index_lt_of_cover hu hax hx1 hx2 hcx) (index_lt_of_cover hu hay hy1 hy2 hcy)
      (index_lt_of_cover hu haz hz1 hz2 hcz)]
    rfl
  obtain ⟨g, hg⟩ := foldlM_of_isSome
    (fun g index => g.set? index (DungeonNode.new MAX_flt index))
    (fun g p hp => by
      obtain ⟨g', hg'⟩ := set?_of_isSome g p (DungeonNode.new MAX_flt p) hp
      exact ⟨g', hg', (set?_sameShape hg').2⟩)
    positions _ hcells
  have hnew : DungeonPathfinder3D.new MAX_flt size unitSize =
      .ok { grid := g, unitSize := unitSize } := by
    unfold DungeonPathfinder3D.new
    simp only [hloop, hg]
  exact ⟨_, positions, hnew, ready_of_new MAX_flt size unitSize _ positions hnew hloop⟩

end CoverTheorems

section FloorBasedSteps

variable {W P : Type} [LinearOrder W] [LinearOrder P]

/-- A floor with a tetrahedralization gets the edges that
`FindPossibleHallwaysNormal` selects for its vertices, and the loop goes on
with the next floor. -/
theorem floorBased_cons_nonempty (Distance : FVector → FVector → W) (LoopProbability : P)
    (floor : FloorEntry P) (rest : List (FloorEntry P)) (floorEdgeMap : List (Int × List FEdge))
    (h : floor.tetrahedra.isEmpty = false) :
    FindPossibleHallwaysFloorBased Distance LoopProbability (floor :: rest) floorEdgeMap =
      (FindPossibleHallwaysNormal Distance floor.Value floor.tetrahedra LoopProbability
        floor.randRange floor.fRand []).bind
        (fun edges => FindPossibleHallwaysFloorBased Distance LoopProbability rest
          (mapAssign floorEdgeMap floor.Key edges)) := by
  rw [FindPossibleHallwaysFloorBased]
  unfold FindPossibleHallwaysNormal
  simp only [h, Bool.false_eq_true, if_false]
  cases extractEdges floor.Value floor.tetrahedra with
  | none => rfl
  | some uniqueEdges =>
    simp only
    cases pointAt floor.Value 0 with
    | none => rfl
    | some start =>
      simp only
      cases MinimumSpanningTree Distance uniqueEdges start with
      | none => rfl
      | some mst => rfl

/-- A floor without tetrahedra ends the loop: the map stays as it is, whatever
floors follow. -/
theorem floorBased_cons_empty (Distance : FVector → FVector → W) (LoopProbability : P)
    (floor : FloorEntry P) (rest : List (FloorEntry P)) (floorEdgeMap : List (Int × List FEdge))
    (h : floor.tetrahedra.isEmpty = true) :
    FindPossibleHallwaysFloorBased Distance LoopProbability (floor :: rest) floorEdgeMap =
      some floorEdgeMap := by
  rw [FindPossibleHallwaysFloorBased]
  simp only [h, if_true]

end FloorBasedSteps

end Dungeon
